import Mathlib

/-!
# Amplitude kernels of the QuEST CPU backend

A shallow embedding of kernels of `QuEST/src/CPU/QuEST_cpu.c` and proofs of
properties of them.

Conventions of the embedding.

* `qreal` is an arbitrary field `K` (exact arithmetic).
* An amplitude array (`qreal *`) is a function `Nat → K`; a write `a[i] = v` is
  `Function.update a i v`.
* `long long int` indices and sizes are natural numbers: all the sizes involved are
  bounded by the number of amplitudes of the register, so no operation wraps.
* A `for` loop is `forLoop`, which runs its body for `0, 1, ..., n-1` in this order.
  The OpenMP pragmas distribute the iterations over threads; the embedding
  is the sequential meaning of the loops, which is also that of a build without OpenMP.
* A kernel takes the register and returns the register with the rewritten arrays.
-/

namespace QuEST

/-! ## Data model -/

/-- Modelled from the spec: the amplitude store `ComplexArray` of `QuEST.h`, two
arrays of real numbers (real parts and imaginary parts) stored separately. -/
structure ComplexArray (K : Type) where
  real : Nat → K
  imag : Nat → K

/-- Modelled from the spec: the scalar `Complex` of `QuEST.h`. -/
structure Complex (K : Type) where
  real : K
  imag : K

/-- Modelled from the spec: the 2x2 matrix `ComplexMatrix2` of `QuEST.h`,
`real[r][c]` and `imag[r][c]`. -/
structure ComplexMatrix2 (K : Type) where
  real : Fin 2 → Fin 2 → K
  imag : Fin 2 → Fin 2 → K

/-- Modelled from the spec: the register `Qureg` of `QuEST.h`, restricted to the
fields the kernels read. -/
structure Qureg (K : Type) where
  numQubitsRepresented : Nat
  numAmpsPerChunk : Nat
  chunkId : Nat
  stateVec : ComplexArray K
  pairStateVec : ComplexArray K

/-- Modelled from the spec: the matrix `ComplexMatrixN` of `QuEST.h` on `numQubits`
qubits, `real[r][c]` and `imag[r][c]` for `r, c < 2^numQubits`. -/
structure ComplexMatrixN (K : Type) where
  numQubits : Nat
  real : Nat → Nat → K
  imag : Nat → Nat → K

/-- Modelled from the spec: a `Qureg` argument of which a kernel consults the attributes
only and never the amplitudes; the fields `numAmpsPerChunk` and `numAmpsTotal` of
`QuEST.h`. -/
structure QuregAttributes where
  numAmpsPerChunk : Nat
  numAmpsTotal : Nat

/-- The loop `for (i = 0; i < n; i++) body`, as a state transformer. -/
def forLoop {σ : Type} : Nat → (Nat → σ → σ) → σ → σ
  | 0, _, s => s
  | n + 1, body, s => body n (forLoop n body s)

/-- The loop `for (i = start; i < stop; i += step) body`. -/
def forRange {σ : Type} (start stop step : Nat) (body : Nat → σ → σ) (s : σ) : σ :=
  forLoop ((stop - start + (step - 1)) / step) (fun j => body (start + step * j)) s

/-! ## Index algebra -/

/-- Modelled from the spec: `extractBit(k, x)` of `QuEST_cpu_internal.h`, which
returns bit `k` of `x` (0 or 1). -/
def extractBit (locationOfBitFromRight : Nat) (theEncodedNumber : Nat) : Nat :=
  (theEncodedNumber / 2 ^ locationOfBitFromRight) % 2

/-- Modelled from the spec: `flipBit(x, k)` of `QuEST_cpu_internal.h`, which is
`x XOR (1 << k)`. -/
def flipBit (number : Nat) (bitInd : Nat) : Nat :=
  number ^^^ (1 <<< bitInd)

/-- Modelled from the spec: `insertZeroBit(x, k)` of `QuEST_cpu_internal.h`: splits `x` into
its low bits `[0..k)` and its high bits `[k..)`, shifts the high bits up by one and
leaves a zero at position `k`. -/
def insertZeroBit (number : Nat) (index : Nat) : Nat :=
  (number / 2 ^ index) * 2 ^ (index + 1) + number % 2 ^ index

/-- Modelled from the spec: `insertTwoZeroBits(x, q1, q2)` of `QuEST_cpu_internal.h`:
`insertZeroBit` twice, the smaller position first, then the larger. -/
def insertTwoZeroBits (number : Nat) (bit1 bit2 : Nat) : Nat :=
  let small := if bit1 < bit2 then bit1 else bit2
  let big := if bit1 < bit2 then bit2 else bit1
  insertZeroBit (insertZeroBit number small) big

/-- Modelled from the spec: `isOddParity(x, q1, q2)` of `QuEST_cpu_internal.h`: true iff
bits `q1` and `q2` of `x` differ. -/
def isOddParity (number : Nat) (qb1 qb2 : Nat) : Bool :=
  extractBit qb1 number != extractBit qb2 number

/-! ## Single-qubit unitary kernels -/

section Kernels

variable {K : Type} [Field K]

/-- Source function `statevec_compactUnitaryLocal` (QuEST_cpu.c, line 1847). -/
def statevec_compactUnitaryLocal (qureg : Qureg K) (targetQubit : Nat)
    (alpha beta : Complex K) : Qureg K :=
  let numTasks := qureg.numAmpsPerChunk >>> 1
  let sizeHalfBlock := 1 <<< targetQubit
  let sizeBlock := 2 * sizeHalfBlock
  let alphaImag := alpha.imag
  let alphaReal := alpha.real
  let betaImag := beta.imag
  let betaReal := beta.real
  { qureg with
    stateVec := forLoop numTasks (fun thisTask sv =>
      let thisBlock := thisTask / sizeHalfBlock
      let indexUp := thisBlock * sizeBlock + thisTask % sizeHalfBlock
      let indexLo := indexUp + sizeHalfBlock
      let stateRealUp := sv.real indexUp
      let stateImagUp := sv.imag indexUp
      let stateRealLo := sv.real indexLo
      let stateImagLo := sv.imag indexLo
      let stateVecReal := Function.update sv.real indexUp
        (alphaReal * stateRealUp - alphaImag * stateImagUp
          - betaReal * stateRealLo - betaImag * stateImagLo)
      let stateVecImag := Function.update sv.imag indexUp
        (alphaReal * stateImagUp + alphaImag * stateRealUp
          - betaReal * stateImagLo + betaImag * stateRealLo)
      let stateVecReal := Function.update stateVecReal indexLo
        (betaReal * stateRealUp - betaImag * stateImagUp
          + alphaReal * stateRealLo + alphaImag * stateImagLo)
      let stateVecImag := Function.update stateVecImag indexLo
        (betaReal * stateImagUp + betaImag * stateRealUp
          + alphaReal * stateImagLo - alphaImag * stateRealLo)
      ⟨stateVecReal, stateVecImag⟩) qureg.stateVec }

/-- Source function `statevec_unitaryLocal` (QuEST_cpu.c, line 2088). -/
def statevec_unitaryLocal (qureg : Qureg K) (targetQubit : Nat)
    (u : ComplexMatrix2 K) : Qureg K :=
  let numTasks := qureg.numAmpsPerChunk >>> 1
  let sizeHalfBlock := 1 <<< targetQubit
  let sizeBlock := 2 * sizeHalfBlock
  { qureg with
    stateVec := forLoop numTasks (fun thisTask sv =>
      let thisBlock := thisTask / sizeHalfBlock
      let indexUp := thisBlock * sizeBlock + thisTask % sizeHalfBlock
      let indexLo := indexUp + sizeHalfBlock
      let stateRealUp := sv.real indexUp
      let stateImagUp := sv.imag indexUp
      let stateRealLo := sv.real indexLo
      let stateImagLo := sv.imag indexLo
      let stateVecReal := Function.update sv.real indexUp
        (u.real 0 0 * stateRealUp - u.imag 0 0 * stateImagUp
          + u.real 0 1 * stateRealLo - u.imag 0 1 * stateImagLo)
      let stateVecImag := Function.update sv.imag indexUp
        (u.real 0 0 * stateImagUp + u.imag 0 0 * stateRealUp
          + u.real 0 1 * stateImagLo + u.imag 0 1 * stateRealLo)
      let stateVecReal := Function.update stateVecReal indexLo
        (u.real 1 0 * stateRealUp - u.imag 1 0 * stateImagUp
          + u.real 1 1 * stateRealLo - u.imag 1 1 * stateImagLo)
      let stateVecImag := Function.update stateVecImag indexLo
        (u.real 1 0 * stateImagUp + u.imag 1 0 * stateRealUp
          + u.real 1 1 * stateImagLo + u.imag 1 1 * stateRealLo)
      ⟨stateVecReal, stateVecImag⟩) qureg.stateVec }

/-- The matrix `{{alpha, -conj(beta)}, {beta, conj(alpha)}}` that the pair
`(alpha, beta)` stands for. -/
def compactMatrix (alpha beta : Complex K) : ComplexMatrix2 K where
  real := fun r c =>
    if r = 0 then (if c = 0 then alpha.real else -beta.real)
    else (if c = 0 then beta.real else alpha.real)
  imag := fun r c =>
    if r = 0 then (if c = 0 then alpha.imag else beta.imag)
    else (if c = 0 then beta.imag else -alpha.imag)

/-! ## Controlled single-qubit kernels -/

/-- Source function `statevec_controlledCompactUnitaryLocal` (QuEST_cpu.c, line 2899). -/
def statevec_controlledCompactUnitaryLocal (qureg : Qureg K) (controlQubit targetQubit : Nat)
    (alpha beta : Complex K) : Qureg K :=
  let numTasks := qureg.numAmpsPerChunk >>> 1
  let chunkSize := qureg.numAmpsPerChunk
  let chunkId := qureg.chunkId
  let sizeHalfBlock := 1 <<< targetQubit
  let sizeBlock := 2 * sizeHalfBlock
  let alphaImag := alpha.imag
  let alphaReal := alpha.real
  let betaImag := beta.imag
  let betaReal := beta.real
  { qureg with
    stateVec := forLoop numTasks (fun thisTask sv =>
      let thisBlock := thisTask / sizeHalfBlock
      let indexUp := thisBlock * sizeBlock + thisTask % sizeHalfBlock
      let indexLo := indexUp + sizeHalfBlock
      let controlBit := extractBit controlQubit (indexUp + chunkId * chunkSize)
      if controlBit ≠ 0 then
        let stateRealUp := sv.real indexUp
        let stateImagUp := sv.imag indexUp
        let stateRealLo := sv.real indexLo
        let stateImagLo := sv.imag indexLo
        let stateVecReal := Function.update sv.real indexUp
          (alphaReal * stateRealUp - alphaImag * stateImagUp
            - betaReal * stateRealLo - betaImag * stateImagLo)
        let stateVecImag := Function.update sv.imag indexUp
          (alphaReal * stateImagUp + alphaImag * stateRealUp
            - betaReal * stateImagLo + betaImag * stateRealLo)
        let stateVecReal := Function.update stateVecReal indexLo
          (betaReal * stateRealUp - betaImag * stateImagUp
            + alphaReal * stateRealLo + alphaImag * stateImagLo)
        let stateVecImag := Function.update stateVecImag indexLo
          (betaReal * stateImagUp + betaImag * stateRealUp
            + alphaReal * stateImagLo - alphaImag * stateRealLo)
        ⟨stateVecReal, stateVecImag⟩
      else sv) qureg.stateVec }

/-- Source function `statevec_controlledUnitaryLocal` (QuEST_cpu.c, line 3036). -/
def statevec_controlledUnitaryLocal (qureg : Qureg K) (controlQubit targetQubit : Nat)
    (u : ComplexMatrix2 K) : Qureg K :=
  let numTasks := qureg.numAmpsPerChunk >>> 1
  let chunkSize := qureg.numAmpsPerChunk
  let chunkId := qureg.chunkId
  let sizeHalfBlock := 1 <<< targetQubit
  let sizeBlock := 2 * sizeHalfBlock
  { qureg with
    stateVec := forLoop numTasks (fun thisTask sv =>
      let thisBlock := thisTask / sizeHalfBlock
      let indexUp := thisBlock * sizeBlock + thisTask % sizeHalfBlock
      let indexLo := indexUp + sizeHalfBlock
      let controlBit := extractBit controlQubit (indexUp + chunkId * chunkSize)
      if controlBit ≠ 0 then
        let stateRealUp := sv.real indexUp
        let stateImagUp := sv.imag indexUp
        let stateRealLo := sv.real indexLo
        let stateImagLo := sv.imag indexLo
        let stateVecReal := Function.update sv.real indexUp
          (u.real 0 0 * stateRealUp - u.imag 0 0 * stateImagUp
            + u.real 0 1 * stateRealLo - u.imag 0 1 * stateImagLo)
        let stateVecImag := Function.update sv.imag indexUp
          (u.real 0 0 * stateImagUp + u.imag 0 0 * stateRealUp
            + u.real 0 1 * stateImagLo + u.imag 0 1 * stateRealLo)
        let stateVecReal := Function.update stateVecReal indexLo
          (u.real 1 0 * stateRealUp - u.imag 1 0 * stateImagUp
            + u.real 1 1 * stateRealLo - u.imag 1 1 * stateImagLo)
        let stateVecImag := Function.update stateVecImag indexLo
          (u.real 1 0 * stateImagUp + u.imag 1 0 * stateRealUp
            + u.real 1 1 * stateImagLo + u.imag 1 1 * stateRealLo)
        ⟨stateVecReal, stateVecImag⟩
      else sv) qureg.stateVec }

/-- Source function `statevec_controlledNotLocal` (QuEST_cpu.c, line 3764). -/
def statevec_controlledNotLocal (qureg : Qureg K) (controlQubit targetQubit : Nat) : Qureg K :=
  let numTasks := qureg.numAmpsPerChunk >>> 1
  let chunkSize := qureg.numAmpsPerChunk
  let chunkId := qureg.chunkId
  let sizeHalfBlock := 1 <<< targetQubit
  let sizeBlock := 2 * sizeHalfBlock
  { qureg with
    stateVec := forLoop numTasks (fun thisTask sv =>
      let thisBlock := thisTask / sizeHalfBlock
      let indexUp := thisBlock * sizeBlock + thisTask % sizeHalfBlock
      let indexLo := indexUp + sizeHalfBlock
      let controlBit := extractBit controlQubit (indexUp + chunkId * chunkSize)
      if controlBit ≠ 0 then
        let stateRealUp := sv.real indexUp
        let stateImagUp := sv.imag indexUp
        let stateVecReal := Function.update sv.real indexUp (sv.real indexLo)
        let stateVecImag := Function.update sv.imag indexUp (sv.imag indexLo)
        let stateVecReal := Function.update stateVecReal indexLo stateRealUp
        let stateVecImag := Function.update stateVecImag indexLo stateImagUp
        ⟨stateVecReal, stateVecImag⟩
      else sv) qureg.stateVec }

/-- Source function `statevec_controlledPauliYLocal` (QuEST_cpu.c, line 4086); `conjFac` is an `int`
that multiplies real numbers. -/
def statevec_controlledPauliYLocal (qureg : Qureg K) (controlQubit targetQubit : Nat)
    (conjFac : Int) : Qureg K :=
  let numTasks := qureg.numAmpsPerChunk >>> 1
  let chunkSize := qureg.numAmpsPerChunk
  let chunkId := qureg.chunkId
  let sizeHalfBlock := 1 <<< targetQubit
  let sizeBlock := 2 * sizeHalfBlock
  { qureg with
    stateVec := forLoop numTasks (fun thisTask sv =>
      let thisBlock := thisTask / sizeHalfBlock
      let indexUp := thisBlock * sizeBlock + thisTask % sizeHalfBlock
      let indexLo := indexUp + sizeHalfBlock
      let controlBit := extractBit controlQubit (indexUp + chunkId * chunkSize)
      if controlBit ≠ 0 then
        let stateRealUp := sv.real indexUp
        let stateImagUp := sv.imag indexUp
        let stateVecReal := Function.update sv.real indexUp ((conjFac : K) * sv.imag indexLo)
        let stateVecImag := Function.update sv.imag indexUp
          ((conjFac : K) * -(stateVecReal indexLo))
        let stateVecReal := Function.update stateVecReal indexLo ((conjFac : K) * -stateImagUp)
        let stateVecImag := Function.update stateVecImag indexLo ((conjFac : K) * stateRealUp)
        ⟨stateVecReal, stateVecImag⟩
      else sv) qureg.stateVec }

/-! ## Amplitude damping of a density matrix

`sqrt` of `math.h` is a parameter of the kernels that call it. -/

/-- Source function `densmatr_oneQubitDegradeOffDiagonal` (QuEST_cpu.c, line 49). -/
def densmatr_oneQubitDegradeOffDiagonal (qureg : Qureg K) (targetQubit : Nat) (retain : K) :
    Qureg K :=
  let numTasks := qureg.numAmpsPerChunk
  let innerMask := 1 <<< targetQubit
  let outerMask := 1 <<< (targetQubit + qureg.numQubitsRepresented)
  let totMask := innerMask ||| outerMask
  { qureg with
    stateVec := forLoop numTasks (fun thisTask sv =>
      let thisPattern := (thisTask + qureg.numAmpsPerChunk * qureg.chunkId) &&& totMask
      if thisPattern = innerMask ∨ thisPattern = outerMask then
        let stateVecReal := Function.update sv.real thisTask (retain * sv.real thisTask)
        let stateVecImag := Function.update sv.imag thisTask (retain * sv.imag thisTask)
        ⟨stateVecReal, stateVecImag⟩
      else sv) qureg.stateVec }

/-- Source function `densmatr_mixDampingDephase` (QuEST_cpu.c, line 84). -/
def densmatr_mixDampingDephase (sqrt : K → K) (qureg : Qureg K) (targetQubit : Nat)
    (dephase : K) : Qureg K :=
  let retain := sqrt (1 - dephase)
  densmatr_oneQubitDegradeOffDiagonal qureg targetQubit retain

/-- Source function `densmatr_mixDampingLocal` (QuEST_cpu.c, line 177). -/
def densmatr_mixDampingLocal (sqrt : K → K) (qureg : Qureg K) (targetQubit : Nat)
    (damping : K) : Qureg K :=
  let retain := 1 - damping
  let dephase := sqrt retain
  let numTasks := qureg.numAmpsPerChunk
  let innerMask := 1 <<< targetQubit
  let outerMask := 1 <<< (targetQubit + qureg.numQubitsRepresented)
  let totMask := innerMask ||| outerMask
  { qureg with
    stateVec := forLoop numTasks (fun thisTask sv =>
      let thisPattern := (thisTask + qureg.numAmpsPerChunk * qureg.chunkId) &&& totMask
      if thisPattern = innerMask ∨ thisPattern = outerMask then
        let stateVecReal := Function.update sv.real thisTask (dephase * sv.real thisTask)
        let stateVecImag := Function.update sv.imag thisTask (dephase * sv.imag thisTask)
        ⟨stateVecReal, stateVecImag⟩
      else
        if thisTask &&& totMask = 0 then
          let partner := thisTask ||| totMask
          let stateVecReal := Function.update sv.real thisTask
            (sv.real thisTask + damping * sv.real partner)
          let stateVecImag := Function.update sv.imag thisTask
            (sv.imag thisTask + damping * sv.imag partner)
          let stateVecReal := Function.update stateVecReal partner
            (retain * stateVecReal partner)
          let stateVecImag := Function.update stateVecImag partner
            (retain * stateVecImag partner)
          ⟨stateVecReal, stateVecImag⟩
        else sv) qureg.stateVec }

/-- Source function `densmatr_mixDampingDistributed` (QuEST_cpu.c, line 300). -/
def densmatr_mixDampingDistributed (sqrt : K → K) (qureg : Qureg K) (targetQubit : Nat)
    (damping : K) : Qureg K :=
  let retain := 1 - damping
  let dephase := sqrt (1 - damping)
  let qureg := densmatr_mixDampingDephase sqrt qureg targetQubit dephase
  let numTasks := qureg.numAmpsPerChunk >>> 1
  let sizeInnerHalfBlock := 1 <<< targetQubit
  let sizeInnerBlock := 2 * sizeInnerHalfBlock
  let sizeOuterColumn := 1 <<< qureg.numQubitsRepresented
  let sizeOuterHalfColumn := sizeOuterColumn >>> 1
  { qureg with
    stateVec := forLoop numTasks (fun thisTask sv =>
      let thisOuterColumn := thisTask / sizeOuterHalfColumn
      let thisIndexInOuterColumn := thisTask &&& (sizeOuterHalfColumn - 1)
      let thisInnerBlock := thisIndexInOuterColumn / sizeInnerHalfBlock
      let thisIndexInInnerBlock := thisTask &&& (sizeInnerHalfBlock - 1)
      let thisIndex := thisOuterColumn * sizeOuterColumn + thisInnerBlock * sizeInnerBlock
        + thisIndexInInnerBlock
      let outerBit := extractBit targetQubit
        ((thisIndex + qureg.numAmpsPerChunk * qureg.chunkId) >>> qureg.numQubitsRepresented)
      let thisIndex := thisIndex + outerBit * sizeInnerHalfBlock
      let stateBit := extractBit targetQubit (thisIndex + qureg.numAmpsPerChunk * qureg.chunkId)
      if stateBit = 0 then
        let stateVecReal := Function.update sv.real thisIndex
          (sv.real thisIndex + damping * qureg.pairStateVec.real thisTask)
        let stateVecImag := Function.update sv.imag thisIndex
          (sv.imag thisIndex + damping * qureg.pairStateVec.imag thisTask)
        ⟨stateVecReal, stateVecImag⟩
      else
        let stateVecReal := Function.update sv.real thisIndex (retain * sv.real thisIndex)
        let stateVecImag := Function.update sv.imag thisIndex (retain * sv.imag thisIndex)
        ⟨stateVecReal, stateVecImag⟩) qureg.stateVec }

/-! ## Distributed compact unitary

The `ComplexArray` arguments of a distributed kernel are pointers: each is one of the
two buffers of the register, and the output may be the same buffer as an input. The
embedding passes the name of the buffer, and the kernel reads and writes the register's
buffers through it. The AVX intrinsics of `immintrin.h` act on four lanes. -/

/-- Name of one of the two amplitude buffers of a register. -/
inductive ArrayRef where
  | stateVec
  | pairStateVec
  deriving DecidableEq, Repr

/-- The buffer a name points to. -/
def Qureg.array (qureg : Qureg K) : ArrayRef → ComplexArray K
  | ArrayRef.stateVec => qureg.stateVec
  | ArrayRef.pairStateVec => qureg.pairStateVec

/-- Rewrite the real-part array of a buffer. -/
def Qureg.storeReal (qureg : Qureg K) (r : ArrayRef) (f : (Nat → K) → (Nat → K)) : Qureg K :=
  match r with
  | ArrayRef.stateVec =>
    { qureg with stateVec := ⟨f qureg.stateVec.real, qureg.stateVec.imag⟩ }
  | ArrayRef.pairStateVec =>
    { qureg with pairStateVec := ⟨f qureg.pairStateVec.real, qureg.pairStateVec.imag⟩ }

/-- Rewrite the imaginary-part array of a buffer. -/
def Qureg.storeImag (qureg : Qureg K) (r : ArrayRef) (f : (Nat → K) → (Nat → K)) : Qureg K :=
  match r with
  | ArrayRef.stateVec =>
    { qureg with stateVec := ⟨qureg.stateVec.real, f qureg.stateVec.imag⟩ }
  | ArrayRef.pairStateVec =>
    { qureg with pairStateVec := ⟨qureg.pairStateVec.real, f qureg.pairStateVec.imag⟩ }

/-- Intrinsic `_mm256_set1_pd`: the same value in the four lanes. -/
def mm256_set1_pd (x : K) : Fin 4 → K := fun _ => x

/-- Intrinsic `_mm256_loadu_pd(a + i)`: the four values `a[i], ..., a[i+3]`. -/
def mm256_loadu_pd (a : Nat → K) (i : Nat) : Fin 4 → K := fun l => a (i + l.val)

/-- Intrinsic `_mm256_storeu_pd(a + i, v)`: writes the four lanes to `a[i], ..., a[i+3]`. -/
def mm256_storeu_pd (a : Nat → K) (i : Nat) (v : Fin 4 → K) : Nat → K :=
  fun j => if h : i ≤ j ∧ j < i + 4 then v ⟨j - i, by omega⟩ else a j

/-- Intrinsic `_mm256_add_pd`: lane by lane sum. -/
def mm256_add_pd (x y : Fin 4 → K) : Fin 4 → K := fun l => x l + y l

/-- Intrinsic `_mm256_sub_pd`: lane by lane difference. -/
def mm256_sub_pd (x y : Fin 4 → K) : Fin 4 → K := fun l => x l - y l

/-- Intrinsic `_mm256_mul_pd`: lane by lane product. -/
def mm256_mul_pd (x y : Fin 4 → K) : Fin 4 → K := fun l => x l * y l

/-- The body of the loop of `statevec_compactUnitaryDistributedSIMD`, for the four tasks
`thisTask, ..., thisTask + 3`. -/
def compactUnitaryDistributedSIMD_body (rot1RealSIMD rot1ImagSIMD rot2RealSIMD
    rot2ImagSIMD : Fin 4 → K) (stateVecUp stateVecLo stateVecOut : ArrayRef)
    (thisTask : Nat) (mem : Qureg K) : Qureg K :=
  let stateRealUpSIMD := mm256_loadu_pd (mem.array stateVecUp).real thisTask
  let stateImagUpSIMD := mm256_loadu_pd (mem.array stateVecUp).imag thisTask
  let stateRealLoSIMD := mm256_loadu_pd (mem.array stateVecLo).real thisTask
  let stateImagLoSIMD := mm256_loadu_pd (mem.array stateVecLo).imag thisTask
  let mem := mem.storeReal stateVecOut (fun a => mm256_storeu_pd a thisTask
    (mm256_add_pd
      (mm256_sub_pd (mm256_mul_pd rot1RealSIMD stateRealUpSIMD)
        (mm256_mul_pd rot1ImagSIMD stateImagUpSIMD))
      (mm256_add_pd (mm256_mul_pd rot2RealSIMD stateRealLoSIMD)
        (mm256_mul_pd rot2ImagSIMD stateImagLoSIMD))))
  let mem := mem.storeImag stateVecOut (fun a => mm256_storeu_pd a thisTask
    (mm256_add_pd
      (mm256_add_pd (mm256_mul_pd rot1RealSIMD stateImagUpSIMD)
        (mm256_mul_pd rot1ImagSIMD stateRealUpSIMD))
      (mm256_sub_pd (mm256_mul_pd rot2RealSIMD stateImagLoSIMD)
        (mm256_mul_pd rot2ImagSIMD stateRealLoSIMD))))
  mem

/-- Source function `statevec_compactUnitaryDistributedSIMD` (QuEST_cpu.c, line 2202). -/
def statevec_compactUnitaryDistributedSIMD (qureg : Qureg K) (rot1 rot2 : Complex K)
    (stateVecUp stateVecLo stateVecOut : ArrayRef) : Qureg K :=
  let numTasks := qureg.numAmpsPerChunk
  let rot1Real := rot1.real
  let rot1Imag := rot1.imag
  let rot2Real := rot2.real
  let rot2Imag := rot2.imag
  let rot1RealSIMD := mm256_set1_pd rot1Real
  let rot1ImagSIMD := mm256_set1_pd rot1Imag
  let rot2RealSIMD := mm256_set1_pd rot2Real
  let rot2ImagSIMD := mm256_set1_pd rot2Imag
  forRange 0 numTasks 4
    (compactUnitaryDistributedSIMD_body rot1RealSIMD rot1ImagSIMD rot2RealSIMD rot2ImagSIMD
      stateVecUp stateVecLo stateVecOut) qureg

/-- The body of the scalar loop of `statevec_compactUnitaryDistributed`. -/
def compactUnitaryDistributed_body (rot1Real rot1Imag rot2Real rot2Imag : K)
    (stateVecUp stateVecLo stateVecOut : ArrayRef) (thisTask : Nat) (mem : Qureg K) :
    Qureg K :=
  let stateRealUp := (mem.array stateVecUp).real thisTask
  let stateImagUp := (mem.array stateVecUp).imag thisTask
  let stateRealLo := (mem.array stateVecLo).real thisTask
  let stateImagLo := (mem.array stateVecLo).imag thisTask
  let mem := mem.storeReal stateVecOut (fun a => Function.update a thisTask
    (rot1Real * stateRealUp - rot1Imag * stateImagUp
      + rot2Real * stateRealLo + rot2Imag * stateImagLo))
  let mem := mem.storeImag stateVecOut (fun a => Function.update a thisTask
    (rot1Real * stateImagUp + rot1Imag * stateRealUp
      + rot2Real * stateImagLo - rot2Imag * stateRealLo))
  mem

/-- Source function `statevec_compactUnitaryDistributed` (QuEST_cpu.c, line 2156). -/
def statevec_compactUnitaryDistributed (qureg : Qureg K) (rot1 rot2 : Complex K)
    (stateVecUp stateVecLo stateVecOut : ArrayRef) : Qureg K :=
  let numTasks := qureg.numAmpsPerChunk
  if numTasks ≥ 4 then
    statevec_compactUnitaryDistributedSIMD qureg rot1 rot2 stateVecUp stateVecLo stateVecOut
  else
    let rot1Real := rot1.real
    let rot1Imag := rot1.imag
    let rot2Real := rot2.real
    let rot2Imag := rot2.imag
    forLoop numTasks
      (compactUnitaryDistributed_body rot1Real rot1Imag rot2Real rot2Imag
        stateVecUp stateVecLo stateVecOut) qureg

/-! ## Restructured controlled compact unitary

The kernels below have two textual copies of their loops, selected by
`numBlocks >= omp_get_num_threads()` in a build with OpenMP; both copies run the same
iterations, and a build without OpenMP has the first one only. The OpenMP regions list the
temporaries of their loop bodies as private, except the two regions of
`statevec_controlledCompactUnitaryLocalAllSmall`. -/

/-- The statements shared by the loops of the restructured controlled compact kernels:
read the amplitudes at `indexUp` and `indexLo`, write the rotated pair. -/
def controlledCompactUnitary_pair (alphaReal alphaImag betaReal betaImag : K)
    (indexUp indexLo : Nat) (sv : ComplexArray K) : ComplexArray K :=
  let stateRealUp := sv.real indexUp
  let stateImagUp := sv.imag indexUp
  let stateRealLo := sv.real indexLo
  let stateImagLo := sv.imag indexLo
  let stateVecReal := Function.update sv.real indexUp
    (alphaReal * stateRealUp - alphaImag * stateImagUp
      - betaReal * stateRealLo - betaImag * stateImagLo)
  let stateVecImag := Function.update sv.imag indexUp
    (alphaReal * stateImagUp + alphaImag * stateRealUp
      - betaReal * stateImagLo + betaImag * stateRealLo)
  let stateVecReal := Function.update stateVecReal indexLo
    (betaReal * stateRealUp - betaImag * stateImagUp
      + alphaReal * stateRealLo + alphaImag * stateImagLo)
  let stateVecImag := Function.update stateVecImag indexLo
    (betaReal * stateImagUp + betaImag * stateRealUp
      + alphaReal * stateImagLo - alphaImag * stateRealLo)
  ⟨stateVecReal, stateVecImag⟩

/-- The 4-lane statements of `statevec_controlledCompactUnitaryLocalSIMD`: four loads,
the four results, four stores. -/
def controlledCompactUnitarySIMD_pair (alphaRealSIMD alphaImagSIMD betaRealSIMD
    betaImagSIMD : Fin 4 → K) (indexUp indexLo : Nat) (sv : ComplexArray K) :
    ComplexArray K :=
  let stateRealUpSIMD := mm256_loadu_pd sv.real indexUp
  let stateImagUpSIMD := mm256_loadu_pd sv.imag indexUp
  let stateRealLoSIMD := mm256_loadu_pd sv.real indexLo
  let stateImagLoSIMD := mm256_loadu_pd sv.imag indexLo
  let res1 := mm256_mul_pd alphaRealSIMD stateRealUpSIMD
  let res1 := mm256_sub_pd res1 (mm256_mul_pd alphaImagSIMD stateImagUpSIMD)
  let res1 := mm256_sub_pd res1 (mm256_mul_pd betaRealSIMD stateRealLoSIMD)
  let res1 := mm256_sub_pd res1 (mm256_mul_pd betaImagSIMD stateImagLoSIMD)
  let res2 := mm256_mul_pd alphaRealSIMD stateImagUpSIMD
  let res2 := mm256_add_pd res2 (mm256_mul_pd alphaImagSIMD stateRealUpSIMD)
  let res2 := mm256_sub_pd res2 (mm256_mul_pd betaRealSIMD stateImagLoSIMD)
  let res2 := mm256_add_pd res2 (mm256_mul_pd betaImagSIMD stateRealLoSIMD)
  let res3 := mm256_mul_pd betaRealSIMD stateRealUpSIMD
  let res3 := mm256_sub_pd res3 (mm256_mul_pd betaImagSIMD stateImagUpSIMD)
  let res3 := mm256_add_pd res3 (mm256_mul_pd alphaRealSIMD stateRealLoSIMD)
  let res3 := mm256_add_pd res3 (mm256_mul_pd alphaImagSIMD stateImagLoSIMD)
  let res4 := mm256_mul_pd betaRealSIMD stateImagUpSIMD
  let res4 := mm256_add_pd res4 (mm256_mul_pd betaImagSIMD stateRealUpSIMD)
  let res4 := mm256_add_pd res4 (mm256_mul_pd alphaRealSIMD stateImagLoSIMD)
  let res4 := mm256_sub_pd res4 (mm256_mul_pd alphaImagSIMD stateRealLoSIMD)
  let stateVecReal := mm256_storeu_pd sv.real indexUp res1
  let stateVecImag := mm256_storeu_pd sv.imag indexUp res2
  let stateVecReal := mm256_storeu_pd stateVecReal indexLo res3
  let stateVecImag := mm256_storeu_pd stateVecImag indexLo res4
  ⟨stateVecReal, stateVecImag⟩

/-- A step of a thread in the OpenMP region of
`statevec_controlledCompactUnitaryLocalAllSmall` (QuEST_cpu.c, line 2476): the region lists
`private (thisTask,indexUp,indexLo, stateRealUp,stateImagUp)`, so the temporaries
`stateRealLo` and `stateImagLo` of the function are shared between the threads. `load` is
the first half of the iteration `indexUp` (the index `indexLo` and the four reads of the
amplitudes into the temporaries), `store` the second half (the four writes of the
amplitudes, computed from the temporaries). The statements of a half are taken together;
the threads of the program can also interleave inside a half, so the executions of the
program include the ones described here. -/
inductive AllSmallStep where
  | load (thread indexUp : Nat)
  | store (thread : Nat)

/-- The thread that takes the step. -/
def AllSmallStep.thread : AllSmallStep → Nat
  | AllSmallStep.load thread _ => thread
  | AllSmallStep.store thread => thread

/-- The memory of the OpenMP region of `statevec_controlledCompactUnitaryLocalAllSmall`: the
amplitudes and the temporaries `stateRealLo`, `stateImagLo`, one copy shared by all threads,
and the private variables `indexUp`, `indexLo`, `stateRealUp`, `stateImagUp`, one copy for
each thread. -/
structure AllSmallRegion (K : Type) where
  stateVec : ComplexArray K
  stateRealLo : K
  stateImagLo : K
  indexUp : Nat → Nat
  indexLo : Nat → Nat
  stateRealUp : Nat → K
  stateImagUp : Nat → K

/-- The statements of the loop body of `statevec_controlledCompactUnitaryLocalAllSmall`
(QuEST_cpu.c, lines 2488 to 2505) that a step of a thread executes. -/
def allSmall_step (alphaReal alphaImag betaReal betaImag : K) (sizeTask : Nat)
    (r : AllSmallRegion K) : AllSmallStep → AllSmallRegion K
  | AllSmallStep.load thread indexUp =>
    let indexLo := indexUp + sizeTask
    { r with
      indexUp := Function.update r.indexUp thread indexUp
      indexLo := Function.update r.indexLo thread indexLo
      stateRealUp := Function.update r.stateRealUp thread (r.stateVec.real indexUp)
      stateImagUp := Function.update r.stateImagUp thread (r.stateVec.imag indexUp)
      stateRealLo := r.stateVec.real indexLo
      stateImagLo := r.stateVec.imag indexLo }
  | AllSmallStep.store thread =>
    let indexUp := r.indexUp thread
    let indexLo := r.indexLo thread
    let stateRealUp := r.stateRealUp thread
    let stateImagUp := r.stateImagUp thread
    let stateRealLo := r.stateRealLo
    let stateImagLo := r.stateImagLo
    let stateVecReal := Function.update r.stateVec.real indexUp
      (alphaReal * stateRealUp - alphaImag * stateImagUp
        - betaReal * stateRealLo - betaImag * stateImagLo)
    let stateVecImag := Function.update r.stateVec.imag indexUp
      (alphaReal * stateImagUp + alphaImag * stateRealUp
        - betaReal * stateImagLo + betaImag * stateRealLo)
    let stateVecReal := Function.update stateVecReal indexLo
      (betaReal * stateRealUp - betaImag * stateImagUp
        + alphaReal * stateRealLo + alphaImag * stateImagLo)
    let stateVecImag := Function.update stateVecImag indexLo
      (betaReal * stateImagUp + betaImag * stateRealUp
        + alphaReal * stateImagLo - alphaImag * stateRealLo)
    { r with stateVec := ⟨stateVecReal, stateVecImag⟩ }

/-- The loops of `statevec_controlledCompactUnitaryLocalAllSmall` (QuEST_cpu.c, line 2482)
over the tasks and the upper indices of a task, with the statements of the body abstracted
as `step indexUp indexLo`. -/
def statevec_controlledCompactUnitaryLocalAllSmall_loops {σ : Type} (qureg : Qureg K)
    (targetQubit : Nat) (step : Nat → Nat → σ → σ) : σ → σ :=
  let numTasks := qureg.numAmpsPerChunk >>> (1 + targetQubit)
  let sizeTask := 1 <<< targetQubit
  forLoop numTasks (fun thisTask =>
    forRange (thisTask * sizeTask * 2) (thisTask * sizeTask * 2 + sizeTask) 1
      (fun indexUp s =>
        let indexLo := indexUp + sizeTask
        step indexUp indexLo s))

/-- Source function `statevec_controlledCompactUnitaryLocalAllSmall` (QuEST_cpu.c,
line 2458). The threads of its OpenMP region share the iterations of the loops
`statevec_controlledCompactUnitaryLocalAllSmall_loops` and take their steps in the order
`trace` (see `IsAllSmallExecution`; `allSmall_sequential` is the run of a single thread); the
temporaries `stateRealLo` and `stateImagLo` are shared, see `AllSmallRegion`. The variables
of the region start at zero; every thread loads them before it uses them. -/
def statevec_controlledCompactUnitaryLocalAllSmall (trace : List AllSmallStep)
    (qureg : Qureg K) (controlQubit targetQubit : Nat) (alpha beta : Complex K) : Qureg K :=
  let sizeTask := 1 <<< targetQubit
  let alphaImag := alpha.imag
  let alphaReal := alpha.real
  let betaImag := beta.imag
  let betaReal := beta.real
  let region : AllSmallRegion K :=
    ⟨qureg.stateVec, 0, 0, fun _ => 0, fun _ => 0, fun _ => 0, fun _ => 0⟩
  { qureg with
    stateVec :=
      (trace.foldl (allSmall_step alphaReal alphaImag betaReal betaImag sizeTask)
        region).stateVec }

/-- Source function `statevec_controlledCompactUnitaryLocalSIMD` (QuEST_cpu.c, line 2736). -/
def statevec_controlledCompactUnitaryLocalSIMD (qureg : Qureg K)
    (controlQubit targetQubit : Nat) (alpha beta : Complex K) : Qureg K :=
  let numTasks := if targetQubit > controlQubit then 1 <<< (targetQubit - controlQubit - 1)
    else 1 <<< (controlQubit - targetQubit - 1)
  let numBlocks := if targetQubit > controlQubit then qureg.numAmpsPerChunk >>> (1 + targetQubit)
    else qureg.numAmpsPerChunk >>> (1 + controlQubit)
  let sizeTask := if targetQubit > controlQubit then 1 <<< controlQubit else 1 <<< targetQubit
  let blockOffset := 1 <<< controlQubit
  let sizeHalfBlock := 1 <<< targetQubit
  let sizeBlock := if targetQubit > controlQubit then 2 * sizeHalfBlock else 2 <<< controlQubit
  let alphaImag := alpha.imag
  let alphaReal := alpha.real
  let betaImag := beta.imag
  let betaReal := beta.real
  let alphaRealSIMD := mm256_set1_pd alphaReal
  let alphaImagSIMD := mm256_set1_pd alphaImag
  let betaRealSIMD := mm256_set1_pd betaReal
  let betaImagSIMD := mm256_set1_pd betaImag
  { qureg with
    stateVec := forLoop numBlocks (fun thisBlock =>
      forLoop numTasks (fun thisTask =>
        forRange (thisBlock * sizeBlock + sizeTask * thisTask * 2 + blockOffset)
          (thisBlock * sizeBlock + sizeTask * thisTask * 2 + sizeTask + blockOffset) 4
          (fun indexUp sv =>
            let indexLo := indexUp + sizeHalfBlock
            controlledCompactUnitarySIMD_pair alphaRealSIMD alphaImagSIMD betaRealSIMD
              betaImagSIMD indexUp indexLo sv))) qureg.stateVec }

/-- Source function `statevec_controlledCompactUnitaryLocalSmall` (QuEST_cpu.c, line 2607);
`trace` is the execution of the OpenMP region of
`statevec_controlledCompactUnitaryLocalAllSmall`. The regions of the other loops list all
the temporaries of their bodies as private, and these loops are run in their order. -/
def statevec_controlledCompactUnitaryLocalSmall (trace : List AllSmallStep) (qureg : Qureg K)
    (controlQubit targetQubit : Nat) (alpha beta : Complex K) : Qureg K :=
  if 1 <<< controlQubit ≥ qureg.numAmpsPerChunk then
    if extractBit controlQubit (qureg.chunkId * qureg.numAmpsPerChunk) ≠ 0 then
      statevec_controlledCompactUnitaryLocalAllSmall trace qureg controlQubit targetQubit
        alpha beta
    else qureg
  else
    let sizeTask := if targetQubit > controlQubit then 1 <<< controlQubit else 1 <<< targetQubit
    if sizeTask ≥ 4 then
      statevec_controlledCompactUnitaryLocalSIMD qureg controlQubit targetQubit alpha beta
    else
      let numTasks := if targetQubit > controlQubit then 1 <<< (targetQubit - controlQubit - 1)
        else 1 <<< (controlQubit - targetQubit - 1)
      let numBlocks :=
        if targetQubit > controlQubit then qureg.numAmpsPerChunk >>> (1 + targetQubit)
        else qureg.numAmpsPerChunk >>> (1 + controlQubit)
      let blockOffset := 1 <<< controlQubit
      let sizeHalfBlock := 1 <<< targetQubit
      let sizeBlock := if targetQubit > controlQubit then 2 * sizeHalfBlock
        else 2 <<< controlQubit
      let alphaImag := alpha.imag
      let alphaReal := alpha.real
      let betaImag := beta.imag
      let betaReal := beta.real
      { qureg with
        stateVec := forLoop numBlocks (fun thisBlock =>
          forLoop numTasks (fun thisTask =>
            forRange (thisBlock * sizeBlock + sizeTask * thisTask * 2 + blockOffset)
              (thisBlock * sizeBlock + sizeTask * thisTask * 2 + sizeTask + blockOffset) 1
              (fun indexUp sv =>
                let indexLo := indexUp + sizeHalfBlock
                controlledCompactUnitary_pair alphaReal alphaImag betaReal betaImag
                  indexUp indexLo sv))) qureg.stateVec }

/-! ## Swap of the amplitudes of two qubits -/

/-- Source function `statevec_swapQubitAmpsLocal` (QuEST_cpu.c, line 5210). -/
def statevec_swapQubitAmpsLocal (qureg : Qureg K) (qb1 qb2 : Nat) : Qureg K :=
  let numTasks := qureg.numAmpsPerChunk >>> 2
  { qureg with
    stateVec := forLoop numTasks (fun thisTask sv =>
      let ind00 := insertTwoZeroBits thisTask qb1 qb2
      let ind01 := flipBit ind00 qb1
      let ind10 := flipBit ind00 qb2
      let re01 := sv.real ind01
      let im01 := sv.imag ind01
      let re10 := sv.real ind10
      let im10 := sv.imag ind10
      let reVec := Function.update sv.real ind01 re10
      let reVec := Function.update reVec ind10 re01
      let imVec := Function.update sv.imag ind01 im10
      let imVec := Function.update imVec ind10 im01
      ⟨reVec, imVec⟩) qureg.stateVec }

/-- The index `pairLocalInd` that `statevec_swapQubitAmpsDistributed` computes for the local
index `localInd`; the subtraction is one of signed integers. -/
def swapQubitAmpsDistributed_pairLocalInd (qureg : Qureg K) (pairRank qb1 qb2 localInd : Nat) :
    Int :=
  let numLocalAmps := qureg.numAmpsPerChunk
  let globalStartInd := qureg.chunkId * numLocalAmps
  let pairGlobalStartInd := pairRank * numLocalAmps
  let globalInd := globalStartInd + localInd
  let pairGlobalInd := flipBit (flipBit globalInd qb1) qb2
  (pairGlobalInd : Int) - (pairGlobalStartInd : Int)

/-- Source function `statevec_swapQubitAmpsDistributed` (QuEST_cpu.c, line 5252). -/
def statevec_swapQubitAmpsDistributed (qureg : Qureg K) (pairRank qb1 qb2 : Nat) : Qureg K :=
  let rePairVec := qureg.pairStateVec.real
  let imPairVec := qureg.pairStateVec.imag
  let numLocalAmps := qureg.numAmpsPerChunk
  let globalStartInd := qureg.chunkId * numLocalAmps
  { qureg with
    stateVec := forLoop numLocalAmps (fun localInd sv =>
      let globalInd := globalStartInd + localInd
      if isOddParity globalInd qb1 qb2 then
        let pairLocalInd := swapQubitAmpsDistributed_pairLocalInd qureg pairRank qb1 qb2 localInd
        let reVec := Function.update sv.real localInd (rePairVec pairLocalInd.toNat)
        let imVec := Function.update sv.imag localInd (imPairVec pairLocalInd.toNat)
        ⟨reVec, imVec⟩
      else sv) qureg.stateVec }

/-! ## Collapse of a density matrix to a measurement outcome -/

/-- Source function `zeroSomeAmps` (QuEST_cpu.c, line 730). -/
def zeroSomeAmps (qureg : Qureg K) (startInd numAmps : Nat) : Qureg K :=
  { qureg with
    stateVec := forRange startInd (startInd + numAmps) 1 (fun i sv =>
      let stateVecReal := Function.update sv.real i 0
      let stateVecImag := Function.update sv.imag i 0
      ⟨stateVecReal, stateVecImag⟩) qureg.stateVec }

/-- Source function `normaliseSomeAmps` (QuEST_cpu.c, line 740). -/
def normaliseSomeAmps (qureg : Qureg K) (norm : K) (startInd numAmps : Nat) : Qureg K :=
  { qureg with
    stateVec := forRange startInd (startInd + numAmps) 1 (fun i sv =>
      let stateVecReal := Function.update sv.real i (sv.real i / norm)
      let stateVecImag := Function.update sv.imag i (sv.imag i / norm)
      ⟨stateVecReal, stateVecImag⟩) qureg.stateVec }

/-- Source function `alternateNormZeroingSomeAmpBlocks` (QuEST_cpu.c, line 750); `normFirst` is an `int` used
as a truth value. -/
def alternateNormZeroingSomeAmpBlocks (qureg : Qureg K) (norm : K) (normFirst : Bool)
    (startAmpInd numAmps blockSize : Nat) : Qureg K :=
  let numDubBlocks := numAmps / (2 * blockSize)
  if normFirst then
    forLoop numDubBlocks (fun dubBlockInd qureg =>
      let blockStartInd := startAmpInd + dubBlockInd * 2 * blockSize
      let qureg := normaliseSomeAmps qureg norm blockStartInd blockSize
      zeroSomeAmps qureg (blockStartInd + blockSize) blockSize) qureg
  else
    forLoop numDubBlocks (fun dubBlockInd qureg =>
      let blockStartInd := startAmpInd + dubBlockInd * 2 * blockSize
      let qureg := zeroSomeAmps qureg blockStartInd blockSize
      normaliseSomeAmps qureg norm (blockStartInd + blockSize) blockSize) qureg

/-- Source function `densmatr_collapseToKnownProbOutcome` (QuEST_cpu.c, line 781). -/
def densmatr_collapseToKnownProbOutcome (qureg : Qureg K) (measureQubit : Nat) (outcome : Nat)
    (totalStateProb : K) : Qureg K :=
  let innerBlockSize := 1 <<< measureQubit
  let outerBlockSize := 1 <<< (measureQubit + qureg.numQubitsRepresented)
  let locNumAmps := qureg.numAmpsPerChunk
  let globalStartInd := qureg.chunkId * locNumAmps
  let innerBit := extractBit measureQubit globalStartInd
  let outerBit := extractBit (measureQubit + qureg.numQubitsRepresented) globalStartInd
  if locNumAmps ≤ outerBlockSize then
    if outerBit ≠ outcome then
      zeroSomeAmps qureg 0 qureg.numAmpsPerChunk
    else if locNumAmps ≤ innerBlockSize then
      if innerBit ≠ outcome then
        zeroSomeAmps qureg 0 qureg.numAmpsPerChunk
      else
        normaliseSomeAmps qureg totalStateProb 0 qureg.numAmpsPerChunk
    else
      alternateNormZeroingSomeAmpBlocks qureg totalStateProb (innerBit == outcome) 0
        qureg.numAmpsPerChunk innerBlockSize
  else
    let numOuterDoubleBlocks := locNumAmps / (2 * outerBlockSize)
    if outerBit = outcome then
      forLoop numOuterDoubleBlocks (fun outerDubBlockInd qureg =>
        let firstBlockInd := outerDubBlockInd * 2 * outerBlockSize
        let qureg := alternateNormZeroingSomeAmpBlocks qureg totalStateProb
          (innerBit == outcome) firstBlockInd outerBlockSize innerBlockSize
        zeroSomeAmps qureg (firstBlockInd + outerBlockSize) outerBlockSize) qureg
    else
      forLoop numOuterDoubleBlocks (fun outerDubBlockInd qureg =>
        let firstBlockInd := outerDubBlockInd * 2 * outerBlockSize
        let qureg := zeroSomeAmps qureg firstBlockInd outerBlockSize
        alternateNormZeroingSomeAmpBlocks qureg totalStateProb (innerBit == outcome)
          (firstBlockInd + outerBlockSize) outerBlockSize innerBlockSize) qureg

/-! ## Dephasing and depolarising of a density matrix -/

/-- Source function `densmatr_mixDephasing` (QuEST_cpu.c, line 79). -/
def densmatr_mixDephasing (qureg : Qureg K) (targetQubit : Nat) (dephase : K) : Qureg K :=
  let retain := 1 - dephase
  densmatr_oneQubitDegradeOffDiagonal qureg targetQubit retain

/-- Source function `densmatr_mixTwoQubitDephasing` (QuEST_cpu.c, line 89). -/
def densmatr_mixTwoQubitDephasing (qureg : Qureg K) (qubit1 qubit2 : Nat) (dephase : K) :
    Qureg K :=
  let retain := 1 - dephase
  let numTasks := qureg.numAmpsPerChunk
  let innerMaskQubit1 := 1 <<< qubit1
  let outerMaskQubit1 := 1 <<< (qubit1 + qureg.numQubitsRepresented)
  let innerMaskQubit2 := 1 <<< qubit2
  let outerMaskQubit2 := 1 <<< (qubit2 + qureg.numQubitsRepresented)
  let totMaskQubit1 := innerMaskQubit1 ||| outerMaskQubit1
  let totMaskQubit2 := innerMaskQubit2 ||| outerMaskQubit2
  { qureg with
    stateVec := forLoop numTasks (fun thisTask sv =>
      let thisPatternQubit1 :=
        (thisTask + qureg.numAmpsPerChunk * qureg.chunkId) &&& totMaskQubit1
      let thisPatternQubit2 :=
        (thisTask + qureg.numAmpsPerChunk * qureg.chunkId) &&& totMaskQubit2
      if thisPatternQubit1 = innerMaskQubit1 ∨ thisPatternQubit1 = outerMaskQubit1 ∨
          thisPatternQubit2 = innerMaskQubit2 ∨ thisPatternQubit2 = outerMaskQubit2 then
        let stateVecReal := Function.update sv.real thisTask (retain * sv.real thisTask)
        let stateVecImag := Function.update sv.imag thisTask (retain * sv.imag thisTask)
        ⟨stateVecReal, stateVecImag⟩
      else sv) qureg.stateVec }

/-- Source function `densmatr_mixDepolarisingLocal` (QuEST_cpu.c, line 129). -/
def densmatr_mixDepolarisingLocal (qureg : Qureg K) (targetQubit : Nat) (depolLevel : K) :
    Qureg K :=
  let retain := 1 - depolLevel
  let numTasks := qureg.numAmpsPerChunk
  let innerMask := 1 <<< targetQubit
  let outerMask := 1 <<< (targetQubit + qureg.numQubitsRepresented)
  let totMask := innerMask ||| outerMask
  { qureg with
    stateVec := forLoop numTasks (fun thisTask sv =>
      let thisPattern := (thisTask + qureg.numAmpsPerChunk * qureg.chunkId) &&& totMask
      if thisPattern = innerMask ∨ thisPattern = outerMask then
        let stateVecReal := Function.update sv.real thisTask (retain * sv.real thisTask)
        let stateVecImag := Function.update sv.imag thisTask (retain * sv.imag thisTask)
        ⟨stateVecReal, stateVecImag⟩
      else
        if thisTask &&& totMask = 0 then
          let partner := thisTask ||| totMask
          let realAv := (sv.real thisTask + sv.real partner) / 2
          let imagAv := (sv.imag thisTask + sv.imag partner) / 2
          let stateVecReal := Function.update sv.real thisTask
            (retain * sv.real thisTask + depolLevel * realAv)
          let stateVecImag := Function.update sv.imag thisTask
            (retain * sv.imag thisTask + depolLevel * imagAv)
          let stateVecReal := Function.update stateVecReal partner
            (retain * stateVecReal partner + depolLevel * realAv)
          let stateVecImag := Function.update stateVecImag partner
            (retain * stateVecImag partner + depolLevel * imagAv)
          ⟨stateVecReal, stateVecImag⟩
        else sv) qureg.stateVec }

/-- Source function `densmatr_mixTwoQubitDepolarisingLocal` (QuEST_cpu.c, line 386): three
loops over the tasks, one after the other. -/
def densmatr_mixTwoQubitDepolarisingLocal (qureg : Qureg K) (qubit1 qubit2 : Nat)
    (delta gamma : K) : Qureg K :=
  let numTasks := qureg.numAmpsPerChunk
  let innerMaskQubit1 := 1 <<< qubit1
  let outerMaskQubit1 := 1 <<< (qubit1 + qureg.numQubitsRepresented)
  let totMaskQubit1 := innerMaskQubit1 ||| outerMaskQubit1
  let innerMaskQubit2 := 1 <<< qubit2
  let outerMaskQubit2 := 1 <<< (qubit2 + qureg.numQubitsRepresented)
  let totMaskQubit2 := innerMaskQubit2 ||| outerMaskQubit2
  -- STEP ONE
  let stepOne : ComplexArray K := forLoop numTasks (fun thisTask sv =>
    let thisPatternQubit1 := (thisTask + qureg.numAmpsPerChunk * qureg.chunkId) &&& totMaskQubit1
    let thisPatternQubit2 := (thisTask + qureg.numAmpsPerChunk * qureg.chunkId) &&& totMaskQubit2
    if thisPatternQubit1 = 0 ∧ (thisPatternQubit2 = 0 ∨ thisPatternQubit2 = totMaskQubit2) then
      let partner := thisTask ||| totMaskQubit1
      let real00 := sv.real thisTask
      let imag00 := sv.imag thisTask
      let stateVecReal := Function.update sv.real thisTask
        (sv.real thisTask + delta * sv.real partner)
      let stateVecImag := Function.update sv.imag thisTask
        (sv.imag thisTask + delta * sv.imag partner)
      let stateVecReal := Function.update stateVecReal partner
        (stateVecReal partner + delta * real00)
      let stateVecImag := Function.update stateVecImag partner
        (stateVecImag partner + delta * imag00)
      ⟨stateVecReal, stateVecImag⟩
    else sv) qureg.stateVec
  -- STEP TWO
  let stepTwo : ComplexArray K := forLoop numTasks (fun thisTask sv =>
    let thisPatternQubit1 := (thisTask + qureg.numAmpsPerChunk * qureg.chunkId) &&& totMaskQubit1
    let thisPatternQubit2 := (thisTask + qureg.numAmpsPerChunk * qureg.chunkId) &&& totMaskQubit2
    if thisPatternQubit2 = 0 ∧ (thisPatternQubit1 = 0 ∨ thisPatternQubit1 = totMaskQubit1) then
      let partner := thisTask ||| totMaskQubit2
      let real00 := sv.real thisTask
      let imag00 := sv.imag thisTask
      let stateVecReal := Function.update sv.real thisTask
        (sv.real thisTask + delta * sv.real partner)
      let stateVecImag := Function.update sv.imag thisTask
        (sv.imag thisTask + delta * sv.imag partner)
      let stateVecReal := Function.update stateVecReal partner
        (stateVecReal partner + delta * real00)
      let stateVecImag := Function.update stateVecImag partner
        (stateVecImag partner + delta * imag00)
      ⟨stateVecReal, stateVecImag⟩
    else sv) stepOne
  -- STEP THREE
  let stepThree : ComplexArray K := forLoop numTasks (fun thisTask sv =>
    let thisPatternQubit1 := (thisTask + qureg.numAmpsPerChunk * qureg.chunkId) &&& totMaskQubit1
    let thisPatternQubit2 := (thisTask + qureg.numAmpsPerChunk * qureg.chunkId) &&& totMaskQubit2
    if thisPatternQubit2 = 0 ∧ (thisPatternQubit1 = 0 ∨ thisPatternQubit1 = totMaskQubit1) then
      let partner := thisTask ||| totMaskQubit2
      let partner := partner ^^^ totMaskQubit1
      let real00 := sv.real thisTask
      let imag00 := sv.imag thisTask
      let stateVecReal := Function.update sv.real thisTask
        (gamma * (sv.real thisTask + delta * sv.real partner))
      let stateVecImag := Function.update sv.imag thisTask
        (gamma * (sv.imag thisTask + delta * sv.imag partner))
      let stateVecReal := Function.update stateVecReal partner
        (gamma * (stateVecReal partner + delta * real00))
      let stateVecImag := Function.update stateVecImag partner
        (gamma * (stateVecImag partner + delta * imag00))
      ⟨stateVecReal, stateVecImag⟩
    else sv) stepTwo
  { qureg with stateVec := stepThree }

/-! ## State initialisation, measurement and multi-controlled unitary -/

/-- Source function `densmatr_initClassicalState` (QuEST_cpu.c, line 1111). -/
def densmatr_initClassicalState (qureg : Qureg K) (stateInd : Nat) : Qureg K :=
  let densityNumElems := qureg.numAmpsPerChunk
  let sv : ComplexArray K := forLoop densityNumElems (fun index sv =>
    let densityReal := Function.update sv.real index 0
    let densityImag := Function.update sv.imag index 0
    ⟨densityReal, densityImag⟩) qureg.stateVec
  let densityDim := 1 <<< qureg.numQubitsRepresented
  let densityInd := (densityDim + 1) * stateInd
  if qureg.chunkId = densityInd / densityNumElems then
    let densityReal := Function.update sv.real (densityInd % densityNumElems) 1
    let densityImag := Function.update sv.imag (densityInd % densityNumElems) 0
    { qureg with stateVec := ⟨densityReal, densityImag⟩ }
  else { qureg with stateVec := sv }

/-- Source function `statevec_multiControlledUnitaryLocal` (QuEST_cpu.c, line 2970). -/
def statevec_multiControlledUnitaryLocal (qureg : Qureg K) (targetQubit : Nat)
    (ctrlQubitsMask ctrlFlipMask : Nat) (u : ComplexMatrix2 K) : Qureg K :=
  let numTasks := qureg.numAmpsPerChunk >>> 1
  let chunkSize := qureg.numAmpsPerChunk
  let chunkId := qureg.chunkId
  let sizeHalfBlock := 1 <<< targetQubit
  let sizeBlock := 2 * sizeHalfBlock
  { qureg with
    stateVec := forLoop numTasks (fun thisTask sv =>
      let thisBlock := thisTask / sizeHalfBlock
      let indexUp := thisBlock * sizeBlock + thisTask % sizeHalfBlock
      let indexLo := indexUp + sizeHalfBlock
      if ctrlQubitsMask = ctrlQubitsMask &&& ((indexUp + chunkId * chunkSize) ^^^ ctrlFlipMask) then
        let stateRealUp := sv.real indexUp
        let stateImagUp := sv.imag indexUp
        let stateRealLo := sv.real indexLo
        let stateImagLo := sv.imag indexLo
        let stateVecReal := Function.update sv.real indexUp
          (u.real 0 0 * stateRealUp - u.imag 0 0 * stateImagUp
            + u.real 0 1 * stateRealLo - u.imag 0 1 * stateImagLo)
        let stateVecImag := Function.update sv.imag indexUp
          (u.real 0 0 * stateImagUp + u.imag 0 0 * stateRealUp
            + u.real 0 1 * stateImagLo + u.imag 0 1 * stateRealLo)
        let stateVecReal := Function.update stateVecReal indexLo
          (u.real 1 0 * stateRealUp - u.imag 1 0 * stateImagUp
            + u.real 1 1 * stateRealLo - u.imag 1 1 * stateImagLo)
        let stateVecImag := Function.update stateVecImag indexLo
          (u.real 1 0 * stateImagUp + u.imag 1 0 * stateRealUp
            + u.real 1 1 * stateImagLo + u.imag 1 1 * stateRealLo)
        ⟨stateVecReal, stateVecImag⟩
      else sv) qureg.stateVec }

/-- Source function `densmatr_findProbabilityOfZeroLocal` (QuEST_cpu.c, line 4828); the
OpenMP reduction adds the terms in the order of the loop. -/
def densmatr_findProbabilityOfZeroLocal (qureg : Qureg K) (measureQubit : Nat) : K :=
  let localNumAmps := qureg.numAmpsPerChunk
  let densityDim := 1 <<< qureg.numQubitsRepresented
  let diagSpacing := 1 + densityDim
  let maxNumDiagsPerChunk := 1 + localNumAmps / diagSpacing
  let numPrevDiags :=
    if qureg.chunkId > 0 then 1 + (qureg.chunkId * localNumAmps) / diagSpacing else 0
  let globalIndNextDiag := diagSpacing * numPrevDiags
  let localIndNextDiag := globalIndNextDiag % localNumAmps
  let numDiagsInThisChunk := maxNumDiagsPerChunk
  let numDiagsInThisChunk :=
    if localIndNextDiag + (numDiagsInThisChunk - 1) * diagSpacing ≥ localNumAmps then
      numDiagsInThisChunk - 1
    else numDiagsInThisChunk
  let stateVecReal := qureg.stateVec.real
  forLoop numDiagsInThisChunk (fun visitedDiags zeroProb =>
    let basisStateInd := numPrevDiags + visitedDiags
    let index := localIndNextDiag + diagSpacing * visitedDiags
    if extractBit measureQubit basisStateInd = 0 then zeroProb + stateVecReal index
    else zeroProb) 0

/-- Source function `statevec_findProbabilityOfZeroLocal` (QuEST_cpu.c, line 4883). -/
def statevec_findProbabilityOfZeroLocal (qureg : Qureg K) (measureQubit : Nat) : K :=
  let numTasks := qureg.numAmpsPerChunk >>> 1
  let sizeHalfBlock := 1 <<< measureQubit
  let sizeBlock := 2 * sizeHalfBlock
  let stateVecReal := qureg.stateVec.real
  let stateVecImag := qureg.stateVec.imag
  forLoop numTasks (fun thisTask totalProbability =>
    let thisBlock := thisTask / sizeHalfBlock
    let index := thisBlock * sizeBlock + thisTask % sizeHalfBlock
    totalProbability + (stateVecReal index * stateVecReal index
      + stateVecImag index * stateVecImag index)) 0

/-- Source function `statevec_collapseToKnownProbOutcomeLocal` (QuEST_cpu.c, line 5055);
`outcome` is an `int` tested against 0. -/
def statevec_collapseToKnownProbOutcomeLocal (sqrt : K → K) (qureg : Qureg K)
    (measureQubit : Nat) (outcome : Nat) (totalProbability : K) : Qureg K :=
  let numTasks := qureg.numAmpsPerChunk >>> 1
  let sizeHalfBlock := 1 <<< measureQubit
  let sizeBlock := 2 * sizeHalfBlock
  let renorm := 1 / sqrt totalProbability
  if outcome = 0 then
    { qureg with
      stateVec := forLoop numTasks (fun thisTask sv =>
        let thisBlock := thisTask / sizeHalfBlock
        let index := thisBlock * sizeBlock + thisTask % sizeHalfBlock
        let stateVecReal := Function.update sv.real index (sv.real index * renorm)
        let stateVecImag := Function.update sv.imag index (sv.imag index * renorm)
        let stateVecReal := Function.update stateVecReal (index + sizeHalfBlock) 0
        let stateVecImag := Function.update stateVecImag (index + sizeHalfBlock) 0
        ⟨stateVecReal, stateVecImag⟩) qureg.stateVec }
  else
    { qureg with
      stateVec := forLoop numTasks (fun thisTask sv =>
        let thisBlock := thisTask / sizeHalfBlock
        let index := thisBlock * sizeBlock + thisTask % sizeHalfBlock
        let stateVecReal := Function.update sv.real index 0
        let stateVecImag := Function.update sv.imag index 0
        let stateVecReal := Function.update stateVecReal (index + sizeHalfBlock)
          (stateVecReal (index + sizeHalfBlock) * renorm)
        let stateVecImag := Function.update stateVecImag (index + sizeHalfBlock)
          (stateVecImag (index + sizeHalfBlock) * renorm)
        ⟨stateVecReal, stateVecImag⟩) qureg.stateVec }

/-! ## Hadamard, rotation about Z, state set-up and fidelity -/

/-- Source function `statevec_hadamardLocal` (QuEST_cpu.c, line 4293). -/
def statevec_hadamardLocal (sqrt : K → K) (qureg : Qureg K) (targetQubit : Nat) : Qureg K :=
  let numTasks := qureg.numAmpsPerChunk >>> 1
  let sizeHalfBlock := 1 <<< targetQubit
  let sizeBlock := 2 * sizeHalfBlock
  let recRoot2 := 1 / sqrt 2
  { qureg with
    stateVec := forLoop numTasks (fun thisTask sv =>
      let thisBlock := thisTask / sizeHalfBlock
      let indexUp := thisBlock * sizeBlock + thisTask % sizeHalfBlock
      let indexLo := indexUp + sizeHalfBlock
      let stateRealUp := sv.real indexUp
      let stateImagUp := sv.imag indexUp
      let stateRealLo := sv.real indexLo
      let stateImagLo := sv.imag indexLo
      let stateVecReal := Function.update sv.real indexUp (recRoot2 * (stateRealUp + stateRealLo))
      let stateVecImag := Function.update sv.imag indexUp (recRoot2 * (stateImagUp + stateImagLo))
      let stateVecReal := Function.update stateVecReal indexLo
        (recRoot2 * (stateRealUp - stateRealLo))
      let stateVecImag := Function.update stateVecImag indexLo
        (recRoot2 * (stateImagUp - stateImagLo))
      ⟨stateVecReal, stateVecImag⟩) qureg.stateVec }

/-- The loop `while (mask) { parity = !parity; mask = mask & (mask-1); }` of
`getBitMaskParity`, from the values of `mask` and `parity` at its entry. -/
def getBitMaskParity_while (mask parity : Nat) : Nat :=
  if h : mask ≠ 0 then
    getBitMaskParity_while (mask &&& (mask - 1)) (if parity = 0 then 1 else 0)
  else parity
termination_by mask
decreasing_by
  exact Nat.lt_of_le_of_lt Nat.and_le_right (Nat.sub_lt (Nat.pos_of_ne_zero h) Nat.one_pos)

/-- Source function `getBitMaskParity` (QuEST_cpu.c, line 4778). -/
def getBitMaskParity (mask : Nat) : Nat :=
  let parity := 0
  getBitMaskParity_while mask parity

/-- Source function `statevec_multiRotateZ` (QuEST_cpu.c, line 4787); `cos` and `sin` of
`math.h` are parameters, `fac` is an `int`. -/
def statevec_multiRotateZ (cos sin : K → K) (qureg : Qureg K) (mask : Nat) (angle : K) :
    Qureg K :=
  let chunkSize := qureg.numAmpsPerChunk
  let chunkId := qureg.chunkId
  let stateVecSize := qureg.numAmpsPerChunk
  let cosAngle := cos (angle / 2)
  let sinAngle := sin (angle / 2)
  { qureg with
    stateVec := forLoop stateVecSize (fun index sv =>
      let stateReal := sv.real index
      let stateImag := sv.imag index
      let fac : Int := if getBitMaskParity (mask &&& (index + chunkId * chunkSize)) ≠ 0 then -1
        else 1
      let stateVecReal := Function.update sv.real index
        (cosAngle * stateReal + (fac : K) * sinAngle * stateImag)
      let stateVecImag := Function.update sv.imag index
        (((-fac : Int) : K) * sinAngle * stateReal + cosAngle * stateImag)
      ⟨stateVecReal, stateVecImag⟩) qureg.stateVec }

/-- Source function `statevec_initClassicalState` (QuEST_cpu.c, line 1429). -/
def statevec_initClassicalState (qureg : Qureg K) (stateInd : Nat) : Qureg K :=
  let stateVecSize := qureg.numAmpsPerChunk
  let sv : ComplexArray K := forLoop stateVecSize (fun index sv =>
    let stateVecReal := Function.update sv.real index 0
    let stateVecImag := Function.update sv.imag index 0
    ⟨stateVecReal, stateVecImag⟩) qureg.stateVec
  if qureg.chunkId = stateInd / stateVecSize then
    let stateVecReal := Function.update sv.real (stateInd % stateVecSize) 1
    let stateVecImag := Function.update sv.imag (stateInd % stateVecSize) 0
    { qureg with stateVec := ⟨stateVecReal, stateVecImag⟩ }
  else { qureg with stateVec := sv }

/-- Source function `densmatr_initPureStateLocal` (QuEST_cpu.c, line 1178); the amplitudes
of `copyQureg` are read from the pair buffer of `targetQureg`. -/
def densmatr_initPureStateLocal (targetQureg : Qureg K) (copyQureg : QuregAttributes) :
    Qureg K :=
  let colOffset := targetQureg.chunkId * copyQureg.numAmpsPerChunk
  let colsPerNode := copyQureg.numAmpsPerChunk
  let rowsPerNode := copyQureg.numAmpsTotal
  let vecRe := targetQureg.pairStateVec.real
  let vecIm := targetQureg.pairStateVec.imag
  { targetQureg with
    stateVec := forLoop colsPerNode (fun col =>
      forLoop rowsPerNode (fun row dens =>
        let ketRe := vecRe row
        let ketIm := vecIm row
        let braRe := vecRe (col + colOffset)
        let braIm := -vecIm (col + colOffset)
        let index := row + col * rowsPerNode
        let densRe := Function.update dens.real index (ketRe * braRe - ketIm * braIm)
        let densIm := Function.update dens.imag index (ketRe * braIm + ketIm * braRe)
        ⟨densRe, densIm⟩)) targetQureg.stateVec }

/-- The value of a C `int` (32 bits, signed) that results from the integer `x`:
the conversion `(int)` of a `long long`, and `int` arithmetic whose exact result is `x`, as
the x86 build evaluates them, modulo `2^32`. C leaves the overflow of `int` arithmetic
undefined. -/
def toInt32 (x : Int) : Int := (x + 2 ^ 31) % 2 ^ 32 - 2 ^ 31

/-- The read `array[index]` with an index of type `int`: an element in front of the array
has no value. -/
def readAt (array : Nat → K) (index : Int) : Option K :=
  if 0 ≤ index then some (array index.toNat) else none

/-- Source function `densmatr_calcFidelityLocal` (QuEST_cpu.c, line 986); `row`, `col`,
`dim`, `colsPerNode`, `startCol` and the indices `row + dim*col` and `startCol + col` are
of type `int`, see `toInt32`; the OpenMP reduction adds the terms in the order of the
loop. -/
def densmatr_calcFidelityLocal (qureg : Qureg K) (pureState : QuregAttributes) : Option K :=
  let vecRe := qureg.pairStateVec.real
  let vecIm := qureg.pairStateVec.imag
  let densRe := qureg.stateVec.real
  let densIm := qureg.stateVec.imag
  let dim : Int := toInt32 (pureState.numAmpsTotal : Int)
  let colsPerNode : Int := toInt32 (pureState.numAmpsPerChunk : Int)
  let startCol : Int := toInt32 ((qureg.chunkId * pureState.numAmpsPerChunk : Nat) : Int)
  forLoop dim.toNat (fun row globalSumRe =>
    globalSumRe.bind (fun globalSumRe =>
    (readAt vecRe (row : Int)).bind (fun prefacRe =>
    (readAt vecIm (row : Int)).bind (fun vecImRow =>
    let prefacIm := -vecImRow
    let rowSum : Option (K × K) := forLoop colsPerNode.toNat (fun col rowSum =>
      rowSum.bind (fun rowSum =>
      (readAt densRe (toInt32 ((row : Int) + toInt32 (dim * (col : Int))))).bind
        (fun densElemRe =>
      (readAt densIm (toInt32 ((row : Int) + toInt32 (dim * (col : Int))))).bind
        (fun densElemIm =>
      (readAt vecRe (toInt32 (startCol + (col : Int)))).bind (fun vecElemRe =>
      (readAt vecIm (toInt32 (startCol + (col : Int)))).bind (fun vecElemIm =>
      some (rowSum.1 + (densElemRe * vecElemRe - densElemIm * vecElemIm),
        rowSum.2 + (densElemRe * vecElemIm + densElemIm * vecElemRe)))))))) (some (0, 0))
    rowSum.bind (fun rowSum =>
    some (globalSumRe + (rowSum.1 * prefacRe - rowSum.2 * prefacIm))))))) (some 0)

/-- The value `offset` of `statevec_setAmps`, added to a local index to get the index of the
corresponding element of `reals` and `imags`; a difference of signed integers. -/
def setAmps_offset (qureg : Qureg K) (startInd : Nat) : Int :=
  ((qureg.chunkId * qureg.numAmpsPerChunk : Nat) : Int) - (startInd : Int)

/-- Source function `statevec_setAmps` (QuEST_cpu.c, line 1230); the local start and end
indices are signed integers, the loop runs over the local indices between them. -/
def statevec_setAmps (qureg : Qureg K) (startInd : Nat) (reals imags : Nat → K)
    (numAmps : Nat) : Qureg K :=
  let localStartInd : Int :=
    (startInd : Int) - ((qureg.chunkId * qureg.numAmpsPerChunk : Nat) : Int)
  let localEndInd : Int := localStartInd + (numAmps : Int)
  let offset := setAmps_offset qureg startInd
  let localStartInd : Int := if localStartInd < 0 then 0 else localStartInd
  let localEndInd : Int :=
    if localEndInd > (qureg.numAmpsPerChunk : Int) then (qureg.numAmpsPerChunk : Int)
    else localEndInd
  { qureg with
    stateVec := forRange localStartInd.toNat localEndInd.toNat 1 (fun index sv =>
      let vecRe := Function.update sv.real index (reals ((index : Int) + offset).toNat)
      let vecIm := Function.update sv.imag index (imags ((index : Int) + offset).toNat)
      ⟨vecRe, vecIm⟩) qureg.stateVec }

/-! ## Restructured compact unitary

The loops of `statevec_compactUnitaryLocalSmall` and `statevec_compactUnitaryLocalSIMD` run
the statements of `controlledCompactUnitary_pair` and `controlledCompactUnitarySIMD_pair`. -/

/-- Source function `statevec_compactUnitaryLocalSIMD` (QuEST_cpu.c, line 1702). -/
def statevec_compactUnitaryLocalSIMD (qureg : Qureg K) (targetQubit : Nat)
    (alpha beta : Complex K) : Qureg K :=
  let numTasks := qureg.numAmpsPerChunk >>> (1 + targetQubit)
  let sizeTask := 1 <<< targetQubit
  let alphaImag := alpha.imag
  let alphaReal := alpha.real
  let betaImag := beta.imag
  let betaReal := beta.real
  let alphaRealSIMD := mm256_set1_pd alphaReal
  let alphaImagSIMD := mm256_set1_pd alphaImag
  let betaRealSIMD := mm256_set1_pd betaReal
  let betaImagSIMD := mm256_set1_pd betaImag
  { qureg with
    stateVec := forLoop numTasks (fun thisTask =>
      forRange (thisTask * sizeTask * 2) (thisTask * sizeTask * 2 + sizeTask) 4
        (fun indexUp sv =>
          let indexLo := indexUp + sizeTask
          controlledCompactUnitarySIMD_pair alphaRealSIMD alphaImagSIMD betaRealSIMD
            betaImagSIMD indexUp indexLo sv)) qureg.stateVec }

/-- Source function `statevec_compactUnitaryLocalSmall` (QuEST_cpu.c, line 1643). -/
def statevec_compactUnitaryLocalSmall (qureg : Qureg K) (targetQubit : Nat)
    (alpha beta : Complex K) : Qureg K :=
  let sizeTask := 1 <<< targetQubit
  if sizeTask ≥ 4 then
    statevec_compactUnitaryLocalSIMD qureg targetQubit alpha beta
  else
    let numTasks := qureg.numAmpsPerChunk >>> (1 + targetQubit)
    let alphaImag := alpha.imag
    let alphaReal := alpha.real
    let betaImag := beta.imag
    let betaReal := beta.real
    { qureg with
      stateVec := forLoop numTasks (fun thisTask =>
        forRange (thisTask * sizeTask * 2) (thisTask * sizeTask * 2 + sizeTask) 1
          (fun indexUp sv =>
            let indexLo := indexUp + sizeTask
            controlledCompactUnitary_pair alphaReal alphaImag betaReal betaImag
              indexUp indexLo sv)) qureg.stateVec }

/-! ## Multi-qubit unitary -/

/-- Modelled from the spec: `qsort` of `stdlib.h` with the comparison `qsortComp`, which
puts the first `n` entries of an array of `int` in ascending order. -/
def qsortInts (a : Nat → Nat) (n : Nat) : Nat → Nat :=
  fun t => (((List.range n).map a).insertionSort (fun x y => x ≤ y)).getD t 0

/-- Source function `statevec_multiControlledMultiQubitUnitaryLocal` (QuEST_cpu.c,
line 2003). The private arrays `ampInds`, `reAmps`, `imAmps` of a task are filled before
they are read; their contents at the start of a task are taken to be 0. -/
def statevec_multiControlledMultiQubitUnitaryLocal (qureg : Qureg K) (ctrlMask : Nat)
    (targs : Nat → Nat) (numTargs : Nat) (u : ComplexMatrixN K) : Qureg K :=
  let numTasks := qureg.numAmpsPerChunk >>> numTargs
  let numTargAmps := 1 <<< u.numQubits
  let globalIndStart := qureg.chunkId * qureg.numAmpsPerChunk
  let sortedTargs := qsortInts targs numTargs
  { qureg with
    stateVec := forLoop numTasks (fun thisTask sv =>
      let thisInd00 : Nat := forLoop numTargs
        (fun t thisInd00 => insertZeroBit thisInd00 (sortedTargs t)) thisTask
      let thisGlobalInd00 := thisInd00 + globalIndStart
      if ctrlMask ≠ 0 ∧ (ctrlMask &&& thisGlobalInd00) ≠ ctrlMask then sv
      else
        let priv : (Nat → Nat) × (Nat → K) × (Nat → K) := forLoop numTargAmps (fun i priv =>
          let ind : Nat := forLoop numTargs
            (fun t ind => if extractBit t i ≠ 0 then flipBit ind (targs t) else ind) thisInd00
          let ampInds := Function.update priv.1 i ind
          let reAmps := Function.update priv.2.1 i (sv.real ind)
          let imAmps := Function.update priv.2.2 i (sv.imag ind)
          (ampInds, reAmps, imAmps)) (fun _ => 0, fun _ => 0, fun _ => 0)
        let ampInds := priv.1
        let reAmps := priv.2.1
        let imAmps := priv.2.2
        forLoop numTargAmps (fun r sv =>
          let ind := ampInds r
          let reVec := Function.update sv.real ind 0
          let imVec := Function.update sv.imag ind 0
          let acc : ComplexArray K := forLoop numTargAmps (fun c acc =>
            let reElem := u.real r c
            let imElem := u.imag r c
            let reVec := Function.update acc.real ind
              (acc.real ind + (reAmps c * reElem - imAmps c * imElem))
            let imVec := Function.update acc.imag ind
              (acc.imag ind + (reAmps c * imElem + imAmps c * reElem))
            ⟨reVec, imVec⟩) ⟨reVec, imVec⟩
          acc) sv) qureg.stateVec }

/-! ## Restructured controlled NOT -/

/-- The statements shared by the loops of `statevec_controlledNotLocalAll` and
`statevec_controlledNotLocalSmall`: read the amplitude at `indexUp`, copy the one at
`indexLo` over it, write the amplitude read to `indexLo`. -/
def controlledNot_pair (indexUp indexLo : Nat) (sv : ComplexArray K) : ComplexArray K :=
  let stateRealUp := sv.real indexUp
  let stateImagUp := sv.imag indexUp
  let stateVecReal := Function.update sv.real indexUp (sv.real indexLo)
  let stateVecImag := Function.update sv.imag indexUp (sv.imag indexLo)
  let stateVecReal := Function.update stateVecReal indexLo stateRealUp
  let stateVecImag := Function.update stateVecImag indexLo stateImagUp
  ⟨stateVecReal, stateVecImag⟩

/-- Source function `statevec_controlledNotLocalAll` (QuEST_cpu.c, line 3638). -/
def statevec_controlledNotLocalAll (qureg : Qureg K) (controlQubit targetQubit : Nat) :
    Qureg K :=
  let numTasks := qureg.numAmpsPerChunk >>> 1
  let sizeHalfBlock := 1 <<< targetQubit
  let sizeBlock := 2 * sizeHalfBlock
  { qureg with
    stateVec := forLoop numTasks (fun thisTask sv =>
      let thisBlock := thisTask / sizeHalfBlock
      let indexUp := thisBlock * sizeBlock + thisTask % sizeHalfBlock
      let indexLo := indexUp + sizeHalfBlock
      controlledNot_pair indexUp indexLo sv) qureg.stateVec }

/-- Source function `statevec_controlledNotLocalSmall` (QuEST_cpu.c, line 3680). -/
def statevec_controlledNotLocalSmall (qureg : Qureg K) (controlQubit targetQubit : Nat) :
    Qureg K :=
  if 1 <<< controlQubit ≥ qureg.numAmpsPerChunk then
    if extractBit controlQubit (qureg.chunkId * qureg.numAmpsPerChunk) ≠ 0 then
      statevec_controlledNotLocalAll qureg controlQubit targetQubit
    else qureg
  else
    let numTasks := if targetQubit > controlQubit then 1 <<< (targetQubit - controlQubit - 1)
      else 1 <<< (controlQubit - targetQubit - 1)
    let numBlocks :=
      if targetQubit > controlQubit then qureg.numAmpsPerChunk >>> (1 + targetQubit)
      else qureg.numAmpsPerChunk >>> (1 + controlQubit)
    let sizeTask := if targetQubit > controlQubit then 1 <<< controlQubit else 1 <<< targetQubit
    let blockOffset := 1 <<< controlQubit
    let sizeHalfBlock := 1 <<< targetQubit
    let sizeBlock := if targetQubit > controlQubit then 2 * sizeHalfBlock
      else 2 <<< controlQubit
    { qureg with
      stateVec := forLoop numBlocks (fun thisBlock =>
        forLoop numTasks (fun thisTask =>
          forRange (thisBlock * sizeBlock + sizeTask * thisTask * 2 + blockOffset)
            (thisBlock * sizeBlock + sizeTask * thisTask * 2 + sizeTask + blockOffset) 1
            (fun indexUp sv =>
              let indexLo := indexUp + sizeHalfBlock
              controlledNot_pair indexUp indexLo sv))) qureg.stateVec }

/-! ## Two-qubit unitary -/

/-- Modelled from the spec: the 4x4 matrix `ComplexMatrix4` of `QuEST.h`, `real[r][c]` and
`imag[r][c]`. -/
structure ComplexMatrix4 (K : Type) where
  real : Fin 4 → Fin 4 → K
  imag : Fin 4 → Fin 4 → K

/-- Source function `statevec_multiControlledTwoQubitUnitaryLocal` (QuEST_cpu.c,
line 1905). -/
def statevec_multiControlledTwoQubitUnitaryLocal (qureg : Qureg K) (ctrlMask : Nat)
    (q1 q2 : Nat) (u : ComplexMatrix4 K) : Qureg K :=
  let globalIndStart := qureg.chunkId * qureg.numAmpsPerChunk
  let numTasks := qureg.numAmpsPerChunk >>> 2
  { qureg with
    stateVec := forLoop numTasks (fun thisTask sv =>
      let ind00 := insertTwoZeroBits thisTask q1 q2
      let thisGlobalInd00 := ind00 + globalIndStart
      if ctrlMask ≠ 0 ∧ (ctrlMask &&& thisGlobalInd00) ≠ ctrlMask then sv
      else
        let ind01 := flipBit ind00 q1
        let ind10 := flipBit ind00 q2
        let ind11 := flipBit ind01 q2
        let re00 := sv.real ind00
        let im00 := sv.imag ind00
        let re01 := sv.real ind01
        let im01 := sv.imag ind01
        let re10 := sv.real ind10
        let im10 := sv.imag ind10
        let re11 := sv.real ind11
        let im11 := sv.imag ind11
        let reVec := Function.update sv.real ind00
          (u.real 0 0 * re00 - u.imag 0 0 * im00 +
            u.real 0 1 * re01 - u.imag 0 1 * im01 +
            u.real 0 2 * re10 - u.imag 0 2 * im10 +
            u.real 0 3 * re11 - u.imag 0 3 * im11)
        let imVec := Function.update sv.imag ind00
          (u.imag 0 0 * re00 + u.real 0 0 * im00 +
            u.imag 0 1 * re01 + u.real 0 1 * im01 +
            u.imag 0 2 * re10 + u.real 0 2 * im10 +
            u.imag 0 3 * re11 + u.real 0 3 * im11)
        let reVec := Function.update reVec ind01
          (u.real 1 0 * re00 - u.imag 1 0 * im00 +
            u.real 1 1 * re01 - u.imag 1 1 * im01 +
            u.real 1 2 * re10 - u.imag 1 2 * im10 +
            u.real 1 3 * re11 - u.imag 1 3 * im11)
        let imVec := Function.update imVec ind01
          (u.imag 1 0 * re00 + u.real 1 0 * im00 +
            u.imag 1 1 * re01 + u.real 1 1 * im01 +
            u.imag 1 2 * re10 + u.real 1 2 * im10 +
            u.imag 1 3 * re11 + u.real 1 3 * im11)
        let reVec := Function.update reVec ind10
          (u.real 2 0 * re00 - u.imag 2 0 * im00 +
            u.real 2 1 * re01 - u.imag 2 1 * im01 +
            u.real 2 2 * re10 - u.imag 2 2 * im10 +
            u.real 2 3 * re11 - u.imag 2 3 * im11)
        let imVec := Function.update imVec ind10
          (u.imag 2 0 * re00 + u.real 2 0 * im00 +
            u.imag 2 1 * re01 + u.real 2 1 * im01 +
            u.imag 2 2 * re10 + u.real 2 2 * im10 +
            u.imag 2 3 * re11 + u.real 2 3 * im11)
        let reVec := Function.update reVec ind11
          (u.real 3 0 * re00 - u.imag 3 0 * im00 +
            u.real 3 1 * re01 - u.imag 3 1 * im01 +
            u.real 3 2 * re10 - u.imag 3 2 * im10 +
            u.real 3 3 * re11 - u.imag 3 3 * im11)
        let imVec := Function.update imVec ind11
          (u.imag 3 0 * re00 + u.real 3 0 * im00 +
            u.imag 3 1 * re01 + u.real 3 1 * im01 +
            u.imag 3 2 * re10 + u.real 3 2 * im10 +
            u.imag 3 3 * re11 + u.real 3 3 * im11)
        ⟨reVec, imVec⟩) qureg.stateVec }

/-! ## Pauli Y -/

/-- Source function `statevec_pauliYLocalSmall` (QuEST_cpu.c, line 3859); `conjFac` is an
`int` that multiplies real numbers. -/
def statevec_pauliYLocalSmall (qureg : Qureg K) (targetQubit : Nat) (conjFac : Int) :
    Qureg K :=
  let numTasks := qureg.numAmpsPerChunk >>> (1 + targetQubit)
  let sizeTask := 1 <<< targetQubit
  { qureg with
    stateVec := forLoop numTasks (fun thisTask =>
      forRange (thisTask * sizeTask * 2) (thisTask * sizeTask * 2 + sizeTask) 1
        (fun indexUp sv =>
          let indexLo := indexUp + sizeTask
          let stateRealUp := sv.real indexUp
          let stateImagUp := sv.imag indexUp
          let stateVecReal := Function.update sv.real indexUp ((conjFac : K) * sv.imag indexLo)
          let stateVecImag := Function.update sv.imag indexUp
            ((conjFac : K) * -(stateVecReal indexLo))
          let stateVecReal := Function.update stateVecReal indexLo
            ((conjFac : K) * -stateImagUp)
          let stateVecImag := Function.update stateVecImag indexLo
            ((conjFac : K) * stateRealUp)
          ⟨stateVecReal, stateVecImag⟩)) qureg.stateVec }

/-- Source function `statevec_pauliYLocal` (QuEST_cpu.c, line 3897); `conjFac` is an `int`
that multiplies real numbers. -/
def statevec_pauliYLocal (qureg : Qureg K) (targetQubit : Nat) (conjFac : Int) : Qureg K :=
  let numTasks := qureg.numAmpsPerChunk >>> 1
  let sizeHalfBlock := 1 <<< targetQubit
  let sizeBlock := 2 * sizeHalfBlock
  { qureg with
    stateVec := forLoop numTasks (fun thisTask sv =>
      let thisBlock := thisTask / sizeHalfBlock
      let indexUp := thisBlock * sizeBlock + thisTask % sizeHalfBlock
      let indexLo := indexUp + sizeHalfBlock
      let stateRealUp := sv.real indexUp
      let stateImagUp := sv.imag indexUp
      let stateVecReal := Function.update sv.real indexUp ((conjFac : K) * sv.imag indexLo)
      let stateVecImag := Function.update sv.imag indexUp
        ((conjFac : K) * -(stateVecReal indexLo))
      let stateVecReal := Function.update stateVecReal indexLo ((conjFac : K) * -stateImagUp)
      let stateVecImag := Function.update stateVecImag indexLo ((conjFac : K) * stateRealUp)
      ⟨stateVecReal, stateVecImag⟩) qureg.stateVec }

/-! ## Distributed controlled compact unitary

The loops of the four functions below run the statements of
`compactUnitaryDistributed_body` and `compactUnitaryDistributedSIMD_body`. -/

/-- Source function `statevec_controlledCompactUnitaryDistributedAllSIMD` (QuEST_cpu.c,
line 3099). -/
def statevec_controlledCompactUnitaryDistributedAllSIMD (qureg : Qureg K)
    (controlQubit : Nat) (rot1 rot2 : Complex K)
    (stateVecUp stateVecLo stateVecOut : ArrayRef) : Qureg K :=
  let numTasks := qureg.numAmpsPerChunk
  let rot1Real := rot1.real
  let rot1Imag := rot1.imag
  let rot2Real := rot2.real
  let rot2Imag := rot2.imag
  let rot1RealSIMD := mm256_set1_pd rot1Real
  let rot1ImagSIMD := mm256_set1_pd rot1Imag
  let rot2RealSIMD := mm256_set1_pd rot2Real
  let rot2ImagSIMD := mm256_set1_pd rot2Imag
  forRange 0 numTasks 4
    (compactUnitaryDistributedSIMD_body rot1RealSIMD rot1ImagSIMD rot2RealSIMD rot2ImagSIMD
      stateVecUp stateVecLo stateVecOut) qureg

/-- Source function `statevec_controlledCompactUnitaryDistributedAll` (QuEST_cpu.c,
line 3151). -/
def statevec_controlledCompactUnitaryDistributedAll (qureg : Qureg K)
    (controlQubit : Nat) (rot1 rot2 : Complex K)
    (stateVecUp stateVecLo stateVecOut : ArrayRef) : Qureg K :=
  let numTasks := qureg.numAmpsPerChunk
  if numTasks > 4 then
    statevec_controlledCompactUnitaryDistributedAllSIMD qureg controlQubit rot1 rot2
      stateVecUp stateVecLo stateVecOut
  else
    let rot1Real := rot1.real
    let rot1Imag := rot1.imag
    let rot2Real := rot2.real
    let rot2Imag := rot2.imag
    forLoop numTasks
      (compactUnitaryDistributed_body rot1Real rot1Imag rot2Real rot2Imag
        stateVecUp stateVecLo stateVecOut) qureg

/-- Source function `statevec_controlledCompactUnitaryDistributedSIMD` (QuEST_cpu.c,
line 3267); `blockEnd` is a signed difference, `fmin` of `math.h` is the minimum of its two
arguments. -/
def statevec_controlledCompactUnitaryDistributedSIMD (qureg : Qureg K)
    (controlQubit : Nat) (rot1 rot2 : Complex K)
    (stateVecUp stateVecLo stateVecOut : ArrayRef) : Qureg K :=
  let chunkSize := qureg.numAmpsPerChunk
  let chunkId := qureg.chunkId
  let blockSize := 2 <<< controlQubit
  let halfBlockSize := blockSize >>> 1
  let blockStart := (chunkId * chunkSize) / blockSize
  let blockRange := if chunkSize > blockSize then chunkSize / blockSize else 1
  let blockEnd : Int :=
    (((chunkId + 1) * chunkSize : Nat) : Int) - ((blockStart * blockSize : Nat) : Int)
  if blockEnd ≤ 0 then qureg
  else
    let rot1Real := rot1.real
    let rot1Imag := rot1.imag
    let rot2Real := rot2.real
    let rot2Imag := rot2.imag
    let rot1RealSIMD := mm256_set1_pd rot1Real
    let rot1ImagSIMD := mm256_set1_pd rot1Imag
    let rot2RealSIMD := mm256_set1_pd rot2Real
    let rot2ImagSIMD := mm256_set1_pd rot2Imag
    forLoop blockRange (fun thisBlock mem =>
      let taskEnd : Int := min blockEnd ((((thisBlock + 1) * blockSize : Nat)) : Int)
      forRange (thisBlock * blockSize + halfBlockSize) taskEnd.toNat 4
        (compactUnitaryDistributedSIMD_body rot1RealSIMD rot1ImagSIMD rot2RealSIMD
          rot2ImagSIMD stateVecUp stateVecLo stateVecOut) mem) qureg

/-- The C expression `1 << n` on `int` (32 bits) as the x86 build evaluates it (the SIMD
kernels of the file need AVX, so the file is built for x86): the shift instruction takes the
count modulo 32 and the result is a signed 32-bit value. So `1 << n` is `2^n` for
`0 ≤ n < 31`, and `1 << -1` is `1 << 31`, the value `-2^31`. -/
def intOneShiftLeft (n : Int) : Int :=
  let r : Int := 2 ^ (n % 32).toNat % 2 ^ 32
  if r < 2 ^ 31 then r else r - 2 ^ 32

/-- Source function `statevec_controlledCompactUnitaryDistributed` (QuEST_cpu.c, line 3208);
the dispatch test `(1<<(controlQubit-1)) >= 4` is an expression on `int`, see
`intOneShiftLeft`. -/
def statevec_controlledCompactUnitaryDistributed
    (qureg : Qureg K) (controlQubit : Nat) (rot1 rot2 : Complex K)
    (stateVecUp stateVecLo stateVecOut : ArrayRef) : Qureg K :=
  if 1 <<< controlQubit ≥ qureg.numAmpsPerChunk then
    if extractBit controlQubit (qureg.chunkId * qureg.numAmpsPerChunk) ≠ 0 then
      statevec_controlledCompactUnitaryDistributedAll qureg controlQubit rot1 rot2
        stateVecUp stateVecLo stateVecOut
    else qureg
  else
    let numTasks := qureg.numAmpsPerChunk
    let chunkSize := qureg.numAmpsPerChunk
    let chunkId := qureg.chunkId
    if intOneShiftLeft ((controlQubit : Int) - 1) ≥ 4 then
      statevec_controlledCompactUnitaryDistributedSIMD qureg controlQubit rot1 rot2
        stateVecUp stateVecLo stateVecOut
    else
      let rot1Real := rot1.real
      let rot1Imag := rot1.imag
      let rot2Real := rot2.real
      let rot2Imag := rot2.imag
      forLoop numTasks (fun thisTask mem =>
        let controlBit := extractBit controlQubit (thisTask + chunkId * chunkSize)
        if controlBit ≠ 0 then
          compactUnitaryDistributed_body rot1Real rot1Imag rot2Real rot2Imag
            stateVecUp stateVecLo stateVecOut thisTask mem
        else mem) qureg

/-! ## Distributed depolarising and reductions of density matrices -/

/-- Source function `densmatr_mixDepolarisingDistributed` (QuEST_cpu.c, line 226). -/
def densmatr_mixDepolarisingDistributed (qureg : Qureg K) (targetQubit : Nat)
    (depolLevel : K) : Qureg K :=
  let qureg := densmatr_mixDephasing qureg targetQubit depolLevel
  let numTasks := qureg.numAmpsPerChunk >>> 1
  let sizeInnerHalfBlock := 1 <<< targetQubit
  let sizeInnerBlock := 2 * sizeInnerHalfBlock
  let sizeOuterColumn := 1 <<< qureg.numQubitsRepresented
  let sizeOuterHalfColumn := sizeOuterColumn >>> 1
  { qureg with
    stateVec := forLoop numTasks (fun thisTask sv =>
      let thisOuterColumn := thisTask / sizeOuterHalfColumn
      let thisIndexInOuterColumn := thisTask &&& (sizeOuterHalfColumn - 1)
      let thisInnerBlock := thisIndexInOuterColumn / sizeInnerHalfBlock
      let thisIndexInInnerBlock := thisTask &&& (sizeInnerHalfBlock - 1)
      let thisIndex := thisOuterColumn * sizeOuterColumn + thisInnerBlock * sizeInnerBlock
        + thisIndexInInnerBlock
      let outerBit := extractBit targetQubit
        ((thisIndex + qureg.numAmpsPerChunk * qureg.chunkId) >>> qureg.numQubitsRepresented)
      let thisIndex := thisIndex + outerBit * sizeInnerHalfBlock
      let stateVecReal := Function.update sv.real thisIndex
        ((1 - depolLevel) * sv.real thisIndex
          + depolLevel * (sv.real thisIndex + qureg.pairStateVec.real thisTask) / 2)
      let stateVecImag := Function.update sv.imag thisIndex
        ((1 - depolLevel) * sv.imag thisIndex
          + depolLevel * (sv.imag thisIndex + qureg.pairStateVec.imag thisTask) / 2)
      ⟨stateVecReal, stateVecImag⟩) qureg.stateVec }

/-- Source function `densmatr_calcPurityLocal` (QuEST_cpu.c, line 857); the OpenMP
reduction adds the terms in the order of the loop. -/
def densmatr_calcPurityLocal (qureg : Qureg K) : K :=
  let numAmps := qureg.numAmpsPerChunk
  let vecRe := qureg.stateVec.real
  let vecIm := qureg.stateVec.imag
  forLoop numAmps (fun index trace =>
    trace + (vecRe index * vecRe index + vecIm index * vecIm index)) 0

/-- Source function `densmatr_calcHilbertSchmidtDistanceSquaredLocal` (QuEST_cpu.c,
line 919). -/
def densmatr_calcHilbertSchmidtDistanceSquaredLocal (a b : Qureg K) : K :=
  let numAmps := a.numAmpsPerChunk
  let aRe := a.stateVec.real
  let aIm := a.stateVec.imag
  let bRe := b.stateVec.real
  let bIm := b.stateVec.imag
  forLoop numAmps (fun index trace =>
    let difRe := aRe index - bRe index
    let difIm := aIm index - bIm index
    trace + (difRe * difRe + difIm * difIm)) 0

/-- Source function `densmatr_calcInnerProductLocal` (QuEST_cpu.c, line 954). -/
def densmatr_calcInnerProductLocal (a b : Qureg K) : K :=
  let numAmps := a.numAmpsPerChunk
  let aRe := a.stateVec.real
  let aIm := a.stateVec.imag
  let bRe := b.stateVec.real
  let bIm := b.stateVec.imag
  forLoop numAmps (fun index trace =>
    trace + (aRe index * bRe index + aIm index * bIm index)) 0

end Kernels

/-! ## Notions used to state the properties -/

section SpecNotions

variable {K : Type}

/-- The amplitude stored at index `i`: real part and imaginary part. -/
def ComplexArray.amp (a : ComplexArray K) (i : Nat) : K × K := (a.real i, a.imag i)

/-- The loop body shared by the pairwise kernels: replace the amplitudes at `up i` and
`lo i` by `F i` of the two amplitudes read there. -/
def pairBody (up lo : Nat → Nat) (F : Nat → K × K → K × K → (K × K) × (K × K))
    (i : Nat) (sv : ComplexArray K) : ComplexArray K :=
  ⟨Function.update (Function.update sv.real (up i) (F i (sv.amp (up i)) (sv.amp (lo i))).1.1)
      (lo i) (F i (sv.amp (up i)) (sv.amp (lo i))).2.1,
   Function.update (Function.update sv.imag (up i) (F i (sv.amp (up i)) (sv.amp (lo i))).1.2)
      (lo i) (F i (sv.amp (up i)) (sv.amp (lo i))).2.2⟩

/-- The amplitude at index `x.2` of the buffer `x.1` of a register. -/
def Qureg.ampAt (qureg : Qureg K) (x : ArrayRef × Nat) : K × K := (qureg.array x.1).amp x.2

/-- Chunk `c` of an array split into chunks of `n` amplitudes. -/
def chunkOf (s : ComplexArray K) (n c : Nat) : ComplexArray K :=
  ⟨fun i => s.real (c * n + i), fun i => s.imag (c * n + i)⟩

/-- Chunk `c` of 2 of a register, as the process `c` holds it for a distributed kernel:
`n` local amplitudes, and the pair buffer filled with the amplitudes of the other chunk. -/
def splitChunk (whole : Qureg K) (n c : Nat) : Qureg K where
  numQubitsRepresented := whole.numQubitsRepresented
  numAmpsPerChunk := n
  chunkId := c
  stateVec := chunkOf whole.stateVec n c
  pairStateVec := chunkOf whole.stateVec n (1 - c)

/-- The array whose first `n` amplitudes are those of `a0` and whose amplitude `n + i` is
amplitude `i` of `a1`. -/
def concatChunks (n : Nat) (a0 a1 : ComplexArray K) : ComplexArray K :=
  ⟨fun i => if i < n then a0.real i else a1.real (i - n),
   fun i => if i < n then a0.imag i else a1.imag (i - n)⟩

/-- The array transformer `T` rewrites the pairs `(x, x + 2^t)` for the upper indices `x`
of the set `U`, all of which have bit `t` clear: each such pair receives `F` of its two
amplitudes, and every index outside the pairs keeps its amplitude. -/
def IsPairMap (F : K × K → K × K → (K × K) × (K × K)) (t : Nat)
    (T : ComplexArray K → ComplexArray K) (U : Nat → Prop) : Prop :=
  (∀ x, U x → x.testBit t = false) ∧
  (∀ s x, U x → (T s).amp x = (F (s.amp x) (s.amp (x + 2 ^ t))).1 ∧
    (T s).amp (x + 2 ^ t) = (F (s.amp x) (s.amp (x + 2 ^ t))).2) ∧
  (∀ s x, ¬ U x → (∀ y, U y → x ≠ y + 2 ^ t) → (T s).amp x = s.amp x)

/-- Index of the upper partner of task `i` for half-block size `h`. -/
def pairUp (h : Nat) (i : Nat) : Nat := i / h * (2 * h) + i % h

/-- Index of the lower partner of task `i` for half-block size `h`. -/
def pairLo (h : Nat) (i : Nat) : Nat := i / h * (2 * h) + i % h + h

/-- Index `|..0..1..>` of task `i` of the swap kernel (bit `q1` set). -/
def swapUp (q1 q2 i : Nat) : Nat := flipBit (insertTwoZeroBits i q1 q2) q1

/-- Index `|..1..0..>` of task `i` of the swap kernel (bit `q2` set). -/
def swapLo (q1 q2 i : Nat) : Nat := flipBit (insertTwoZeroBits i q1 q2) q2

/-- Recovers the task ordinal of the swap kernel from an index: deletes the bits `q1` and
`q2`. -/
def swapTask (q1 q2 j : Nat) : Nat :=
  if q1 < q2 then (j / (2 * 2 ^ q2) * 2 ^ q2 + j % 2 ^ q2) / (2 * 2 ^ q1) * 2 ^ q1
      + (j / (2 * 2 ^ q2) * 2 ^ q2 + j % 2 ^ q2) % 2 ^ q1
  else (j / (2 * 2 ^ q1) * 2 ^ q1 + j % 2 ^ q1) / (2 * 2 ^ q2) * 2 ^ q2
      + (j / (2 * 2 ^ q1) * 2 ^ q1 + j % 2 ^ q1) % 2 ^ q2

/-- Recovers the task ordinal from either index of its pair. -/
def pairTask (h j : Nat) : Nat := j / (2 * h) * h + j % h

variable [Field K]

/-- Squared modulus `re² + im²` of an amplitude. -/
def normSq (z : K × K) : K := z.1 * z.1 + z.2 * z.2

/-- Sum of `re² + im²` over the first `n` amplitudes of an array. -/
def totalProb (n : Nat) (a : ComplexArray K) : K :=
  ∑ i in Finset.range n, normSq (a.amp i)

/-- Sum of `re² + im²` over all local amplitudes of a register. -/
def Qureg.localNorm (qureg : Qureg K) : K :=
  totalProb qureg.numAmpsPerChunk qureg.stateVec

/-- The amplitude `rot1 * up + conj(rot2) * lo` that the distributed compact kernel
writes. -/
def distF (rot1 rot2 : Complex K) (up lo : K × K) : K × K :=
  (rot1.real * up.1 - rot1.imag * up.2 + rot2.real * lo.1 + rot2.imag * lo.2,
   rot1.real * up.2 + rot1.imag * up.1 + rot2.real * lo.2 - rot2.imag * lo.1)

/-- The pair `(alpha * a - conj(beta) * b, beta * a + conj(alpha) * b)` that the compact
kernels write, in their order of operations. -/
def compactF (alpha beta : Complex K) (a b : K × K) : (K × K) × (K × K) :=
  ((alpha.real * a.1 - alpha.imag * a.2 - beta.real * b.1 - beta.imag * b.2,
    alpha.real * a.2 + alpha.imag * a.1 - beta.real * b.2 + beta.imag * b.1),
   (beta.real * a.1 - beta.imag * a.2 + alpha.real * b.1 + alpha.imag * b.2,
    beta.real * a.2 + beta.imag * a.1 + alpha.real * b.2 - alpha.imag * b.1))

/-- The amplitude `z / norm`. -/
def scaleAmp (norm : K) (z : K × K) : K × K := (z.1 / norm, z.2 / norm)

/-- What the collapse kernels do to an amplitude: divide it by `norm` when `keep` holds,
set it to zero otherwise. -/
def collapseAmp (norm : K) (keep : Bool) (z : K × K) : K × K :=
  if keep then scaleAmp norm z else (0, 0)

/-- The opposite `-z` of a complex number. -/
def Complex.neg (z : Complex K) : Complex K := ⟨-z.real, -z.imag⟩

/-- Conjugate transpose of a 2x2 matrix. -/
def ComplexMatrix2.dagger (u : ComplexMatrix2 K) : ComplexMatrix2 K where
  real := fun r c => u.real c r
  imag := fun r c => -u.imag c r

/-- Product of two 2x2 complex matrices. -/
def ComplexMatrix2.mul (a b : ComplexMatrix2 K) : ComplexMatrix2 K where
  real := fun r c => (a.real r 0 * b.real 0 c - a.imag r 0 * b.imag 0 c)
    + (a.real r 1 * b.real 1 c - a.imag r 1 * b.imag 1 c)
  imag := fun r c => (a.real r 0 * b.imag 0 c + a.imag r 0 * b.real 0 c)
    + (a.real r 1 * b.imag 1 c + a.imag r 1 * b.real 1 c)

/-- The 2x2 identity matrix. -/
def ComplexMatrix2.one : ComplexMatrix2 K where
  real := fun r c => if r = c then 1 else 0
  imag := fun _ _ => 0

/-- The matrix `u` satisfies `u† u = I`. -/
def ComplexMatrix2.isUnitary (u : ComplexMatrix2 K) : Prop :=
  ComplexMatrix2.mul (ComplexMatrix2.dagger u) u = ComplexMatrix2.one

/-- The product of the matrix `u` with the column vector `(a, b)`, in the order of
operations of the kernels. -/
def unitaryF (u : ComplexMatrix2 K) (a b : K × K) : (K × K) × (K × K) :=
  ((u.real 0 0 * a.1 - u.imag 0 0 * a.2 + u.real 0 1 * b.1 - u.imag 0 1 * b.2,
    u.real 0 0 * a.2 + u.imag 0 0 * a.1 + u.real 0 1 * b.2 + u.imag 0 1 * b.1),
   (u.real 1 0 * a.1 - u.imag 1 0 * a.2 + u.real 1 1 * b.1 - u.imag 1 1 * b.2,
    u.real 1 0 * a.2 + u.imag 1 0 * a.1 + u.real 1 1 * b.2 + u.imag 1 1 * b.1))

/-- A register of four amplitudes `(1, 2i, 3, 4 + i)` over the rationals. -/
def sampleQureg : Qureg ℚ where
  numQubitsRepresented := 2
  numAmpsPerChunk := 4
  chunkId := 0
  stateVec := ⟨fun i => if i = 0 then 1 else if i = 2 then 3 else if i = 3 then 4 else 0,
    fun i => if i = 1 then 2 else if i = 3 then 1 else 0⟩
  pairStateVec := ⟨fun _ => 0, fun _ => 0⟩

/-- A register of four amplitudes `(1, 0, 3 + i, 0)`: the amplitudes at the indices with
bit 0 set are zero. -/
def sampleControlZero : Qureg ℚ where
  numQubitsRepresented := 2
  numAmpsPerChunk := 4
  chunkId := 0
  stateVec := ⟨fun i => if i = 0 then 1 else if i = 2 then 3 else 0,
    fun i => if i = 2 then 1 else 0⟩
  pairStateVec := ⟨fun _ => 0, fun _ => 0⟩

/-- A square root on the rationals that is exact on the squares of rationals; it is
`sqrt` of `math.h` at `0` and at `1`. -/
def sqrtExact (q : ℚ) : ℚ := (Nat.sqrt q.num.natAbs : ℚ) / (Nat.sqrt q.den : ℚ)

/-- Chunk 0 of 2 of the one-qubit density matrix with all four entries `1/2` (the state
`|+><+|`): local amplitudes `rho[0][0]` and the off-diagonal `rho[1][0]`; the pair buffer
holds chunk 1. -/
def sampleDensityChunk : Qureg ℚ where
  numQubitsRepresented := 1
  numAmpsPerChunk := 2
  chunkId := 0
  stateVec := ⟨fun i => if i < 2 then 1 / 2 else 0, fun _ => 0⟩
  pairStateVec := ⟨fun i => if i < 2 then 1 / 2 else 0, fun _ => 0⟩

/-- The same density matrix `|+><+|` held in one chunk of four amplitudes. -/
def sampleDensityWhole : Qureg ℚ where
  numQubitsRepresented := 1
  numAmpsPerChunk := 4
  chunkId := 0
  stateVec := ⟨fun i => if i < 4 then 1 / 2 else 0, fun _ => 0⟩
  pairStateVec := ⟨fun _ => 0, fun _ => 0⟩

/-- A register of eight amplitudes, amplitude `i` being `i + (i² - 3) i`. -/
def sampleQureg8 : Qureg ℚ where
  numQubitsRepresented := 3
  numAmpsPerChunk := 8
  chunkId := 0
  stateVec := ⟨fun i => (i : ℚ), fun i => (i : ℚ) * i - 3⟩
  pairStateVec := ⟨fun _ => 0, fun _ => 0⟩

/-- Chunk 1 of 2 of a one-qubit density matrix: the local amplitudes are `rho[0][1] = 3 + i`
and `rho[1][1] = 5`. -/
def sampleDensityTail : Qureg ℚ where
  numQubitsRepresented := 1
  numAmpsPerChunk := 2
  chunkId := 1
  stateVec := ⟨fun i => if i = 0 then 3 else if i = 1 then 5 else 0,
    fun i => if i = 0 then 1 else 0⟩
  pairStateVec := ⟨fun _ => 0, fun _ => 0⟩

/-- The pair `alpha = 3i/5`, `beta = 4/5`, of unit norm. -/
def sampleAlpha : Complex ℚ := ⟨0, 3 / 5⟩

/-- The second element of the unit pair. -/
def sampleBeta : Complex ℚ := ⟨4 / 5, 0⟩

end SpecNotions

section ChunkNotions

variable {K : Type}

/-- Chunk `c` of a density matrix of `N` qubits whose amplitudes are the array `rho`,
split into chunks of `n` amplitudes; the pair buffer is not used. -/
def densityChunk (N n c : Nat) (rho : ComplexArray K) : Qureg K where
  numQubitsRepresented := N
  numAmpsPerChunk := n
  chunkId := c
  stateVec := chunkOf rho n c
  pairStateVec := rho
end ChunkNotions

section ChannelNotions

variable {K : Type} [Field K]

/-- The loop body shared by the density-matrix channels: a task `i` that passes the test
`A` has its amplitude multiplied by `c`; otherwise a task that passes the test `G` has its
amplitude and the one at the partner index `P i` replaced by `F` of the two; any other task
changes nothing. -/
def channelBody (A G : Nat → Prop) [DecidablePred A] [DecidablePred G] (P : Nat → Nat) (c : K)
    (F : K × K → K × K → (K × K) × (K × K)) (i : Nat) (sv : ComplexArray K) : ComplexArray K :=
  if A i then
    ⟨Function.update sv.real i (c * sv.real i), Function.update sv.imag i (c * sv.imag i)⟩
  else if G i then pairBody (fun i => i) P (fun _ => F) i sv
  else sv

end ChannelNotions

section OneQubitNotions

variable {K : Type} [Field K]

/-- What `densmatr_mixDepolarisingLocal` writes to a pair `(a, b)` of amplitudes with both
target bits 0 and both 1: `retain * a + depolLevel * (a + b) / 2` and the same for `b`. -/
def depolariseF (depolLevel : K) (a b : K × K) : (K × K) × (K × K) :=
  (((1 - depolLevel) * a.1 + depolLevel * ((a.1 + b.1) / 2),
    (1 - depolLevel) * a.2 + depolLevel * ((a.2 + b.2) / 2)),
   ((1 - depolLevel) * b.1 + depolLevel * ((a.1 + b.1) / 2),
    (1 - depolLevel) * b.2 + depolLevel * ((a.2 + b.2) / 2)))

/-- What `densmatr_mixDampingLocal` writes to a pair `(a, b)` of amplitudes with both
target bits 0 and both 1: `a + damping * b` and `(1 - damping) * b`. -/
def dampF (damping : K) (a b : K × K) : (K × K) × (K × K) :=
  ((a.1 + damping * b.1, a.2 + damping * b.2),
   ((1 - damping) * b.1, (1 - damping) * b.2))

end OneQubitNotions

section BlankNotions

/-- A one-qubit density register in one chunk of four amplitudes whose contents are not
initialised (every entry is `7 + 7i`). -/
def sampleBlankDensity : Qureg ℚ where
  numQubitsRepresented := 1
  numAmpsPerChunk := 4
  chunkId := 0
  stateVec := ⟨fun _ => 7, fun _ => 7⟩
  pairStateVec := ⟨fun _ => 0, fun _ => 0⟩
end BlankNotions

section BellNotions

variable {K : Type} [Field K]

/-- The Bell state `(s, 0, 0, s)` of two qubits, `s` standing for `1/sqrt 2`. -/
def bellState (s : K) : Qureg K where
  numQubitsRepresented := 2
  numAmpsPerChunk := 4
  chunkId := 0
  stateVec := ⟨fun i => if i = 0 ∨ i = 3 then s else 0, fun _ => 0⟩
  pairStateVec := ⟨fun _ => 0, fun _ => 0⟩

end BellNotions

section InvariantNotions

variable {K : Type} [Field K]

/-- Trace of a density matrix of `N` qubits stored in the array `a`: the sum of the real
parts of the amplitudes at the indices `k * (2^N + 1)`, `k < 2^N`. -/
def densityTrace (N : Nat) (a : ComplexArray K) : K :=
  ∑ k in Finset.range (2 ^ N), a.real (k * (2 ^ N + 1))

/-- Complex conjugate of an amplitude. -/
def ampConj (z : K × K) : K × K := (z.1, -z.2)

/-- The density matrix of `N` qubits stored in `a` is Hermitian: the entry of row `r` and
column `c`, at index `r + c * 2^N`, is the conjugate of the entry of row `c` and column `r`. -/
def IsHermitian (N : Nat) (a : ComplexArray K) : Prop :=
  ∀ r, r < 2 ^ N → ∀ c, c < 2 ^ N → a.amp (r + c * 2 ^ N) = ampConj (a.amp (c + r * 2 ^ N))

/-- A one-qubit density matrix in one chunk: `rho[0][0] = 1/3`, `rho[1][1] = 2/3`,
`rho[1][0] = 1/4 + i/5` and `rho[0][1] = 1/4 - i/5`. -/
def sampleHermitian : Qureg ℚ where
  numQubitsRepresented := 1
  numAmpsPerChunk := 4
  chunkId := 0
  stateVec := ⟨fun i => if i = 0 then 1 / 3 else if i = 3 then 2 / 3 else 1 / 4,
    fun i => if i = 1 then 1 / 5 else if i = 2 then -(1 / 5) else 0⟩
  pairStateVec := ⟨fun _ => 0, fun _ => 0⟩

end InvariantNotions

section Sample16Notions

/-- A two-qubit density register in one chunk of sixteen amplitudes, amplitude `i` being
`(i + 1) + 2 i * I`. -/
def sampleDensity16 : Qureg ℚ where
  numQubitsRepresented := 2
  numAmpsPerChunk := 16
  chunkId := 0
  stateVec := ⟨fun i => (i : ℚ) + 1, fun i => 2 * (i : ℚ)⟩
  pairStateVec := ⟨fun _ => 0, fun _ => 0⟩

end Sample16Notions

section DepolStepNotions

variable {K : Type} [Field K]

/-- What steps one and two of `densmatr_mixTwoQubitDepolarisingLocal` write to an amplitude
`x` whose partner is `y`: `x + delta * y`. -/
def depolStepF (delta : K) (x y : K × K) : K × K :=
  (x.1 + delta * y.1, x.2 + delta * y.2)

/-- What step three of `densmatr_mixTwoQubitDepolarisingLocal` writes to an amplitude `x`
whose partner is `y`: `gamma * (x + delta * y)`. -/
def depolStepThreeF (delta gamma : K) (x y : K × K) : K × K :=
  (gamma * (x.1 + delta * y.1), gamma * (x.2 + delta * y.2))

end DepolStepNotions

section SampleArrayNotions

/-- The array of amplitudes `(i + 1) + 2 i * I`. -/
def sampleMatrixArray : ComplexArray ℚ := ⟨fun i => (i : ℚ) + 1, fun i => 2 * (i : ℚ)⟩

end SampleArrayNotions

section ParityNotions

/-- Number of set bits of `m`. -/
def bitCount (m : Nat) : Nat :=
  if h : m = 0 then 0 else m % 2 + bitCount (m / 2)
decreasing_by exact Nat.div_lt_self (Nat.pos_of_ne_zero h) (by decide)

end ParityNotions

section RotationNotions
variable {K : Type} [Field K]

/-- Product of two complex numbers given as pairs of real and imaginary part. -/
def cmul (z w : K × K) : K × K := (z.1 * w.1 - z.2 * w.2, z.1 * w.2 + z.2 * w.1)

/-- The body of a loop whose iteration `i` replaces the amplitude at index `i` by `g i` of
the amplitude read there. -/
def pointBody (g : Nat → K × K → K × K) (i : Nat) (sv : ComplexArray K) : ComplexArray K :=
  ⟨Function.update sv.real i (g i (sv.real i, sv.imag i)).1,
    Function.update sv.imag i (g i (sv.real i, sv.imag i)).2⟩

/-- The factor `fac` of `statevec_multiRotateZ` for a global index: `-1` if the index has
an odd number of set bits inside the mask, else `1`. -/
def rotateZFac (mask globalIndex : Nat) : K :=
  if bitCount (mask &&& globalIndex) % 2 = 1 then -1 else 1

/-- A register of `N` qubits whose chunk `c` of `n` amplitudes holds zeros. -/
def zeroChunk (N n c : Nat) : Qureg K where
  numQubitsRepresented := N
  numAmpsPerChunk := n
  chunkId := c
  stateVec := ⟨fun _ => 0, fun _ => 0⟩
  pairStateVec := ⟨fun _ => 0, fun _ => 0⟩

end RotationNotions

section SetAmpsNotions
variable {K : Type}

/-- The value of `localStartInd` of `statevec_setAmps` when its loop starts: the local index
of `startInd`, raised to 0 if negative. -/
def setAmps_localStartInd (qureg : Qureg K) (startInd : Nat) : Int :=
  if (startInd : Int) - ((qureg.chunkId * qureg.numAmpsPerChunk : Nat) : Int) < 0 then 0
  else (startInd : Int) - ((qureg.chunkId * qureg.numAmpsPerChunk : Nat) : Int)

/-- The value of `localEndInd` of `statevec_setAmps` when its loop starts: the local index
after the last amplitude to set, lowered to the chunk size if beyond it. -/
def setAmps_localEndInd (qureg : Qureg K) (startInd numAmps : Nat) : Int :=
  if (startInd : Int) - ((qureg.chunkId * qureg.numAmpsPerChunk : Nat) : Int)
      + (numAmps : Int) > (qureg.numAmpsPerChunk : Int) then (qureg.numAmpsPerChunk : Int)
  else (startInd : Int) - ((qureg.chunkId * qureg.numAmpsPerChunk : Nat) : Int)
    + (numAmps : Int)

/-- Sample values to set: element `i` is `100 + i + (200 + i) I`. -/
def sampleReals : Nat → ℚ := fun i => 100 + (i : ℚ)

/-- Imaginary parts of the sample values to set. -/
def sampleImags : Nat → ℚ := fun i => 200 + (i : ℚ)

end SetAmpsNotions

section PureStateNotions

/-- A register of 1 qubit whose pair buffer holds the pure state `(1 - 3 I, 2 - I)`. -/
def samplePureSource : Qureg ℚ where
  numQubitsRepresented := 1
  numAmpsPerChunk := 4
  chunkId := 0
  stateVec := ⟨fun _ => 0, fun _ => 0⟩
  pairStateVec := ⟨fun i => (i : ℚ) + 1, fun i => 2 * (i : ℚ) - 3⟩

end PureStateNotions

section HadamardNotions
variable {K : Type} [Field K]

/-- The pair `(r (a + b), r (a - b))` that the Hadamard gate computes from the amplitudes
`a` and `b` of a pair, for the factor `r`. -/
def hadamardF (r : K) (a b : K × K) : (K × K) × (K × K) :=
  ((r * (a.1 + b.1), r * (a.2 + b.2)), (r * (a.1 - b.1), r * (a.2 - b.2)))

end HadamardNotions

section TargetPatternNotions

/-- The pattern `P(i)` of a group of a multi-qubit gate: bit `targs j` is set for each set
bit `j < k` of `i`. -/
def targetBits (targs : Nat → Nat) (k i : Nat) : Nat :=
  forLoop k (fun j m => if i.testBit j then m ||| 2 ^ targs j else m) 0

end TargetPatternNotions

section MultiQubitTaskNotions
variable {K : Type} [Field K]

/-- The statements that `statevec_multiControlledMultiQubitUnitaryLocal` runs for a task that
passes the control test, for the `numTargAmps` indices `ind i` of its group: gather the
amplitudes of the group, then write every member as the sum over the row of the matrix. -/
def multiQubitTask (u : ComplexMatrixN K) (numTargAmps : Nat) (ind : Nat → Nat)
    (sv : ComplexArray K) : ComplexArray K :=
  let priv : (Nat → Nat) × (Nat → K) × (Nat → K) := forLoop numTargAmps (fun i priv =>
    let ampInds := Function.update priv.1 i (ind i)
    let reAmps := Function.update priv.2.1 i (sv.real (ind i))
    let imAmps := Function.update priv.2.2 i (sv.imag (ind i))
    (ampInds, reAmps, imAmps)) (fun _ => 0, fun _ => 0, fun _ => 0)
  let ampInds := priv.1
  let reAmps := priv.2.1
  let imAmps := priv.2.2
  forLoop numTargAmps (fun r sv =>
    let ind := ampInds r
    let reVec := Function.update sv.real ind 0
    let imVec := Function.update sv.imag ind 0
    let acc : ComplexArray K := forLoop numTargAmps (fun c acc =>
      let reElem := u.real r c
      let imElem := u.imag r c
      let reVec := Function.update acc.real ind
        (acc.real ind + (reAmps c * reElem - imAmps c * imElem))
      let imVec := Function.update acc.imag ind
        (acc.imag ind + (reAmps c * imElem + imAmps c * reElem))
      ⟨reVec, imVec⟩) ⟨reVec, imVec⟩
    acc) sv

end MultiQubitTaskNotions

section MultiQubitSampleNotions

/-- Sample targets in the order `(2, 0)`. -/
def sampleTargs : Nat → Nat := fun j => if j = 0 then 2 else 0

/-- The 4x4 matrix with `u[r][c] = 1` for `r = c + 1 mod 4` and 0 elsewhere. -/
def sampleCycleMatrix : ComplexMatrixN ℚ where
  numQubits := 2
  real := fun r c => if r = (c + 1) % 4 then 1 else 0
  imag := fun _ _ => 0

end MultiQubitSampleNotions

section ReductionNotions

/-- A register of 1 qubit as a density matrix, with the amplitudes `(i + 1) + (2 i - 3) I`. -/
def sampleReductionA : Qureg ℚ where
  numQubitsRepresented := 1
  numAmpsPerChunk := 4
  chunkId := 0
  stateVec := ⟨fun i => (i : ℚ) + 1, fun i => 2 * (i : ℚ) - 3⟩
  pairStateVec := ⟨fun _ => 0, fun _ => 0⟩

/-- A second register of the same size, with the amplitudes `2 - i I`. -/
def sampleReductionB : Qureg ℚ where
  numQubitsRepresented := 1
  numAmpsPerChunk := 4
  chunkId := 0
  stateVec := ⟨fun _ => 2, fun i => -(i : ℚ)⟩
  pairStateVec := ⟨fun _ => 0, fun _ => 0⟩

end ReductionNotions

section TupleSumNotions
variable {K : Type} [Field K]

/-- Sum of the 4-tuple of amplitudes of a density matrix of `N` qubits related to the
amplitude at index `j` by flipping the row and the column bit together on `q1`, on `q2`, or
on both. -/
def tupleSum (N q1 q2 : Nat) (a : ComplexArray K) (j : Nat) : K × K :=
  a.amp j + a.amp (flipBit (flipBit j q1) (q1 + N)) + a.amp (flipBit (flipBit j q2) (q2 + N))
    + a.amp (flipBit (flipBit (flipBit (flipBit j q2) (q2 + N)) q1) (q1 + N))

end TupleSumNotions

section PauliYNotions
variable {K : Type} [Field K]

/-- The statements shared by the loops of `statevec_pauliYLocalSmall` and
`statevec_pauliYLocal`, in their order: the real part at `indexUp` is overwritten first, and
the imaginary part at `indexUp` then reads the real part at `indexLo` from the updated
array. -/
def pauliY_pair (conjFac : Int) (indexUp indexLo : Nat) (sv : ComplexArray K) :
    ComplexArray K :=
  let stateRealUp := sv.real indexUp
  let stateImagUp := sv.imag indexUp
  let stateVecReal := Function.update sv.real indexUp ((conjFac : K) * sv.imag indexLo)
  let stateVecImag := Function.update sv.imag indexUp
    ((conjFac : K) * -(stateVecReal indexLo))
  let stateVecReal := Function.update stateVecReal indexLo ((conjFac : K) * -stateImagUp)
  let stateVecImag := Function.update stateVecImag indexLo ((conjFac : K) * stateRealUp)
  ⟨stateVecReal, stateVecImag⟩

/-- The pair `up' = c (Im lo, -Re lo)`, `lo' = c (-Im up, Re up)` computed from the
original amplitudes `up` and `lo`. -/
def pauliYF (c : K) (a b : K × K) : (K × K) × (K × K) :=
  ((c * b.2, c * -b.1), (c * -a.2, c * a.1))

/-- The matrix `conjFac * {{0, -i}, {i, 0}}`. -/
def pauliYMatrix (conjFac : Int) : ComplexMatrix2 K where
  real := fun _ _ => 0
  imag := fun r c => if r = 0 ∧ c = 1 then -(conjFac : K)
    else if r = 1 ∧ c = 0 then (conjFac : K) else 0

/-- The statements of one iteration of `statevec_unitaryLocal` on the pair
`(indexUp, indexLo)`. -/
def unitary_pair (u : ComplexMatrix2 K) (indexUp indexLo : Nat) (sv : ComplexArray K) :
    ComplexArray K :=
  let stateRealUp := sv.real indexUp
  let stateImagUp := sv.imag indexUp
  let stateRealLo := sv.real indexLo
  let stateImagLo := sv.imag indexLo
  let stateVecReal := Function.update sv.real indexUp
    (u.real 0 0 * stateRealUp - u.imag 0 0 * stateImagUp
      + u.real 0 1 * stateRealLo - u.imag 0 1 * stateImagLo)
  let stateVecImag := Function.update sv.imag indexUp
    (u.real 0 0 * stateImagUp + u.imag 0 0 * stateRealUp
      + u.real 0 1 * stateImagLo + u.imag 0 1 * stateRealLo)
  let stateVecReal := Function.update stateVecReal indexLo
    (u.real 1 0 * stateRealUp - u.imag 1 0 * stateImagUp
      + u.real 1 1 * stateRealLo - u.imag 1 1 * stateImagLo)
  let stateVecImag := Function.update stateVecImag indexLo
    (u.real 1 0 * stateImagUp + u.imag 1 0 * stateRealUp
      + u.real 1 1 * stateImagLo + u.imag 1 1 * stateRealLo)
  ⟨stateVecReal, stateVecImag⟩

end PauliYNotions

section ControlledNotSmallNotions
variable {K : Type}

/-- The pair with its two amplitudes exchanged. -/
def swapF (a b : K × K) : (K × K) × (K × K) := (b, a)

/-- The loops over blocks, tasks and offsets of `statevec_controlledNotLocalSmall`
(QuEST_cpu.c, line 3680) for a control qubit inside the chunk, with the statements of the
innermost loop abstracted as `step indexUp indexLo`. -/
def controlledNotLocalSmall_loops {σ : Type} (numAmpsPerChunk controlQubit targetQubit : Nat)
    (step : Nat → Nat → σ → σ) : σ → σ :=
  let numTasks := if targetQubit > controlQubit then 1 <<< (targetQubit - controlQubit - 1)
    else 1 <<< (controlQubit - targetQubit - 1)
  let numBlocks :=
    if targetQubit > controlQubit then numAmpsPerChunk >>> (1 + targetQubit)
    else numAmpsPerChunk >>> (1 + controlQubit)
  let sizeTask := if targetQubit > controlQubit then 1 <<< controlQubit else 1 <<< targetQubit
  let blockOffset := 1 <<< controlQubit
  let sizeHalfBlock := 1 <<< targetQubit
  let sizeBlock := if targetQubit > controlQubit then 2 * sizeHalfBlock
    else 2 <<< controlQubit
  forLoop numBlocks (fun thisBlock =>
    forLoop numTasks (fun thisTask =>
      forRange (thisBlock * sizeBlock + sizeTask * thisTask * 2 + blockOffset)
        (thisBlock * sizeBlock + sizeTask * thisTask * 2 + sizeTask + blockOffset) 1
        (fun indexUp sv =>
          let indexLo := indexUp + sizeHalfBlock
          step indexUp indexLo sv)))

/-- A step that only records the visit of the pair of upper index `indexUp`: the table of
counters is the real part of an array of natural numbers. -/
def visitStep (indexUp _indexLo : Nat) (visits : ComplexArray Nat) : ComplexArray Nat :=
  ⟨Function.update visits.real indexUp (visits.real indexUp + 1), visits.imag⟩

/-- What `visitStep` does to a pair: one more visit for the upper index. -/
def visitF (a b : Nat × Nat) : (Nat × Nat) × (Nat × Nat) := ((a.1 + 1, a.2), b)

end ControlledNotSmallNotions

section TwoQubitNotions
variable {K : Type} [Field K]

/-- The 4x4 matrix `u` as a `ComplexMatrixN` on two qubits. -/
def matrix4ToN (u : ComplexMatrix4 K) : ComplexMatrixN K where
  numQubits := 2
  real := fun r c => u.real ⟨r % 4, Nat.mod_lt r (by decide)⟩ ⟨c % 4, Nat.mod_lt c (by decide)⟩
  imag := fun r c => u.imag ⟨r % 4, Nat.mod_lt r (by decide)⟩ ⟨c % 4, Nat.mod_lt c (by decide)⟩

/-- The target list `[q1, q2]`. -/
def pairTargs (q1 q2 : Nat) : Nat → Nat := fun j => if j = 0 then q1 else q2

/-- A sample 4x4 matrix, `u[r][c] = (r + 2 c) + (r c - 1) i`. -/
def sampleMatrix4 : ComplexMatrix4 ℚ where
  real := fun r c => (r.val : ℚ) + 2 * (c.val : ℚ)
  imag := fun r c => (r.val : ℚ) * (c.val : ℚ) - 1

end TwoQubitNotions

section DiagWalkNotions
variable {K : Type}

end DiagWalkNotions

section DepolDistributedNotions
variable {K : Type} [Field K]

/-- The local index `thisIndex` that the loop of `densmatr_mixDepolarisingDistributed`
(QuEST_cpu.c, line 226) computes for the task `thisTask`. -/
def mixDepolarisingDistributed_index (qureg : Qureg K) (targetQubit thisTask : Nat) : Nat :=
  let sizeInnerHalfBlock := 1 <<< targetQubit
  let sizeInnerBlock := 2 * sizeInnerHalfBlock
  let sizeOuterColumn := 1 <<< qureg.numQubitsRepresented
  let sizeOuterHalfColumn := sizeOuterColumn >>> 1
  let thisOuterColumn := thisTask / sizeOuterHalfColumn
  let thisIndexInOuterColumn := thisTask &&& (sizeOuterHalfColumn - 1)
  let thisInnerBlock := thisIndexInOuterColumn / sizeInnerHalfBlock
  let thisIndexInInnerBlock := thisTask &&& (sizeInnerHalfBlock - 1)
  let thisIndex := thisOuterColumn * sizeOuterColumn + thisInnerBlock * sizeInnerBlock
    + thisIndexInInnerBlock
  let outerBit := extractBit targetQubit
    ((thisIndex + qureg.numAmpsPerChunk * qureg.chunkId) >>> qureg.numQubitsRepresented)
  thisIndex + outerBit * sizeInnerHalfBlock

/-- Chunk 1 of 2 of a density matrix of 2 qubits (two columns, 8 amplitudes): the local
amplitude `i` is `(i + 1) + 2 i * I` and the amplitude `i` of the pair buffer is
`(10 + i) - i * I`. -/
def sampleDepolChunk : Qureg ℚ where
  numQubitsRepresented := 2
  numAmpsPerChunk := 8
  chunkId := 1
  stateVec := ⟨fun i => (i : ℚ) + 1, fun i => 2 * (i : ℚ)⟩
  pairStateVec := ⟨fun i => 10 + (i : ℚ), fun i => -(i : ℚ)⟩

end DepolDistributedNotions

section ControlledDistributedNotions

/-- A chunk of four amplitudes `1, 2, 3, 4` (chunk 0), with the amplitudes `5, 6, 7` behind
it in the buffer and a pair buffer of zeros. -/
def sampleDistChunk : Qureg ℚ where
  numQubitsRepresented := 3
  numAmpsPerChunk := 4
  chunkId := 0
  stateVec := ⟨fun i => (i : ℚ) + 1, fun _ => 0⟩
  pairStateVec := ⟨fun _ => 0, fun _ => 0⟩

/-- The real factor 2. -/
def sampleRotTwo : Complex ℚ := ⟨2, 0⟩

/-- The factor 0. -/
def sampleRotZero : Complex ℚ := ⟨0, 0⟩

end ControlledDistributedNotions

section FidelityNotions

/-- The density matrix `|e><e|` of 16 qubits on a single chunk of `2^32` amplitudes, for the
basis state `e = 2^15`, with the pure state `|e>` in the pair buffer: the one nonzero
amplitude of the matrix is at index `e + 2^16 e = 2^15 + 2^31`. -/
def sampleFidelity16 : Qureg ℚ where
  numQubitsRepresented := 16
  numAmpsPerChunk := 2 ^ 32
  chunkId := 0
  stateVec := ⟨fun i => if i = 2 ^ 15 + 2 ^ 31 then 1 else 0, fun _ => 0⟩
  pairStateVec := ⟨fun i => if i = 2 ^ 15 then 1 else 0, fun _ => 0⟩
end FidelityNotions

section PartitionNotions
variable {K : Type}

/-- The loop of `statevec_compactUnitaryLocal` (QuEST_cpu.c, line 1876) over the tasks, with
the statements that follow the computation of the two indices abstracted as
`step indexUp indexLo`. -/
def statevec_compactUnitaryLocal_tasks {σ : Type} (qureg : Qureg K) (targetQubit : Nat)
    (step : Nat → Nat → σ → σ) : σ → σ :=
  let numTasks := qureg.numAmpsPerChunk >>> 1
  let sizeHalfBlock := 1 <<< targetQubit
  let sizeBlock := 2 * sizeHalfBlock
  forLoop numTasks (fun thisTask s =>
    let thisBlock := thisTask / sizeHalfBlock
    let indexUp := thisBlock * sizeBlock + thisTask % sizeHalfBlock
    let indexLo := indexUp + sizeHalfBlock
    step indexUp indexLo s)

/-- The pairs `(indexUp, indexLo)` of the iterations of `statevec_compactUnitaryLocal`, in
the order of the loop. -/
def pairVisits (qureg : Qureg K) (targetQubit : Nat) : List (Nat × Nat) :=
  statevec_compactUnitaryLocal_tasks qureg targetQubit
    (fun indexUp indexLo log => log ++ [(indexUp, indexLo)]) []

end PartitionNotions

section SharedTemporariesNotions
variable {K : Type}

/-- The upper indices of the iterations of the loops of
`statevec_controlledCompactUnitaryLocalAllSmall`, in the order of the loops. -/
def allSmall_iterations (qureg : Qureg K) (targetQubit : Nat) : List Nat :=
  statevec_controlledCompactUnitaryLocalAllSmall_loops qureg targetQubit
    (fun indexUp _ log => log ++ [indexUp]) []

/-- The execution of the region of `statevec_controlledCompactUnitaryLocalAllSmall` by a
single thread, which is also the run of a build without OpenMP: thread 0 takes the two
steps of each iteration, in the order of the loops. -/
def allSmall_sequential (qureg : Qureg K) (targetQubit : Nat) : List AllSmallStep :=
  statevec_controlledCompactUnitaryLocalAllSmall_loops qureg targetQubit
    (fun indexUp _ trace => trace ++ [AllSmallStep.load 0 indexUp, AllSmallStep.store 0]) []

/-- The loads of a trace, in order: the thread and the upper index of the iteration. -/
def allSmall_loads : List AllSmallStep → List (Nat × Nat)
  | [] => []
  | AllSmallStep.load thread indexUp :: rest => (thread, indexUp) :: allSmall_loads rest
  | AllSmallStep.store _ :: rest => allSmall_loads rest

/-- The steps of one thread in a trace, in order: `true` for a load, `false` for a store. -/
def allSmall_stepsOf (thread : Nat) : List AllSmallStep → List Bool
  | [] => []
  | AllSmallStep.load th _ :: rest =>
    if th = thread then true :: allSmall_stepsOf thread rest else allSmall_stepsOf thread rest
  | AllSmallStep.store th :: rest =>
    if th = thread then false :: allSmall_stepsOf thread rest else allSmall_stepsOf thread rest

/-- A thread runs its iterations one after the other: load, store, load, store, ... -/
def allSmall_alternates : List Bool → Bool
  | [] => true
  | true :: false :: rest => allSmall_alternates rest
  | _ => false

/-- The trace is an execution of the region of
`statevec_controlledCompactUnitaryLocalAllSmall` by `numThreads` threads under
`omp for schedule (static)`: every step is one of a thread of the team, every thread runs
its iterations one after the other, the iterations are those of the loops, each one taken
once, and the threads share them in blocks in the order of the loops (an iteration that
comes earlier in the loops belongs to the same thread or to one with a smaller number). -/
def IsAllSmallExecution (numThreads : Nat) (qureg : Qureg K) (targetQubit : Nat)
    (trace : List AllSmallStep) : Prop :=
  (∀ s, s ∈ trace → s.thread < numThreads) ∧
  (∀ thread, thread < numThreads →
    allSmall_alternates (allSmall_stepsOf thread trace) = true) ∧
  ((allSmall_loads trace).map Prod.snd).Perm (allSmall_iterations qureg targetQubit) ∧
  (∀ p, p ∈ allSmall_loads trace → ∀ q, q ∈ allSmall_loads trace → p.2 < q.2 → p.1 ≤ q.1)

/-- Chunk 1 of 2 of a register of 3 qubits, with the amplitudes 1, 2, 3, 4: qubit 2 is fixed
to 1 by the chunk id. -/
def sampleControlOutside : Qureg ℚ where
  numQubitsRepresented := 3
  numAmpsPerChunk := 4
  chunkId := 1
  stateVec := ⟨fun i => (i : ℚ) + 1, fun _ => 0⟩
  pairStateVec := ⟨fun _ => 0, fun _ => 0⟩

/-- An execution of the two iterations of the loops on `sampleControlOutside`, target qubit
0, by two threads: thread 0 has the iteration of the pair `(0, 1)`, thread 1 the one of the
pair `(2, 3)`, and thread 1 loads between the loads and the stores of thread 0. -/
def sampleRaceTrace : List AllSmallStep :=
  [AllSmallStep.load 0 0, AllSmallStep.load 1 2, AllSmallStep.store 0, AllSmallStep.store 1]

end SharedTemporariesNotions

/-! # Theorems -/

/-! ## Loops -/

section LoopLemmas

variable {σ : Type}

theorem forLoop_congr (n : Nat) (body body' : Nat → σ → σ)
    (h : ∀ i, i < n → ∀ s, body i s = body' i s) (s : σ) :
    forLoop n body s = forLoop n body' s := by
  induction n with
  | zero => rfl
  | succ n ih =>
    simp only [forLoop]
    rw [ih (fun i hi => h i (Nat.lt_succ_of_lt hi)), h n (Nat.lt_succ_self n)]

theorem forLoop_invariant (P : σ → Prop) (n : Nat) (body : Nat → σ → σ)
    (hstep : ∀ i, i < n → ∀ s, P s → P (body i s)) (s : σ) (h0 : P s) :
    P (forLoop n body s) := by
  induction n with
  | zero => exact h0
  | succ n ih =>
    simp only [forLoop]
    exact hstep n (Nat.lt_succ_self n) _ (ih (fun i hi => hstep i (Nat.lt_succ_of_lt hi)))

end LoopLemmas

/-! ## Amplitude arrays and loops with disjoint footprints -/

section Footprint

variable {K : Type}

theorem ComplexArray.ext_amp {a b : ComplexArray K} (h : ∀ i, a.amp i = b.amp i) : a = b := by
  cases a with
  | mk ar ai =>
    cases b with
    | mk br bi =>
      have hr : ar = br := funext fun i => congrArg Prod.fst (h i)
      have hi : ai = bi := funext fun i => congrArg Prod.snd (h i)
      rw [hr, hi]

/-- A loop whose iteration `i` writes only inside its footprint `W i`, reads only
inside `W i`, and whose footprints are pairwise disjoint, computes at every location of
`W i` what iteration `i` alone computes from the initial state, and leaves every other
location as it was. The state is seen through `amp`. -/
theorem forLoop_footprint {σ ι V : Type} (amp : σ → ι → V) (n : Nat) (body : Nat → σ → σ)
    (W : Nat → ι → Prop)
    (frame : ∀ i, i < n → ∀ s j, ¬ W i j → amp (body i s) j = amp s j)
    (loc : ∀ i, i < n → ∀ s s', (∀ j, W i j → amp s j = amp s' j) →
      ∀ j, W i j → amp (body i s) j = amp (body i s') j)
    (disj : ∀ i i' j, i < n → i' < n → W i j → W i' j → i = i')
    (s : σ) :
    (∀ i, i < n → ∀ j, W i j → amp (forLoop n body s) j = amp (body i s) j) ∧
    (∀ j, (∀ i, i < n → ¬ W i j) → amp (forLoop n body s) j = amp s j) := by
  induction n with
  | zero =>
    refine ⟨fun i hi => absurd hi (Nat.not_lt_zero i), fun j _ => rfl⟩
  | succ n ih =>
    have ih' := ih (fun i hi => frame i (Nat.lt_succ_of_lt hi))
      (fun i hi => loc i (Nat.lt_succ_of_lt hi))
      (fun i i' j hi hi' => disj i i' j (Nat.lt_succ_of_lt hi) (Nat.lt_succ_of_lt hi'))
    obtain ⟨ih1, ih2⟩ := ih'
    have hn := Nat.lt_succ_self n
    constructor
    · intro i hi j hj
      simp only [forLoop]
      rcases Nat.lt_succ_iff_lt_or_eq.mp hi with hlt | heq
      · have hnW : ¬ W n j := fun hn' =>
          absurd (disj i n j hi hn hj hn') (Nat.ne_of_lt hlt)
        rw [frame n hn _ j hnW]
        exact ih1 i hlt j hj
      · subst heq
        apply loc i hn _ _ _ j hj
        intro j' hj'
        apply ih2
        intro i' hi' hW
        exact absurd (disj i' i j' (Nat.lt_succ_of_lt hi') hi hW hj') (Nat.ne_of_lt hi')
    · intro j hj
      simp only [forLoop]
      rw [frame n hn _ j (hj n hn)]
      exact ih2 j (fun i hi => hj i (Nat.lt_succ_of_lt hi))

theorem pairBody_amp_up (up lo : Nat → Nat) (F : Nat → K × K → K × K → (K × K) × (K × K))
    (i : Nat) (sv : ComplexArray K) (hne : up i ≠ lo i) :
    (pairBody up lo F i sv).amp (up i) = (F i (sv.amp (up i)) (sv.amp (lo i))).1 := by
  simp [pairBody, ComplexArray.amp, Function.update_noteq hne]

theorem pairBody_amp_lo (up lo : Nat → Nat) (F : Nat → K × K → K × K → (K × K) × (K × K))
    (i : Nat) (sv : ComplexArray K) :
    (pairBody up lo F i sv).amp (lo i) = (F i (sv.amp (up i)) (sv.amp (lo i))).2 := by
  simp [pairBody, ComplexArray.amp]

theorem pairBody_amp_other (up lo : Nat → Nat) (F : Nat → K × K → K × K → (K × K) × (K × K))
    (i : Nat) (sv : ComplexArray K) (j : Nat) (h1 : j ≠ up i) (h2 : j ≠ lo i) :
    (pairBody up lo F i sv).amp j = sv.amp j := by
  simp [pairBody, ComplexArray.amp, Function.update_noteq h1, Function.update_noteq h2]

/-- A loop of pairwise steps over pairwise disjoint pairs: every pair receives `F` of
its initial amplitudes, every index outside the pairs is unchanged. The pairs are
disjoint because `dec` recovers the iteration from either index. -/
theorem forLoop_pairBody (n : Nat) (up lo : Nat → Nat)
    (F : Nat → K × K → K × K → (K × K) × (K × K)) (dec : Nat → Nat)
    (hne : ∀ i, i < n → up i ≠ lo i)
    (hup : ∀ i, i < n → dec (up i) = i) (hlo : ∀ i, i < n → dec (lo i) = i)
    (s : ComplexArray K) :
    (∀ i, i < n →
      (forLoop n (pairBody up lo F) s).amp (up i) = (F i (s.amp (up i)) (s.amp (lo i))).1 ∧
      (forLoop n (pairBody up lo F) s).amp (lo i) = (F i (s.amp (up i)) (s.amp (lo i))).2) ∧
    (∀ j, (∀ i, i < n → j ≠ up i ∧ j ≠ lo i) →
      (forLoop n (pairBody up lo F) s).amp j = s.amp j) := by
  obtain ⟨k1, k2⟩ := forLoop_footprint ComplexArray.amp n (pairBody up lo F)
    (fun i j => j = up i ∨ j = lo i)
    (by
      intro i _ sv j hj
      exact pairBody_amp_other _ _ _ _ _ _ (fun h => hj (Or.inl h)) (fun h => hj (Or.inr h)))
    (by
      intro i hi sv sv' hag j hj
      have e1 := hag (up i) (Or.inl rfl)
      have e2 := hag (lo i) (Or.inr rfl)
      rcases hj with rfl | rfl
      · rw [pairBody_amp_up _ _ _ _ _ (hne i hi), pairBody_amp_up _ _ _ _ _ (hne i hi), e1, e2]
      · rw [pairBody_amp_lo, pairBody_amp_lo, e1, e2])
    (by
      intro i i' j hi hi' h h'
      have d1 : dec j = i := by
        rcases h with rfl | rfl
        · exact hup i hi
        · exact hlo i hi
      have d2 : dec j = i' := by
        rcases h' with rfl | rfl
        · exact hup i' hi'
        · exact hlo i' hi'
      exact d1.symm.trans d2)
    s
  constructor
  · intro i hi
    constructor
    · rw [k1 i hi (up i) (Or.inl rfl)]
      exact pairBody_amp_up _ _ _ _ _ (hne i hi)
    · rw [k1 i hi (lo i) (Or.inr rfl)]
      exact pairBody_amp_lo _ _ _ _ _
  · intro j hj
    apply k2
    intro i hi hW
    rcases hW with h | h
    · exact (hj i hi).1 h
    · exact (hj i hi).2 h

/-- Running a loop of pairwise steps for `F` and then one for `G`, over the same
disjoint pairs, where `G` undoes `F`, gives back the initial array. -/
theorem forLoop_pairBody_inverse (n : Nat) (up lo : Nat → Nat)
    (F G : K × K → K × K → (K × K) × (K × K)) (dec : Nat → Nat)
    (hne : ∀ i, i < n → up i ≠ lo i)
    (hup : ∀ i, i < n → dec (up i) = i) (hlo : ∀ i, i < n → dec (lo i) = i)
    (hinv : ∀ a b, G (F a b).1 (F a b).2 = (a, b)) (s : ComplexArray K) :
    forLoop n (pairBody up lo (fun _ => G)) (forLoop n (pairBody up lo (fun _ => F)) s) = s := by
  obtain ⟨f1, f2⟩ := forLoop_pairBody n up lo (fun _ => F) dec hne hup hlo s
  obtain ⟨g1, g2⟩ := forLoop_pairBody n up lo (fun _ => G) dec hne hup hlo
    (forLoop n (pairBody up lo (fun _ => F)) s)
  apply ComplexArray.ext_amp
  intro j
  by_cases hj : ∃ i, i < n ∧ (j = up i ∨ j = lo i)
  · obtain ⟨i, hi, hji⟩ := hj
    have e := hinv (s.amp (up i)) (s.amp (lo i))
    rcases hji with rfl | rfl
    · rw [(g1 i hi).1, (f1 i hi).1, (f1 i hi).2, e]
    · rw [(g1 i hi).2, (f1 i hi).1, (f1 i hi).2, e]
  · have hj' : ∀ i, i < n → j ≠ up i ∧ j ≠ lo i := by
      intro i hi
      exact ⟨fun h => hj ⟨i, hi, Or.inl h⟩, fun h => hj ⟨i, hi, Or.inr h⟩⟩
    rw [g2 j hj', f2 j hj']

theorem update_update_self (f : Nat → K) (a b : Nat) (x y : K) (hx : f a = x) (hy : f b = y) :
    Function.update (Function.update f a x) b y = f := by
  subst hx hy
  rw [Function.update_eq_self, Function.update_eq_self]

theorem array_storeReal (q : Qureg K) (r r' : ArrayRef) (f : (Nat → K) → (Nat → K)) :
    (q.storeReal r f).array r'
      = if r' = r then ⟨f (q.array r').real, (q.array r').imag⟩ else q.array r' := by
  cases r <;> cases r' <;> simp [Qureg.storeReal, Qureg.array]

theorem array_storeImag (q : Qureg K) (r r' : ArrayRef) (f : (Nat → K) → (Nat → K)) :
    (q.storeImag r f).array r'
      = if r' = r then ⟨(q.array r').real, f (q.array r').imag⟩ else q.array r' := by
  cases r <;> cases r' <;> simp [Qureg.storeImag, Qureg.array]

theorem mm256_storeu_pd_inside (a : Nat → K) (i : Nat) (v : Fin 4 → K) (j : Nat)
    (h : i ≤ j ∧ j < i + 4) :
    mm256_storeu_pd a i v j = v ⟨j - i, by omega⟩ := by
  unfold mm256_storeu_pd
  rw [dif_pos h]

theorem mm256_storeu_pd_outside (a : Nat → K) (i : Nat) (v : Fin 4 → K) (j : Nat)
    (h : ¬ (i ≤ j ∧ j < i + 4)) :
    mm256_storeu_pd a i v j = a j := by
  unfold mm256_storeu_pd
  rw [dif_neg h]

end Footprint

section Bits

theorem extractBit_eq_one_iff (k x : Nat) : extractBit k x = 1 ↔ x.testBit k = true := by
  unfold extractBit
  rw [Nat.testBit_to_div_mod]
  simp

theorem extractBit_eq_zero_iff (k x : Nat) : extractBit k x = 0 ↔ x.testBit k = false := by
  unfold extractBit
  rw [Nat.testBit_to_div_mod]
  have := Nat.mod_two_eq_zero_or_one (x / 2 ^ k)
  rcases this with h | h <;> simp [h]

theorem extractBit_ne_zero_iff (k x : Nat) : extractBit k x ≠ 0 ↔ x.testBit k = true := by
  rw [Ne, extractBit_eq_zero_iff]
  simp

theorem testBit_div_two_pow (x n i : Nat) : (x / 2 ^ n).testBit i = x.testBit (n + i) := by
  rw [← Nat.shiftRight_eq_div_pow, Nat.testBit_shiftRight]

/-- Bits of `hi * 2^k + lo` for `lo < 2^k`. -/
theorem testBit_mul_two_pow_add (hi lo k j : Nat) (hlo : lo < 2 ^ k) :
    (hi * 2 ^ k + lo).testBit j = if j < k then lo.testBit j else hi.testBit (j - k) := by
  rw [Nat.mul_comm]
  exact Nat.testBit_mul_pow_two_add hi hlo j

theorem testBit_insertZeroBit (x k j : Nat) :
    (insertZeroBit x k).testBit j
      = if j < k then x.testBit j else if j = k then false else x.testBit (j - 1) := by
  unfold insertZeroBit
  have hlt : x % 2 ^ k < 2 ^ (k + 1) :=
    Nat.lt_trans (Nat.mod_lt _ (Nat.two_pow_pos k)) (Nat.pow_lt_pow_right (by norm_num) (by omega))
  rw [testBit_mul_two_pow_add _ _ _ _ hlt, Nat.testBit_mod_two_pow, testBit_div_two_pow]
  by_cases h1 : j < k
  · have : j < k + 1 := by omega
    simp [h1, this]
  · by_cases h2 : j = k
    · subst h2
      simp
    · have h3 : ¬ j < k + 1 := by omega
      have h4 : k + (j - (k + 1)) = j - 1 := by omega
      simp [h1, h2, h3, h4]

theorem testBit_flipBit (x k j : Nat) :
    (flipBit x k).testBit j = if j = k then !x.testBit j else x.testBit j := by
  unfold flipBit
  rw [Nat.one_shiftLeft, Nat.testBit_xor, Nat.testBit_two_pow]
  by_cases h : j = k
  · subst h; simp
  · have : ¬ k = j := fun e => h e.symm
    simp [h, this]

/-- Adding `2^k` to a number whose bit `k` is clear flips that bit. -/
theorem add_two_pow_eq_flipBit (x k : Nat) (h : x.testBit k = false) :
    x + 2 ^ k = flipBit x k := by
  have hx : x = (x / 2 ^ (k + 1)) * 2 ^ (k + 1) + x % 2 ^ k := by
    have h1 := Nat.div_add_mod' x (2 ^ (k + 1))
    have h2 : x % 2 ^ (k + 1) = x % 2 ^ k := by
      rw [Nat.mod_pow_succ]
      have : x / 2 ^ k % 2 = 0 := by
        have := (extractBit_eq_zero_iff k x).mpr h
        exact this
      rw [this]; simp
    rw [h2] at h1
    exact h1.symm
  have hr : x % 2 ^ k < 2 ^ k := Nat.mod_lt _ (Nat.two_pow_pos k)
  apply Nat.eq_of_testBit_eq
  intro j
  rw [testBit_flipBit]
  have e : x + 2 ^ k = (x / 2 ^ (k + 1)) * 2 ^ (k + 1) + (2 ^ k + x % 2 ^ k) := by omega
  have hlt : 2 ^ k + x % 2 ^ k < 2 ^ (k + 1) := by rw [Nat.pow_succ]; omega
  have hlt' : x % 2 ^ k < 2 ^ (k + 1) := by rw [Nat.pow_succ]; omega
  rw [e, testBit_mul_two_pow_add _ _ _ _ hlt]
  conv_rhs => rw [hx, testBit_mul_two_pow_add _ _ _ _ hlt']
  by_cases h1 : j = k
  · subst h1
    simp [Nat.testBit_two_pow_add_eq, Nat.testBit_lt_two_pow hr]
  · by_cases h2 : j < k
    · have : j < k + 1 := by omega
      simp [h1, this, Nat.testBit_two_pow_add_gt h2]
    · have : ¬ j < k + 1 := by omega
      simp [h1, this]
end Bits

section PairMap

variable {K : Type}

theorem testBit_add_two_pow_self (y t : Nat) (h : y.testBit t = false) :
    (y + 2 ^ t).testBit t = true := by
  rw [add_two_pow_eq_flipBit y t h, testBit_flipBit, if_pos rfl, h]
  rfl

/-- A loop whose iterations rewrite the pairs of pairwise disjoint sets of upper indices
rewrites the pairs of their union. -/
theorem isPairMap_forLoop (F : K × K → K × K → (K × K) × (K × K)) (t n : Nat)
    (body : Nat → ComplexArray K → ComplexArray K) (U : Nat → Nat → Prop)
    (hbody : ∀ i, i < n → IsPairMap F t (body i) (U i))
    (hdisj : ∀ i i' x, i < n → i' < n → U i x → U i' x → i = i') :
    IsPairMap F t (forLoop n body) (fun x => ∃ i, i < n ∧ U i x) := by
  have hfoot := fun s => forLoop_footprint ComplexArray.amp n body
    (fun i x => U i x ∨ ∃ y, U i y ∧ x = y + 2 ^ t)
    (by
      intro i hi s x hx
      exact (hbody i hi).2.2 s x (fun h => hx (Or.inl h))
        (fun y hy hxy => hx (Or.inr ⟨y, hy, hxy⟩)))
    (by
      intro i hi s s' hag x hx
      have hval : ∀ y, U i y → (F (s.amp y) (s.amp (y + 2 ^ t)))
          = (F (s'.amp y) (s'.amp (y + 2 ^ t))) := by
        intro y hy
        rw [hag y (Or.inl hy), hag (y + 2 ^ t) (Or.inr ⟨y, hy, rfl⟩)]
      rcases hx with hx | ⟨y, hy, rfl⟩
      · rw [((hbody i hi).2.1 s x hx).1, ((hbody i hi).2.1 s' x hx).1, hval x hx]
      · rw [((hbody i hi).2.1 s y hy).2, ((hbody i hi).2.1 s' y hy).2, hval y hy])
    (by
      intro i i' x hi hi' h h'
      rcases h with h | ⟨y, hy, rfl⟩
      · rcases h' with h' | ⟨y', hy', rfl⟩
        · exact hdisj i i' x hi hi' h h'
        · have c1 := (hbody i hi).1 _ h
          have c2 := testBit_add_two_pow_self y' t ((hbody i' hi').1 _ hy')
          rw [c1] at c2
          exact absurd c2 (by decide)
      · rcases h' with h' | ⟨y', hy', hyy⟩
        · have c1 := (hbody i' hi').1 _ h'
          have c2 := testBit_add_two_pow_self y t ((hbody i hi).1 _ hy)
          rw [c1] at c2
          exact absurd c2 (by decide)
        · have e : y = y' := by omega
          subst e
          exact hdisj i i' y hi hi' hy hy')
    s
  refine ⟨?_, ?_, ?_⟩
  · rintro x ⟨i, hi, hx⟩
    exact (hbody i hi).1 x hx
  · rintro s x ⟨i, hi, hx⟩
    obtain ⟨k1, _⟩ := hfoot s
    rw [k1 i hi x (Or.inl hx), k1 i hi (x + 2 ^ t) (Or.inr ⟨x, hx, rfl⟩)]
    exact (hbody i hi).2.1 s x hx
  · intro s x hx hlo
    obtain ⟨_, k2⟩ := hfoot s
    apply k2
    rintro i hi (h | ⟨y, hy, hxy⟩)
    · exact hx ⟨i, hi, h⟩
    · exact hlo y ⟨i, hi, hy⟩ hxy

/-- The set of upper indices of a pair map can be replaced by an equivalent one. -/
theorem isPairMap_congr (F : K × K → K × K → (K × K) × (K × K)) (t : Nat)
    (T : ComplexArray K → ComplexArray K) (U V : Nat → Prop) (h : IsPairMap F t T U)
    (huv : ∀ x, U x ↔ V x) : IsPairMap F t T V := by
  have e : U = V := funext fun x => propext (huv x)
  rw [← e]
  exact h

/-- Two transformers that rewrite the pairs of the same set compute the same array. -/
theorem isPairMap_unique (F : K × K → K × K → (K × K) × (K × K)) (t : Nat)
    (T T' : ComplexArray K → ComplexArray K) (U : Nat → Prop)
    (h : IsPairMap F t T U) (h' : IsPairMap F t T' U) (s : ComplexArray K) : T s = T' s := by
  apply ComplexArray.ext_amp
  intro x
  by_cases hx : U x
  · rw [(h.2.1 s x hx).1, (h'.2.1 s x hx).1]
  · by_cases hy : ∃ y, U y ∧ x = y + 2 ^ t
    · obtain ⟨y, hy, rfl⟩ := hy
      rw [(h.2.1 s y hy).2, (h'.2.1 s y hy).2]
    · have hlo : ∀ y, U y → x ≠ y + 2 ^ t := fun y hy' hxy => hy ⟨y, hy', hxy⟩
      rw [h.2.2 s x hx hlo, h'.2.2 s x hx hlo]

/-- The transformer that changes nothing rewrites the pairs of the empty set. -/
theorem isPairMap_id (F : K × K → K × K → (K × K) × (K × K)) (t : Nat) :
    IsPairMap F t (fun s => s) (fun _ => False) :=
  ⟨fun _ h => h.elim, fun _ _ h => h.elim, fun _ _ _ _ => rfl⟩

end PairMap

section Digits

theorem extractBit_lt_two (k x : Nat) : extractBit k x < 2 := Nat.mod_lt _ (by decide)

theorem extractBit_eq_ite (k x : Nat) : extractBit k x = if x.testBit k then 1 else 0 := by
  by_cases h : x.testBit k = true
  · rw [if_pos h]; exact (extractBit_eq_one_iff k x).mpr h
  · rw [if_neg h]; exact (extractBit_eq_zero_iff k x).mpr (by simpa using h)

theorem extractBit_mod (q p x : Nat) (h : q < p) : extractBit q (x % 2 ^ p) = extractBit q x := by
  rw [extractBit_eq_ite, extractBit_eq_ite, Nat.testBit_mod_two_pow]
  simp [h]

/-- Split of a number at bit `p`: high part, bit `p`, low part. -/
theorem split_at_bit (p x : Nat) :
    x = (x / 2 ^ (p + 1)) * 2 ^ (p + 1) + extractBit p x * 2 ^ p + x % 2 ^ p := by
  have h1 := Nat.div_add_mod' x (2 ^ (p + 1))
  have h2 : x % 2 ^ (p + 1) = x % 2 ^ p + 2 ^ p * (x / 2 ^ p % 2) := Nat.mod_pow_succ
  unfold extractBit
  rw [h2] at h1
  rw [Nat.mul_comm (x / 2 ^ p % 2)]
  omega

/-- The split of a number at bit `p` is unique. -/
theorem split_unique (p hi b lo x : Nat) (hb : b < 2) (hlo : lo < 2 ^ p)
    (hx : x = hi * 2 ^ (p + 1) + b * 2 ^ p + lo) :
    x / 2 ^ (p + 1) = hi ∧ extractBit p x = b ∧ x % 2 ^ p = lo := by
  have hpos : 0 < 2 ^ p := Nat.two_pow_pos p
  have e1 : x = (hi * 2 + b) * 2 ^ p + lo := by rw [hx, Nat.pow_succ]; ring
  have hdiv : x / 2 ^ p = hi * 2 + b := by
    rw [e1, Nat.add_comm, Nat.add_mul_div_right _ _ hpos, Nat.div_eq_of_lt hlo, Nat.zero_add]
  have hmod : x % 2 ^ p = lo := by
    rw [e1, Nat.add_comm, Nat.add_mul_mod_self_right, Nat.mod_eq_of_lt hlo]
  refine ⟨?_, ?_, hmod⟩
  · rw [Nat.pow_succ, ← Nat.div_div_eq_div_mul, hdiv]
    omega
  · unfold extractBit
    rw [hdiv]
    omega

/-- The indices `S, ..., S + 2^q - 1` that start at
`S = block * 2^(p+1) + bp * 2^p + task * 2^(q+1) + bq * 2^q` are the numbers whose part above
bit `p` is `block`, whose bit `p` is `bp`, whose part between the bits `q` and `p` is `task`
and whose bit `q` is `bq`. -/
theorem range_iff_digits (p q bp bq block task x : Nat) (hq : q < p) (hbp : bp < 2)
    (hbq : bq < 2) (htask : task < 2 ^ (p - q - 1)) :
    (block * 2 ^ (p + 1) + bp * 2 ^ p + task * 2 ^ (q + 1) + bq * 2 ^ q ≤ x ∧
      x < block * 2 ^ (p + 1) + bp * 2 ^ p + task * 2 ^ (q + 1) + bq * 2 ^ q + 2 ^ q) ↔
    (x / 2 ^ (p + 1) = block ∧ extractBit p x = bp ∧ x % 2 ^ p / 2 ^ (q + 1) = task ∧
      extractBit q x = bq) := by
  have hqpos : 0 < 2 ^ q := Nat.two_pow_pos q
  have hpq : 2 ^ p = 2 ^ (p - q - 1) * 2 ^ (q + 1) := by
    rw [← Nat.pow_add]; congr 1; omega
  have hq1 : 2 ^ (q + 1) = 2 * 2 ^ q := by rw [Nat.pow_succ]; ring
  constructor
  · rintro ⟨h1, h2⟩
    obtain ⟨j, rfl⟩ : ∃ j, x = block * 2 ^ (p + 1) + bp * 2 ^ p + task * 2 ^ (q + 1)
        + bq * 2 ^ q + j := ⟨x - (block * 2 ^ (p + 1) + bp * 2 ^ p + task * 2 ^ (q + 1)
        + bq * 2 ^ q), by omega⟩
    have hj : j < 2 ^ q := by omega
    have hlo : task * 2 ^ (q + 1) + bq * 2 ^ q + j < 2 ^ p := by
      have h3 : (task + 1) * 2 ^ (q + 1) ≤ 2 ^ (p - q - 1) * 2 ^ (q + 1) :=
        Nat.mul_le_mul_right _ htask
      have h4 : bq * 2 ^ q ≤ 1 * 2 ^ q := Nat.mul_le_mul_right _ (by omega)
      rw [hpq]
      calc task * 2 ^ (q + 1) + bq * 2 ^ q + j < task * 2 ^ (q + 1) + 2 ^ (q + 1) := by omega
        _ = (task + 1) * 2 ^ (q + 1) := by ring
        _ ≤ _ := h3
    obtain ⟨a1, a2, a3⟩ := split_unique p block bp (task * 2 ^ (q + 1) + bq * 2 ^ q + j)
      (block * 2 ^ (p + 1) + bp * 2 ^ p + task * 2 ^ (q + 1) + bq * 2 ^ q + j)
      hbp hlo (by omega)
    obtain ⟨b1, b2, _⟩ := split_unique q task bq j (task * 2 ^ (q + 1) + bq * 2 ^ q + j)
      hbq hj rfl
    refine ⟨a1, a2, ?_, ?_⟩
    · rw [a3, b1]
    · rw [← extractBit_mod q p _ hq, a3, b2]
  · rintro ⟨h1, h2, h3, h4⟩
    have s1 := split_at_bit p x
    have s2 := split_at_bit q (x % 2 ^ p)
    rw [extractBit_mod q p x hq, h3, h4] at s2
    rw [h1, h2] at s1
    have hm : x % 2 ^ p % 2 ^ q < 2 ^ q := Nat.mod_lt _ hqpos
    omega
theorem digits_union_task (p q bp bq block x : Nat) (hq : q < p) :
    (∃ task, task < 2 ^ (p - q - 1) ∧ (x / 2 ^ (p + 1) = block ∧ extractBit p x = bp ∧
      x % 2 ^ p / 2 ^ (q + 1) = task ∧ extractBit q x = bq)) ↔
    (x / 2 ^ (p + 1) = block ∧ extractBit p x = bp ∧ extractBit q x = bq) := by
  constructor
  · rintro ⟨task, _, h1, h2, _, h4⟩
    exact ⟨h1, h2, h4⟩
  · rintro ⟨h1, h2, h4⟩
    refine ⟨x % 2 ^ p / 2 ^ (q + 1), ?_, h1, h2, rfl, h4⟩
    rw [Nat.div_lt_iff_lt_mul (Nat.two_pow_pos _), ← Nat.pow_add]
    have e : p - q - 1 + (q + 1) = p := by omega
    rw [e]
    exact Nat.mod_lt _ (Nat.two_pow_pos p)

theorem digits_union_block (k p x : Nat) (hp : p < k) (P : Prop) :
    (∃ block, block < 2 ^ (k - p - 1) ∧ (x / 2 ^ (p + 1) = block ∧ P)) ↔ (x < 2 ^ k ∧ P) := by
  have e : 2 ^ (k - p - 1) * 2 ^ (p + 1) = 2 ^ k := by
    rw [← Nat.pow_add]; congr 1; omega
  constructor
  · rintro ⟨block, hb, h1, h2⟩
    refine ⟨?_, h2⟩
    rw [← h1, Nat.div_lt_iff_lt_mul (Nat.two_pow_pos _), e] at hb
    exact hb
  · rintro ⟨h1, h2⟩
    refine ⟨x / 2 ^ (p + 1), ?_, rfl, h2⟩
    rw [Nat.div_lt_iff_lt_mul (Nat.two_pow_pos _), e]
    exact h1

theorem two_pow_shiftRight (k p : Nat) (hp : p < k) : (2 ^ k) >>> (1 + p) = 2 ^ (k - p - 1) := by
  rw [Nat.shiftRight_eq_div_pow]
  have e : 2 ^ k = 2 ^ (k - p - 1) * 2 ^ (1 + p) := by
    rw [← Nat.pow_add]; congr 1; omega
  rw [e, Nat.mul_div_cancel _ (Nat.two_pow_pos _)]

end Digits

section Blocks

variable {K : Type}

/-- The loops over blocks and tasks of the restructured kernels: when the inner loop of
block `block` and task `task` rewrites the pairs whose upper index lies in
`[start, stop)`, with `start = block * 2^(p+1) + bp * 2^p + task * 2^(q+1) + bq * 2^q` and
`stop = start + 2^q`, the two outer loops rewrite the pairs of all upper indices below
`2^k` whose bit `p` is `bp` and whose bit `q` is `bq`. The target `t` is the one of `p`
and `q` whose bit is required to be 0. -/
theorem isPairMap_blocks (F : K × K → K × K → (K × K) × (K × K)) (k p q bp bq t : Nat)
    (hq : q < p) (hp : p < k) (hbp : bp < 2) (hbq : bq < 2)
    (ht : (t = p ∧ bp = 0) ∨ (t = q ∧ bq = 0))
    (start stop : Nat → Nat → Nat) (inner : Nat → Nat → ComplexArray K → ComplexArray K)
    (hstart : ∀ block task, start block task
      = block * 2 ^ (p + 1) + bp * 2 ^ p + task * 2 ^ (q + 1) + bq * 2 ^ q)
    (hstop : ∀ block task, stop block task
      = block * 2 ^ (p + 1) + bp * 2 ^ p + task * 2 ^ (q + 1) + bq * 2 ^ q + 2 ^ q)
    (hinner : ∀ block task,
      (∀ x, start block task ≤ x → x < stop block task → x.testBit t = false) →
      IsPairMap F t (inner block task) (fun x => start block task ≤ x ∧ x < stop block task)) :
    IsPairMap F t
      (forLoop (2 ^ (k - p - 1)) (fun block =>
        forLoop (2 ^ (p - q - 1)) (fun task => inner block task)))
      (fun x => x < 2 ^ k ∧ extractBit p x = bp ∧ extractBit q x = bq) := by
  have hdig : ∀ block task x, task < 2 ^ (p - q - 1) →
      ((start block task ≤ x ∧ x < stop block task) ↔
        (x / 2 ^ (p + 1) = block ∧ extractBit p x = bp ∧ x % 2 ^ p / 2 ^ (q + 1) = task ∧
          extractBit q x = bq)) := by
    intro block task x htask
    rw [hstart, hstop]
    exact range_iff_digits p q bp bq block task x hq hbp hbq htask
  have hclean : ∀ block task, task < 2 ^ (p - q - 1) →
      ∀ x, start block task ≤ x → x < stop block task → x.testBit t = false := by
    intro block task htask x h1 h2
    obtain ⟨_, d2, _, d4⟩ := (hdig block task x htask).mp ⟨h1, h2⟩
    rcases ht with ⟨rfl, rfl⟩ | ⟨rfl, rfl⟩
    · exact (extractBit_eq_zero_iff _ _).mp d2
    · exact (extractBit_eq_zero_iff _ _).mp d4
  have htasks : ∀ block, IsPairMap F t
      (forLoop (2 ^ (p - q - 1)) (fun task => inner block task))
      (fun x => x / 2 ^ (p + 1) = block ∧ extractBit p x = bp ∧ extractBit q x = bq) := by
    intro block
    apply isPairMap_congr _ _ _ (fun x => ∃ task, task < 2 ^ (p - q - 1) ∧
      (start block task ≤ x ∧ x < stop block task))
    · apply isPairMap_forLoop
      · intro task htask
        exact hinner block task (hclean block task htask)
      · intro task task' x h h' hx hx'
        have d := ((hdig block task x h).mp hx).2.2.1
        have d' := ((hdig block task' x h').mp hx').2.2.1
        exact d.symm.trans d'
    · intro x
      rw [← digits_union_task p q bp bq block x hq]
      constructor
      · rintro ⟨task, htask, h⟩
        exact ⟨task, htask, (hdig block task x htask).mp h⟩
      · rintro ⟨task, htask, h⟩
        exact ⟨task, htask, (hdig block task x htask).mpr h⟩
  apply isPairMap_congr _ _ _ (fun x => ∃ block, block < 2 ^ (k - p - 1) ∧
    (x / 2 ^ (p + 1) = block ∧ (extractBit p x = bp ∧ extractBit q x = bq)))
  · apply isPairMap_forLoop
    · intro block _
      exact htasks block
    · intro block block' x _ _ hx hx'
      exact hx.1.symm.trans hx'.1
  · intro x
    exact digits_union_block k p x hp _

end Blocks

section PairIndex

theorem pairUp_div (h i : Nat) (hh : 0 < h) : pairUp h i / (2 * h) = i / h := by
  unfold pairUp
  have h2 : 0 < 2 * h := by omega
  rw [Nat.add_comm, Nat.add_mul_div_right _ _ h2, Nat.div_eq_of_lt, Nat.zero_add]
  have := Nat.mod_lt i hh
  omega

theorem pairLo_div (h i : Nat) (hh : 0 < h) : pairLo h i / (2 * h) = i / h := by
  unfold pairLo
  have h2 : 0 < 2 * h := by omega
  rw [Nat.add_assoc, Nat.add_comm, Nat.add_mul_div_right _ _ h2, Nat.div_eq_of_lt,
    Nat.zero_add]
  have := Nat.mod_lt i hh
  omega

theorem pairTask_pairUp (h i : Nat) (hh : 0 < h) : pairTask h (pairUp h i) = i := by
  unfold pairTask
  rw [pairUp_div h i hh]
  unfold pairUp
  have e : i / h * (2 * h) = (i / h * 2) * h := by ring
  rw [e, Nat.add_comm (_ * h) (i % h), Nat.add_mul_mod_self_right, Nat.mod_mod]
  exact Nat.div_add_mod' i h

theorem pairTask_pairLo (h i : Nat) (hh : 0 < h) : pairTask h (pairLo h i) = i := by
  unfold pairTask
  rw [pairLo_div h i hh]
  unfold pairLo
  have e : i / h * (2 * h) + i % h + h = (i / h * 2 + 1) * h + i % h := by ring
  rw [e, Nat.add_comm (_ * h) (i % h), Nat.add_mul_mod_self_right, Nat.mod_mod]
  exact Nat.div_add_mod' i h

theorem pairUp_ne_pairLo (h i : Nat) (hh : 0 < h) : pairUp h i ≠ pairLo h i := by
  unfold pairUp pairLo
  omega

theorem two_pow_shiftRight_one (k : Nat) (hk : 0 < k) : (2 ^ k) >>> 1 = 2 ^ (k - 1) := by
  obtain ⟨d, rfl⟩ : ∃ d, k = d + 1 := ⟨k - 1, by omega⟩
  rw [Nat.shiftRight_eq_div_pow, Nat.pow_succ]
  simp

/-- Both indices of every pair of a chunk of `2^k` amplitudes lie inside the chunk when
the target is below `k`. -/
theorem pairLo_lt (k t i : Nat) (ht : t < k) (hi : i < (2 ^ k) >>> 1) :
    pairLo (2 ^ t) i < 2 ^ k := by
  unfold pairLo
  rw [two_pow_shiftRight_one k (by omega)] at hi
  obtain ⟨d, rfl⟩ : ∃ d, k = t + 1 + d := ⟨k - (t + 1), by omega⟩
  have hpos : 0 < 2 ^ t := Nat.two_pow_pos t
  have e : 2 ^ (t + 1 + d) = 2 ^ d * (2 * 2 ^ t) := by ring
  have e2 : 2 ^ (t + 1 + d - 1) = 2 ^ d * 2 ^ t := by
    rw [show t + 1 + d - 1 = d + t by omega, Nat.pow_add]
  rw [e2] at hi
  have hq : i / 2 ^ t < 2 ^ d := by
    rw [Nat.div_lt_iff_lt_mul hpos]; exact hi
  have hm := Nat.mod_lt i hpos
  rw [e]
  calc i / 2 ^ t * (2 * 2 ^ t) + i % 2 ^ t + 2 ^ t
      < i / 2 ^ t * (2 * 2 ^ t) + 2 * 2 ^ t := by omega
    _ = (i / 2 ^ t + 1) * (2 * 2 ^ t) := by ring
    _ ≤ 2 ^ d * (2 * 2 ^ t) := Nat.mul_le_mul_right _ hq

theorem pairUp_lt (k t i : Nat) (ht : t < k) (hi : i < (2 ^ k) >>> 1) :
    pairUp (2 ^ t) i < 2 ^ k := by
  have h := pairLo_lt k t i ht hi
  unfold pairLo at h
  unfold pairUp
  omega

theorem pairUp_pairTask (t x : Nat) (h : x.testBit t = false) :
    pairUp (2 ^ t) (pairTask (2 ^ t) x) = x := by
  have hpos : 0 < 2 ^ t := Nat.two_pow_pos t
  have h0 : extractBit t x = 0 := (extractBit_eq_zero_iff t x).mpr h
  have s1 := split_at_bit t x
  rw [h0, Nat.pow_succ] at s1
  have hm := Nat.mod_lt x hpos
  have e2 : 2 ^ t * 2 = 2 * 2 ^ t := Nat.mul_comm _ _
  rw [e2] at s1
  have hdiv : pairTask (2 ^ t) x / 2 ^ t = x / (2 * 2 ^ t) := by
    unfold pairTask
    rw [Nat.add_comm, Nat.add_mul_div_right _ _ hpos, Nat.div_eq_of_lt (Nat.mod_lt _ hpos),
      Nat.zero_add]
  have hmod : pairTask (2 ^ t) x % 2 ^ t = x % 2 ^ t := by
    unfold pairTask
    rw [Nat.add_comm, Nat.add_mul_mod_self_right, Nat.mod_mod]
  unfold pairUp
  rw [hdiv, hmod]
  omega

theorem pairTask_lt (k t x : Nat) (ht : t < k) (hx : x < 2 ^ k) :
    pairTask (2 ^ t) x < (2 ^ k) >>> 1 := by
  have hpos : 0 < 2 ^ t := Nat.two_pow_pos t
  rw [two_pow_shiftRight_one k (by omega)]
  have e : 2 ^ (k - t - 1) * (2 * 2 ^ t) = 2 ^ k := by
    rw [← Nat.pow_succ', ← Nat.pow_add]; congr 1; omega
  have e' : 2 ^ (k - t - 1) * 2 ^ t = 2 ^ (k - 1) := by
    rw [← Nat.pow_add]; congr 1; omega
  have hq : x / (2 * 2 ^ t) < 2 ^ (k - t - 1) := by
    rw [Nat.div_lt_iff_lt_mul (by omega), e]; exact hx
  have hm := Nat.mod_lt x hpos
  unfold pairTask
  calc x / (2 * 2 ^ t) * 2 ^ t + x % 2 ^ t < x / (2 * 2 ^ t) * 2 ^ t + 2 ^ t := by omega
    _ = (x / (2 * 2 ^ t) + 1) * 2 ^ t := by ring
    _ ≤ 2 ^ (k - t - 1) * 2 ^ t := Nat.mul_le_mul_right _ hq
    _ = 2 ^ (k - 1) := e'

end PairIndex

section SwapIndex

theorem testBit_pairTask (p x j : Nat) :
    (pairTask (2 ^ p) x).testBit j = if j < p then x.testBit j else x.testBit (j + 1) := by
  unfold pairTask
  rw [testBit_mul_two_pow_add _ _ _ _ (Nat.mod_lt _ (Nat.two_pow_pos p)),
    Nat.testBit_mod_two_pow, ← Nat.pow_succ', testBit_div_two_pow]
  by_cases h : j < p
  · simp [h]
  · have e : p + 1 + (j - p) = j + 1 := by omega
    simp [h, e]

theorem testBit_eq_false_of_lt_two_pow (x i j : Nat) (hx : x < 2 ^ i) (hj : i ≤ j) :
    x.testBit j = false :=
  Nat.testBit_lt_two_pow (Nat.lt_of_lt_of_le hx (Nat.pow_le_pow_right (by decide) hj))

/-- Bits of the index with zeros inserted at the positions `s < b`. -/
theorem testBit_insertZeroBit_twice (x s b j : Nat) (hsb : s < b) :
    (insertZeroBit (insertZeroBit x s) b).testBit j
      = if j < s then x.testBit j else if j = s then false
        else if j < b then x.testBit (j - 1) else if j = b then false
        else x.testBit (j - 2) := by
  rw [testBit_insertZeroBit, testBit_insertZeroBit, testBit_insertZeroBit]
  by_cases h1 : j < s
  · have : j < b := by omega
    simp [h1, this]
  · by_cases h2 : j = s
    · simp [h2, hsb]
    · by_cases h3 : j < b
      · simp [h1, h2, h3]
      · by_cases h4 : j = b
        · have h5 : ¬ (b < s) := by omega
          simp [h4, h5]
        · have h5 : ¬ (j - 1 < s) := by omega
          have h6 : ¬ (j - 1 = s) := by omega
          have h7 : j - 1 - 1 = j - 2 := by omega
          simp [h1, h2, h3, h4, h5, h6, h7]

theorem insertTwoZeroBits_eq (x q1 q2 : Nat) :
    insertTwoZeroBits x q1 q2
      = if q1 < q2 then insertZeroBit (insertZeroBit x q1) q2
        else insertZeroBit (insertZeroBit x q2) q1 := by
  unfold insertTwoZeroBits
  by_cases h : q1 < q2 <;> simp [h]

theorem isOddParity_iff (x q1 q2 : Nat) :
    isOddParity x q1 q2 = true ↔ x.testBit q1 ≠ x.testBit q2 := by
  unfold isOddParity
  rw [extractBit_eq_ite, extractBit_eq_ite]
  cases x.testBit q1 <;> cases x.testBit q2 <;> simp

/-- Flipping bit `s` of the index with zeros at `s < b` and deleting both bits gives back
the task ordinal; the same for bit `b`. -/
theorem swapDec_flip (x s b q : Nat) (hsb : s < b) (hq : q = s ∨ q = b) :
    pairTask (2 ^ s) (pairTask (2 ^ b) (flipBit (insertZeroBit (insertZeroBit x s) b) q))
      = x := by
  apply Nat.eq_of_testBit_eq
  intro j
  rw [testBit_pairTask, testBit_pairTask, testBit_pairTask]
  simp only [testBit_flipBit, testBit_insertZeroBit_twice _ _ _ _ hsb]
  by_cases h1 : j < s
  · have a1 : j < b := by omega
    have a2 : j ≠ q := by omega
    simp [h1, a1, a2]
  · by_cases h2 : j + 1 < b
    · have a2 : j + 1 ≠ q := by omega
      have a3 : ¬ (j + 1 < s) := by omega
      have a4 : j + 1 ≠ s := by omega
      simp [h1, h2, a2, a3, a4]
    · have a2 : j + 1 + 1 ≠ q := by omega
      have a3 : ¬ (j + 1 + 1 < s) := by omega
      have a4 : j + 1 + 1 ≠ s := by omega
      have a5 : ¬ (j + 1 + 1 < b) := by omega
      have a6 : j + 1 + 1 ≠ b := by omega
      simp [h1, h2, a2, a3, a4, a5, a6]

/-- An index is the index with zeros at `s < b` of its task ordinal, with its own bits
`s` and `b` put back. -/
theorem swap_reconstruct (i s b : Nat) (hsb : s < b) (j : Nat) :
    (insertZeroBit (insertZeroBit (pairTask (2 ^ s) (pairTask (2 ^ b) i)) s) b).testBit j
      = if j = s ∨ j = b then false else i.testBit j := by
  rw [testBit_insertZeroBit_twice _ _ _ _ hsb]
  simp only [testBit_pairTask]
  by_cases h1 : j < s
  · have a1 : j < b := by omega
    have a2 : ¬ (j = s ∨ j = b) := by omega
    simp [h1, a1, a2]
  · by_cases h2 : j = s
    · simp [h2]
    · by_cases h3 : j < b
      · have a1 : ¬ (j - 1 < s) := by omega
        have a2 : j - 1 + 1 = j := by omega
        have a3 : ¬ (j = s ∨ j = b) := by omega
        have a4 : j ≠ b := by omega
        simp [h1, h2, h3, a1, a2, a4]
      · by_cases h4 : j = b
        · have a1 : ¬ (b < s) := by omega
          simp [h4, a1]
        · have a1 : ¬ (j - 2 < s) := by omega
          have a2 : ¬ (j - 2 + 1 < b) := by omega
          have a3 : j - 2 + 1 + 1 = j := by omega
          have a4 : ¬ (j = s ∨ j = b) := by omega
          simp [h1, h2, h3, h4, a1, a2, a3, a4]

theorem swapDec_lt (k s b i : Nat) (hsb : s < b) (hb : b < k) (hi : i < 2 ^ k) :
    pairTask (2 ^ s) (pairTask (2 ^ b) i) < (2 ^ k) >>> 2 := by
  have h1 := pairTask_lt k b i hb hi
  rw [two_pow_shiftRight_one k (by omega)] at h1
  have h2 := pairTask_lt (k - 1) s _ (by omega) h1
  rw [two_pow_shiftRight_one (k - 1) (by omega)] at h2
  have e : (2 ^ k) >>> 2 = 2 ^ (k - 1 - 1) := by
    have := two_pow_shiftRight k 1 (by omega)
    rw [show (1 + 1) = 2 from rfl] at this
    rw [this]
  rw [e]
  exact h2

/-- The index with zeros at `s < b` of a task ordinal below `2^k / 4`, with bit `q` set,
is below `2^k`. -/
theorem swap_index_lt (k s b q x : Nat) (hsb : s < b) (hb : b < k) (hq : q = s ∨ q = b)
    (hx : x < (2 ^ k) >>> 2) :
    flipBit (insertZeroBit (insertZeroBit x s) b) q < 2 ^ k := by
  have e : (2 ^ k) >>> 2 = 2 ^ (k - 2) := by
    have := two_pow_shiftRight k 1 (by omega)
    rw [show (1 + 1) = 2 from rfl] at this
    rw [this, show k - 1 - 1 = k - 2 by omega]
  rw [e] at hx
  apply Nat.lt_pow_two_of_testBit
  intro j hj
  rw [testBit_flipBit, testBit_insertZeroBit_twice _ _ _ _ hsb]
  have a1 : ¬ (j < s) := by omega
  have a2 : j ≠ s := by omega
  have a3 : ¬ (j < b) := by omega
  have a4 : j ≠ b := by omega
  have a5 : j ≠ q := by omega
  simp only [a1, a2, a3, a4, a5, if_false]
  exact testBit_eq_false_of_lt_two_pow x (k - 2) (j - 2) hx (by omega)

end SwapIndex

section Norm

variable {K : Type} [Field K]

theorem totalProb_split (n : Nat) (a : ComplexArray K) (x y : Nat) (hx : x < n) (hy : y < n)
    (hxy : x ≠ y) :
    totalProb n a = normSq (a.amp x) + normSq (a.amp y)
      + ∑ i in ((Finset.range n).erase x).erase y, normSq (a.amp i) := by
  unfold totalProb
  have h1 : x ∈ Finset.range n := Finset.mem_range.mpr hx
  have h2 : y ∈ (Finset.range n).erase x :=
    Finset.mem_erase.mpr ⟨fun h => hxy h.symm, Finset.mem_range.mpr hy⟩
  rw [← Finset.add_sum_erase _ _ h1, ← Finset.add_sum_erase _ _ h2, add_assoc]

/-- A pairwise step that preserves the squared moduli of its pair preserves the sum
over the chunk. -/
theorem totalProb_pairBody (n : Nat) (up lo : Nat → Nat)
    (F : Nat → K × K → K × K → (K × K) × (K × K)) (i : Nat) (sv : ComplexArray K)
    (hup : up i < n) (hlo : lo i < n) (hne : up i ≠ lo i)
    (hF : normSq (F i (sv.amp (up i)) (sv.amp (lo i))).1
        + normSq (F i (sv.amp (up i)) (sv.amp (lo i))).2
        = normSq (sv.amp (up i)) + normSq (sv.amp (lo i))) :
    totalProb n (pairBody up lo F i sv) = totalProb n sv := by
  rw [totalProb_split n _ _ _ hup hlo hne, totalProb_split n sv _ _ hup hlo hne]
  rw [pairBody_amp_up _ _ _ _ _ hne, pairBody_amp_lo, hF]
  congr 1
  apply Finset.sum_congr rfl
  intro j hj
  have hj2 : j ≠ lo i := (Finset.mem_erase.mp hj).1
  have hj1 : j ≠ up i := (Finset.mem_erase.mp (Finset.mem_erase.mp hj).2).1
  rw [pairBody_amp_other _ _ _ _ _ _ hj1 hj2]

end Norm

section Unitary

variable {K : Type} [Field K]

theorem unitaryLocal_stateVec (qureg : Qureg K) (t : Nat) (u : ComplexMatrix2 K) :
    (statevec_unitaryLocal qureg t u).stateVec
      = forLoop (qureg.numAmpsPerChunk >>> 1)
          (pairBody (pairUp (1 <<< t)) (pairLo (1 <<< t)) (fun _ => unitaryF u))
          qureg.stateVec := rfl

theorem compactUnitaryLocal_eq_unitaryLocal_aux (qureg : Qureg K) (targetQubit : Nat)
    (alpha beta : Complex K) :
    statevec_compactUnitaryLocal qureg targetQubit alpha beta
      = statevec_unitaryLocal qureg targetQubit (compactMatrix alpha beta) := by
  unfold statevec_compactUnitaryLocal statevec_unitaryLocal
  simp only [compactMatrix]
  congr 1
  apply forLoop_congr
  intro i _ s
  simp only [Fin.isValue, if_true, one_ne_zero, if_false]
  simp only [neg_mul, sub_neg_eq_add, ← sub_eq_add_neg]

/-- The component equations of `u† u = I`. -/
theorem isUnitary_components (u : ComplexMatrix2 K) (h : u.isUnitary) :
    (u.real 0 0 * u.real 0 0 + u.imag 0 0 * u.imag 0 0
      + (u.real 1 0 * u.real 1 0 + u.imag 1 0 * u.imag 1 0) = 1) ∧
    (u.real 0 1 * u.real 0 1 + u.imag 0 1 * u.imag 0 1
      + (u.real 1 1 * u.real 1 1 + u.imag 1 1 * u.imag 1 1) = 1) ∧
    (u.real 0 0 * u.real 0 1 + u.imag 0 0 * u.imag 0 1
      + (u.real 1 0 * u.real 1 1 + u.imag 1 0 * u.imag 1 1) = 0) ∧
    (u.real 0 0 * u.imag 0 1 - u.imag 0 0 * u.real 0 1
      + (u.real 1 0 * u.imag 1 1 - u.imag 1 0 * u.real 1 1) = 0) := by
  unfold ComplexMatrix2.isUnitary at h
  have r00 := congrFun (congrFun (congrArg ComplexMatrix2.real h) 0) 0
  have r11 := congrFun (congrFun (congrArg ComplexMatrix2.real h) 1) 1
  have r01 := congrFun (congrFun (congrArg ComplexMatrix2.real h) 0) 1
  have i01 := congrFun (congrFun (congrArg ComplexMatrix2.imag h) 0) 1
  simp only [ComplexMatrix2.mul, ComplexMatrix2.dagger, ComplexMatrix2.one] at r00 r11 r01 i01
  simp only [Fin.isValue, if_true, zero_ne_one, if_false] at r00 r11 r01 i01
  refine ⟨?_, ?_, ?_, ?_⟩
  · linear_combination r00
  · linear_combination r11
  · linear_combination r01
  · linear_combination i01

theorem unitaryF_normSq (u : ComplexMatrix2 K) (h : u.isUnitary) (a b : K × K) :
    normSq (unitaryF u a b).1 + normSq (unitaryF u a b).2 = normSq a + normSq b := by
  obtain ⟨h1, h2, h3, h4⟩ := isUnitary_components u h
  simp only [normSq, unitaryF]
  linear_combination (a.1 * a.1 + a.2 * a.2) * h1 + (b.1 * b.1 + b.2 * b.2) * h2
    + 2 * (a.1 * b.1 + a.2 * b.2) * h3 - 2 * (a.1 * b.2 - a.2 * b.1) * h4

theorem unitaryF_dagger (u : ComplexMatrix2 K) (h : u.isUnitary) (a b : K × K) :
    unitaryF u.dagger (unitaryF u a b).1 (unitaryF u a b).2 = (a, b) := by
  obtain ⟨h1, h2, h3, h4⟩ := isUnitary_components u h
  simp only [unitaryF, ComplexMatrix2.dagger]
  refine Prod.ext (Prod.ext ?_ ?_) (Prod.ext ?_ ?_)
  · simp only
    linear_combination a.1 * h1 + b.1 * h3 - b.2 * h4
  · simp only
    linear_combination a.2 * h1 + b.2 * h3 + b.1 * h4
  · simp only
    linear_combination b.1 * h2 + a.1 * h3 + a.2 * h4
  · simp only
    linear_combination b.2 * h2 + a.2 * h3 - a.1 * h4

theorem compactMatrix_isUnitary (alpha beta : Complex K)
    (h : alpha.real * alpha.real + alpha.imag * alpha.imag
      + (beta.real * beta.real + beta.imag * beta.imag) = 1) :
    (compactMatrix alpha beta).isUnitary := by
  unfold ComplexMatrix2.isUnitary
  simp only [ComplexMatrix2.mul, ComplexMatrix2.dagger, ComplexMatrix2.one, compactMatrix]
  refine congrArg₂ ComplexMatrix2.mk ?_ ?_
  · funext r c
    fin_cases r <;> fin_cases c <;> simp <;> first | linear_combination h | ring
  · funext r c
    fin_cases r <;> fin_cases c <;> simp <;> ring

theorem unitaryLocal_localNorm (k t : Nat) (ht : t < k) (qureg : Qureg K)
    (hn : qureg.numAmpsPerChunk = 2 ^ k) (u : ComplexMatrix2 K) (hu : u.isUnitary) :
    (statevec_unitaryLocal qureg t u).localNorm = qureg.localNorm := by
  unfold Qureg.localNorm
  rw [unitaryLocal_stateVec]
  have hsame : (statevec_unitaryLocal qureg t u).numAmpsPerChunk = qureg.numAmpsPerChunk := rfl
  rw [hsame, hn, Nat.one_shiftLeft]
  apply forLoop_invariant (fun sv => totalProb (2 ^ k) sv = totalProb (2 ^ k) qureg.stateVec)
  · intro i hi sv hsv
    rw [← hsv]
    exact totalProb_pairBody _ _ _ _ i sv (pairUp_lt k t i ht hi) (pairLo_lt k t i ht hi)
      (pairUp_ne_pairLo _ i (Nat.two_pow_pos t)) (unitaryF_normSq u hu _ _)
  · rfl

theorem sample_unit : sampleAlpha.real * sampleAlpha.real + sampleAlpha.imag * sampleAlpha.imag
    + (sampleBeta.real * sampleBeta.real + sampleBeta.imag * sampleBeta.imag) = 1 := by
  norm_num [sampleAlpha, sampleBeta]

theorem unitaryLocal_amp (qureg : Qureg K) (t : Nat) (u : ComplexMatrix2 K) :
    (∀ i, i < qureg.numAmpsPerChunk >>> 1 →
      (statevec_unitaryLocal qureg t u).stateVec.amp (pairUp (2 ^ t) i)
        = (unitaryF u (qureg.stateVec.amp (pairUp (2 ^ t) i))
            (qureg.stateVec.amp (pairLo (2 ^ t) i))).1 ∧
      (statevec_unitaryLocal qureg t u).stateVec.amp (pairLo (2 ^ t) i)
        = (unitaryF u (qureg.stateVec.amp (pairUp (2 ^ t) i))
            (qureg.stateVec.amp (pairLo (2 ^ t) i))).2) ∧
    (∀ j, (∀ i, i < qureg.numAmpsPerChunk >>> 1 →
        j ≠ pairUp (2 ^ t) i ∧ j ≠ pairLo (2 ^ t) i) →
      (statevec_unitaryLocal qureg t u).stateVec.amp j = qureg.stateVec.amp j) := by
  rw [unitaryLocal_stateVec, Nat.one_shiftLeft]
  have hpos : 0 < 2 ^ t := Nat.two_pow_pos t
  exact forLoop_pairBody _ _ _ _ (pairTask (2 ^ t))
    (fun i _ => pairUp_ne_pairLo _ i hpos)
    (fun i _ => pairTask_pairUp _ i hpos) (fun i _ => pairTask_pairLo _ i hpos) _

end Unitary

section Controlled

variable {K : Type} [Field K]

theorem pairUp_eq_insertZeroBit (t i : Nat) : pairUp (2 ^ t) i = insertZeroBit i t := by
  unfold pairUp insertZeroBit
  rw [Nat.pow_succ, Nat.mul_comm (2 ^ t) 2]

theorem pairLo_eq_pairUp_add (h i : Nat) : pairLo h i = pairUp h i + h := rfl

/-- Bits of the global index of a local index `x < 2^k` of chunk `chunkId`. -/
theorem testBit_global (k chunkId x j : Nat) (hx : x < 2 ^ k) :
    (x + chunkId * 2 ^ k).testBit j
      = if j < k then x.testBit j else chunkId.testBit (j - k) := by
  rw [Nat.add_comm]
  exact testBit_mul_two_pow_add chunkId x k j hx

/-- When the control bit of the upper partner of a pair is set, it is set in both
partners: they differ in the target bit only. -/
theorem control_pair (k t c chunkId i : Nat) (ht : t < k) (hct : c ≠ t)
    (hi : i < (2 ^ k) >>> 1)
    (hcb : extractBit c (pairUp (2 ^ t) i + chunkId * 2 ^ k) ≠ 0) :
    extractBit c (pairUp (2 ^ t) i + chunkId * 2 ^ k) = 1 ∧
    extractBit c (pairLo (2 ^ t) i + chunkId * 2 ^ k) = 1 := by
  have hup := pairUp_lt k t i ht hi
  have h1 : (pairUp (2 ^ t) i + chunkId * 2 ^ k).testBit c = true :=
    (extractBit_ne_zero_iff _ _).mp hcb
  have ht0 : (pairUp (2 ^ t) i + chunkId * 2 ^ k).testBit t = false := by
    rw [testBit_global k chunkId _ t hup, if_pos ht, pairUp_eq_insertZeroBit,
      testBit_insertZeroBit]
    simp
  refine ⟨(extractBit_eq_one_iff _ _).mpr h1, (extractBit_eq_one_iff _ _).mpr ?_⟩
  have e : pairLo (2 ^ t) i + chunkId * 2 ^ k
      = flipBit (pairUp (2 ^ t) i + chunkId * 2 ^ k) t := by
    rw [← add_two_pow_eq_flipBit _ _ ht0, pairLo_eq_pairUp_add]
    omega
  rw [e, testBit_flipBit, if_neg hct]
  exact h1

/-- The amplitudes of both partners of a pair are zero when the control bit of the upper
partner is set and the register is zero wherever the control bit is set. -/
theorem control_pair_zero (k t c i : Nat) (ht : t < k) (hct : c ≠ t) (qureg : Qureg K)
    (hn : qureg.numAmpsPerChunk = 2 ^ k)
    (hzero : ∀ j, j < qureg.numAmpsPerChunk →
      extractBit c (j + qureg.chunkId * qureg.numAmpsPerChunk) = 1 →
      qureg.stateVec.real j = 0 ∧ qureg.stateVec.imag j = 0)
    (hi : i < qureg.numAmpsPerChunk >>> 1)
    (hcb : extractBit c (i / 1 <<< t * (2 * 1 <<< t) + i % 1 <<< t
      + qureg.chunkId * qureg.numAmpsPerChunk) ≠ 0) :
    (qureg.stateVec.real (i / 1 <<< t * (2 * 1 <<< t) + i % 1 <<< t) = 0 ∧
      qureg.stateVec.imag (i / 1 <<< t * (2 * 1 <<< t) + i % 1 <<< t) = 0) ∧
    (qureg.stateVec.real (i / 1 <<< t * (2 * 1 <<< t) + i % 1 <<< t + 1 <<< t) = 0 ∧
      qureg.stateVec.imag (i / 1 <<< t * (2 * 1 <<< t) + i % 1 <<< t + 1 <<< t) = 0) := by
  rw [Nat.one_shiftLeft] at hcb ⊢
  rw [hn] at hi hcb hzero
  obtain ⟨c1, c2⟩ := control_pair k t c qureg.chunkId i ht hct hi hcb
  exact ⟨hzero _ (pairUp_lt k t i ht hi) c1, hzero _ (pairLo_lt k t i ht hi) c2⟩

end Controlled

section Distributed

variable {K : Type} [Field K]

/-- Effect of one scalar iteration of the distributed compact kernel. -/
theorem compactUnitaryDistributed_body_ampAt (rot1 rot2 : Complex K) (up lo out : ArrayRef)
    (i : Nat) (mem : Qureg K) (x : ArrayRef × Nat) :
    (compactUnitaryDistributed_body rot1.real rot1.imag rot2.real rot2.imag up lo out i
        mem).ampAt x
      = if x.1 = out ∧ x.2 = i then distF rot1 rot2 (mem.ampAt (up, i)) (mem.ampAt (lo, i))
        else mem.ampAt x := by
  obtain ⟨r, j⟩ := x
  simp only [compactUnitaryDistributed_body, Qureg.ampAt, ComplexArray.amp, array_storeImag,
    array_storeReal, distF]
  by_cases hr : r = out
  · by_cases hj : j = i
    · simp [hr, hj]
    · simp [hr, hj, Function.update_noteq hj]
  · simp [hr]

/-- Effect of one 4-lane iteration of the distributed compact kernel. -/
theorem compactUnitaryDistributedSIMD_body_ampAt (rot1 rot2 : Complex K)
    (up lo out : ArrayRef) (i : Nat) (mem : Qureg K) (x : ArrayRef × Nat) :
    (compactUnitaryDistributedSIMD_body (mm256_set1_pd rot1.real) (mm256_set1_pd rot1.imag)
        (mm256_set1_pd rot2.real) (mm256_set1_pd rot2.imag) up lo out i mem).ampAt x
      = if x.1 = out ∧ i ≤ x.2 ∧ x.2 < i + 4 then
          distF rot1 rot2 (mem.ampAt (up, x.2)) (mem.ampAt (lo, x.2))
        else mem.ampAt x := by
  obtain ⟨r, j⟩ := x
  simp only [compactUnitaryDistributedSIMD_body, Qureg.ampAt, ComplexArray.amp,
    array_storeImag, array_storeReal, distF]
  by_cases hr : r = out
  · by_cases hj : i ≤ j ∧ j < i + 4
    · have e : i + (j - i) = j := by omega
      simp only [hr, hj, and_self, if_true, mm256_storeu_pd_inside _ _ _ _ hj, mm256_add_pd,
        mm256_sub_pd, mm256_mul_pd, mm256_set1_pd, mm256_loadu_pd, e]
      refine Prod.ext ?_ ?_ <;> simp only <;> ring
    · simp only [hr, hj, and_false, if_false, if_true, mm256_storeu_pd_outside _ _ _ _ hj]
  · simp [hr]

/-- The scalar loop of the distributed compact kernel: output amplitude `i` is `distF` of
the initial amplitudes `i` of the two inputs, everything else is unchanged. -/
theorem compactUnitaryDistributed_scalar_loop (rot1 rot2 : Complex K) (up lo out : ArrayRef)
    (n : Nat) (q : Qureg K) (x : ArrayRef × Nat) :
    (forLoop n (compactUnitaryDistributed_body rot1.real rot1.imag rot2.real rot2.imag
        up lo out) q).ampAt x
      = if x.1 = out ∧ x.2 < n then distF rot1 rot2 (q.ampAt (up, x.2)) (q.ampAt (lo, x.2))
        else q.ampAt x := by
  obtain ⟨k1, k2⟩ := forLoop_footprint Qureg.ampAt n
    (compactUnitaryDistributed_body rot1.real rot1.imag rot2.real rot2.imag up lo out)
    (fun i y => y.2 = i)
    (by
      intro i _ s y hy
      rw [compactUnitaryDistributed_body_ampAt, if_neg (fun h => hy h.2)])
    (by
      intro i _ s s' hag y hy
      rw [compactUnitaryDistributed_body_ampAt, compactUnitaryDistributed_body_ampAt,
        hag (up, i) rfl, hag (lo, i) rfl, hag y hy])
    (by
      intro i i' y _ _ h h'
      exact h.symm.trans h')
    q
  by_cases hx : x.2 < n
  · rw [k1 x.2 hx x rfl, compactUnitaryDistributed_body_ampAt]
    simp [hx]
  · rw [k2 x (fun i hi h => hx (h ▸ hi)), if_neg (fun h => hx h.2)]

/-- The 4-lane loop of the distributed compact kernel, for a number of tasks that is a
multiple of 4: the same result as the scalar loop. -/
theorem compactUnitaryDistributed_simd_loop (rot1 rot2 : Complex K) (up lo out : ArrayRef)
    (m : Nat) (q : Qureg K) (x : ArrayRef × Nat) :
    (forRange 0 (4 * m) 4 (compactUnitaryDistributedSIMD_body (mm256_set1_pd rot1.real)
        (mm256_set1_pd rot1.imag) (mm256_set1_pd rot2.real) (mm256_set1_pd rot2.imag)
        up lo out) q).ampAt x
      = if x.1 = out ∧ x.2 < 4 * m then
          distF rot1 rot2 (q.ampAt (up, x.2)) (q.ampAt (lo, x.2))
        else q.ampAt x := by
  unfold forRange
  have hcount : (4 * m - 0 + (4 - 1)) / 4 = m := by omega
  rw [hcount]
  obtain ⟨k1, k2⟩ := forLoop_footprint Qureg.ampAt m
    (fun j => compactUnitaryDistributedSIMD_body (mm256_set1_pd rot1.real)
      (mm256_set1_pd rot1.imag) (mm256_set1_pd rot2.real) (mm256_set1_pd rot2.imag)
      up lo out (0 + 4 * j))
    (fun j y => 4 * j ≤ y.2 ∧ y.2 < 4 * j + 4)
    (by
      intro j _ s y hy
      rw [compactUnitaryDistributedSIMD_body_ampAt, if_neg]
      intro h
      apply hy
      omega)
    (by
      intro j _ s s' hag y hy
      rw [compactUnitaryDistributedSIMD_body_ampAt, compactUnitaryDistributedSIMD_body_ampAt,
        hag (up, y.2) hy, hag (lo, y.2) hy, hag y hy])
    (by
      intro j j' y _ _ h h'
      omega)
    q
  by_cases hx : x.2 < 4 * m
  · rw [k1 (x.2 / 4) (by omega) x (by omega), compactUnitaryDistributedSIMD_body_ampAt]
    have h1 : 0 + 4 * (x.2 / 4) ≤ x.2 ∧ x.2 < 0 + 4 * (x.2 / 4) + 4 := by omega
    simp only [hx, h1, and_true]
  · rw [k2 x (fun j hj h => hx (by omega)), if_neg (fun h => hx h.2)]

/-- The distributed compact kernel on a chunk of `2^j` amplitudes, on its scalar path
(`2^j < 4`) and on its 4-lane path alike. -/
theorem compactUnitaryDistributed_ampAt (rot1 rot2 : Complex K) (up lo out : ArrayRef)
    (j : Nat) (q : Qureg K) (hn : q.numAmpsPerChunk = 2 ^ j) (x : ArrayRef × Nat) :
    (statevec_compactUnitaryDistributed q rot1 rot2 up lo out).ampAt x
      = if x.1 = out ∧ x.2 < 2 ^ j then
          distF rot1 rot2 (q.ampAt (up, x.2)) (q.ampAt (lo, x.2))
        else q.ampAt x := by
  unfold statevec_compactUnitaryDistributed
  by_cases h4 : q.numAmpsPerChunk ≥ 4
  · simp only [h4, if_true]
    unfold statevec_compactUnitaryDistributedSIMD
    have hj : 2 ≤ j := by
      by_contra hlt
      have hj' : j = 0 ∨ j = 1 := by omega
      rcases hj' with h | h <;> rw [hn, h] at h4 <;> omega
    obtain ⟨d, rfl⟩ : ∃ d, j = 2 + d := ⟨j - 2, by omega⟩
    have e : q.numAmpsPerChunk = 4 * 2 ^ d := by rw [hn, Nat.pow_add]
    simp only [e]
    rw [compactUnitaryDistributed_simd_loop]
    have e2 : 2 ^ (2 + d) = 4 * 2 ^ d := by rw [Nat.pow_add]
    rw [e2]
  · simp only [h4, if_false]
    rw [compactUnitaryDistributed_scalar_loop, hn]

end Distributed

section CompactPairs

variable {K : Type} [Field K]

/-- One scalar pair step is a pair map for the single upper index `up`. -/
theorem isPairMap_pair (alpha beta : Complex K) (t up : Nat) (hup : up.testBit t = false) :
    IsPairMap (compactF alpha beta) t
      (controlledCompactUnitary_pair alpha.real alpha.imag beta.real beta.imag up (up + 2 ^ t))
      (fun x => x = up) := by
  have hpos : 0 < 2 ^ t := Nat.two_pow_pos t
  have hne : up ≠ up + 2 ^ t := by omega
  refine ⟨?_, ?_, ?_⟩
  · rintro x rfl
    exact hup
  · rintro s x rfl
    simp [controlledCompactUnitary_pair, ComplexArray.amp, compactF, Function.update_noteq hne]
  · intro s x hx hlo
    have hx2 : x ≠ up + 2 ^ t := hlo up rfl
    simp [controlledCompactUnitary_pair, ComplexArray.amp, Function.update_noteq hx,
      Function.update_noteq hx2]

/-- One 4-lane step is a pair map for the four upper indices `up, ..., up + 3`, when the
half-block holds at least four amplitudes. -/
theorem isPairMap_pairSIMD (alpha beta : Complex K) (t up : Nat) (ht : 2 ≤ t)
    (hup : ∀ x, up ≤ x → x < up + 4 → x.testBit t = false) :
    IsPairMap (compactF alpha beta) t
      (controlledCompactUnitarySIMD_pair (mm256_set1_pd alpha.real) (mm256_set1_pd alpha.imag)
        (mm256_set1_pd beta.real) (mm256_set1_pd beta.imag) up (up + 2 ^ t))
      (fun x => up ≤ x ∧ x < up + 4) := by
  have h4 : 4 ≤ 2 ^ t := by
    calc 4 = 2 ^ 2 := by norm_num
      _ ≤ 2 ^ t := Nat.pow_le_pow_right (by norm_num) ht
  refine ⟨?_, ?_, ?_⟩
  · rintro x ⟨h1, h2⟩
    exact hup x h1 h2
  · rintro s x ⟨h1, h2⟩
    have hin : up ≤ x ∧ x < up + 4 := ⟨h1, h2⟩
    have hout : ¬ (up + 2 ^ t ≤ x ∧ x < up + 2 ^ t + 4) := by omega
    have hin' : up + 2 ^ t ≤ x + 2 ^ t ∧ x + 2 ^ t < up + 2 ^ t + 4 := by omega
    have e1 : up + (x - up) = x := by omega
    have e2 : up + 2 ^ t + (x - up) = x + 2 ^ t := by omega
    have e3 : up + (x + 2 ^ t - (up + 2 ^ t)) = x := by omega
    have e4 : up + 2 ^ t + (x + 2 ^ t - (up + 2 ^ t)) = x + 2 ^ t := by omega
    simp only [controlledCompactUnitarySIMD_pair, ComplexArray.amp, compactF,
      mm256_storeu_pd_outside _ _ _ _ hout, mm256_storeu_pd_inside _ _ _ _ hin,
      mm256_storeu_pd_inside _ _ _ _ hin', mm256_add_pd, mm256_sub_pd, mm256_mul_pd,
      mm256_set1_pd, mm256_loadu_pd, e1, e2, e3, e4, and_self]
  · intro s x hx hlo
    have hout : ¬ (up ≤ x ∧ x < up + 4) := hx
    have hout' : ¬ (up + 2 ^ t ≤ x ∧ x < up + 2 ^ t + 4) := by
      intro h
      exact hlo (x - 2 ^ t) (by omega) (by omega)
    simp only [controlledCompactUnitarySIMD_pair, ComplexArray.amp,
      mm256_storeu_pd_outside _ _ _ _ hout, mm256_storeu_pd_outside _ _ _ _ hout']

/-- The scalar inner loop over the upper indices `start, ..., stop - 1`. -/
theorem isPairMap_forRange (alpha beta : Complex K) (t start stop : Nat)
    (hclean : ∀ x, start ≤ x → x < stop → x.testBit t = false) :
    IsPairMap (compactF alpha beta) t
      (forRange start stop 1 (fun indexUp sv =>
        controlledCompactUnitary_pair alpha.real alpha.imag beta.real beta.imag
          indexUp (indexUp + 2 ^ t) sv))
      (fun x => start ≤ x ∧ x < stop) := by
  unfold forRange
  have hcount : (stop - start + (1 - 1)) / 1 = stop - start := by simp
  rw [hcount]
  apply isPairMap_congr _ _ _ (fun x => ∃ i, i < stop - start ∧ x = start + 1 * i)
  · apply isPairMap_forLoop
    · intro i hi
      exact isPairMap_pair alpha beta t _ (hclean _ (by omega) (by omega))
    · intro i i' x _ _ h h'
      omega
  · intro x
    constructor
    · rintro ⟨i, hi, rfl⟩
      omega
    · rintro ⟨h1, h2⟩
      exact ⟨x - start, by omega, by omega⟩

/-- The 4-lane inner loop over the upper indices `start, ..., stop - 1`, whose number is a
multiple of 4. -/
theorem isPairMap_forRangeSIMD (alpha beta : Complex K) (t start stop m : Nat) (ht : 2 ≤ t)
    (hm : stop = start + 4 * m)
    (hclean : ∀ x, start ≤ x → x < stop → x.testBit t = false) :
    IsPairMap (compactF alpha beta) t
      (forRange start stop 4 (fun indexUp sv =>
        controlledCompactUnitarySIMD_pair (mm256_set1_pd alpha.real)
          (mm256_set1_pd alpha.imag) (mm256_set1_pd beta.real) (mm256_set1_pd beta.imag)
          indexUp (indexUp + 2 ^ t) sv))
      (fun x => start ≤ x ∧ x < stop) := by
  unfold forRange
  have hcount : (stop - start + (4 - 1)) / 4 = m := by omega
  rw [hcount]
  apply isPairMap_congr _ _ _
    (fun x => ∃ i, i < m ∧ (start + 4 * i ≤ x ∧ x < start + 4 * i + 4))
  · apply isPairMap_forLoop
    · intro i hi
      exact isPairMap_pairSIMD alpha beta t _ ht
        (fun x h1 h2 => hclean x (by omega) (by omega))
    · intro i i' x _ _ h h'
      omega
  · intro x
    constructor
    · rintro ⟨i, hi, h1, h2⟩
      omega
    · rintro ⟨h1, h2⟩
      exact ⟨(x - start) / 4, by omega, by omega, by omega⟩

end CompactPairs

section Restructured

variable {K : Type} [Field K]

/-- The loops of `statevec_controlledCompactUnitaryLocalAllSmall` rewrite every pair of the
chunk. -/
theorem isPairMap_allSmall (alpha beta : Complex K) (k t : Nat) (ht : t < k) :
    IsPairMap (compactF alpha beta) t
      (forLoop (2 ^ (k - t - 1)) (fun thisTask =>
        forRange (thisTask * 2 ^ t * 2) (thisTask * 2 ^ t * 2 + 2 ^ t) 1
          (fun indexUp sv =>
            controlledCompactUnitary_pair alpha.real alpha.imag beta.real beta.imag
              indexUp (indexUp + 2 ^ t) sv)))
      (fun x => x < 2 ^ k ∧ x.testBit t = false) := by
  have hpos : 0 < 2 ^ t := Nat.two_pow_pos t
  have hdig : ∀ task x, (task * 2 ^ t * 2 ≤ x ∧ x < task * 2 ^ t * 2 + 2 ^ t) ↔
      (x / 2 ^ (t + 1) = task ∧ extractBit t x = 0) := by
    intro task x
    have e : task * (2 ^ t * 2) = task * 2 ^ t * 2 := by ring
    constructor
    · rintro ⟨h1, h2⟩
      obtain ⟨a1, a2, _⟩ := split_unique t task 0 (x - task * 2 ^ t * 2) x (by decide)
        (by omega) (by rw [Nat.pow_succ]; omega)
      exact ⟨a1, a2⟩
    · rintro ⟨h1, h2⟩
      have s1 := split_at_bit t x
      rw [h1, h2, Nat.pow_succ] at s1
      have := Nat.mod_lt x hpos
      omega
  apply isPairMap_congr _ _ _ (fun x => ∃ task, task < 2 ^ (k - t - 1) ∧
    (task * 2 ^ t * 2 ≤ x ∧ x < task * 2 ^ t * 2 + 2 ^ t))
  · apply isPairMap_forLoop
    · intro task _
      apply isPairMap_forRange
      intro x h1 h2
      exact (extractBit_eq_zero_iff _ _).mp ((hdig task x).mp ⟨h1, h2⟩).2
    · intro task task' x _ _ hx hx'
      exact ((hdig task x).mp hx).1.symm.trans ((hdig task' x).mp hx').1
  · intro x
    have hb := digits_union_block k t x ht (extractBit t x = 0)
    rw [← extractBit_eq_zero_iff, ← hb]
    constructor
    · rintro ⟨task, htask, h⟩
      exact ⟨task, htask, (hdig task x).mp h⟩
    · rintro ⟨task, htask, h⟩
      exact ⟨task, htask, (hdig task x).mpr h⟩

/-- The two outer loops around the scalar inner loop. -/
theorem isPairMap_blocks_scalar (alpha beta : Complex K) (k p q bp bq t : Nat)
    (hq : q < p) (hp : p < k) (hbp : bp < 2) (hbq : bq < 2)
    (ht : (t = p ∧ bp = 0) ∨ (t = q ∧ bq = 0)) (start stop : Nat → Nat → Nat)
    (hstart : ∀ block task, start block task
      = block * 2 ^ (p + 1) + bp * 2 ^ p + task * 2 ^ (q + 1) + bq * 2 ^ q)
    (hstop : ∀ block task, stop block task
      = block * 2 ^ (p + 1) + bp * 2 ^ p + task * 2 ^ (q + 1) + bq * 2 ^ q + 2 ^ q) :
    IsPairMap (compactF alpha beta) t
      (forLoop (2 ^ (k - p - 1)) (fun block =>
        forLoop (2 ^ (p - q - 1)) (fun task =>
          forRange (start block task) (stop block task) 1 (fun indexUp sv =>
            controlledCompactUnitary_pair alpha.real alpha.imag beta.real beta.imag
              indexUp (indexUp + 2 ^ t) sv))))
      (fun x => x < 2 ^ k ∧ extractBit p x = bp ∧ extractBit q x = bq) :=
  isPairMap_blocks _ k p q bp bq t hq hp hbp hbq ht start stop _ hstart hstop
    (fun _ _ hclean => isPairMap_forRange alpha beta t _ _ hclean)

/-- The two outer loops around the 4-lane inner loop, for tasks of at least four
amplitudes. -/
theorem isPairMap_blocks_simd (alpha beta : Complex K) (k p q bp bq t : Nat)
    (hq : q < p) (hp : p < k) (hbp : bp < 2) (hbq : bq < 2)
    (ht : (t = p ∧ bp = 0) ∨ (t = q ∧ bq = 0)) (h2 : 2 ≤ q) (start stop : Nat → Nat → Nat)
    (hstart : ∀ block task, start block task
      = block * 2 ^ (p + 1) + bp * 2 ^ p + task * 2 ^ (q + 1) + bq * 2 ^ q)
    (hstop : ∀ block task, stop block task
      = block * 2 ^ (p + 1) + bp * 2 ^ p + task * 2 ^ (q + 1) + bq * 2 ^ q + 2 ^ q) :
    IsPairMap (compactF alpha beta) t
      (forLoop (2 ^ (k - p - 1)) (fun block =>
        forLoop (2 ^ (p - q - 1)) (fun task =>
          forRange (start block task) (stop block task) 4 (fun indexUp sv =>
            controlledCompactUnitarySIMD_pair (mm256_set1_pd alpha.real)
              (mm256_set1_pd alpha.imag) (mm256_set1_pd beta.real) (mm256_set1_pd beta.imag)
              indexUp (indexUp + 2 ^ t) sv))))
      (fun x => x < 2 ^ k ∧ extractBit p x = bp ∧ extractBit q x = bq) := by
  have h2t : 2 ≤ t := by
    rcases ht with ⟨rfl, _⟩ | ⟨rfl, _⟩ <;> omega
  have hq4 : 2 ^ q = 4 * 2 ^ (q - 2) := by
    obtain ⟨d, rfl⟩ : ∃ d, q = 2 + d := ⟨q - 2, by omega⟩
    rw [Nat.pow_add]
    simp
  exact isPairMap_blocks _ k p q bp bq t hq hp hbp hbq ht start stop _ hstart hstop
    (fun block task hclean => isPairMap_forRangeSIMD alpha beta t _ _ (2 ^ (q - 2)) h2t
      (by rw [hstart, hstop, hq4]) hclean)

/-- The predicated kernel `statevec_controlledCompactUnitaryLocal` rewrites the pairs of
the chunk whose global upper index has the control bit set. -/
theorem controlledCompactUnitaryLocal_pairMap (k t c : Nat) (ht : t < k) (qureg : Qureg K)
    (hn : qureg.numAmpsPerChunk = 2 ^ k) (alpha beta : Complex K) :
    ∃ T, IsPairMap (compactF alpha beta) t T
        (fun x => x < 2 ^ k ∧ x.testBit t = false
          ∧ (x + qureg.chunkId * 2 ^ k).testBit c = true) ∧
      statevec_controlledCompactUnitaryLocal qureg c t alpha beta
        = { qureg with stateVec := T qureg.stateVec } := by
  refine ⟨forLoop ((2 ^ k) >>> 1) (fun thisTask sv =>
    if extractBit c (pairUp (2 ^ t) thisTask + qureg.chunkId * 2 ^ k) ≠ 0 then
      controlledCompactUnitary_pair alpha.real alpha.imag beta.real beta.imag
        (pairUp (2 ^ t) thisTask) (pairUp (2 ^ t) thisTask + 2 ^ t) sv
    else sv), ?_, ?_⟩
  · apply isPairMap_congr _ _ _ (fun x => ∃ i, i < (2 ^ k) >>> 1 ∧
      (x = pairUp (2 ^ t) i ∧ extractBit c (pairUp (2 ^ t) i + qureg.chunkId * 2 ^ k) ≠ 0))
    · apply isPairMap_forLoop
      · intro i _
        have hclean : (pairUp (2 ^ t) i).testBit t = false := by
          rw [pairUp_eq_insertZeroBit, testBit_insertZeroBit]
          simp
        by_cases hc : extractBit c (pairUp (2 ^ t) i + qureg.chunkId * 2 ^ k) ≠ 0
        · simp only [hc, if_true, ne_eq, not_false_eq_true]
          exact isPairMap_congr _ _ _ _ _ (isPairMap_pair alpha beta t _ hclean)
            (fun x => ⟨fun h => ⟨h, trivial⟩, fun h => h.1⟩)
        · simp only [hc, if_false]
          exact isPairMap_congr _ _ _ _ _ (isPairMap_id _ t)
            (fun x => ⟨fun h => h.elim, fun h => h.2⟩)
      · intro i i' x _ _ h h'
        have e : pairUp (2 ^ t) i = pairUp (2 ^ t) i' := h.1.symm.trans h'.1
        have e' := congrArg (pairTask (2 ^ t)) e
        rw [pairTask_pairUp _ _ (Nat.two_pow_pos t), pairTask_pairUp _ _ (Nat.two_pow_pos t)]
          at e'
        exact e'
    · intro x
      constructor
      · rintro ⟨i, hi, rfl, hc⟩
        refine ⟨pairUp_lt k t i ht hi, ?_, (extractBit_ne_zero_iff _ _).mp hc⟩
        rw [pairUp_eq_insertZeroBit, testBit_insertZeroBit]
        simp
      · rintro ⟨h1, h2, h3⟩
        have hx : pairUp (2 ^ t) (pairTask (2 ^ t) x) = x := pairUp_pairTask t x h2
        refine ⟨pairTask (2 ^ t) x, pairTask_lt k t x ht h1, hx.symm, ?_⟩
        rw [hx]
        exact (extractBit_ne_zero_iff _ _).mpr h3
  · simp only [statevec_controlledCompactUnitaryLocal, hn, Nat.one_shiftLeft]
    rfl

/-- A loop that appends to a log appends to the log it starts from. -/
theorem forLoop_log {α : Type} (n : Nat) (emit : Nat → List α) (l : List α) :
    forLoop n (fun i log => log ++ emit i) l
      = l ++ forLoop n (fun i log => log ++ emit i) [] := by
  induction n with
  | zero => simp [forLoop]
  | succ n ih =>
    simp only [forLoop]
    rw [ih, List.append_assoc]

/-- Folding the steps logged by a loop runs the loop on the folded state: when the steps of
each iteration act on the projection `proj` of the state as `h i`. -/
theorem foldl_forLoop_log {α β σ : Type} (g : β → α → β) (proj : β → σ) (n : Nat)
    (emit : Nat → List α) (h : Nat → σ → σ)
    (hstep : ∀ i, i < n → ∀ r, proj ((emit i).foldl g r) = h i (proj r)) (r : β) :
    proj ((forLoop n (fun i log => log ++ emit i) []).foldl g r) = forLoop n h (proj r) := by
  induction n with
  | zero => rfl
  | succ n ih =>
    simp only [forLoop]
    rw [List.foldl_append, hstep n (Nat.lt_succ_self n),
      ih (fun i hi => hstep i (Nat.lt_succ_of_lt hi))]

/-- The two steps of an iteration taken by one thread without a step of another thread in
between are the statements of the sequential loop body. -/
theorem allSmall_step_pair (alphaReal alphaImag betaReal betaImag : K) (sizeTask thread
    indexUp : Nat) (r : AllSmallRegion K) :
    ([AllSmallStep.load thread indexUp, AllSmallStep.store thread].foldl
        (allSmall_step alphaReal alphaImag betaReal betaImag sizeTask) r).stateVec
      = controlledCompactUnitary_pair alphaReal alphaImag betaReal betaImag indexUp
          (indexUp + sizeTask) r.stateVec := by
  simp only [List.foldl, allSmall_step, controlledCompactUnitary_pair, Function.update_same]

/-- Run by one thread, the region of `statevec_controlledCompactUnitaryLocalAllSmall`
is the sequential run of its loops. -/
theorem allSmall_sequential_eq (qureg : Qureg K) (c t : Nat) (alpha beta : Complex K) :
    statevec_controlledCompactUnitaryLocalAllSmall (allSmall_sequential qureg t) qureg c t
        alpha beta
      = { qureg with
          stateVec := statevec_controlledCompactUnitaryLocalAllSmall_loops qureg t
            (fun indexUp indexLo sv =>
              controlledCompactUnitary_pair alpha.real alpha.imag beta.real beta.imag
                indexUp indexLo sv) qureg.stateVec } := by
  have htrace : allSmall_sequential qureg t
      = forLoop (qureg.numAmpsPerChunk >>> (1 + t)) (fun thisTask log =>
          log ++ forLoop ((thisTask * 1 <<< t * 2 + 1 <<< t - thisTask * 1 <<< t * 2 + (1 - 1)) / 1)
            (fun j log => log ++ [AllSmallStep.load 0 (thisTask * 1 <<< t * 2 + 1 * j),
              AllSmallStep.store 0]) []) [] := by
    unfold allSmall_sequential statevec_controlledCompactUnitaryLocalAllSmall_loops forRange
    simp only []
    apply forLoop_congr
    intro thisTask _ log
    exact forLoop_log _ (fun j => [AllSmallStep.load 0 (thisTask * 1 <<< t * 2 + 1 * j),
      AllSmallStep.store 0]) log
  unfold statevec_controlledCompactUnitaryLocalAllSmall
  simp only []
  rw [htrace]
  congr 1
  rw [foldl_forLoop_log (allSmall_step alpha.real alpha.imag beta.real beta.imag (1 <<< t))
    AllSmallRegion.stateVec _ _
    (fun thisTask =>
      forRange (thisTask * 1 <<< t * 2) (thisTask * 1 <<< t * 2 + 1 <<< t) 1
        (fun indexUp sv =>
          controlledCompactUnitary_pair alpha.real alpha.imag beta.real beta.imag
            indexUp (indexUp + 1 <<< t) sv))]
  · rfl
  · intro thisTask _ r
    unfold forRange
    rw [foldl_forLoop_log (allSmall_step alpha.real alpha.imag beta.real beta.imag (1 <<< t))
      AllSmallRegion.stateVec _ _
      (fun j sv =>
        controlledCompactUnitary_pair alpha.real alpha.imag beta.real beta.imag
          (thisTask * 1 <<< t * 2 + 1 * j) (thisTask * 1 <<< t * 2 + 1 * j + 1 <<< t) sv)]
    intro j _ r
    exact allSmall_step_pair _ _ _ _ _ _ _ r

/-- The restructured kernel `statevec_controlledCompactUnitaryLocalSmall`, with the region
of `statevec_controlledCompactUnitaryLocalAllSmall` run by one thread, rewrites the same
pairs as the predicated kernel, on each of its paths: control outside the chunk, scalar loop,
4-lane loop. -/
theorem controlledCompactUnitaryLocalSmall_pairMap (k t c : Nat) (ht : t < k) (hct : c ≠ t)
    (qureg : Qureg K) (hn : qureg.numAmpsPerChunk = 2 ^ k) (alpha beta : Complex K) :
    ∃ T, IsPairMap (compactF alpha beta) t T
        (fun x => x < 2 ^ k ∧ x.testBit t = false
          ∧ (x + qureg.chunkId * 2 ^ k).testBit c = true) ∧
      statevec_controlledCompactUnitaryLocalSmall (allSmall_sequential qureg t) qureg c t
          alpha beta
        = { qureg with stateVec := T qureg.stateVec } := by
  by_cases hck : c < k
  · -- the control qubit lies inside the chunk
    have hlt : ¬ (2 ^ c ≥ 2 ^ k) := by
      have := Nat.pow_lt_pow_right (show 1 < 2 by decide) hck
      omega
    have hU : ∀ (p q bp bq : Nat), ((p = t ∧ bp = 0 ∧ q = c ∧ bq = 1) ∨
        (p = c ∧ bp = 1 ∧ q = t ∧ bq = 0)) → ∀ x,
        (x < 2 ^ k ∧ extractBit p x = bp ∧ extractBit q x = bq) ↔
        (x < 2 ^ k ∧ x.testBit t = false ∧ (x + qureg.chunkId * 2 ^ k).testBit c = true) := by
      intro p q bp bq hpq x
      constructor
      · rintro ⟨h1, h2, h3⟩
        rw [testBit_global k _ x c h1, if_pos hck]
        rcases hpq with ⟨rfl, rfl, rfl, rfl⟩ | ⟨rfl, rfl, rfl, rfl⟩
        · exact ⟨h1, (extractBit_eq_zero_iff _ _).mp h2, (extractBit_eq_one_iff _ _).mp h3⟩
        · exact ⟨h1, (extractBit_eq_zero_iff _ _).mp h3, (extractBit_eq_one_iff _ _).mp h2⟩
      · rintro ⟨h1, h2, h3⟩
        rw [testBit_global k _ x c h1, if_pos hck] at h3
        rcases hpq with ⟨rfl, rfl, rfl, rfl⟩ | ⟨rfl, rfl, rfl, rfl⟩
        · exact ⟨h1, (extractBit_eq_zero_iff _ _).mpr h2, (extractBit_eq_one_iff _ _).mpr h3⟩
        · exact ⟨h1, (extractBit_eq_one_iff _ _).mpr h3, (extractBit_eq_zero_iff _ _).mpr h2⟩
    by_cases htc : t > c
    · -- target above control: blocks of 2^(t+1), tasks of 2^c
      have hstart : ∀ block task, block * (2 * 2 ^ t) + 2 ^ c * task * 2 + 2 ^ c
          = block * 2 ^ (t + 1) + 0 * 2 ^ t + task * 2 ^ (c + 1) + 1 * 2 ^ c := by
        intro block task
        rw [Nat.pow_succ, Nat.pow_succ]
        ring
      have hstop : ∀ block task, block * (2 * 2 ^ t) + 2 ^ c * task * 2 + 2 ^ c + 2 ^ c
          = block * 2 ^ (t + 1) + 0 * 2 ^ t + task * 2 ^ (c + 1) + 1 * 2 ^ c + 2 ^ c := by
        intro block task
        rw [hstart]
      by_cases h4 : 2 ^ c ≥ 4
      · have h2c : 2 ≤ c := by
          by_contra hlt2
          have hc' : c = 0 ∨ c = 1 := by omega
          rcases hc' with h | h <;> rw [h] at h4 <;> omega
        refine ⟨_, isPairMap_congr _ _ _ _ _
          (isPairMap_blocks_simd alpha beta k t c 0 1 t htc ht (by decide) (by decide)
            (Or.inl ⟨rfl, rfl⟩) h2c _ _ hstart hstop)
          (hU t c 0 1 (Or.inl ⟨rfl, rfl, rfl, rfl⟩)), ?_⟩
        simp only [statevec_controlledCompactUnitaryLocalSmall,
          statevec_controlledCompactUnitaryLocalSIMD, hn, Nat.one_shiftLeft, hlt, htc, h4,
          if_true, if_false, two_pow_shiftRight k t ht]
      · refine ⟨_, isPairMap_congr _ _ _ _ _
          (isPairMap_blocks_scalar alpha beta k t c 0 1 t htc ht (by decide) (by decide)
            (Or.inl ⟨rfl, rfl⟩) _ _ hstart hstop)
          (hU t c 0 1 (Or.inl ⟨rfl, rfl, rfl, rfl⟩)), ?_⟩
        simp only [statevec_controlledCompactUnitaryLocalSmall, hn, Nat.one_shiftLeft, hlt,
          htc, h4, if_true, if_false, two_pow_shiftRight k t ht]
    · -- control above target: blocks of 2^(c+1), tasks of 2^t
      have hct' : t < c := by omega
      have hstart : ∀ block task, block * (2 <<< c) + 2 ^ t * task * 2 + 2 ^ c
          = block * 2 ^ (c + 1) + 1 * 2 ^ c + task * 2 ^ (t + 1) + 0 * 2 ^ t := by
        intro block task
        rw [Nat.shiftLeft_eq, Nat.pow_succ, Nat.pow_succ]
        ring
      have hstop : ∀ block task, block * (2 <<< c) + 2 ^ t * task * 2 + 2 ^ t + 2 ^ c
          = block * 2 ^ (c + 1) + 1 * 2 ^ c + task * 2 ^ (t + 1) + 0 * 2 ^ t + 2 ^ t := by
        intro block task
        rw [Nat.shiftLeft_eq, Nat.pow_succ, Nat.pow_succ]
        ring
      by_cases h4 : 2 ^ t ≥ 4
      · have h2t : 2 ≤ t := by
          by_contra hlt2
          have ht' : t = 0 ∨ t = 1 := by omega
          rcases ht' with h | h <;> rw [h] at h4 <;> omega
        refine ⟨_, isPairMap_congr _ _ _ _ _
          (isPairMap_blocks_simd alpha beta k c t 1 0 t hct' hck (by decide) (by decide)
            (Or.inr ⟨rfl, rfl⟩) h2t _ _ hstart hstop)
          (hU c t 1 0 (Or.inr ⟨rfl, rfl, rfl, rfl⟩)), ?_⟩
        simp only [statevec_controlledCompactUnitaryLocalSmall,
          statevec_controlledCompactUnitaryLocalSIMD, hn, Nat.one_shiftLeft, hlt, htc, h4,
          if_true, if_false, two_pow_shiftRight k c hck]
      · refine ⟨_, isPairMap_congr _ _ _ _ _
          (isPairMap_blocks_scalar alpha beta k c t 1 0 t hct' hck (by decide) (by decide)
            (Or.inr ⟨rfl, rfl⟩) _ _ hstart hstop)
          (hU c t 1 0 (Or.inr ⟨rfl, rfl, rfl, rfl⟩)), ?_⟩
        simp only [statevec_controlledCompactUnitaryLocalSmall, hn, Nat.one_shiftLeft, hlt,
          htc, h4, if_true, if_false, two_pow_shiftRight k c hck]
  · -- the control qubit is fixed by the chunk id
    have hge : 2 ^ c ≥ 2 ^ k := Nat.pow_le_pow_right (by decide) (by omega)
    have hbit : ∀ x, x < 2 ^ k →
        (x + qureg.chunkId * 2 ^ k).testBit c = (qureg.chunkId * 2 ^ k).testBit c := by
      intro x hx
      have h0 := testBit_global k qureg.chunkId 0 c (Nat.two_pow_pos k)
      rw [Nat.zero_add] at h0
      rw [testBit_global k _ x c hx, h0, if_neg hck, if_neg hck]
    by_cases hc : extractBit c (qureg.chunkId * 2 ^ k) ≠ 0
    · have hc' := (extractBit_ne_zero_iff _ _).mp hc
      refine ⟨_, isPairMap_congr _ _ _ _ _ (isPairMap_allSmall alpha beta k t ht) ?_, ?_⟩
      · intro x
        constructor
        · rintro ⟨h1, h2⟩
          exact ⟨h1, h2, (hbit x h1).trans hc'⟩
        · rintro ⟨h1, h2, _⟩
          exact ⟨h1, h2⟩
      · have hS : statevec_controlledCompactUnitaryLocalSmall (allSmall_sequential qureg t)
            qureg c t alpha beta
            = statevec_controlledCompactUnitaryLocalAllSmall (allSmall_sequential qureg t)
                qureg c t alpha beta := by
          simp only [statevec_controlledCompactUnitaryLocalSmall, hn, Nat.one_shiftLeft, hge,
            hc, if_true, ne_eq, not_false_eq_true]
        rw [hS, allSmall_sequential_eq qureg c t alpha beta]
        simp only [statevec_controlledCompactUnitaryLocalAllSmall_loops, hn,
          Nat.one_shiftLeft, two_pow_shiftRight k t ht]
    · have hc' : (qureg.chunkId * 2 ^ k).testBit c = false := by
        have := (extractBit_eq_zero_iff c (qureg.chunkId * 2 ^ k)).mp (by simpa using hc)
        exact this
      refine ⟨fun sv => sv, isPairMap_congr _ _ _ _ _ (isPairMap_id _ t) ?_, ?_⟩
      · intro x
        constructor
        · intro h
          exact h.elim
        · rintro ⟨h1, _, h3⟩
          rw [hbit x h1, hc'] at h3
          exact absurd h3 (by decide)
      · simp only [statevec_controlledCompactUnitaryLocalSmall, hn, Nat.one_shiftLeft, hge, hc,
          if_true, if_false]
        rw [← hn]

/-- Off the path of `statevec_controlledCompactUnitaryLocalAllSmall` (control qubit inside
the chunk, or fixed to 0 by the chunk id) the kernel does not depend on the execution of
that region. -/
theorem controlledCompactUnitaryLocalSmall_trace (k c t : Nat) (qureg : Qureg K)
    (hn : qureg.numAmpsPerChunk = 2 ^ k)
    (hpath : c < k ∨ extractBit c (qureg.chunkId * 2 ^ k) = 0) (alpha beta : Complex K)
    (trace trace2 : List AllSmallStep) :
    statevec_controlledCompactUnitaryLocalSmall trace qureg c t alpha beta
      = statevec_controlledCompactUnitaryLocalSmall trace2 qureg c t alpha beta := by
  unfold statevec_controlledCompactUnitaryLocalSmall
  rcases hpath with hck | hbit
  · have hlt : ¬ (1 <<< c ≥ qureg.numAmpsPerChunk) := by
      rw [hn, Nat.one_shiftLeft]
      have := Nat.pow_lt_pow_right (show 1 < 2 by decide) hck
      omega
    rw [if_neg hlt, if_neg hlt]
  · by_cases hge : 1 <<< c ≥ qureg.numAmpsPerChunk
    · rw [if_pos hge, if_pos hge, hn, if_neg (by rw [hbit]; exact fun h => h rfl),
        if_neg (by rw [hbit]; exact fun h => h rfl)]
    · rw [if_neg hge, if_neg hge]

end Restructured

section Swap

variable {K : Type}

theorem swapTask_eq (q1 q2 j : Nat) :
    swapTask q1 q2 j = if q1 < q2 then pairTask (2 ^ q1) (pairTask (2 ^ q2) j)
      else pairTask (2 ^ q2) (pairTask (2 ^ q1) j) := rfl

theorem testBit_swapUp (q1 q2 i j : Nat) (hne : q1 ≠ q2) :
    (swapUp q1 q2 (swapTask q1 q2 i)).testBit j
      = if j = q1 then true else if j = q2 then false else i.testBit j := by
  unfold swapUp
  rw [testBit_flipBit, insertTwoZeroBits_eq, swapTask_eq]
  by_cases h : q1 < q2
  · simp only [h, if_true, swap_reconstruct i q1 q2 h]
    by_cases h1 : j = q1
    · simp [h1]
    · by_cases h2 : j = q2
      · simp [h1, h2]
      · simp [h1, h2]
  · have h' : q2 < q1 := by omega
    simp only [h, if_false, swap_reconstruct i q2 q1 h']
    by_cases h1 : j = q1
    · simp [h1]
    · by_cases h2 : j = q2
      · simp [h1, h2]
      · simp [h1, h2]

theorem testBit_swapLo (q1 q2 i j : Nat) (hne : q1 ≠ q2) :
    (swapLo q1 q2 (swapTask q1 q2 i)).testBit j
      = if j = q2 then true else if j = q1 then false else i.testBit j := by
  unfold swapLo
  rw [testBit_flipBit, insertTwoZeroBits_eq, swapTask_eq]
  by_cases h : q1 < q2
  · simp only [h, if_true, swap_reconstruct i q1 q2 h]
    by_cases h1 : j = q2
    · simp [h1]
    · by_cases h2 : j = q1
      · simp [h1, h2]
      · simp [h1, h2]
  · have h' : q2 < q1 := by omega
    simp only [h, if_false, swap_reconstruct i q2 q1 h']
    by_cases h1 : j = q2
    · simp [h1]
    · by_cases h2 : j = q1
      · simp [h1, h2]
      · simp [h1, h2]

theorem swapTask_swapUp (q1 q2 i : Nat) (hne : q1 ≠ q2) : swapTask q1 q2 (swapUp q1 q2 i) = i := by
  unfold swapUp
  rw [swapTask_eq, insertTwoZeroBits_eq]
  by_cases h : q1 < q2
  · simp only [h, if_true]
    exact swapDec_flip i q1 q2 q1 h (Or.inl rfl)
  · have h' : q2 < q1 := by omega
    simp only [h, if_false]
    exact swapDec_flip i q2 q1 q1 h' (Or.inr rfl)

theorem swapTask_swapLo (q1 q2 i : Nat) (hne : q1 ≠ q2) : swapTask q1 q2 (swapLo q1 q2 i) = i := by
  unfold swapLo
  rw [swapTask_eq, insertTwoZeroBits_eq]
  by_cases h : q1 < q2
  · simp only [h, if_true]
    exact swapDec_flip i q1 q2 q2 h (Or.inr rfl)
  · have h' : q2 < q1 := by omega
    simp only [h, if_false]
    exact swapDec_flip i q2 q1 q2 h' (Or.inl rfl)

/-- Bits of the two indices of task `i`. -/
theorem testBit_swapUp_task (q1 q2 i j : Nat) (hne : q1 ≠ q2) :
    (swapUp q1 q2 i).testBit j
      = if j = q1 then true else if j = q2 then false else (swapUp q1 q2 i).testBit j := by
  have h := testBit_swapUp q1 q2 (swapUp q1 q2 i) j hne
  rw [swapTask_swapUp q1 q2 i hne] at h
  exact h

theorem testBit_swapLo_task (q1 q2 i j : Nat) (hne : q1 ≠ q2) :
    (swapLo q1 q2 i).testBit j
      = if j = q2 then true else if j = q1 then false else (swapLo q1 q2 i).testBit j := by
  have h := testBit_swapLo q1 q2 (swapLo q1 q2 i) j hne
  rw [swapTask_swapLo q1 q2 i hne] at h
  exact h

theorem swapUp_ne_swapLo (q1 q2 i : Nat) (hne : q1 ≠ q2) : swapUp q1 q2 i ≠ swapLo q1 q2 i := by
  intro h
  have h1 := testBit_swapUp_task q1 q2 i q1 hne
  have h2 := testBit_swapLo_task q1 q2 i q1 hne
  rw [h] at h1
  rw [h1] at h2
  simp [hne] at h2

/-- Flipping both bits of one index of a task gives the other index. -/
theorem flip_swapUp (q1 q2 i : Nat) (hne : q1 ≠ q2) :
    flipBit (flipBit (swapUp q1 q2 i) q1) q2 = swapLo q1 q2 i := by
  unfold swapUp swapLo
  apply Nat.eq_of_testBit_eq
  intro j
  simp only [testBit_flipBit]
  by_cases h1 : j = q1
  · subst h1
    simp [hne]
  · by_cases h2 : j = q2
    · subst h2
      simp [h1]
    · simp [h1, h2]

theorem flip_swapLo (q1 q2 i : Nat) (hne : q1 ≠ q2) :
    flipBit (flipBit (swapLo q1 q2 i) q1) q2 = swapUp q1 q2 i := by
  unfold swapUp swapLo
  apply Nat.eq_of_testBit_eq
  intro j
  simp only [testBit_flipBit]
  by_cases h1 : j = q1
  · subst h1
    simp [hne]
  · by_cases h2 : j = q2
    · subst h2
      simp [h1]
    · simp [h1, h2]

/-- Every index whose bits `q1` and `q2` differ is one of the two indices of its task. -/
theorem odd_index_cases (q1 q2 i : Nat) (hne : q1 ≠ q2) (hodd : isOddParity i q1 q2 = true) :
    (i.testBit q1 = true ∧ i = swapUp q1 q2 (swapTask q1 q2 i)) ∨
    (i.testBit q1 = false ∧ i = swapLo q1 q2 (swapTask q1 q2 i)) := by
  rw [isOddParity_iff] at hodd
  by_cases h : i.testBit q1 = true
  · left
    have hq2 : i.testBit q2 = false := by
      cases hq : i.testBit q2
      · rfl
      · rw [h, hq] at hodd
        exact absurd rfl hodd
    refine ⟨h, Nat.eq_of_testBit_eq fun j => ?_⟩
    rw [testBit_swapUp q1 q2 i j hne]
    by_cases h1 : j = q1
    · subst h1
      simp [h]
    · by_cases h2 : j = q2
      · subst h2
        simp [h1, hq2]
      · simp [h1, h2]
  · right
    have h' : i.testBit q1 = false := by simpa using h
    have hq2 : i.testBit q2 = true := by
      cases hq : i.testBit q2
      · rw [h', hq] at hodd
        exact absurd rfl hodd
      · rfl
    refine ⟨h', Nat.eq_of_testBit_eq fun j => ?_⟩
    rw [testBit_swapLo q1 q2 i j hne]
    by_cases h2 : j = q2
    · subst h2
      simp [hq2]
    · by_cases h1 : j = q1
      · subst h1
        simp [h2, h']
      · simp [h1, h2]

theorem swapTask_lt (k q1 q2 i : Nat) (h1 : q1 < k) (h2 : q2 < k) (hne : q1 ≠ q2)
    (hi : i < 2 ^ k) : swapTask q1 q2 i < (2 ^ k) >>> 2 := by
  rw [swapTask_eq]
  by_cases h : q1 < q2
  · simp only [h, if_true]
    exact swapDec_lt k q1 q2 i h h2 hi
  · simp only [h, if_false]
    exact swapDec_lt k q2 q1 i (by omega) h1 hi

theorem swapUp_lt (k q1 q2 i : Nat) (h1 : q1 < k) (h2 : q2 < k) (hne : q1 ≠ q2)
    (hi : i < (2 ^ k) >>> 2) : swapUp q1 q2 i < 2 ^ k := by
  unfold swapUp
  rw [insertTwoZeroBits_eq]
  by_cases h : q1 < q2
  · simp only [h, if_true]
    exact swap_index_lt k q1 q2 q1 i h h2 (Or.inl rfl) hi
  · simp only [h, if_false]
    exact swap_index_lt k q2 q1 q1 i (by omega) h1 (Or.inr rfl) hi

theorem swapLo_lt (k q1 q2 i : Nat) (h1 : q1 < k) (h2 : q2 < k) (hne : q1 ≠ q2)
    (hi : i < (2 ^ k) >>> 2) : swapLo q1 q2 i < 2 ^ k := by
  unfold swapLo
  rw [insertTwoZeroBits_eq]
  by_cases h : q1 < q2
  · simp only [h, if_true]
    exact swap_index_lt k q1 q2 q2 i h h2 (Or.inr rfl) hi
  · simp only [h, if_false]
    exact swap_index_lt k q2 q1 q2 i (by omega) h1 (Or.inl rfl) hi

theorem swapUp_odd (q1 q2 i : Nat) (hne : q1 ≠ q2) :
    isOddParity (swapUp q1 q2 i) q1 q2 = true := by
  rw [isOddParity_iff, testBit_swapUp_task q1 q2 i q1 hne, testBit_swapUp_task q1 q2 i q2 hne]
  simp [hne.symm]

theorem swapLo_odd (q1 q2 i : Nat) (hne : q1 ≠ q2) :
    isOddParity (swapLo q1 q2 i) q1 q2 = true := by
  rw [isOddParity_iff, testBit_swapLo_task q1 q2 i q1 hne, testBit_swapLo_task q1 q2 i q2 hne]
  simp [hne]

theorem swapQubitAmpsLocal_stateVec (qureg : Qureg K) (q1 q2 : Nat) :
    (statevec_swapQubitAmpsLocal qureg q1 q2).stateVec
      = forLoop (qureg.numAmpsPerChunk >>> 2)
          (pairBody (swapUp q1 q2) (swapLo q1 q2) (fun _ a b => (b, a))) qureg.stateVec := rfl

/-- The local swap kernel, index by index. -/
theorem swapQubitAmpsLocal_amp (k q1 q2 : Nat) (h1 : q1 < k) (h2 : q2 < k) (hne : q1 ≠ q2)
    (qureg : Qureg K) (hn : qureg.numAmpsPerChunk = 2 ^ k) (i : Nat) :
    (i < 2 ^ k ∧ isOddParity i q1 q2 = true →
      (statevec_swapQubitAmpsLocal qureg q1 q2).stateVec.amp (flipBit (flipBit i q1) q2)
        = qureg.stateVec.amp i) ∧
    (¬ (i < 2 ^ k ∧ isOddParity i q1 q2 = true) →
      (statevec_swapQubitAmpsLocal qureg q1 q2).stateVec.amp i = qureg.stateVec.amp i) := by
  rw [swapQubitAmpsLocal_stateVec, hn]
  obtain ⟨p1, p2⟩ := forLoop_pairBody ((2 ^ k) >>> 2) (swapUp q1 q2) (swapLo q1 q2)
    (fun _ a b => (b, a)) (swapTask q1 q2)
    (fun i _ => swapUp_ne_swapLo q1 q2 i hne)
    (fun i _ => swapTask_swapUp q1 q2 i hne) (fun i _ => swapTask_swapLo q1 q2 i hne)
    qureg.stateVec
  constructor
  · rintro ⟨hi, hodd⟩
    have ht := swapTask_lt k q1 q2 i h1 h2 hne hi
    rcases odd_index_cases q1 q2 i hne hodd with ⟨_, e⟩ | ⟨_, e⟩
    · rw [e, flip_swapUp _ _ _ hne, (p1 _ ht).2]
    · rw [e, flip_swapLo _ _ _ hne, (p1 _ ht).1]
  · intro hi
    apply p2
    intro τ hτ
    constructor
    · rintro rfl
      exact hi ⟨swapUp_lt k q1 q2 τ h1 h2 hne hτ, swapUp_odd q1 q2 τ hne⟩
    · rintro rfl
      exact hi ⟨swapLo_lt k q1 q2 τ h1 h2 hne hτ, swapLo_odd q1 q2 τ hne⟩

/-- Flipping the bits `q1` and `q2` of an index below `2^k` keeps it below `2^k`. -/
theorem flip_both_lt (k q1 q2 x : Nat) (h1 : q1 < k) (h2 : q2 < k) (hx : x < 2 ^ k) :
    flipBit (flipBit x q1) q2 < 2 ^ k := by
  apply Nat.lt_pow_two_of_testBit
  intro j hj
  rw [testBit_flipBit, testBit_flipBit]
  have a1 : j ≠ q1 := by omega
  have a2 : j ≠ q2 := by omega
  simp only [a1, a2, if_false]
  exact testBit_eq_false_of_lt_two_pow x k j hx hj

theorem flip_both_flip_both (q1 q2 x : Nat) :
    flipBit (flipBit (flipBit (flipBit x q1) q2) q1) q2 = x := by
  apply Nat.eq_of_testBit_eq
  intro j
  simp only [testBit_flipBit]
  by_cases hq : q1 = q2
  · subst hq
    by_cases h1 : j = q1 <;> simp [h1]
  · by_cases h1 : j = q1
    · subst h1
      simp [hq]
    · by_cases h2 : j = q2
      · subst h2
        simp [h1]
      · simp [h1, h2]

theorem flip_both_odd (q1 q2 x : Nat) (hne : q1 ≠ q2) (hodd : isOddParity x q1 q2 = true) :
    isOddParity (flipBit (flipBit x q1) q2) q1 q2 = true := by
  rw [isOddParity_iff] at hodd ⊢
  simp only [testBit_flipBit, hne, hne.symm, if_true, if_false]
  cases h1 : x.testBit q1 <;> cases h2 : x.testBit q2 <;> simp_all

/-- The local swap kernel at an index whose bits differ: the amplitude that was at the
index with both bits flipped. -/
theorem swapQubitAmpsLocal_amp_odd (k q1 q2 : Nat) (h1 : q1 < k) (h2 : q2 < k) (hne : q1 ≠ q2)
    (qureg : Qureg K) (hn : qureg.numAmpsPerChunk = 2 ^ k) (x : Nat) (hx : x < 2 ^ k)
    (hodd : isOddParity x q1 q2 = true) :
    (statevec_swapQubitAmpsLocal qureg q1 q2).stateVec.amp x
      = qureg.stateVec.amp (flipBit (flipBit x q1) q2) := by
  have h := (swapQubitAmpsLocal_amp k q1 q2 h1 h2 hne qureg hn (flipBit (flipBit x q1) q2)).1
    ⟨flip_both_lt k q1 q2 x h1 h2 hx, flip_both_odd q1 q2 x hne hodd⟩
  rw [flip_both_flip_both] at h
  exact h

/-- The global index that the distributed swap reads for the local index `i` of chunk `c` of
2, when the second qubit is the top one: local index `i` with bit `q1` flipped, in the
other chunk. -/
theorem flip_both_top (k q1 c i : Nat) (h1 : q1 < k) (hc : c < 2) (hi : i < 2 ^ k) :
    flipBit (flipBit (c * 2 ^ k + i) q1) k = (1 - c) * 2 ^ k + flipBit i q1 ∧
    flipBit i q1 < 2 ^ k := by
  have hlt : flipBit i q1 < 2 ^ k := by
    apply Nat.lt_pow_two_of_testBit
    intro j hj
    rw [testBit_flipBit]
    have a1 : j ≠ q1 := by omega
    simp only [a1, if_false]
    exact testBit_eq_false_of_lt_two_pow i k j hi hj
  refine ⟨?_, hlt⟩
  have hik : i.testBit k = false := Nat.testBit_lt_two_pow hi
  have hfk : (flipBit i q1).testBit k = false := Nat.testBit_lt_two_pow hlt
  have hc' : c = 0 ∨ c = 1 := by omega
  rcases hc' with rfl | rfl
  · simp only [Nat.zero_mul, Nat.zero_add, Nat.sub_zero, Nat.one_mul]
    rw [Nat.add_comm, add_two_pow_eq_flipBit _ _ hfk]
  · simp only [Nat.one_mul, Nat.sub_self, Nat.zero_mul, Nat.zero_add]
    rw [Nat.add_comm, add_two_pow_eq_flipBit _ _ hik]
    have hq : q1 ≠ k := by omega
    apply Nat.eq_of_testBit_eq
    intro j
    simp only [testBit_flipBit]
    by_cases a1 : j = q1
    · subst a1
      simp [hq]
    · by_cases a2 : j = k
      · subst a2
        simp [a1]
      · simp [a1, a2]

/-- The distributed swap kernel, index by index. -/
theorem swapQubitAmpsDistributed_amp (qureg : Qureg K) (pairRank q1 q2 i : Nat) :
    (statevec_swapQubitAmpsDistributed qureg pairRank q1 q2).stateVec.amp i
      = if i < qureg.numAmpsPerChunk
          ∧ isOddParity (qureg.chunkId * qureg.numAmpsPerChunk + i) q1 q2 = true then
          qureg.pairStateVec.amp
            (swapQubitAmpsDistributed_pairLocalInd qureg pairRank q1 q2 i).toNat
        else qureg.stateVec.amp i := by
  unfold statevec_swapQubitAmpsDistributed
  simp only
  obtain ⟨k1, k2⟩ := forLoop_footprint ComplexArray.amp qureg.numAmpsPerChunk
    (fun localInd sv =>
      if isOddParity (qureg.chunkId * qureg.numAmpsPerChunk + localInd) q1 q2 = true then
        (⟨Function.update sv.real localInd (qureg.pairStateVec.real
            (swapQubitAmpsDistributed_pairLocalInd qureg pairRank q1 q2 localInd).toNat),
          Function.update sv.imag localInd (qureg.pairStateVec.imag
            (swapQubitAmpsDistributed_pairLocalInd qureg pairRank q1 q2 localInd).toNat)⟩ :
          ComplexArray K)
      else sv)
    (fun localInd x => x = localInd)
    (by
      intro localInd _ sv x hx
      by_cases hodd : isOddParity (qureg.chunkId * qureg.numAmpsPerChunk + localInd) q1 q2
          = true
      · simp [hodd, ComplexArray.amp, Function.update_noteq hx]
      · simp [hodd])
    (by
      intro localInd _ sv sv' hag x hx
      by_cases hodd : isOddParity (qureg.chunkId * qureg.numAmpsPerChunk + localInd) q1 q2
          = true
      · subst hx
        simp [hodd, ComplexArray.amp]
      · simp only [hodd, if_false]
        exact hag x hx)
    (by
      intro a b x _ _ h h'
      exact h.symm.trans h')
    qureg.stateVec
  by_cases hi : i < qureg.numAmpsPerChunk
  · rw [k1 i hi i rfl]
    by_cases hodd : isOddParity (qureg.chunkId * qureg.numAmpsPerChunk + i) q1 q2 = true
    · simp [hodd, hi, ComplexArray.amp]
    · simp [hodd]
  · rw [k2 i (fun a ha h => hi (h ▸ ha))]
    simp [hi]

end Swap

section Collapse

variable {K : Type} [Field K]

/-- Function `zeroSomeAmps`, index by index. -/
theorem zeroSomeAmps_amp (qureg : Qureg K) (a n x : Nat) :
    (zeroSomeAmps qureg a n).stateVec.amp x
      = if a ≤ x ∧ x < a + n then (0, 0) else qureg.stateVec.amp x := by
  unfold zeroSomeAmps forRange
  have hcount : (a + n - a + (1 - 1)) / 1 = n := by simp
  simp only [hcount]
  obtain ⟨k1, k2⟩ := forLoop_footprint ComplexArray.amp n
    (fun j (sv : ComplexArray K) =>
      (⟨Function.update sv.real (a + 1 * j) 0, Function.update sv.imag (a + 1 * j) 0⟩ :
        ComplexArray K))
    (fun j y => y = a + 1 * j)
    (by
      intro j _ sv y hy
      simp [ComplexArray.amp, Function.update_noteq hy])
    (by
      intro j _ sv sv' _ y hy
      subst hy
      simp [ComplexArray.amp])
    (by
      intro j j' y _ _ h h'
      omega)
    qureg.stateVec
  by_cases hx : a ≤ x ∧ x < a + n
  · rw [if_pos hx, k1 (x - a) (by omega) x (by omega)]
    have e : a + 1 * (x - a) = x := by omega
    simp only [ComplexArray.amp]
    rw [e]
    simp
  · rw [if_neg hx]
    exact k2 x (fun j hj h => hx (by omega))

/-- Function `normaliseSomeAmps`, index by index. -/
theorem normaliseSomeAmps_amp (qureg : Qureg K) (norm : K) (a n x : Nat) :
    (normaliseSomeAmps qureg norm a n).stateVec.amp x
      = if a ≤ x ∧ x < a + n then scaleAmp norm (qureg.stateVec.amp x)
        else qureg.stateVec.amp x := by
  unfold normaliseSomeAmps forRange
  have hcount : (a + n - a + (1 - 1)) / 1 = n := by simp
  simp only [hcount]
  obtain ⟨k1, k2⟩ := forLoop_footprint ComplexArray.amp n
    (fun j (sv : ComplexArray K) =>
      (⟨Function.update sv.real (a + 1 * j) (sv.real (a + 1 * j) / norm),
        Function.update sv.imag (a + 1 * j) (sv.imag (a + 1 * j) / norm)⟩ : ComplexArray K))
    (fun j y => y = a + 1 * j)
    (by
      intro j _ sv y hy
      simp [ComplexArray.amp, Function.update_noteq hy])
    (by
      intro j _ sv sv' hag y hy
      have e := hag y hy
      subst hy
      simp only [ComplexArray.amp, Function.update_same, Prod.mk.injEq] at e ⊢
      rw [e.1, e.2]
      exact ⟨rfl, rfl⟩)
    (by
      intro j j' y _ _ h h'
      omega)
    qureg.stateVec
  by_cases hx : a ≤ x ∧ x < a + n
  · rw [if_pos hx, k1 (x - a) (by omega) x (by omega)]
    have e : a + 1 * (x - a) = x := by omega
    simp only [ComplexArray.amp]
    rw [e]
    simp [scaleAmp]
  · rw [if_neg hx]
    exact k2 x (fun j hj h => hx (by omega))

theorem block_index (a d w x : Nat) (h1 : a + d * w ≤ x) (h2 : x < a + d * w + w) :
    (x - a) / w = d := by
  apply Nat.div_eq_of_lt_le
  · omega
  · rw [Nat.add_mul]
    omega

theorem block_index_bounds (a w x : Nat) (hw : 0 < w) (ha : a ≤ x) :
    a + (x - a) / w * w ≤ x ∧ x < a + (x - a) / w * w + w := by
  have h1 := Nat.div_mul_le_self (x - a) w
  have h2 := Nat.div_add_mod' (x - a) w
  have h3 := Nat.mod_lt (x - a) hw
  omega

/-- The parity of the index of the block of size `bs` that holds `y` tells in which half
of its double block `y` lies. -/
theorem div_half_parity (y bs : Nat) (hbs : 0 < bs) :
    y / bs % 2 = y % (2 * bs) / bs := by
  have h := Nat.div_add_mod y (2 * bs)
  have hr : y % (2 * bs) < 2 * bs := Nat.mod_lt _ (by omega)
  have hlt : y % (2 * bs) / bs < 2 := by
    rw [Nat.div_lt_iff_lt_mul hbs]
    omega
  have e : y = bs * (2 * (y / (2 * bs))) + y % (2 * bs) := by
    rw [← Nat.mul_assoc, Nat.mul_comm bs 2]
    exact h.symm
  have hdiv : y / bs = 2 * (y / (2 * bs)) + y % (2 * bs) / bs := by
    conv_lhs => rw [e]
    rw [Nat.mul_add_div hbs]
  rw [hdiv]
  generalize y % (2 * bs) / bs = p at hlt ⊢
  generalize y / (2 * bs) = f
  omega

theorem first_half_iff (a d bs x : Nat) (hbs : 0 < bs) (h1 : a + d * (2 * bs) ≤ x)
    (h2 : x < a + d * (2 * bs) + 2 * bs) :
    (x < a + d * (2 * bs) + bs) ↔ (x - a) / bs % 2 = 0 := by
  rw [div_half_parity _ _ hbs]
  have hd := block_index a d (2 * bs) x h1 h2
  have hm := Nat.div_add_mod' (x - a) (2 * bs)
  rw [hd] at hm
  have hr : (x - a) % (2 * bs) = x - (a + d * (2 * bs)) := by omega
  rw [hr, Nat.div_eq_zero_iff hbs]
  omega

/-- Function `alternateNormZeroingSomeAmpBlocks`, index by index: inside the double blocks it walks,
the blocks of even index (from the start) are divided by `norm` when `normFirst` holds and
zeroed otherwise, and the blocks of odd index the other way round. -/
theorem alternateNormZeroingSomeAmpBlocks_amp (qureg : Qureg K) (norm : K) (normFirst : Bool)
    (a numAmps bs x : Nat) (hbs : 0 < bs) :
    (alternateNormZeroingSomeAmpBlocks qureg norm normFirst a numAmps bs).stateVec.amp x
      = if a ≤ x ∧ x < a + numAmps / (2 * bs) * (2 * bs) then
          collapseAmp norm (decide ((x - a) / bs % 2 = if normFirst then 0 else 1))
            (qureg.stateVec.amp x)
        else qureg.stateVec.amp x := by
  have hdisj : ∀ (d d' y : Nat), (a + d * 2 * bs ≤ y ∧ y < a + d * 2 * bs + 2 * bs) →
      (a + d' * 2 * bs ≤ y ∧ y < a + d' * 2 * bs + 2 * bs) → d = d' := by
    intro d d' y h h'
    rw [Nat.mul_assoc] at h h'
    exact (block_index a d (2 * bs) y h.1 h.2).symm.trans
      (block_index a d' (2 * bs) y h'.1 h'.2)
  unfold alternateNormZeroingSomeAmpBlocks
  cases normFirst
  · -- zero the first block of every double block
    simp only [Bool.false_eq_true, if_false]
    obtain ⟨k1, k2⟩ := forLoop_footprint (fun (q : Qureg K) y => q.stateVec.amp y)
      (numAmps / (2 * bs))
      (fun d q => normaliseSomeAmps (zeroSomeAmps q (a + d * 2 * bs) bs) norm
        (a + d * 2 * bs + bs) bs)
      (fun d y => a + d * 2 * bs ≤ y ∧ y < a + d * 2 * bs + 2 * bs)
      (by
        intro d _ q y hy
        simp only [normaliseSomeAmps_amp, zeroSomeAmps_amp]
        rw [if_neg (by omega), if_neg (by omega)])
      (by
        intro d _ q q' hag y hy
        have e := hag y hy
        simp only at e
        simp only [normaliseSomeAmps_amp, zeroSomeAmps_amp]
        rw [e])
      (fun d d' y _ _ h h' => hdisj d d' y h h')
      qureg
    by_cases hx : a ≤ x ∧ x < a + numAmps / (2 * bs) * (2 * bs)
    · have hb := block_index_bounds a (2 * bs) x (by omega) hx.1
      have hd : (x - a) / (2 * bs) < numAmps / (2 * bs) := by
        by_contra hge
        have := Nat.mul_le_mul_right (2 * bs) (Nat.le_of_not_lt hge)
        omega
      have hW : a + (x - a) / (2 * bs) * 2 * bs ≤ x
          ∧ x < a + (x - a) / (2 * bs) * 2 * bs + 2 * bs := by
        rw [Nat.mul_assoc]; exact hb
      have hk := k1 _ hd x hW
      simp only at hk
      rw [hk, if_pos hx]
      simp only [normaliseSomeAmps_amp, zeroSomeAmps_amp]
      have hf := first_half_iff a ((x - a) / (2 * bs)) bs x hbs hb.1 hb.2
      rw [Nat.mul_assoc]
      by_cases hfirst : x < a + (x - a) / (2 * bs) * (2 * bs) + bs
      · have h0 := hf.mp hfirst
        rw [if_neg (by omega), if_pos (by omega)]
        simp [collapseAmp, h0]
      · have h1 : (x - a) / bs % 2 = 1 := by
          have := Nat.mod_two_eq_zero_or_one ((x - a) / bs)
          rcases this with h | h
          · exact absurd (hf.mpr h) hfirst
          · exact h
        rw [if_pos (by omega), if_neg (by omega)]
        simp [collapseAmp, h1]
    · rw [if_neg hx]
      have hk := k2 x (by
        intro d hd hW
        apply hx
        rw [Nat.mul_assoc] at hW
        have := Nat.mul_le_mul_right (2 * bs) (Nat.succ_le_of_lt hd)
        rw [Nat.succ_mul] at this
        omega)
      exact hk
  · -- divide the first block of every double block
    simp only [if_true]
    obtain ⟨k1, k2⟩ := forLoop_footprint (fun (q : Qureg K) y => q.stateVec.amp y)
      (numAmps / (2 * bs))
      (fun d q => zeroSomeAmps (normaliseSomeAmps q norm (a + d * 2 * bs) bs)
        (a + d * 2 * bs + bs) bs)
      (fun d y => a + d * 2 * bs ≤ y ∧ y < a + d * 2 * bs + 2 * bs)
      (by
        intro d _ q y hy
        simp only [normaliseSomeAmps_amp, zeroSomeAmps_amp]
        rw [if_neg (by omega), if_neg (by omega)])
      (by
        intro d _ q q' hag y hy
        have e := hag y hy
        simp only at e
        simp only [normaliseSomeAmps_amp, zeroSomeAmps_amp]
        rw [e])
      (fun d d' y _ _ h h' => hdisj d d' y h h')
      qureg
    by_cases hx : a ≤ x ∧ x < a + numAmps / (2 * bs) * (2 * bs)
    · have hb := block_index_bounds a (2 * bs) x (by omega) hx.1
      have hd : (x - a) / (2 * bs) < numAmps / (2 * bs) := by
        by_contra hge
        have := Nat.mul_le_mul_right (2 * bs) (Nat.le_of_not_lt hge)
        omega
      have hW : a + (x - a) / (2 * bs) * 2 * bs ≤ x
          ∧ x < a + (x - a) / (2 * bs) * 2 * bs + 2 * bs := by
        rw [Nat.mul_assoc]; exact hb
      have hk := k1 _ hd x hW
      simp only at hk
      rw [hk, if_pos hx]
      simp only [normaliseSomeAmps_amp, zeroSomeAmps_amp]
      have hf := first_half_iff a ((x - a) / (2 * bs)) bs x hbs hb.1 hb.2
      rw [Nat.mul_assoc]
      by_cases hfirst : x < a + (x - a) / (2 * bs) * (2 * bs) + bs
      · have h0 := hf.mp hfirst
        rw [if_neg (by omega), if_pos (by omega)]
        simp [collapseAmp, h0]
      · have h1 : (x - a) / bs % 2 = 1 := by
          have := Nat.mod_two_eq_zero_or_one ((x - a) / bs)
          rcases this with h | h
          · exact absurd (hf.mpr h) hfirst
          · exact h
        rw [if_pos (by omega)]
        simp [collapseAmp, h1]
    · rw [if_neg hx]
      have hk := k2 x (by
        intro d hd hW
        apply hx
        rw [Nat.mul_assoc] at hW
        have := Nat.mul_le_mul_right (2 * bs) (Nat.succ_le_of_lt hd)
        rw [Nat.succ_mul] at this
        omega)
      exact hk

omit [Field K] in
/-- A loop over double blocks of size `2 * w` that starts at index 0, whose iteration `d`
applies `f1` to the amplitudes of the first block and then `f2` to those of the second
block of double block `d`. -/
theorem doubleBlocks_amp (inner1 inner2 : Nat → Qureg K → Qureg K) (f1 f2 : Nat → K × K → K × K)
    (D w : Nat) (hw : 0 < w)
    (h1 : ∀ d q x, (inner1 d q).stateVec.amp x
      = if d * 2 * w ≤ x ∧ x < d * 2 * w + w then f1 x (q.stateVec.amp x)
        else q.stateVec.amp x)
    (h2 : ∀ d q x, (inner2 d q).stateVec.amp x
      = if d * 2 * w + w ≤ x ∧ x < d * 2 * w + w + w then f2 x (q.stateVec.amp x)
        else q.stateVec.amp x)
    (qureg : Qureg K) (x : Nat) :
    (forLoop D (fun d q => inner2 d (inner1 d q)) qureg).stateVec.amp x
      = if x < D * (2 * w) then
          (if x / w % 2 = 0 then f1 x (qureg.stateVec.amp x) else f2 x (qureg.stateVec.amp x))
        else qureg.stateVec.amp x := by
  obtain ⟨k1, k2⟩ := forLoop_footprint (fun (q : Qureg K) y => q.stateVec.amp y) D
    (fun d q => inner2 d (inner1 d q))
    (fun d y => 0 + d * (2 * w) ≤ y ∧ y < 0 + d * (2 * w) + 2 * w)
    (by
      intro d _ q y hy
      have hy' : ¬ (0 + d * (2 * w) ≤ y ∧ y < 0 + d * (2 * w) + 2 * w) := hy
      rw [← Nat.mul_assoc] at hy'
      simp only [h1, h2]
      rw [if_neg (by omega), if_neg (by omega)])
    (by
      intro d _ q q' hag y hy
      have e := hag y hy
      simp only at e
      simp only [h1, h2]
      rw [e])
    (by
      intro d d' y _ _ h h'
      exact (block_index 0 d (2 * w) y h.1 h.2).symm.trans
        (block_index 0 d' (2 * w) y h'.1 h'.2))
    qureg
  by_cases hx : x < D * (2 * w)
  · have hb := block_index_bounds 0 (2 * w) x (by omega) (Nat.zero_le x)
    have hd : (x - 0) / (2 * w) < D := by
      by_contra hge
      have := Nat.mul_le_mul_right (2 * w) (Nat.le_of_not_lt hge)
      omega
    have hk := k1 _ hd x hb
    simp only at hk
    rw [hk, if_pos hx]
    simp only [h1, h2]
    have hf := first_half_iff 0 ((x - 0) / (2 * w)) w x hw hb.1 hb.2
    have e : (x - 0) / (2 * w) * 2 * w = x / (2 * w) * (2 * w) := by
      rw [Nat.sub_zero, Nat.mul_assoc]
    rw [Nat.sub_zero] at hf hb
    rw [e]
    by_cases hfirst : x < 0 + x / (2 * w) * (2 * w) + w
    · rw [if_neg (by omega), if_pos (by omega), if_pos (hf.mp hfirst)]
    · rw [if_pos (by omega), if_neg (by omega), if_neg (fun h => hfirst (hf.mpr h))]
  · rw [if_neg hx]
    have hk := k2 x (by
      intro d hd hW
      apply hx
      have := Nat.mul_le_mul_right (2 * w) (Nat.succ_le_of_lt hd)
      rw [Nat.succ_mul] at this
      omega)
    exact hk

/-- Removing whole double blocks of size `2 * bs` in front of an index does not change
the parity of its block index. -/
theorem sub_mul_div_parity (c bs x : Nat) (hbs : 0 < bs) (h : c * (2 * bs) ≤ x) :
    (x - c * (2 * bs)) / bs % 2 = x / bs % 2 := by
  have e : c * (2 * bs) = bs * (2 * c) := by ring
  rw [e, Nat.sub_mul_div]
  · have h2 : 2 * c ≤ x / bs := by
      rw [Nat.le_div_iff_mul_le hbs]
      rw [e] at h
      rw [Nat.mul_comm]
      exact h
    omega
  · rw [← e]
    exact h

theorem extractBit_global (k chunkId x j : Nat) (hx : x < 2 ^ k) :
    extractBit j (chunkId * 2 ^ k + x)
      = if j < k then extractBit j x else extractBit (j - k) chunkId := by
  rw [extractBit_eq_ite, Nat.add_comm, testBit_global k chunkId x j hx]
  by_cases h : j < k
  · rw [if_pos h, if_pos h, extractBit_eq_ite]
  · rw [if_neg h, if_neg h, extractBit_eq_ite]

theorem extractBit_chunkStart (k chunkId j : Nat) :
    extractBit j (chunkId * 2 ^ k)
      = if j < k then 0 else extractBit (j - k) chunkId := by
  have h := extractBit_global k chunkId 0 j (Nat.two_pow_pos k)
  rw [Nat.add_zero] at h
  rw [h]
  by_cases hj : j < k
  · rw [if_pos hj, if_pos hj]
    unfold extractBit
    simp
  · rw [if_neg hj, if_neg hj]

theorem two_pow_div_mul (m t : Nat) (h : t < m) : 2 ^ m / (2 * 2 ^ t) * (2 * 2 ^ t) = 2 ^ m := by
  apply Nat.div_mul_cancel
  rw [← Nat.pow_succ']
  exact Nat.pow_dvd_pow 2 h

/-- The density-matrix collapse, index by index, in its three regimes. -/
theorem densmatr_collapse_amp (N m t outcome : Nat) (ht : t < N) (ho : outcome < 2)
    (qureg : Qureg K) (hN : qureg.numQubitsRepresented = N)
    (hn : qureg.numAmpsPerChunk = 2 ^ m) (p : K) (i : Nat) (hi : i < 2 ^ m) :
    (densmatr_collapseToKnownProbOutcome qureg t outcome p).stateVec.amp i
      = collapseAmp p (decide (extractBit t (qureg.chunkId * 2 ^ m + i) = outcome
          ∧ extractBit (t + N) (qureg.chunkId * 2 ^ m + i) = outcome))
        (qureg.stateVec.amp i) := by
  have hpos : 0 < 2 ^ t := Nat.two_pow_pos t
  have hgt := extractBit_global m qureg.chunkId i t hi
  have hgo := extractBit_global m qureg.chunkId i (t + N) hi
  have hst := extractBit_chunkStart m qureg.chunkId t
  have hso := extractBit_chunkStart m qureg.chunkId (t + N)
  have hlocal : ∀ j, extractBit j i < 2 := fun j => extractBit_lt_two j i
  simp only [densmatr_collapseToKnownProbOutcome, hn, hN, Nat.one_shiftLeft]
  by_cases hA : 2 ^ m ≤ 2 ^ (t + N)
  · -- the chunk lies inside one outer block
    have hm : m ≤ t + N := (Nat.pow_le_pow_iff_right (by decide)).mp hA
    have hmo : ¬ (t + N < m) := by omega
    rw [if_neg hmo] at hgo hso
    simp only [hA, if_true]
    by_cases hob : extractBit (t + N) (qureg.chunkId * 2 ^ m) ≠ outcome
    · simp only [hob, if_true, ne_eq, not_false_eq_true]
      rw [zeroSomeAmps_amp, if_pos ⟨Nat.zero_le i, by omega⟩]
      have hc : ¬ (extractBit t (qureg.chunkId * 2 ^ m + i) = outcome
          ∧ extractBit (t + N) (qureg.chunkId * 2 ^ m + i) = outcome) := by
        rintro ⟨_, h2⟩
        rw [hgo, ← hso] at h2
        exact hob h2
      simp [collapseAmp, hc]
    · have hob' : extractBit (t + N) (qureg.chunkId * 2 ^ m) = outcome := by
        simpa using hob
      have hgo' : extractBit (t + N) (qureg.chunkId * 2 ^ m + i) = outcome := by
        rw [hgo, ← hso]; exact hob'
      simp only [hob, if_false]
      by_cases hI : 2 ^ m ≤ 2 ^ t
      · -- the chunk lies inside one inner block
        have hmt : m ≤ t := (Nat.pow_le_pow_iff_right (by decide)).mp hI
        have hmt' : ¬ (t < m) := by omega
        rw [if_neg hmt'] at hgt hst
        simp only [hI, if_true]
        by_cases hib : extractBit t (qureg.chunkId * 2 ^ m) ≠ outcome
        · simp only [hib, if_true, ne_eq, not_false_eq_true]
          rw [zeroSomeAmps_amp, if_pos ⟨Nat.zero_le i, by omega⟩]
          have hc : ¬ (extractBit t (qureg.chunkId * 2 ^ m + i) = outcome
              ∧ extractBit (t + N) (qureg.chunkId * 2 ^ m + i) = outcome) := by
            rintro ⟨h1, _⟩
            rw [hgt, ← hst] at h1
            exact hib h1
          simp [collapseAmp, hc]
        · have hib' : extractBit t (qureg.chunkId * 2 ^ m) = outcome := by simpa using hib
          simp only [hib, if_false]
          rw [normaliseSomeAmps_amp, if_pos ⟨Nat.zero_le i, by omega⟩]
          have hc : extractBit t (qureg.chunkId * 2 ^ m + i) = outcome
              ∧ extractBit (t + N) (qureg.chunkId * 2 ^ m + i) = outcome := by
            refine ⟨?_, hgo'⟩
            rw [hgt, ← hst]
            exact hib'
          simp [collapseAmp, hc]
      · -- the chunk holds several inner blocks of one outer block
        have hmt : t < m := by
          by_contra hle
          exact hI (Nat.pow_le_pow_right (by decide) (by omega))
        rw [if_pos hmt] at hgt hst
        simp only [hI, if_false]
        rw [alternateNormZeroingSomeAmpBlocks_amp _ _ _ _ _ _ _ hpos,
          two_pow_div_mul m t hmt, if_pos ⟨Nat.zero_le i, by omega⟩, hst, Nat.sub_zero]
        congr 1
        have hcond : (i / 2 ^ t % 2 = if (0 == outcome) = true then 0 else 1) ↔
            (extractBit t (qureg.chunkId * 2 ^ m + i) = outcome
              ∧ extractBit (t + N) (qureg.chunkId * 2 ^ m + i) = outcome) := by
          rw [hgt]
          have hl := hlocal t
          have hdef : extractBit t i = i / 2 ^ t % 2 := rfl
          rw [← hdef]
          have ho' : outcome = 0 ∨ outcome = 1 := by omega
          rcases ho' with h0 | h0
          · subst h0
            simp only [beq_self_eq_true, if_true]
            exact ⟨fun h => ⟨h, hgo'⟩, fun h => h.1⟩
          · subst h0
            have hne : ((0 : Nat) == 1) = false := rfl
            simp only [hne, Bool.false_eq_true, if_false]
            exact ⟨fun h => ⟨h, hgo'⟩, fun h => h.1⟩
        exact decide_eq_decide.mpr hcond
  · -- the chunk holds several outer blocks
    have hm : t + N < m := by
      by_contra hle
      exact hA (Nat.pow_le_pow_right (by decide) (by omega))
    have hmt : t < m := by omega
    rw [if_pos hm] at hgo hso
    rw [if_pos hmt] at hgt hst
    have hO : 0 < 2 ^ (t + N) := Nat.two_pow_pos _
    have hcover : 2 ^ m / (2 * 2 ^ (t + N)) * (2 * 2 ^ (t + N)) = 2 ^ m :=
      two_pow_div_mul m (t + N) hm
    have hinner : 2 ^ (t + N) / (2 * 2 ^ t) * (2 * 2 ^ t) = 2 ^ (t + N) :=
      two_pow_div_mul (t + N) t (by omega)
    have hdefo : extractBit (t + N) i = i / 2 ^ (t + N) % 2 := rfl
    have hdeft : extractBit t i = i / 2 ^ t % 2 := rfl
    -- multiples of the outer block size are multiples of the inner double block size
    have hmult : ∀ d, d * 2 ^ (t + N) = d * 2 ^ (N - 1) * (2 * 2 ^ t) := by
      intro d
      have e : 2 ^ (t + N) = 2 ^ (N - 1) * (2 * 2 ^ t) := by
        rw [← Nat.pow_succ', ← Nat.pow_add]
        congr 1
        omega
      rw [e, Nat.mul_assoc]
    simp only [hA, if_false, hst, hso]
    have ho' : outcome = 0 ∨ outcome = 1 := by omega
    rcases ho' with h0 | h0
    · -- outcome 0: the first outer block of every double block is kept
      subst h0
      simp only [if_true, beq_self_eq_true]
      rw [doubleBlocks_amp
        (fun d q => alternateNormZeroingSomeAmpBlocks q p true (d * 2 * 2 ^ (t + N))
          (2 ^ (t + N)) (2 ^ t))
        (fun d q => zeroSomeAmps q (d * 2 * 2 ^ (t + N) + 2 ^ (t + N)) (2 ^ (t + N)))
        (fun x z => collapseAmp p (decide (x / 2 ^ t % 2 = 0)) z) (fun _ _ => (0, 0))
        _ (2 ^ (t + N)) hO
        (by
          intro d q x
          rw [alternateNormZeroingSomeAmpBlocks_amp _ _ _ _ _ _ _ hpos, hinner]
          by_cases hx : d * 2 * 2 ^ (t + N) ≤ x ∧ x < d * 2 * 2 ^ (t + N) + 2 ^ (t + N)
          · rw [if_pos hx, if_pos hx]
            have e := sub_mul_div_parity (d * 2 * 2 ^ (N - 1)) (2 ^ t) x hpos
              (by rw [← hmult]; exact hx.1)
            rw [← hmult] at e
            simp only [if_true, e]
          · rw [if_neg hx, if_neg hx])
        (by
          intro d q x
          rw [zeroSomeAmps_amp])
        qureg i, hcover, if_pos hi]
      rw [hgt, hgo, hdefo, hdeft]
      by_cases hfirst : i / 2 ^ (t + N) % 2 = 0
      · rw [if_pos hfirst]
        congr 1
        exact decide_eq_decide.mpr ⟨fun h => ⟨h, hfirst⟩, fun h => h.1⟩
      · rw [if_neg hfirst]
        have hc : ¬ (i / 2 ^ t % 2 = 0 ∧ i / 2 ^ (t + N) % 2 = 0) := fun h => hfirst h.2
        simp [collapseAmp, hc]
    · -- outcome 1: the second outer block of every double block is kept
      subst h0
      have hne : ((0 : Nat) == 1) = false := rfl
      simp only [zero_ne_one, if_false, hne]
      rw [doubleBlocks_amp
        (fun d q => zeroSomeAmps q (d * 2 * 2 ^ (t + N)) (2 ^ (t + N)))
        (fun d q => alternateNormZeroingSomeAmpBlocks q p false
          (d * 2 * 2 ^ (t + N) + 2 ^ (t + N)) (2 ^ (t + N)) (2 ^ t))
        (fun _ _ => (0, 0)) (fun x z => collapseAmp p (decide (x / 2 ^ t % 2 = 1)) z)
        _ (2 ^ (t + N)) hO
        (by
          intro d q x
          rw [zeroSomeAmps_amp])
        (by
          intro d q x
          rw [alternateNormZeroingSomeAmpBlocks_amp _ _ _ _ _ _ _ hpos, hinner]
          by_cases hx : d * 2 * 2 ^ (t + N) + 2 ^ (t + N) ≤ x
              ∧ x < d * 2 * 2 ^ (t + N) + 2 ^ (t + N) + 2 ^ (t + N)
          · rw [if_pos hx, if_pos hx]
            have e0 : d * 2 * 2 ^ (t + N) + 2 ^ (t + N) = (d * 2 + 1) * 2 ^ (t + N) := by ring
            have e := sub_mul_div_parity ((d * 2 + 1) * 2 ^ (N - 1)) (2 ^ t) x hpos
              (by rw [← hmult, ← e0]; exact hx.1)
            rw [← hmult, ← e0] at e
            simp only [Bool.false_eq_true, if_false, e]
          · rw [if_neg hx, if_neg hx])
        qureg i, hcover, if_pos hi]
      rw [hgt, hgo, hdefo, hdeft]
      by_cases hfirst : i / 2 ^ (t + N) % 2 = 0
      · rw [if_pos hfirst]
        have hc : ¬ (i / 2 ^ t % 2 = 1 ∧ i / 2 ^ (t + N) % 2 = 1) := by
          rintro ⟨_, h2⟩
          omega
        simp [collapseAmp, hc]
      · rw [if_neg hfirst]
        have h1 : i / 2 ^ (t + N) % 2 = 1 := by omega
        congr 1
        exact decide_eq_decide.mpr ⟨fun h => ⟨h, h1⟩, fun h => h.1⟩

end Collapse

section Claims

variable {K : Type} [Field K]

/-- C1. Compact/matrix equivalence: for every register, every target qubit and all
complex `alpha`, `beta`, `statevec_compactUnitaryLocal` produces exactly the register
that `statevec_unitaryLocal` produces for the matrix
`{{alpha, -conj(beta)}, {beta, conj(alpha)}}`; in particular for
`numAmpsPerChunk = 2^k` and a target `t < k`. -/
theorem compactUnitaryLocal_eq_unitaryLocal (qureg : Qureg K) (targetQubit : Nat)
    (alpha beta : Complex K) :
    statevec_compactUnitaryLocal qureg targetQubit alpha beta
      = statevec_unitaryLocal qureg targetQubit (compactMatrix alpha beta) :=
  compactUnitaryLocal_eq_unitaryLocal_aux qureg targetQubit alpha beta

/-- C2. Norm preservation: for a register with `numAmpsPerChunk = 2^k` and a target
`t < k`, `statevec_unitaryLocal` with a matrix `u` such that `u† u = I` leaves the sum
of `re² + im²` over the local amplitudes unchanged, and so does
`statevec_compactUnitaryLocal` when `|alpha|² + |beta|² = 1`. -/
theorem unitaryLocal_preserves_norm (k t : Nat) (ht : t < k) (qureg : Qureg K)
    (hn : qureg.numAmpsPerChunk = 2 ^ k) :
    (∀ u : ComplexMatrix2 K, u.isUnitary →
      (statevec_unitaryLocal qureg t u).localNorm = qureg.localNorm) ∧
    (∀ alpha beta : Complex K,
      alpha.real * alpha.real + alpha.imag * alpha.imag
        + (beta.real * beta.real + beta.imag * beta.imag) = 1 →
      (statevec_compactUnitaryLocal qureg t alpha beta).localNorm = qureg.localNorm) := by
  constructor
  · intro u hu
    exact unitaryLocal_localNorm k t ht qureg hn u hu
  · intro alpha beta h
    rw [compactUnitaryLocal_eq_unitaryLocal_aux]
    exact unitaryLocal_localNorm k t ht qureg hn _ (compactMatrix_isUnitary alpha beta h)

/-- Witness of C2: the sample register of four amplitudes, target 1, and the unit pair
`(3i/5, 4/5)`, as a matrix and in compact form. -/
theorem unitaryLocal_preserves_norm_witness :
    (statevec_unitaryLocal sampleQureg 1 (compactMatrix sampleAlpha sampleBeta)).localNorm
        = sampleQureg.localNorm ∧
    (statevec_compactUnitaryLocal sampleQureg 1 sampleAlpha sampleBeta).localNorm
        = sampleQureg.localNorm :=
  ⟨(unitaryLocal_preserves_norm 2 1 (by decide) sampleQureg rfl).1 _
      (compactMatrix_isUnitary _ _ sample_unit),
   (unitaryLocal_preserves_norm 2 1 (by decide) sampleQureg rfl).2 _ _ sample_unit⟩

/-- C3. Unitary reversibility: for every 2x2 matrix `u` with `u† u = I`, every register
and every target, applying `statevec_unitaryLocal` with `u` and then with `u†` returns
every amplitude to its original value (the register is the original one). -/
theorem unitaryLocal_dagger_reverts (qureg : Qureg K) (t : Nat) (u : ComplexMatrix2 K)
    (hu : u.isUnitary) :
    statevec_unitaryLocal (statevec_unitaryLocal qureg t u) t u.dagger = qureg := by
  have hs : (statevec_unitaryLocal (statevec_unitaryLocal qureg t u) t u.dagger).stateVec
      = qureg.stateVec := by
    rw [unitaryLocal_stateVec, unitaryLocal_stateVec]
    have hsame : (statevec_unitaryLocal qureg t u).numAmpsPerChunk
        = qureg.numAmpsPerChunk := rfl
    rw [hsame]
    have hpos : 0 < 1 <<< t := by rw [Nat.one_shiftLeft]; exact Nat.two_pow_pos t
    exact forLoop_pairBody_inverse _ _ _ (unitaryF u) (unitaryF u.dagger) (pairTask (1 <<< t))
      (fun i _ => pairUp_ne_pairLo _ i hpos)
      (fun i _ => pairTask_pairUp _ i hpos) (fun i _ => pairTask_pairLo _ i hpos)
      (unitaryF_dagger u hu) _
  cases qureg with
  | mk nq na ci sv pv =>
    simp only [statevec_unitaryLocal] at hs ⊢
    rw [hs]

/-- Witness of C3: the sample register, target 1, the matrix of the unit pair
`(3i/5, 4/5)`. -/
theorem unitaryLocal_dagger_reverts_witness :
    statevec_unitaryLocal
      (statevec_unitaryLocal sampleQureg 1 (compactMatrix sampleAlpha sampleBeta)) 1
      (compactMatrix sampleAlpha sampleBeta).dagger = sampleQureg :=
  unitaryLocal_dagger_reverts sampleQureg 1 _ (compactMatrix_isUnitary _ _ sample_unit)

/-- C4. Control dominance: for a register with `numAmpsPerChunk = 2^k` whose amplitude is
zero at every global index whose control bit `c` is 1, and every target `t < k` with
`t ≠ c`, each of `statevec_controlledUnitaryLocal`,
`statevec_controlledCompactUnitaryLocal`, `statevec_controlledNotLocal` and
`statevec_controlledPauliYLocal` returns the register unchanged. -/
theorem controlled_control_zero_unchanged (k t c : Nat) (ht : t < k) (hct : c ≠ t)
    (qureg : Qureg K) (hn : qureg.numAmpsPerChunk = 2 ^ k)
    (hzero : ∀ j, j < qureg.numAmpsPerChunk →
      extractBit c (j + qureg.chunkId * qureg.numAmpsPerChunk) = 1 →
      qureg.stateVec.real j = 0 ∧ qureg.stateVec.imag j = 0) :
    (∀ u : ComplexMatrix2 K, statevec_controlledUnitaryLocal qureg c t u = qureg) ∧
    (∀ alpha beta : Complex K,
      statevec_controlledCompactUnitaryLocal qureg c t alpha beta = qureg) ∧
    statevec_controlledNotLocal qureg c t = qureg ∧
    (∀ conjFac : Int, statevec_controlledPauliYLocal qureg c t conjFac = qureg) := by
  have key := fun i hi hcb => control_pair_zero k t c i ht hct qureg hn hzero hi hcb
  have hpos : 0 < 1 <<< t := by rw [Nat.one_shiftLeft]; exact Nat.two_pow_pos t
  refine ⟨?_, ?_, ?_, ?_⟩
  · intro u
    have hs : (statevec_controlledUnitaryLocal qureg c t u).stateVec = qureg.stateVec := by
      apply forLoop_invariant (fun sv => sv = qureg.stateVec) _ _ _ _ rfl
      intro i hi sv hsv
      subst hsv
      by_cases hcb : extractBit c (i / 1 <<< t * (2 * 1 <<< t) + i % 1 <<< t
          + qureg.chunkId * qureg.numAmpsPerChunk) ≠ 0
      · obtain ⟨⟨a1, a2⟩, b1, b2⟩ := key i hi hcb
        simp only [hcb, if_true, ne_eq, not_false_eq_true]
        apply ComplexArray.ext_amp
        intro j
        simp only [ComplexArray.amp, a1, a2, b1, b2, mul_zero, sub_zero, add_zero]
        rw [update_update_self _ _ _ _ _ a1 b1, update_update_self _ _ _ _ _ a2 b2]
      · simp only [hcb, if_false]
    cases qureg with
    | mk nq na ci sv pv =>
      simp only [statevec_controlledUnitaryLocal] at hs ⊢
      rw [hs]
  · intro alpha beta
    have hs : (statevec_controlledCompactUnitaryLocal qureg c t alpha beta).stateVec
        = qureg.stateVec := by
      apply forLoop_invariant (fun sv => sv = qureg.stateVec) _ _ _ _ rfl
      intro i hi sv hsv
      subst hsv
      by_cases hcb : extractBit c (i / 1 <<< t * (2 * 1 <<< t) + i % 1 <<< t
          + qureg.chunkId * qureg.numAmpsPerChunk) ≠ 0
      · obtain ⟨⟨a1, a2⟩, b1, b2⟩ := key i hi hcb
        simp only [hcb, if_true, ne_eq, not_false_eq_true]
        apply ComplexArray.ext_amp
        intro j
        simp only [ComplexArray.amp, a1, a2, b1, b2, mul_zero, sub_zero, add_zero]
        rw [update_update_self _ _ _ _ _ a1 b1, update_update_self _ _ _ _ _ a2 b2]
      · simp only [hcb, if_false]
    cases qureg with
    | mk nq na ci sv pv =>
      simp only [statevec_controlledCompactUnitaryLocal] at hs ⊢
      rw [hs]
  · have hs : (statevec_controlledNotLocal qureg c t).stateVec = qureg.stateVec := by
      apply forLoop_invariant (fun sv => sv = qureg.stateVec) _ _ _ _ rfl
      intro i hi sv hsv
      subst hsv
      by_cases hcb : extractBit c (i / 1 <<< t * (2 * 1 <<< t) + i % 1 <<< t
          + qureg.chunkId * qureg.numAmpsPerChunk) ≠ 0
      · obtain ⟨⟨a1, a2⟩, b1, b2⟩ := key i hi hcb
        simp only [hcb, if_true, ne_eq, not_false_eq_true]
        apply ComplexArray.ext_amp
        intro j
        simp only [ComplexArray.amp, a1, a2, b1, b2]
        rw [update_update_self _ _ _ _ _ a1 b1, update_update_self _ _ _ _ _ a2 b2]
      · simp only [hcb, if_false]
    cases qureg with
    | mk nq na ci sv pv =>
      simp only [statevec_controlledNotLocal] at hs ⊢
      rw [hs]
  · intro conjFac
    have hs : (statevec_controlledPauliYLocal qureg c t conjFac).stateVec
        = qureg.stateVec := by
      apply forLoop_invariant (fun sv => sv = qureg.stateVec) _ _ _ _ rfl
      intro i hi sv hsv
      subst hsv
      by_cases hcb : extractBit c (i / 1 <<< t * (2 * 1 <<< t) + i % 1 <<< t
          + qureg.chunkId * qureg.numAmpsPerChunk) ≠ 0
      · obtain ⟨⟨a1, a2⟩, b1, b2⟩ := key i hi hcb
        have hne : i / 1 <<< t * (2 * 1 <<< t) + i % 1 <<< t + 1 <<< t
            ≠ i / 1 <<< t * (2 * 1 <<< t) + i % 1 <<< t := by omega
        simp only [hcb, if_true, ne_eq, not_false_eq_true]
        apply ComplexArray.ext_amp
        intro j
        simp only [ComplexArray.amp, Function.update_noteq hne, a1, a2, b1, b2, mul_zero,
          neg_zero]
        rw [update_update_self _ _ _ _ _ a1 b1, update_update_self _ _ _ _ _ a2 b2]
      · simp only [hcb, if_false]
    cases qureg with
    | mk nq na ci sv pv =>
      simp only [statevec_controlledPauliYLocal] at hs ⊢
      rw [hs]

theorem sampleControlZero_zero : ∀ j, j < sampleControlZero.numAmpsPerChunk →
    extractBit 0 (j + sampleControlZero.chunkId * sampleControlZero.numAmpsPerChunk) = 1 →
    sampleControlZero.stateVec.real j = 0 ∧ sampleControlZero.stateVec.imag j = 0 := by
  intro j hj
  have hj' : j < 4 := hj
  interval_cases j <;> simp [sampleControlZero, extractBit]

/-- Witness of C4: the register `(1, 0, 3 + i, 0)`, control qubit 0, target qubit 1, the
matrix and the compact pair of `(3i/5, 4/5)`, and `conjFac = 1`. -/
theorem controlled_control_zero_unchanged_witness :
    statevec_controlledUnitaryLocal sampleControlZero 0 1 (compactMatrix sampleAlpha sampleBeta)
      = sampleControlZero ∧
    statevec_controlledCompactUnitaryLocal sampleControlZero 0 1 sampleAlpha sampleBeta
      = sampleControlZero ∧
    statevec_controlledNotLocal sampleControlZero 0 1 = sampleControlZero ∧
    statevec_controlledPauliYLocal sampleControlZero 0 1 1 = sampleControlZero :=
  have h := controlled_control_zero_unchanged 2 1 0 (by decide) (by decide) sampleControlZero
    rfl sampleControlZero_zero
  ⟨h.1 _, h.2.1 _ _, h.2.2.1, h.2.2.2 1⟩

/-- C5 (evaluation at a failing input). Damping level 0 on the one-qubit density matrix
`|+><+|`, target qubit 0. The local kernel leaves the off-diagonal amplitude `rho[1][0]` at
`1/2`, that is `sqrt(1 - 0)` times its value, whereas the distributed kernel run on chunk 0 of
2 sets it to `0`: it multiplies by `sqrt(1 - sqrt(1 - 0))`. -/
theorem mixDampingDistributed_offDiagonal_level_zero :
    (densmatr_mixDampingLocal sqrtExact sampleDensityWhole 0 0).stateVec.real 1 = 1 / 2 ∧
    sqrtExact (1 - 0) * sampleDensityChunk.stateVec.real 1 = 1 / 2 ∧
    (densmatr_mixDampingDistributed sqrtExact sampleDensityChunk 0 0).stateVec.real 1 = 0 := by
  refine ⟨?_, ?_, ?_⟩
  · have h23 : (2 : Nat) &&& 3 = 2 := by decide
    simp [densmatr_mixDampingLocal, sampleDensityWhole, forLoop, sqrtExact, Function.update,
      h23]
  · simp [sampleDensityChunk, sqrtExact]
  · simp [densmatr_mixDampingDistributed, densmatr_mixDampingDephase,
      densmatr_oneQubitDegradeOffDiagonal, sampleDensityChunk, forLoop, sqrtExact,
      Function.update, extractBit]

/-- C6. Local/distributed equivalence of the compact unitary: for a register of `2n`
amplitudes, `n = 2^j`, split into two chunks of `n` with the target the top qubit `j`,
running `statevec_compactUnitaryDistributed` on chunk 0 with `(rot1, rot2) = (alpha, -beta)`,
up = own amplitudes, lo = pair buffer, and on chunk 1 with `(rot1, rot2) = (beta, alpha)`,
up = pair buffer, lo = own amplitudes, both writing the own amplitudes, gives, concatenated,
exactly the amplitudes of `statevec_compactUnitaryLocal` on the unsplit register; this covers
the scalar path (`n < 4`) and the 4-lane path (`n ≥ 4`). -/
theorem compactUnitary_distributed_eq_local (j : Nat) (whole : Qureg K)
    (hw : whole.numAmpsPerChunk = 2 * 2 ^ j) (alpha beta : Complex K) :
    concatChunks (2 ^ j)
      (statevec_compactUnitaryDistributed (splitChunk whole (2 ^ j) 0) alpha beta.neg
        ArrayRef.stateVec ArrayRef.pairStateVec ArrayRef.stateVec).stateVec
      (statevec_compactUnitaryDistributed (splitChunk whole (2 ^ j) 1) beta alpha
        ArrayRef.pairStateVec ArrayRef.stateVec ArrayRef.stateVec).stateVec
      = (statevec_compactUnitaryLocal whole j alpha beta).stateVec := by
  rw [compactUnitaryLocal_eq_unitaryLocal_aux]
  obtain ⟨l1, l2⟩ := unitaryLocal_amp whole j (compactMatrix alpha beta)
  have hhalf : whole.numAmpsPerChunk >>> 1 = 2 ^ j := by
    rw [hw, Nat.shiftRight_eq_div_pow]
    simp
  rw [hhalf] at l1 l2
  have hpos : 0 < 2 ^ j := Nat.two_pow_pos j
  have hup : ∀ i, i < 2 ^ j → pairUp (2 ^ j) i = i := by
    intro i hi
    unfold pairUp
    rw [Nat.div_eq_of_lt hi, Nat.mod_eq_of_lt hi]
    omega
  have hlo : ∀ i, i < 2 ^ j → pairLo (2 ^ j) i = i + 2 ^ j := by
    intro i hi
    rw [pairLo_eq_pairUp_add, hup i hi]
  have d0 := compactUnitaryDistributed_ampAt alpha beta.neg ArrayRef.stateVec
    ArrayRef.pairStateVec ArrayRef.stateVec j (splitChunk whole (2 ^ j) 0) rfl
  have d1 := compactUnitaryDistributed_ampAt beta alpha ArrayRef.pairStateVec
    ArrayRef.stateVec ArrayRef.stateVec j (splitChunk whole (2 ^ j) 1) rfl
  apply ComplexArray.ext_amp
  intro i
  by_cases h1 : i < 2 ^ j
  · have e0 := d0 (ArrayRef.stateVec, i)
    simp only [Qureg.ampAt, Qureg.array, h1, and_self, if_true, true_and] at e0
    have el := (l1 i h1).1
    rw [hup i h1, hlo i h1] at el
    rw [el]
    have ec : (concatChunks (2 ^ j)
        (statevec_compactUnitaryDistributed (splitChunk whole (2 ^ j) 0) alpha beta.neg
          ArrayRef.stateVec ArrayRef.pairStateVec ArrayRef.stateVec).stateVec
        (statevec_compactUnitaryDistributed (splitChunk whole (2 ^ j) 1) beta alpha
          ArrayRef.pairStateVec ArrayRef.stateVec ArrayRef.stateVec).stateVec).amp i
        = (statevec_compactUnitaryDistributed (splitChunk whole (2 ^ j) 0) alpha beta.neg
          ArrayRef.stateVec ArrayRef.pairStateVec ArrayRef.stateVec).stateVec.amp i := by
      simp [concatChunks, ComplexArray.amp, h1]
    rw [ec, e0]
    simp only [distF, unitaryF, compactMatrix, splitChunk, chunkOf, ComplexArray.amp,
      Complex.neg]
    refine Prod.ext ?_ ?_ <;> simp <;> ring_nf
  · have ec : (concatChunks (2 ^ j)
        (statevec_compactUnitaryDistributed (splitChunk whole (2 ^ j) 0) alpha beta.neg
          ArrayRef.stateVec ArrayRef.pairStateVec ArrayRef.stateVec).stateVec
        (statevec_compactUnitaryDistributed (splitChunk whole (2 ^ j) 1) beta alpha
          ArrayRef.pairStateVec ArrayRef.stateVec ArrayRef.stateVec).stateVec).amp i
        = (statevec_compactUnitaryDistributed (splitChunk whole (2 ^ j) 1) beta alpha
          ArrayRef.pairStateVec ArrayRef.stateVec ArrayRef.stateVec).stateVec.amp
            (i - 2 ^ j) := by
      simp [concatChunks, ComplexArray.amp, h1]
    have e1 := d1 (ArrayRef.stateVec, i - 2 ^ j)
    simp only [Qureg.ampAt, Qureg.array, true_and] at e1
    rw [ec, e1]
    have hi : 2 ^ j + (i - 2 ^ j) = i := by omega
    by_cases h2 : i - 2 ^ j < 2 ^ j
    · have el := (l1 (i - 2 ^ j) h2).2
      rw [hup _ h2, hlo _ h2, Nat.sub_add_cancel (by omega)] at el
      rw [el, if_pos h2]
      simp only [distF, unitaryF, compactMatrix, splitChunk, chunkOf, ComplexArray.amp]
      refine Prod.ext ?_ ?_ <;> first | (simp [hi]; done) | (simp [hi]; ring_nf)
    · rw [if_neg h2]
      have hout : ∀ i', i' < 2 ^ j → i ≠ pairUp (2 ^ j) i' ∧ i ≠ pairLo (2 ^ j) i' := by
        intro i' hi'
        rw [hup i' hi', hlo i' hi']
        omega
      rw [l2 i hout]
      simp [splitChunk, chunkOf, ComplexArray.amp, hi]

/-- Witness of C6: a register of eight amplitudes split into two chunks of four (the 4-lane
path), the unit pair `(3i/5, 4/5)`. -/
theorem compactUnitary_distributed_eq_local_witness :
    concatChunks (2 ^ 2)
      (statevec_compactUnitaryDistributed (splitChunk sampleQureg8 (2 ^ 2) 0) sampleAlpha
        sampleBeta.neg ArrayRef.stateVec ArrayRef.pairStateVec ArrayRef.stateVec).stateVec
      (statevec_compactUnitaryDistributed (splitChunk sampleQureg8 (2 ^ 2) 1) sampleBeta
        sampleAlpha ArrayRef.pairStateVec ArrayRef.stateVec ArrayRef.stateVec).stateVec
      = (statevec_compactUnitaryLocal sampleQureg8 2 sampleAlpha sampleBeta).stateVec :=
  compactUnitary_distributed_eq_local 2 sampleQureg8 rfl sampleAlpha sampleBeta

/-- Claim C7: the restructured controlled kernel and the shared temporaries of its OpenMP
region. For every register with `numAmpsPerChunk = 2^k`, every chunk id, every target
`t < k` and every control `c ≠ t`:
(1) run by one thread (or built without OpenMP),
`statevec_controlledCompactUnitaryLocalSmall` returns exactly the register that
`statevec_controlledCompactUnitaryLocal` returns, on every path;
(2) when the control qubit lies inside the chunk, or is fixed to 0 by the chunk id, it does
so in every execution.
The last part is the divergence on the path of
`statevec_controlledCompactUnitaryLocalAllSmall` (control qubit fixed to 1 by the chunk id),
whose region leaves `stateRealLo` and `stateImagLo` shared: on chunk 1 of 2 with the
amplitudes 1, 2, 3, 4, control qubit 2, target qubit 0 and the pair `(3i/5, 4/5)`, in the
execution by two threads in which thread 1 loads the pair `(2, 3)` between the loads and
the stores of thread 0 for the pair `(0, 1)`, thread 0 computes with the amplitude 4 of index
3 in place of the amplitude 2 of index 1: the amplitude at index 0 becomes `-16/5 + 3i/5`,
where the predicated kernel gives `-8/5 + 3i/5`. -/
theorem controlledCompactUnitaryLocalSmall_shared_temporaries :
    (∀ (k t c : Nat) (qureg : Qureg K) (alpha beta : Complex K), t < k → c ≠ t →
      qureg.numAmpsPerChunk = 2 ^ k →
      statevec_controlledCompactUnitaryLocalSmall (allSmall_sequential qureg t) qureg c t
          alpha beta
        = statevec_controlledCompactUnitaryLocal qureg c t alpha beta ∧
      ((c < k ∨ extractBit c (qureg.chunkId * 2 ^ k) = 0) → ∀ trace : List AllSmallStep,
        statevec_controlledCompactUnitaryLocalSmall trace qureg c t alpha beta
          = statevec_controlledCompactUnitaryLocal qureg c t alpha beta)) ∧
    (IsAllSmallExecution 2 sampleControlOutside 0 sampleRaceTrace ∧
      (statevec_controlledCompactUnitaryLocalSmall sampleRaceTrace sampleControlOutside 2 0
        sampleAlpha sampleBeta).stateVec.amp 0 = (-(16 / 5), 3 / 5) ∧
      (statevec_controlledCompactUnitaryLocal sampleControlOutside 2 0 sampleAlpha
        sampleBeta).stateVec.amp 0 = (-(8 / 5), 3 / 5)) := by
  have hseq : ∀ (k t c : Nat) (qureg : Qureg K) (alpha beta : Complex K), t < k → c ≠ t →
      qureg.numAmpsPerChunk = 2 ^ k →
      statevec_controlledCompactUnitaryLocalSmall (allSmall_sequential qureg t) qureg c t
          alpha beta
        = statevec_controlledCompactUnitaryLocal qureg c t alpha beta := by
    intro k t c qureg alpha beta ht hct hn
    obtain ⟨T, hT, eT⟩ := controlledCompactUnitaryLocalSmall_pairMap k t c ht hct qureg hn
      alpha beta
    obtain ⟨T', hT', eT'⟩ := controlledCompactUnitaryLocal_pairMap k t c ht qureg hn alpha beta
    rw [eT, eT', isPairMap_unique _ t T T' _ hT hT' qureg.stateVec]
  refine ⟨?_, ?_, ?_, ?_⟩
  · intro k t c qureg alpha beta ht hct hn
    refine ⟨hseq k t c qureg alpha beta ht hct hn, ?_⟩
    intro hpath trace
    rw [controlledCompactUnitaryLocalSmall_trace k c t qureg hn hpath alpha beta trace
      (allSmall_sequential qureg t)]
    exact hseq k t c qureg alpha beta ht hct hn
  · refine ⟨by decide, by decide, by decide, by decide⟩
  · have e : statevec_controlledCompactUnitaryLocalSmall sampleRaceTrace sampleControlOutside
        2 0 sampleAlpha sampleBeta
        = statevec_controlledCompactUnitaryLocalAllSmall sampleRaceTrace sampleControlOutside
            2 0 sampleAlpha sampleBeta := by
      unfold statevec_controlledCompactUnitaryLocalSmall
      rw [if_pos (by decide), if_pos (by decide)]
    rw [e]
    simp [statevec_controlledCompactUnitaryLocalAllSmall, sampleRaceTrace, allSmall_step,
      ComplexArray.amp, sampleControlOutside, sampleAlpha, sampleBeta, Function.update]
    norm_num
  · have h1 : (4 : Nat) >>> 1 = 2 := by decide
    simp [statevec_controlledCompactUnitaryLocal, forLoop, ComplexArray.amp,
      sampleControlOutside, sampleAlpha, sampleBeta, Function.update, extractBit, h1]
    norm_num

/-- Witness of C7: run by one thread, the restructured kernel equals the predicated one on
a register of eight amplitudes (control qubit 2 inside the chunk, target qubit 0) and on
chunk 1 of 2 of four amplitudes (control qubit 2 fixed to 1 by the chunk id); with the
control qubit inside the chunk it does so in the execution `sampleRaceTrace` too. -/
theorem controlledCompactUnitaryLocalSmall_shared_temporaries_witness :
    statevec_controlledCompactUnitaryLocalSmall (allSmall_sequential sampleQureg8 0)
        sampleQureg8 2 0 sampleAlpha sampleBeta
      = statevec_controlledCompactUnitaryLocal sampleQureg8 2 0 sampleAlpha sampleBeta ∧
    statevec_controlledCompactUnitaryLocalSmall (allSmall_sequential sampleControlOutside 0)
        sampleControlOutside 2 0 sampleAlpha sampleBeta
      = statevec_controlledCompactUnitaryLocal sampleControlOutside 2 0 sampleAlpha
          sampleBeta ∧
    statevec_controlledCompactUnitaryLocalSmall sampleRaceTrace sampleQureg8 2 0 sampleAlpha
        sampleBeta
      = statevec_controlledCompactUnitaryLocal sampleQureg8 2 0 sampleAlpha sampleBeta :=
  ⟨((@controlledCompactUnitaryLocalSmall_shared_temporaries ℚ _).1 3 0 2 sampleQureg8
      sampleAlpha sampleBeta (by decide) (by decide) rfl).1,
   ((@controlledCompactUnitaryLocalSmall_shared_temporaries ℚ _).1 2 0 2 sampleControlOutside
      sampleAlpha sampleBeta (by decide) (by decide) rfl).1,
   ((@controlledCompactUnitaryLocalSmall_shared_temporaries ℚ _).1 3 0 2 sampleQureg8
      sampleAlpha sampleBeta (by decide) (by decide) rfl).2 (Or.inl (by decide))
      sampleRaceTrace⟩

end Claims

section SwapClaims

variable {K : Type}

/-- C8. Parity swap: for every register with `numAmpsPerChunk = 2^k` and all distinct qubits
`q1, q2 < k` (so `k ≥ 2`), applying `statevec_swapQubitAmpsLocal` twice gives back the
register; one application moves the amplitude at each index below `2^k` whose bits `q1` and
`q2` differ to the index with both bits flipped, and leaves every other amplitude
unchanged. -/
theorem swapQubitAmpsLocal_parity_swap (k q1 q2 : Nat) (h1 : q1 < k) (h2 : q2 < k)
    (hne : q1 ≠ q2) (qureg : Qureg K) (hn : qureg.numAmpsPerChunk = 2 ^ k) :
    statevec_swapQubitAmpsLocal (statevec_swapQubitAmpsLocal qureg q1 q2) q1 q2 = qureg ∧
    (∀ i, i < 2 ^ k → isOddParity i q1 q2 = true →
      (statevec_swapQubitAmpsLocal qureg q1 q2).stateVec.amp (flipBit (flipBit i q1) q2)
        = qureg.stateVec.amp i) ∧
    (∀ i, ¬ (i < 2 ^ k ∧ isOddParity i q1 q2 = true) →
      (statevec_swapQubitAmpsLocal qureg q1 q2).stateVec.amp i = qureg.stateVec.amp i) := by
  refine ⟨?_, ?_, ?_⟩
  · have hs : (statevec_swapQubitAmpsLocal (statevec_swapQubitAmpsLocal qureg q1 q2)
        q1 q2).stateVec = qureg.stateVec := by
      rw [swapQubitAmpsLocal_stateVec, swapQubitAmpsLocal_stateVec]
      have hsame : (statevec_swapQubitAmpsLocal qureg q1 q2).numAmpsPerChunk
          = qureg.numAmpsPerChunk := rfl
      rw [hsame]
      exact forLoop_pairBody_inverse _ _ _ (fun a b => (b, a)) (fun a b => (b, a))
        (swapTask q1 q2) (fun i _ => swapUp_ne_swapLo q1 q2 i hne)
        (fun i _ => swapTask_swapUp q1 q2 i hne) (fun i _ => swapTask_swapLo q1 q2 i hne)
        (fun _ _ => rfl) _
    cases qureg with
    | mk nq na ci sv pv =>
      simp only [statevec_swapQubitAmpsLocal] at hs ⊢
      rw [hs]
  · intro i hi hodd
    exact (swapQubitAmpsLocal_amp k q1 q2 h1 h2 hne qureg hn i).1 ⟨hi, hodd⟩
  · intro i hi
    exact (swapQubitAmpsLocal_amp k q1 q2 h1 h2 hne qureg hn i).2 hi

/-- Witness of C8: the register of eight amplitudes, qubits 2 and 0; index 1 (bits differ)
moves to index 4, index 5 (bits equal) stays. -/
theorem swapQubitAmpsLocal_parity_swap_witness :
    statevec_swapQubitAmpsLocal (statevec_swapQubitAmpsLocal sampleQureg8 2 0) 2 0
      = sampleQureg8 ∧
    (statevec_swapQubitAmpsLocal sampleQureg8 2 0).stateVec.amp (flipBit (flipBit 1 2) 0)
      = sampleQureg8.stateVec.amp 1 ∧
    (statevec_swapQubitAmpsLocal sampleQureg8 2 0).stateVec.amp 5
      = sampleQureg8.stateVec.amp 5 :=
  have h := swapQubitAmpsLocal_parity_swap 3 2 0 (by decide) (by decide) (by decide)
    sampleQureg8 rfl
  ⟨h.1, h.2.1 1 (by decide) (by decide), h.2.2 5 (by decide)⟩

/-- C9. Local/distributed equivalence of the qubit swap: for a register of `2n` amplitudes,
`n = 2^k`, split into two chunks of `n`, with `q2 = k` the top qubit and `q1 < k`, running
`statevec_swapQubitAmpsDistributed` on each chunk `c` with `pairRank = 1 - c` and the pair
buffer holding the other chunk's amplitudes gives, concatenated, exactly the amplitudes of
`statevec_swapQubitAmpsLocal` on the unsplit register; and every pair-buffer index that is
read lies in `[0, n)`. -/
theorem swapQubitAmps_distributed_eq_local (k q1 : Nat) (h1 : q1 < k) (whole : Qureg K)
    (hw : whole.numAmpsPerChunk = 2 * 2 ^ k) :
    concatChunks (2 ^ k)
      (statevec_swapQubitAmpsDistributed (splitChunk whole (2 ^ k) 0) 1 q1 k).stateVec
      (statevec_swapQubitAmpsDistributed (splitChunk whole (2 ^ k) 1) 0 q1 k).stateVec
      = (statevec_swapQubitAmpsLocal whole q1 k).stateVec ∧
    (∀ c localInd, c < 2 → localInd < 2 ^ k →
      isOddParity (c * 2 ^ k + localInd) q1 k = true →
      0 ≤ swapQubitAmpsDistributed_pairLocalInd (splitChunk whole (2 ^ k) c) (1 - c) q1 k
          localInd ∧
      swapQubitAmpsDistributed_pairLocalInd (splitChunk whole (2 ^ k) c) (1 - c) q1 k
          localInd < ((2 ^ k : Nat) : Int)) := by
  have hw' : whole.numAmpsPerChunk = 2 ^ (k + 1) := by rw [hw, Nat.pow_succ]; ring
  have hne : q1 ≠ k := by omega
  have hpl : ∀ c i, c < 2 → i < 2 ^ k →
      swapQubitAmpsDistributed_pairLocalInd (splitChunk whole (2 ^ k) c) (1 - c) q1 k i
        = ((flipBit i q1 : Nat) : Int) := by
    intro c i hc hi
    simp only [swapQubitAmpsDistributed_pairLocalInd, splitChunk]
    rw [(flip_both_top k q1 c i h1 hc hi).1]
    push_cast
    ring
  constructor
  · apply ComplexArray.ext_amp
    intro x
    have hsplit : ∀ c, c < 2 → ∀ i, i < 2 ^ k →
        (statevec_swapQubitAmpsDistributed (splitChunk whole (2 ^ k) c) (1 - c) q1 k).stateVec.amp i
          = (statevec_swapQubitAmpsLocal whole q1 k).stateVec.amp (c * 2 ^ k + i) := by
      intro c hc i hi
      have hg : c * 2 ^ k + i < 2 ^ (k + 1) := by
        have : c * 2 ^ k ≤ 1 * 2 ^ k := Nat.mul_le_mul_right _ (by omega)
        rw [Nat.pow_succ]
        omega
      rw [swapQubitAmpsDistributed_amp]
      have hn : (splitChunk whole (2 ^ k) c).numAmpsPerChunk = 2 ^ k := rfl
      have hcid : (splitChunk whole (2 ^ k) c).chunkId = c := rfl
      rw [hn, hcid, hpl c i hc hi]
      by_cases hodd : isOddParity (c * 2 ^ k + i) q1 k = true
      · rw [if_pos ⟨hi, hodd⟩,
          swapQubitAmpsLocal_amp_odd (k + 1) q1 k (by omega) (by omega) hne whole hw' _ hg hodd,
          (flip_both_top k q1 c i h1 hc hi).1]
        simp [splitChunk, chunkOf, ComplexArray.amp]
      · rw [if_neg (fun h => hodd h.2),
          (swapQubitAmpsLocal_amp (k + 1) q1 k (by omega) (by omega) hne whole hw' _).2
            (fun h => hodd h.2)]
        simp [splitChunk, chunkOf, ComplexArray.amp]
    by_cases hx : x < 2 ^ k
    · have e := hsplit 0 (by decide) x hx
      simp only [Nat.zero_mul, Nat.zero_add, Nat.sub_zero] at e
      rw [← e]
      simp [concatChunks, ComplexArray.amp, hx]
    · have ec : (concatChunks (2 ^ k)
          (statevec_swapQubitAmpsDistributed (splitChunk whole (2 ^ k) 0) 1 q1 k).stateVec
          (statevec_swapQubitAmpsDistributed (splitChunk whole (2 ^ k) 1) 0 q1 k).stateVec).amp x
          = (statevec_swapQubitAmpsDistributed (splitChunk whole (2 ^ k) 1) 0 q1
              k).stateVec.amp (x - 2 ^ k) := by
        simp [concatChunks, ComplexArray.amp, hx]
      rw [ec]
      by_cases hx2 : x - 2 ^ k < 2 ^ k
      · have e := hsplit 1 (by decide) (x - 2 ^ k) hx2
        simp only [Nat.one_mul, Nat.sub_self] at e
        rw [e]
        congr 1
        omega
      · rw [swapQubitAmpsDistributed_amp]
        have hn : (splitChunk whole (2 ^ k) 1).numAmpsPerChunk = 2 ^ k := rfl
        rw [hn, if_neg (fun h => hx2 h.1),
          (swapQubitAmpsLocal_amp (k + 1) q1 k (by omega) (by omega) hne whole hw' x).2
            (fun h => by rw [Nat.pow_succ] at h; omega)]
        have e : 2 ^ k + (x - 2 ^ k) = x := by omega
        simp [splitChunk, chunkOf, ComplexArray.amp, e]
  · intro c i hc hi _
    rw [hpl c i hc hi]
    exact ⟨Int.natCast_nonneg _, Int.ofNat_lt.mpr (flip_both_top k q1 c i h1 hc hi).2⟩

/-- Witness of C9: the register of eight amplitudes split into two chunks of four, qubits 1
and 2 (the top one); chunk 1, local index 0 reads a pair-buffer index in range. -/
theorem swapQubitAmps_distributed_eq_local_witness :
    concatChunks (2 ^ 2)
      (statevec_swapQubitAmpsDistributed (splitChunk sampleQureg8 (2 ^ 2) 0) 1 1 2).stateVec
      (statevec_swapQubitAmpsDistributed (splitChunk sampleQureg8 (2 ^ 2) 1) 0 1 2).stateVec
      = (statevec_swapQubitAmpsLocal sampleQureg8 1 2).stateVec ∧
    (0 ≤ swapQubitAmpsDistributed_pairLocalInd (splitChunk sampleQureg8 (2 ^ 2) 1) (1 - 1) 1 2 0
      ∧ swapQubitAmpsDistributed_pairLocalInd (splitChunk sampleQureg8 (2 ^ 2) 1) (1 - 1) 1 2 0
        < ((2 ^ 2 : Nat) : Int)) :=
  have h := swapQubitAmps_distributed_eq_local 2 1 (by decide) sampleQureg8 rfl
  ⟨h.1, h.2 1 0 (by decide) (by decide) (by decide)⟩

end SwapClaims

section CollapseClaims

variable {K : Type} [Field K]

/-- C10. Density-matrix collapse: for every density register of `N` qubits with
`numAmpsPerChunk = 2^m`, every chunk id, every measured qubit `t < N`, outcome in `{0, 1}`
and probability `p`, after `densmatr_collapseToKnownProbOutcome` the local amplitude `i`,
of global index `g = chunkId * 2^m + i`, is its original value divided by `p` if bit `t` and
bit `t + N` of `g` both equal the outcome, and is 0 otherwise. This covers the three regimes
of the kernel: chunk inside one inner block, chunk inside one outer block, chunk spanning
several outer blocks. -/
theorem densmatr_collapse_keeps_outcome_blocks (N m t outcome : Nat) (ht : t < N)
    (ho : outcome < 2) (qureg : Qureg K) (hN : qureg.numQubitsRepresented = N)
    (hn : qureg.numAmpsPerChunk = 2 ^ m) (p : K) (i : Nat) (hi : i < 2 ^ m) :
    (densmatr_collapseToKnownProbOutcome qureg t outcome p).stateVec.amp i
      = if extractBit t (qureg.chunkId * 2 ^ m + i) = outcome
          ∧ extractBit (t + N) (qureg.chunkId * 2 ^ m + i) = outcome then
          (qureg.stateVec.real i / p, qureg.stateVec.imag i / p)
        else (0, 0) := by
  rw [densmatr_collapse_amp N m t outcome ht ho qureg hN hn p i hi]
  by_cases hc : extractBit t (qureg.chunkId * 2 ^ m + i) = outcome
      ∧ extractBit (t + N) (qureg.chunkId * 2 ^ m + i) = outcome
  · rw [if_pos hc]
    simp [collapseAmp, scaleAmp, hc, ComplexArray.amp]
  · rw [if_neg hc]
    simp [collapseAmp, hc]

/-- Witness of C10: chunk 1 of 2 of a one-qubit density matrix, qubit 0, outcome 1,
probability 1/2, local index 1 (global index 3, the entry `rho[1][1]`). -/
theorem densmatr_collapse_keeps_outcome_blocks_witness :
    (densmatr_collapseToKnownProbOutcome sampleDensityTail 0 1 (1 / 2 : ℚ)).stateVec.amp 1
      = if extractBit 0 (sampleDensityTail.chunkId * 2 ^ 1 + 1) = 1
          ∧ extractBit (0 + 1) (sampleDensityTail.chunkId * 2 ^ 1 + 1) = 1 then
          (sampleDensityTail.stateVec.real 1 / (1 / 2 : ℚ),
            sampleDensityTail.stateVec.imag 1 / (1 / 2 : ℚ))
        else (0, 0) :=
  densmatr_collapse_keeps_outcome_blocks 1 1 0 1 (by decide) (by decide) sampleDensityTail rfl
    rfl (1 / 2) 1 (by decide)

end CollapseClaims

section Accumulate

variable {K : Type} [Field K]

/-- A loop that adds a term to an accumulator at every iteration computes the sum of the
terms. -/
theorem forLoop_add (n : Nat) (f : Nat → K) :
    forLoop n (fun i acc => acc + f i) 0 = ∑ i in Finset.range n, f i := by
  induction n with
  | zero => rfl
  | succ n ih =>
    simp only [forLoop]
    rw [ih, Finset.sum_range_succ]

/-- A loop that adds a term to an accumulator at the iterations that pass a test computes
the sum of the terms of these iterations. -/
theorem forLoop_add_if (n : Nat) (c : Nat → Prop) [DecidablePred c] (f : Nat → K) :
    forLoop n (fun i acc => if c i then acc + f i else acc) 0
      = ∑ i in (Finset.range n).filter c, f i := by
  rw [Finset.sum_filter, ← forLoop_add]
  apply forLoop_congr
  intro i _ s
  by_cases h : c i
  · simp [h]
  · simp [h]

end Accumulate

section PairCover

variable {K : Type}

theorem pairLo_pairTask (t x : Nat) (h : x.testBit t = true) :
    pairLo (2 ^ t) (pairTask (2 ^ t) x) = x := by
  have hpos : 0 < 2 ^ t := Nat.two_pow_pos t
  have h1 : extractBit t x = 1 := (extractBit_eq_one_iff t x).mpr h
  have s1 := split_at_bit t x
  rw [h1, Nat.pow_succ] at s1
  have hm := Nat.mod_lt x hpos
  have e2 : 2 ^ t * 2 = 2 * 2 ^ t := Nat.mul_comm _ _
  rw [e2] at s1
  have hdiv : pairTask (2 ^ t) x / 2 ^ t = x / (2 * 2 ^ t) := by
    unfold pairTask
    rw [Nat.add_comm, Nat.add_mul_div_right _ _ hpos, Nat.div_eq_of_lt (Nat.mod_lt _ hpos),
      Nat.zero_add]
  have hmod : pairTask (2 ^ t) x % 2 ^ t = x % 2 ^ t := by
    unfold pairTask
    rw [Nat.add_comm, Nat.add_mul_mod_self_right, Nat.mod_mod]
  unfold pairLo
  rw [hdiv, hmod]
  omega

theorem two_pow_le_of_testBit (t x : Nat) (h : x.testBit t = true) : 2 ^ t ≤ x :=
  Nat.testBit_implies_ge h

theorem pairUp_pairTask_sub (t x : Nat) (h : x.testBit t = true) :
    pairUp (2 ^ t) (pairTask (2 ^ t) x) = x - 2 ^ t := by
  have e := pairLo_pairTask t x h
  rw [pairLo_eq_pairUp_add] at e
  omega

/-- The loop of pairwise steps over the pairs `(x, x + 2^t)` of a chunk of `2^k`
amplitudes, index by index: an index with bit `t` clear is the upper index of its pair, an
index with bit `t` set is the lower one. -/
theorem forLoop_pairBody_index (k t : Nat) (ht : t < k)
    (F : Nat → K × K → K × K → (K × K) × (K × K)) (s : ComplexArray K) (x : Nat)
    (hx : x < 2 ^ k) :
    (forLoop ((2 ^ k) >>> 1) (pairBody (pairUp (2 ^ t)) (pairLo (2 ^ t)) F) s).amp x
      = if x.testBit t = false then
          (F (pairTask (2 ^ t) x) (s.amp x) (s.amp (x + 2 ^ t))).1
        else (F (pairTask (2 ^ t) x) (s.amp (x - 2 ^ t)) (s.amp x)).2 := by
  have hpos : 0 < 2 ^ t := Nat.two_pow_pos t
  obtain ⟨k1, _⟩ := forLoop_pairBody ((2 ^ k) >>> 1) (pairUp (2 ^ t)) (pairLo (2 ^ t)) F
    (pairTask (2 ^ t)) (fun i _ => pairUp_ne_pairLo _ i hpos)
    (fun i _ => pairTask_pairUp _ i hpos) (fun i _ => pairTask_pairLo _ i hpos) s
  have hlt := pairTask_lt k t x ht hx
  by_cases hb : x.testBit t = false
  · rw [if_pos hb]
    have e := pairUp_pairTask t x hb
    have h1 := (k1 _ hlt).1
    rw [pairLo_eq_pairUp_add, e] at h1
    exact h1
  · rw [if_neg hb]
    have hb' : x.testBit t = true := by simpa using hb
    have e := pairLo_pairTask t x hb'
    have e' := pairUp_pairTask_sub t x hb'
    have h1 := (k1 _ hlt).2
    rw [e, e'] at h1
    exact h1

end PairCover

section ProbabilityOfZero

variable {K : Type} [Field K]

theorem statevec_findProbabilityOfZeroLocal_eq (k t : Nat) (ht : t < k) (qureg : Qureg K)
    (hn : qureg.numAmpsPerChunk = 2 ^ k) :
    statevec_findProbabilityOfZeroLocal qureg t
      = ∑ i in (Finset.range (2 ^ k)).filter (fun i => extractBit t i = 0),
          normSq (qureg.stateVec.amp i) := by
  have hpos : 0 < 2 ^ t := Nat.two_pow_pos t
  have h1 : statevec_findProbabilityOfZeroLocal qureg t
      = ∑ i in Finset.range ((2 ^ k) >>> 1), normSq (qureg.stateVec.amp (pairUp (2 ^ t) i)) := by
    rw [← forLoop_add]
    simp only [statevec_findProbabilityOfZeroLocal, hn, Nat.one_shiftLeft]
    rfl
  rw [h1]
  apply Finset.sum_nbij (fun i => pairUp (2 ^ t) i)
  · intro i hi
    rw [Finset.mem_range] at hi
    rw [Finset.mem_filter, Finset.mem_range]
    refine ⟨pairUp_lt k t i ht hi, ?_⟩
    rw [extractBit_eq_zero_iff, pairUp_eq_insertZeroBit, testBit_insertZeroBit]
    simp
  · intro i _ j _ hij
    have := congrArg (pairTask (2 ^ t)) hij
    simpa [pairTask_pairUp _ _ hpos] using this
  · intro x hx
    rw [Finset.coe_filter, Set.mem_setOf_eq, Finset.mem_range] at hx
    refine ⟨pairTask (2 ^ t) x, ?_, ?_⟩
    · rw [Finset.coe_range, Set.mem_Iio]
      exact pairTask_lt k t x ht hx.1
    · exact pairUp_pairTask t x ((extractBit_eq_zero_iff t x).mp hx.2)
  · intro i _
    rfl

end ProbabilityOfZero

section CollapseLocal

variable {K : Type} [Field K]

theorem collapseLocal_stateVec_zero (sqrt : K → K) (qureg : Qureg K) (t : Nat) (p : K) :
    (statevec_collapseToKnownProbOutcomeLocal sqrt qureg t 0 p).stateVec
      = forLoop (qureg.numAmpsPerChunk >>> 1)
          (pairBody (pairUp (2 ^ t)) (pairLo (2 ^ t))
            (fun _ a _ => ((a.1 * (1 / sqrt p), a.2 * (1 / sqrt p)), (0, 0))))
          qureg.stateVec := by
  simp only [statevec_collapseToKnownProbOutcomeLocal, Nat.one_shiftLeft, if_true]
  rfl

theorem collapseLocal_stateVec_one (sqrt : K → K) (qureg : Qureg K) (t outcome : Nat)
    (ho : outcome ≠ 0) (p : K) :
    (statevec_collapseToKnownProbOutcomeLocal sqrt qureg t outcome p).stateVec
      = forLoop (qureg.numAmpsPerChunk >>> 1)
          (pairBody (pairUp (2 ^ t)) (pairLo (2 ^ t))
            (fun _ _ b => ((0, 0), (b.1 * (1 / sqrt p), b.2 * (1 / sqrt p)))))
          qureg.stateVec := by
  have key : (statevec_collapseToKnownProbOutcomeLocal sqrt qureg t outcome p).stateVec
      = forLoop (qureg.numAmpsPerChunk >>> 1)
          (pairBody (pairUp (1 <<< t)) (pairLo (1 <<< t))
            (fun _ _ b => ((0, 0), (b.1 * (1 / sqrt p), b.2 * (1 / sqrt p)))))
          qureg.stateVec := by
    simp only [statevec_collapseToKnownProbOutcomeLocal, if_neg ho]
    apply forLoop_congr
    intro i _ sv
    have hpos : 0 < 1 <<< t := by rw [Nat.one_shiftLeft]; exact Nat.two_pow_pos t
    have hne : i / 1 <<< t * (2 * 1 <<< t) + i % 1 <<< t + 1 <<< t
        ≠ i / 1 <<< t * (2 * 1 <<< t) + i % 1 <<< t := by omega
    simp only [pairBody, pairUp, pairLo, ComplexArray.amp, Function.update_noteq hne]
  rw [key, Nat.one_shiftLeft]

theorem collapseLocal_amp (k t outcome : Nat) (ht : t < k) (ho : outcome < 2)
    (sqrt : K → K) (qureg : Qureg K) (hn : qureg.numAmpsPerChunk = 2 ^ k) (p : K) (i : Nat)
    (hi : i < 2 ^ k) :
    (statevec_collapseToKnownProbOutcomeLocal sqrt qureg t outcome p).stateVec.amp i
      = if extractBit t i = outcome then
          (qureg.stateVec.real i / sqrt p, qureg.stateVec.imag i / sqrt p)
        else (0, 0) := by
  have hbit := extractBit_eq_ite t i
  rcases Nat.eq_zero_or_pos outcome with h0 | h0
  · subst h0
    rw [collapseLocal_stateVec_zero, hn, forLoop_pairBody_index k t ht _ _ i hi]
    by_cases hb : i.testBit t = false
    · rw [if_pos hb, if_pos ((extractBit_eq_zero_iff t i).mpr hb)]
      simp [ComplexArray.amp, div_eq_mul_inv]
    · rw [if_neg hb, if_neg (fun h => hb ((extractBit_eq_zero_iff t i).mp h))]
  · have h1 : outcome = 1 := by omega
    subst h1
    rw [collapseLocal_stateVec_one sqrt qureg t 1 (by decide), hn,
      forLoop_pairBody_index k t ht _ _ i hi]
    by_cases hb : i.testBit t = false
    · have hz := (extractBit_eq_zero_iff t i).mpr hb
      rw [if_pos hb, if_neg (by omega)]
    · have hb' : i.testBit t = true := by simpa using hb
      rw [if_neg hb, if_pos ((extractBit_eq_one_iff t i).mpr hb')]
      simp [ComplexArray.amp, div_eq_mul_inv]

end CollapseLocal

section MeasurementClaims

variable {K : Type} [Field K]

/-- C12. Pure-state collapse: for every state with `numAmpsPerChunk = 2^k`, every `t < k`,
outcome in `{0, 1}` and probability `p`, after
`statevec_collapseToKnownProbOutcomeLocal(t, outcome, p)` every amplitude whose index has bit
`t` equal to the outcome is its original value divided by `sqrt p`, and every other amplitude
of the chunk is 0. -/
theorem collapseLocal_divides_by_sqrt (k t outcome : Nat) (ht : t < k) (ho : outcome < 2)
    (sqrt : K → K) (qureg : Qureg K) (hn : qureg.numAmpsPerChunk = 2 ^ k) (p : K) (i : Nat)
    (hi : i < 2 ^ k) :
    (statevec_collapseToKnownProbOutcomeLocal sqrt qureg t outcome p).stateVec.amp i
      = if extractBit t i = outcome then
          (qureg.stateVec.real i / sqrt p, qureg.stateVec.imag i / sqrt p)
        else (0, 0) :=
  collapseLocal_amp k t outcome ht ho sqrt qureg hn p i hi

/-- Witness of C12: the Bell state `(1/sqrt 2, 0, 0, 1/sqrt 2)` over the real numbers,
collapsed with `(t, outcome, p) = (0, 0, 1/2)`, becomes `(1, 0, 0, 0)`. -/
theorem collapseLocal_divides_by_sqrt_witness :
    (statevec_collapseToKnownProbOutcomeLocal Real.sqrt (bellState (1 / Real.sqrt 2)) 0 0
        (1 / 2)).stateVec.amp 0 = (1, 0) ∧
    (statevec_collapseToKnownProbOutcomeLocal Real.sqrt (bellState (1 / Real.sqrt 2)) 0 0
        (1 / 2)).stateVec.amp 1 = (0, 0) ∧
    (statevec_collapseToKnownProbOutcomeLocal Real.sqrt (bellState (1 / Real.sqrt 2)) 0 0
        (1 / 2)).stateVec.amp 2 = (0, 0) ∧
    (statevec_collapseToKnownProbOutcomeLocal Real.sqrt (bellState (1 / Real.sqrt 2)) 0 0
        (1 / 2)).stateVec.amp 3 = (0, 0) := by
  have h := fun i hi => collapseLocal_divides_by_sqrt 2 0 0 (by decide) (by decide) Real.sqrt
    (bellState (1 / Real.sqrt 2)) rfl (1 / 2) i hi
  have hs : Real.sqrt 2 ≠ 0 := by
    rw [Real.sqrt_ne_zero (by norm_num)]
    norm_num
  have e0 : extractBit 0 0 = 0 := by decide
  have e1 : ¬ extractBit 0 1 = 0 := by decide
  have e2 : extractBit 0 2 = 0 := by decide
  have e3 : ¬ extractBit 0 3 = 0 := by decide
  refine ⟨?_, ?_, ?_, ?_⟩
  · rw [h 0 (by decide), if_pos e0]
    simp [bellState, hs]
  · rw [h 1 (by decide), if_neg e1]
  · rw [h 2 (by decide), if_pos e2]
    simp [bellState]
  · rw [h 3 (by decide), if_neg e3]

/-- C13. Pure-state probability of zero: for every state with `numAmpsPerChunk = 2^k` and
every `t < k`, `statevec_findProbabilityOfZeroLocal(t)` is the sum of `re² + im²` over the
local indices whose bit `t` is 0, each counted once. -/
theorem findProbabilityOfZeroLocal_sums_bit_zero (k t : Nat) (ht : t < k) (qureg : Qureg K)
    (hn : qureg.numAmpsPerChunk = 2 ^ k) :
    statevec_findProbabilityOfZeroLocal qureg t
      = ∑ i in (Finset.range (2 ^ k)).filter (fun i => extractBit t i = 0),
          normSq (qureg.stateVec.amp i) :=
  statevec_findProbabilityOfZeroLocal_eq k t ht qureg hn

/-- Witness of C13: on the Bell state `(1/sqrt 2, 0, 0, 1/sqrt 2)` over the real numbers the
kernel returns `1/2` for `t = 0`. -/
theorem findProbabilityOfZeroLocal_sums_bit_zero_witness :
    statevec_findProbabilityOfZeroLocal (bellState (1 / Real.sqrt 2)) 0 = 1 / 2 := by
  have h := findProbabilityOfZeroLocal_sums_bit_zero 2 0 (by decide)
    (bellState (1 / Real.sqrt 2)) rfl
  have hf : (Finset.range (2 ^ 2)).filter (fun i => extractBit 0 i = 0) = {0, 2} := by decide
  rw [h, hf]
  have hs : Real.sqrt 2 * Real.sqrt 2 = 2 := Real.mul_self_sqrt (by norm_num)
  have hs0 : Real.sqrt 2 ≠ 0 := by
    rw [Real.sqrt_ne_zero (by norm_num)]
    norm_num
  simp [bellState, normSq, ComplexArray.amp]
  field_simp

end MeasurementClaims

section DiagLayout

/-- Layout of the diagonal of a density matrix of `N` qubits in chunk `c` of `2^m`
amplitudes, `N ≤ m ≤ 2N`: with `w = 2^(m-N)` columns per chunk, the quantities that
`densmatr_findProbabilityOfZeroLocal` computes. -/
theorem diag_layout (N m c : Nat) (hm : N ≤ m) (hm2 : m ≤ 2 * N) (hc : c < 2 ^ (2 * N - m)) :
    2 ^ m = 2 ^ (m - N) * 2 ^ N ∧
    (c + 1) * 2 ^ (m - N) ≤ 2 ^ N ∧
    1 + 2 ^ m / (1 + 2 ^ N) = 2 ^ (m - N) ∧
    (if c > 0 then 1 + c * 2 ^ m / (1 + 2 ^ N) else 0) = c * 2 ^ (m - N) ∧
    (1 + 2 ^ N) * (c * 2 ^ (m - N)) % 2 ^ m = c * 2 ^ (m - N) ∧
    c * 2 ^ (m - N) + (2 ^ (m - N) - 1) * (1 + 2 ^ N) < 2 ^ m := by
  have hL : 2 ^ m = 2 ^ (m - N) * 2 ^ N := by
    rw [← Nat.pow_add]; congr 1; omega
  have hD : 2 ^ (2 * N - m) * 2 ^ (m - N) = 2 ^ N := by
    rw [← Nat.pow_add]; congr 1; omega
  have hwpos : 0 < 2 ^ (m - N) := Nat.two_pow_pos _
  have hDpos : 0 < 2 ^ N := Nat.two_pow_pos _
  have hcw : (c + 1) * 2 ^ (m - N) ≤ 2 ^ N := by
    rw [← hD]
    exact Nat.mul_le_mul_right _ hc
  generalize 2 ^ (m - N) = w at *
  generalize 2 ^ N = D at *
  have hcw' : c * w + w ≤ D := by
    have : (c + 1) * w = c * w + w := by ring
    omega
  obtain ⟨w', rfl⟩ : ∃ w', w = w' + 1 := ⟨w - 1, by omega⟩
  have e1 : (w' + 1) * D = w' * D + D := by ring
  have e2 : w' * (1 + D) = w' + w' * D := by ring
  have e3 : (w' + 1) * (1 + D) = w' + 1 + w' * D + D := by ring
  have hdiv : 2 ^ m / (1 + D) = w' := by
    apply Nat.div_eq_of_lt_le
    · rw [hL, e1, e2]; omega
    · rw [hL, e1, e3]; omega
  have e5 : c * 2 ^ m = c * (w' + 1) * D := by rw [hL]; ring
  have e6 : (1 + D) * (c * (w' + 1)) = c * (w' + 1) + c * 2 ^ m := by rw [e5]; ring
  refine ⟨hL, hcw, ?_, ?_, ?_, ?_⟩
  · rw [hdiv]; omega
  · by_cases h0 : c > 0
    · rw [if_pos h0]
      obtain ⟨a, ha⟩ : ∃ a, c * (w' + 1) = a + 1 := ⟨c * (w' + 1) - 1, by
        have : 1 * 1 ≤ c * (w' + 1) := Nat.mul_le_mul h0 (by omega)
        omega⟩
      have e7 : (a + 1) * D = a * D + D := by ring
      have e8 : a * (1 + D) = a + a * D := by ring
      have e9 : (a + 1) * (1 + D) = a + 1 + a * D + D := by ring
      have hdiv2 : c * 2 ^ m / (1 + D) = a := by
        apply Nat.div_eq_of_lt_le
        · rw [e5, ha, e7, e8]; omega
        · rw [e5, ha, e7, e9]; omega
      rw [hdiv2, ha]; omega
    · have : c = 0 := by omega
      subst this
      simp
  · rw [e6, Nat.add_mul_mod_self_right]
    apply Nat.mod_eq_of_lt
    rw [hL, e1]
    have : D ≤ w' * D + D := Nat.le_add_left _ _
    omega
  · rw [hL, e1]
    have : w' + 1 - 1 = w' := by omega
    rw [this, e2]
    have : c * (w' + 1) = c * w' + c := by ring
    omega

end DiagLayout

section DiagSum

variable {K : Type} [Field K]

/-- The kernel `densmatr_findProbabilityOfZeroLocal` as a sum over the columns of the
chunk. -/
theorem densmatr_findProbabilityOfZeroLocal_columns (N m t : Nat) (hm : N ≤ m)
    (hm2 : m ≤ 2 * N) (qureg : Qureg K) (hN : qureg.numQubitsRepresented = N)
    (hn : qureg.numAmpsPerChunk = 2 ^ m) (hc : qureg.chunkId < 2 ^ (2 * N - m)) :
    densmatr_findProbabilityOfZeroLocal qureg t
      = ∑ v in (Finset.range (2 ^ (m - N))).filter
          (fun v => extractBit t (qureg.chunkId * 2 ^ (m - N) + v) = 0),
          qureg.stateVec.real (qureg.chunkId * 2 ^ (m - N) + (1 + 2 ^ N) * v) := by
  obtain ⟨_, _, h3, h4, h5, h6⟩ := diag_layout N m qureg.chunkId hm hm2 hc
  rw [← forLoop_add_if]
  simp only [densmatr_findProbabilityOfZeroLocal, hN, hn, Nat.one_shiftLeft]
  rw [h4, h5, h3, if_neg (by omega)]

end DiagSum

section DiagIndex

variable {K : Type} [Field K]

theorem sum_range_mul (n w : Nat) (F : Nat → K) :
    ∑ c in Finset.range n, ∑ v in Finset.range w, F (c * w + v)
      = ∑ k in Finset.range (n * w), F k := by
  induction n with
  | zero => simp
  | succ n ih =>
    rw [Finset.sum_range_succ, ih, Nat.succ_mul, Finset.sum_range_add]

/-- The local indices of chunk `c` that hold a diagonal entry `rho[k][k]` are the indices
`c*w + (1 + 2^N) * v` for the columns `v` of the chunk, with `k = c*w + v`. -/
theorem diag_index_iff (N m c i k : Nat) (hm : N ≤ m) (hm2 : m ≤ 2 * N)
    (hc : c < 2 ^ (2 * N - m)) :
    (i < 2 ^ m ∧ k < 2 ^ N ∧ c * 2 ^ m + i = k * (2 ^ N + 1)) ↔
    (∃ v, v < 2 ^ (m - N) ∧ k = c * 2 ^ (m - N) + v ∧ i = c * 2 ^ (m - N) + (1 + 2 ^ N) * v) := by
  obtain ⟨hL, hcw, _, _, _, h6⟩ := diag_layout N m c hm hm2 hc
  have hwpos : 0 < 2 ^ (m - N) := Nat.two_pow_pos _
  rw [hL]
  rw [hL] at h6
  generalize 2 ^ (m - N) = w at *
  generalize 2 ^ N = D at *
  have ecw : (c + 1) * w = c * w + w := by ring
  have e0 : c * (w * D) = c * w * D := by ring
  constructor
  · rintro ⟨hi, hk, h⟩
    have e1 : k * (D + 1) = k * D + k := by ring
    rw [e0, e1] at h
    have hak : c * w ≤ k := by
      by_contra hlt
      have h1 : (k + 1) * D ≤ c * w * D := Nat.mul_le_mul_right _ (by omega)
      have h2 : (k + 1) * D = k * D + D := by ring
      omega
    have hkw : k < c * w + w := by
      by_contra hge
      have h1 : (c * w + w) * D ≤ k * D := Nat.mul_le_mul_right _ (by omega)
      have h2 : (c * w + w) * D = c * w * D + w * D := by ring
      omega
    refine ⟨k - c * w, by omega, by omega, ?_⟩
    obtain ⟨v, rfl⟩ : ∃ v, k = c * w + v := ⟨k - c * w, by omega⟩
    have h3 : (c * w + v) * D = c * w * D + v * D := by ring
    have h4 : (1 + D) * v = v + v * D := by ring
    have h5 : c * w + v - c * w = v := by omega
    rw [h5, h4]
    omega
  · rintro ⟨v, hv, rfl, rfl⟩
    have h4 : (1 + D) * v = v + v * D := by ring
    have h7 : (w - 1) * (1 + D) = (w - 1) + (w - 1) * D := by ring
    have h8 : v * D ≤ (w - 1) * D := Nat.mul_le_mul_right _ (by omega)
    refine ⟨?_, by omega, by ring⟩
    rw [h4]
    rw [h7] at h6
    omega

/-- The kernel sums the real parts of the local amplitudes that hold a diagonal entry
`rho[k][k]` with bit `t` of `k` clear. -/
theorem densmatr_findProbabilityOfZeroLocal_local (N m t : Nat) (hm : N ≤ m)
    (hm2 : m ≤ 2 * N) (qureg : Qureg K) (hN : qureg.numQubitsRepresented = N)
    (hn : qureg.numAmpsPerChunk = 2 ^ m) (hc : qureg.chunkId < 2 ^ (2 * N - m)) :
    densmatr_findProbabilityOfZeroLocal qureg t
      = ∑ i in (Finset.range (2 ^ m)).filter (fun i => ∃ k, k < 2 ^ N ∧
            (qureg.chunkId * 2 ^ m + i = k * (2 ^ N + 1) ∧ extractBit t k = 0)),
          qureg.stateVec.real i := by
  rw [densmatr_findProbabilityOfZeroLocal_columns N m t hm hm2 qureg hN hn hc]
  have hS : 0 < 1 + 2 ^ N := Nat.add_pos_left Nat.one_pos _
  apply Finset.sum_nbij (fun v => qureg.chunkId * 2 ^ (m - N) + (1 + 2 ^ N) * v)
  · intro v hv
    rw [Finset.mem_filter, Finset.mem_range] at hv
    rw [Finset.mem_filter, Finset.mem_range]
    have h := (diag_index_iff N m qureg.chunkId _ (qureg.chunkId * 2 ^ (m - N) + v)
      hm hm2 hc).mpr ⟨v, hv.1, rfl, rfl⟩
    exact ⟨h.1, _, h.2.1, h.2.2, hv.2⟩
  · intro v _ v' _ h
    simp only at h
    exact Nat.eq_of_mul_eq_mul_left hS (Nat.add_left_cancel h)
  · intro i hi
    rw [Finset.coe_filter, Set.mem_setOf_eq, Finset.mem_range] at hi
    obtain ⟨hi, k, hk, hik, hbit⟩ := hi
    obtain ⟨v, hv, rfl, rfl⟩ := (diag_index_iff N m qureg.chunkId i k hm hm2 hc).mp
      ⟨hi, hk, hik⟩
    refine ⟨v, ?_, rfl⟩
    rw [Finset.coe_filter, Set.mem_setOf_eq, Finset.mem_range]
    exact ⟨hv, hbit⟩
  · intro v _
    rfl

/-- Summed over the chunks the kernel gives the sum of the diagonal entries `rho[k][k]`
with bit `t` of `k` clear. -/
theorem densmatr_findProbabilityOfZeroLocal_total (N m t : Nat) (hm : N ≤ m)
    (hm2 : m ≤ 2 * N) (rho : ComplexArray K) :
    ∑ c in Finset.range (2 ^ (2 * N - m)),
        densmatr_findProbabilityOfZeroLocal (densityChunk N (2 ^ m) c rho) t
      = ∑ k in (Finset.range (2 ^ N)).filter (fun k => extractBit t k = 0),
          rho.real (k * (2 ^ N + 1)) := by
  have hD : 2 ^ (2 * N - m) * 2 ^ (m - N) = 2 ^ N := by
    rw [← Nat.pow_add]; congr 1; omega
  have hL : 2 ^ m = 2 ^ (m - N) * 2 ^ N := by
    rw [← Nat.pow_add]; congr 1; omega
  rw [Finset.sum_filter, ← hD, ← sum_range_mul]
  apply Finset.sum_congr rfl
  intro c hc
  rw [Finset.mem_range] at hc
  rw [densmatr_findProbabilityOfZeroLocal_columns N m t hm hm2 _ rfl rfl hc, Finset.sum_filter]
  apply Finset.sum_congr rfl
  intro v _
  have e : c * 2 ^ m + (c * 2 ^ (m - N) + (1 + 2 ^ N) * v)
      = (c * 2 ^ (m - N) + v) * (2 ^ (2 * N - m) * 2 ^ (m - N) + 1) := by
    rw [hD, hL]; ring
  simp only [densityChunk, chunkOf, e]

end DiagIndex

section DiagonalClaims

variable {K : Type} [Field K]

/-- C11. Density-matrix probability of zero: for a density register of `N` qubits whose
chunk holds whole columns (`numAmpsPerChunk = 2^m` with `N ≤ m ≤ 2N`), every chunk id below
the number `2^(2N-m)` of chunks and every qubit `t`, `densmatr_findProbabilityOfZeroLocal(t)`
returns the sum of the real parts of exactly those local amplitudes whose global index is
`k * (2^N + 1)` for some basis state `k < 2^N` with bit `t` of `k` equal to 0; summed over
all chunks of a matrix `rho` this is the sum of the real parts of the diagonal entries
`rho[k][k]` with bit `t` of `k` equal to 0. -/
theorem findProbabilityOfZeroLocal_sums_diagonal (N m t : Nat) (hm : N ≤ m)
    (hm2 : m ≤ 2 * N) :
    (∀ qureg : Qureg K, qureg.numQubitsRepresented = N → qureg.numAmpsPerChunk = 2 ^ m →
      qureg.chunkId < 2 ^ (2 * N - m) →
      densmatr_findProbabilityOfZeroLocal qureg t
        = ∑ i in (Finset.range (2 ^ m)).filter (fun i => ∃ k, k < 2 ^ N ∧
              (qureg.chunkId * 2 ^ m + i = k * (2 ^ N + 1) ∧ extractBit t k = 0)),
            qureg.stateVec.real i) ∧
    (∀ rho : ComplexArray K,
      ∑ c in Finset.range (2 ^ (2 * N - m)),
          densmatr_findProbabilityOfZeroLocal (densityChunk N (2 ^ m) c rho) t
        = ∑ k in (Finset.range (2 ^ N)).filter (fun k => extractBit t k = 0),
            rho.real (k * (2 ^ N + 1))) :=
  ⟨fun qureg hN hn hc => densmatr_findProbabilityOfZeroLocal_local N m t hm hm2 qureg hN hn hc,
   fun rho => densmatr_findProbabilityOfZeroLocal_total N m t hm hm2 rho⟩

/-- Witness of C11: a density matrix of 2 qubits split into 2 chunks of `2^3` amplitudes,
chunk 1, qubit 0. -/
theorem findProbabilityOfZeroLocal_sums_diagonal_witness :
    densmatr_findProbabilityOfZeroLocal (densityChunk 2 (2 ^ 3) 1 sampleMatrixArray) 0
      = ∑ i in (Finset.range (2 ^ 3)).filter (fun i => ∃ k, k < 2 ^ 2 ∧
            ((densityChunk 2 (2 ^ 3) 1 sampleMatrixArray).chunkId * 2 ^ 3 + i = k * (2 ^ 2 + 1)
              ∧ extractBit 0 k = 0)),
          (densityChunk 2 (2 ^ 3) 1 sampleMatrixArray).stateVec.real i ∧
    ∑ c in Finset.range (2 ^ (2 * 2 - 3)),
        densmatr_findProbabilityOfZeroLocal (densityChunk 2 (2 ^ 3) c sampleMatrixArray) 0
      = ∑ k in (Finset.range (2 ^ 2)).filter (fun k => extractBit 0 k = 0),
          sampleMatrixArray.real (k * (2 ^ 2 + 1)) :=
  have h := @findProbabilityOfZeroLocal_sums_diagonal ℚ _ 2 3 0 (by decide) (by decide)
  ⟨h.1 (densityChunk 2 (2 ^ 3) 1 sampleMatrixArray) rfl rfl (by decide), h.2 sampleMatrixArray⟩

end DiagonalClaims

section Channel

variable {K : Type} [Field K]

theorem channelBody_scale (A G : Nat → Prop) [DecidablePred A] [DecidablePred G]
    (P : Nat → Nat) (c : K) (F : K × K → K × K → (K × K) × (K × K)) (i : Nat)
    (sv : ComplexArray K) (hA : A i) (j : Nat) :
    (channelBody A G P c F i sv).amp j
      = if j = i then (c * (sv.amp i).1, c * (sv.amp i).2) else sv.amp j := by
  unfold channelBody
  rw [if_pos hA]
  by_cases h : j = i
  · subst h
    simp [ComplexArray.amp]
  · simp [ComplexArray.amp, Function.update_noteq h, h]

theorem channelBody_pair (A G : Nat → Prop) [DecidablePred A] [DecidablePred G]
    (P : Nat → Nat) (c : K) (F : K × K → K × K → (K × K) × (K × K)) (i : Nat)
    (sv : ComplexArray K) (hA : ¬ A i) (hG : G i) :
    channelBody A G P c F i sv = pairBody (fun i => i) P (fun _ => F) i sv := by
  unfold channelBody
  rw [if_neg hA, if_pos hG]

theorem channelBody_idle (A G : Nat → Prop) [DecidablePred A] [DecidablePred G]
    (P : Nat → Nat) (c : K) (F : K × K → K × K → (K × K) × (K × K)) (i : Nat)
    (sv : ComplexArray K) (hA : ¬ A i) (hG : ¬ G i) :
    channelBody A G P c F i sv = sv := by
  unfold channelBody
  rw [if_neg hA, if_neg hG]

/-- A loop of channel steps: a task that passes `A` scales its own amplitude, a task that
passes `G` rewrites the pair made of its amplitude and its partner's, from the initial
amplitudes, provided that no partner is the index of an active task and that distinct tasks
have distinct partners; every other amplitude is unchanged. -/
theorem forLoop_channelBody (n : Nat) (A G : Nat → Prop) [DecidablePred A] [DecidablePred G]
    (P : Nat → Nat) (c : K) (F : K × K → K × K → (K × K) × (K × K))
    (hPA : ∀ i i', i < n → i' < n → ¬ A i → G i → P i = i' → ¬ A i' ∧ ¬ G i')
    (hinj : ∀ i i', i < n → i' < n → ¬ A i → G i → ¬ A i' → G i' → P i = P i' → i = i')
    (s : ComplexArray K) :
    (∀ j, j < n → A j →
      (forLoop n (channelBody A G P c F) s).amp j = (c * (s.amp j).1, c * (s.amp j).2)) ∧
    (∀ i, i < n → ¬ A i → G i →
      (forLoop n (channelBody A G P c F) s).amp i = (F (s.amp i) (s.amp (P i))).1 ∧
      (forLoop n (channelBody A G P c F) s).amp (P i) = (F (s.amp i) (s.amp (P i))).2) ∧
    (∀ j, ¬ (j < n ∧ (A j ∨ G j)) → (∀ i, i < n → ¬ A i → G i → j ≠ P i) →
      (forLoop n (channelBody A G P c F) s).amp j = s.amp j) := by
  have hne : ∀ i, i < n → ¬ A i → G i → i ≠ P i := by
    intro i hi hA hG h
    exact (hPA i i hi hi hA hG h.symm).2 hG
  obtain ⟨k1, k2⟩ := forLoop_footprint ComplexArray.amp n (channelBody A G P c F)
    (fun i j => (A i ∧ j = i) ∨ (¬ A i ∧ G i ∧ (j = i ∨ j = P i)))
    (by
      intro i _ sv j hj
      by_cases hA : A i
      · rw [channelBody_scale A G P c F i sv hA, if_neg (fun h => hj (Or.inl ⟨hA, h⟩))]
      · by_cases hG : G i
        · rw [channelBody_pair A G P c F i sv hA hG]
          exact pairBody_amp_other _ _ _ _ _ _ (fun h => hj (Or.inr ⟨hA, hG, Or.inl h⟩))
            (fun h => hj (Or.inr ⟨hA, hG, Or.inr h⟩))
        · rw [channelBody_idle A G P c F i sv hA hG])
    (by
      intro i hi sv sv' hag j hj
      rcases hj with ⟨hA, rfl⟩ | ⟨hA, hG, hj⟩
      · rw [channelBody_scale A G P c F _ sv hA, channelBody_scale A G P c F _ sv' hA,
          if_pos rfl, if_pos rfl, hag _ (Or.inl ⟨hA, rfl⟩)]
      · rw [channelBody_pair A G P c F i sv hA hG, channelBody_pair A G P c F i sv' hA hG]
        have e1 := hag i (Or.inr ⟨hA, hG, Or.inl rfl⟩)
        have e2 := hag (P i) (Or.inr ⟨hA, hG, Or.inr rfl⟩)
        rcases hj with rfl | rfl
        · rw [pairBody_amp_up (fun i => i) P _ _ sv (hne _ hi hA hG),
            pairBody_amp_up (fun i => i) P _ _ sv' (hne _ hi hA hG), e1, e2]
        · rw [pairBody_amp_lo, pairBody_amp_lo, e1, e2])
    (by
      intro i i' j hi hi' h h'
      rcases h with ⟨hA, rfl⟩ | ⟨hA, hG, rfl | rfl⟩
      · rcases h' with ⟨_, h'⟩ | ⟨hA', hG', h' | h'⟩
        · exact h'
        · exact h'
        · exact absurd hA (hPA i' _ hi' hi hA' hG' h'.symm).1
      · rcases h' with ⟨_, h'⟩ | ⟨hA', hG', h' | h'⟩
        · exact h'
        · exact h'
        · exact absurd hG (hPA i' _ hi' hi hA' hG' h'.symm).2
      · rcases h' with ⟨hA', h'⟩ | ⟨hA', hG', h' | h'⟩
        · exact absurd hA' (hPA i i' hi hi' hA hG h').1
        · exact absurd hG' (hPA i i' hi hi' hA hG h').2
        · exact hinj i i' hi hi' hA hG hA' hG' h')
    s
  refine ⟨?_, ?_, ?_⟩
  · intro j hj hA
    rw [k1 j hj j (Or.inl ⟨hA, rfl⟩), channelBody_scale A G P c F j s hA, if_pos rfl]
  · intro i hi hA hG
    constructor
    · rw [k1 i hi i (Or.inr ⟨hA, hG, Or.inl rfl⟩), channelBody_pair A G P c F i s hA hG]
      exact pairBody_amp_up (fun i => i) P _ _ s (hne _ hi hA hG)
    · rw [k1 i hi (P i) (Or.inr ⟨hA, hG, Or.inr rfl⟩), channelBody_pair A G P c F i s hA hG]
      exact pairBody_amp_lo (fun i => i) P _ _ s
  · intro j hj hP
    apply k2
    rintro i hi (⟨hA, rfl⟩ | ⟨hA, hG, rfl | rfl⟩)
    · exact hj ⟨hi, Or.inl hA⟩
    · exact hj ⟨hi, Or.inr hG⟩
    · exact hP i hi hA hG rfl

end Channel

section Masks

theorem testBit_mask (p q j : Nat) :
    (2 ^ p ||| 2 ^ q).testBit j = (decide (p = j) || decide (q = j)) := by
  rw [Nat.testBit_or, Nat.testBit_two_pow, Nat.testBit_two_pow]

/-- The pattern `x AND mask` of a two-bit mask equals a number `c` without other bits iff
`x` and `c` have the same bits at the two positions of the mask. -/
theorem and_mask_eq_iff (p q x c : Nat) (hc : ∀ j, j ≠ p → j ≠ q → c.testBit j = false) :
    x &&& (2 ^ p ||| 2 ^ q) = c ↔ (x.testBit p = c.testBit p ∧ x.testBit q = c.testBit q) := by
  constructor
  · intro h
    have hp := congrArg (fun y => y.testBit p) h
    have hq := congrArg (fun y => y.testBit q) h
    simp only [Nat.testBit_and, testBit_mask] at hp hq
    constructor
    · simpa using hp
    · simpa using hq
  · rintro ⟨hp, hq⟩
    apply Nat.eq_of_testBit_eq
    intro j
    rw [Nat.testBit_and, testBit_mask]
    by_cases h1 : j = p
    · subst h1; simpa using hp
    · by_cases h2 : j = q
      · subst h2; simpa using hq
      · have h1' : ¬ p = j := fun e => h1 e.symm
        have h2' : ¬ q = j := fun e => h2 e.symm
        simp [h1', h2', hc j h1 h2]

theorem and_mask_eq_zero (p q x : Nat) :
    x &&& (2 ^ p ||| 2 ^ q) = 0 ↔ (x.testBit p = false ∧ x.testBit q = false) := by
  rw [and_mask_eq_iff p q x 0 (fun j _ _ => Nat.zero_testBit j)]
  simp

theorem and_mask_eq_inner (p q x : Nat) (hpq : p ≠ q) :
    x &&& (2 ^ p ||| 2 ^ q) = 2 ^ p ↔ (x.testBit p = true ∧ x.testBit q = false) := by
  rw [and_mask_eq_iff p q x (2 ^ p) (fun j h1 _ => by
    rw [Nat.testBit_two_pow]; simpa using fun e => h1 e.symm)]
  simp [Nat.testBit_two_pow, hpq]

theorem and_mask_eq_outer (p q x : Nat) (hpq : p ≠ q) :
    x &&& (2 ^ p ||| 2 ^ q) = 2 ^ q ↔ (x.testBit p = false ∧ x.testBit q = true) := by
  rw [and_mask_eq_iff p q x (2 ^ q) (fun j _ h2 => by
    rw [Nat.testBit_two_pow]; simpa using fun e => h2 e.symm)]
  have : ¬ q = p := fun e => hpq e.symm
  simp [Nat.testBit_two_pow, this]

theorem and_mask_eq_mask (p q x : Nat) :
    x &&& (2 ^ p ||| 2 ^ q) = 2 ^ p ||| 2 ^ q ↔ (x.testBit p = true ∧ x.testBit q = true) := by
  rw [and_mask_eq_iff p q x (2 ^ p ||| 2 ^ q) (fun j h1 h2 => by
    rw [testBit_mask]
    have h1' : ¬ p = j := fun e => h1 e.symm
    have h2' : ¬ q = j := fun e => h2 e.symm
    simp [h1', h2'])]
  simp [testBit_mask]

theorem testBit_flip_both (x p q j : Nat) :
    (flipBit (flipBit x p) q).testBit j
      = if j = p ∨ j = q then (if p = q then x.testBit j else !x.testBit j)
        else x.testBit j := by
  rw [testBit_flipBit, testBit_flipBit]
  by_cases h1 : j = p <;> by_cases h2 : j = q
  · have : p = q := h1.symm.trans h2
    simp [h1, h2, this]
  · have : ¬ p = q := fun e => h2 (h1.trans e)
    simp [h1, h2, this]
  · have : ¬ p = q := fun e => h1 (h2.trans e.symm)
    have this' : ¬ q = p := fun e => this e.symm
    subst h2
    simp [this, this']
  · simp [h1, h2]

/-- Setting the two bits of the mask in a number where both are clear flips both. -/
theorem or_mask_eq_flip (p q x : Nat) (hpq : p ≠ q) (h1 : x.testBit p = false)
    (h2 : x.testBit q = false) : x ||| (2 ^ p ||| 2 ^ q) = flipBit (flipBit x p) q := by
  apply Nat.eq_of_testBit_eq
  intro j
  rw [Nat.testBit_or, testBit_mask, testBit_flip_both, if_neg hpq]
  by_cases e1 : j = p
  · subst e1; simp [h1]
  · by_cases e2 : j = q
    · subst e2; simp [h2]
    · have e1' : ¬ p = j := fun e => e1 e.symm
      have e2' : ¬ q = j := fun e => e2 e.symm
      simp [e1, e2, e1', e2']

end Masks

section OneQubit

variable {K : Type} [Field K]

/-- The loop of the one-qubit channels on a chunk of `2^k` amplitudes that is the whole
matrix, index by index; `p` is the position of the row bit, `q` of the column bit. -/
theorem oneQubitChannel_amp (k p q : Nat) (hp : p < k) (hq : q < k) (hpq : p ≠ q) (c : K)
    (F : K × K → K × K → (K × K) × (K × K)) (s : ComplexArray K) (j : Nat) (hj : j < 2 ^ k) :
    (forLoop (2 ^ k) (channelBody
        (fun i => i &&& (2 ^ p ||| 2 ^ q) = 2 ^ p ∨ i &&& (2 ^ p ||| 2 ^ q) = 2 ^ q)
        (fun i => i &&& (2 ^ p ||| 2 ^ q) = 0) (fun i => i ||| (2 ^ p ||| 2 ^ q)) c F) s).amp j
      = if j.testBit p ≠ j.testBit q then (c * (s.amp j).1, c * (s.amp j).2)
        else if j.testBit p = false then
          (F (s.amp j) (s.amp (flipBit (flipBit j p) q))).1
        else (F (s.amp (flipBit (flipBit j p) q)) (s.amp j)).2 := by
  have hA : ∀ i, (i &&& (2 ^ p ||| 2 ^ q) = 2 ^ p ∨ i &&& (2 ^ p ||| 2 ^ q) = 2 ^ q)
      ↔ i.testBit p ≠ i.testBit q := by
    intro i
    rw [and_mask_eq_inner p q i hpq, and_mask_eq_outer p q i hpq]
    cases i.testBit p <;> cases i.testBit q <;> simp
  have hG := fun i => and_mask_eq_zero p q i
  obtain ⟨r1, r2, _⟩ := forLoop_channelBody (2 ^ k)
    (fun i => i &&& (2 ^ p ||| 2 ^ q) = 2 ^ p ∨ i &&& (2 ^ p ||| 2 ^ q) = 2 ^ q)
    (fun i => i &&& (2 ^ p ||| 2 ^ q) = 0) (fun i => i ||| (2 ^ p ||| 2 ^ q)) c F
    (by
      intro i i' _ _ _ hGi hP
      have hGi' := (hG i).mp hGi
      have e := or_mask_eq_flip p q i hpq hGi'.1 hGi'.2
      simp only at hP
      rw [e] at hP
      subst hP
      have b1 : (flipBit (flipBit i p) q).testBit p = true := by
        rw [testBit_flip_both, if_pos (Or.inl rfl), if_neg hpq, hGi'.1]; rfl
      have b2 : (flipBit (flipBit i p) q).testBit q = true := by
        rw [testBit_flip_both, if_pos (Or.inr rfl), if_neg hpq, hGi'.2]; rfl
      constructor
      · beta_reduce
        rw [hA, b1, b2]; simp
      · beta_reduce
        rw [hG, b1]; simp)
    (by
      intro i i' _ _ _ hGi _ hGi' hP
      have h1 := (hG i).mp hGi
      have h2 := (hG i').mp hGi'
      simp only at hP
      rw [or_mask_eq_flip p q i hpq h1.1 h1.2, or_mask_eq_flip p q i' hpq h2.1 h2.2] at hP
      have := congrArg (fun y => flipBit (flipBit y p) q) hP
      simpa [flip_both_flip_both] using this)
    s
  by_cases hd : j.testBit p ≠ j.testBit q
  · rw [if_pos hd]
    exact r1 j hj ((hA j).mpr hd)
  · rw [if_neg hd]
    have hnA : ¬ (j &&& (2 ^ p ||| 2 ^ q) = 2 ^ p ∨ j &&& (2 ^ p ||| 2 ^ q) = 2 ^ q) :=
      fun h => hd ((hA j).mp h)
    have heq : j.testBit p = j.testBit q := by simpa using hd
    by_cases hz : j.testBit p = false
    · rw [if_pos hz]
      have hz2 : j.testBit q = false := by rw [← heq]; exact hz
      have h := (r2 j hj hnA ((hG j).mpr ⟨hz, hz2⟩)).1
      simp only at h
      rw [or_mask_eq_flip p q j hpq hz hz2] at h
      exact h
    · rw [if_neg hz]
      have ho : j.testBit p = true := by simpa using hz
      have ho2 : j.testBit q = true := by rw [← heq]; exact ho
      have b1 : (flipBit (flipBit j p) q).testBit p = false := by
        rw [testBit_flip_both, if_pos (Or.inl rfl), if_neg hpq, ho]; rfl
      have b2 : (flipBit (flipBit j p) q).testBit q = false := by
        rw [testBit_flip_both, if_pos (Or.inr rfl), if_neg hpq, ho2]; rfl
      have hlt := flip_both_lt k p q j hp hq hj
      have hnA' : ¬ ((flipBit (flipBit j p) q) &&& (2 ^ p ||| 2 ^ q) = 2 ^ p
          ∨ (flipBit (flipBit j p) q) &&& (2 ^ p ||| 2 ^ q) = 2 ^ q) := by
        rw [hA, b1, b2]; simp
      have h := (r2 _ hlt hnA' ((hG _).mpr ⟨b1, b2⟩)).2
      simp only at h
      rw [or_mask_eq_flip p q _ hpq b1 b2, flip_both_flip_both] at h
      exact h

end OneQubit

section NormalForms

variable {K : Type} [Field K]

theorem or_mask_ne_self (p q i : Nat) (h : i &&& (1 <<< p ||| 1 <<< q) = 0) :
    i ||| (1 <<< p ||| 1 <<< q) ≠ i := by
  rw [Nat.one_shiftLeft, Nat.one_shiftLeft] at h ⊢
  intro e
  have h1 := ((and_mask_eq_zero p q i).mp h).1
  have h2 := congrArg (fun y => y.testBit p) e
  simp only [Nat.testBit_or, testBit_mask, h1] at h2
  simp at h2

theorem oneQubitDegradeOffDiagonal_stateVec (qureg : Qureg K) (t : Nat) (retain : K)
    (hc : qureg.chunkId = 0) :
    (densmatr_oneQubitDegradeOffDiagonal qureg t retain).stateVec
      = forLoop qureg.numAmpsPerChunk (channelBody
          (fun i => i &&& (2 ^ t ||| 2 ^ (t + qureg.numQubitsRepresented)) = 2 ^ t
            ∨ i &&& (2 ^ t ||| 2 ^ (t + qureg.numQubitsRepresented))
              = 2 ^ (t + qureg.numQubitsRepresented))
          (fun _ => False) (fun i => i) retain (fun a b => (a, b))) qureg.stateVec := by
  rw [← Nat.one_shiftLeft, ← Nat.one_shiftLeft]
  simp only [densmatr_oneQubitDegradeOffDiagonal, hc, Nat.mul_zero, Nat.add_zero]
  apply forLoop_congr
  intro i _ sv
  unfold channelBody
  by_cases hA : i &&& (1 <<< t ||| 1 <<< (t + qureg.numQubitsRepresented)) = 1 <<< t
      ∨ i &&& (1 <<< t ||| 1 <<< (t + qureg.numQubitsRepresented))
        = 1 <<< (t + qureg.numQubitsRepresented)
  · rw [if_pos hA, if_pos hA]
  · rw [if_neg hA, if_neg hA, if_neg (fun h => h)]

theorem mixDepolarisingLocal_stateVec (qureg : Qureg K) (t : Nat) (depolLevel : K)
    (hc : qureg.chunkId = 0) :
    (densmatr_mixDepolarisingLocal qureg t depolLevel).stateVec
      = forLoop qureg.numAmpsPerChunk (channelBody
          (fun i => i &&& (2 ^ t ||| 2 ^ (t + qureg.numQubitsRepresented)) = 2 ^ t
            ∨ i &&& (2 ^ t ||| 2 ^ (t + qureg.numQubitsRepresented))
              = 2 ^ (t + qureg.numQubitsRepresented))
          (fun i => i &&& (2 ^ t ||| 2 ^ (t + qureg.numQubitsRepresented)) = 0)
          (fun i => i ||| (2 ^ t ||| 2 ^ (t + qureg.numQubitsRepresented)))
          (1 - depolLevel) (depolariseF depolLevel)) qureg.stateVec := by
  rw [← Nat.one_shiftLeft, ← Nat.one_shiftLeft]
  simp only [densmatr_mixDepolarisingLocal, hc, Nat.mul_zero, Nat.add_zero]
  apply forLoop_congr
  intro i _ sv
  unfold channelBody
  by_cases hA : i &&& (1 <<< t ||| 1 <<< (t + qureg.numQubitsRepresented)) = 1 <<< t
      ∨ i &&& (1 <<< t ||| 1 <<< (t + qureg.numQubitsRepresented))
        = 1 <<< (t + qureg.numQubitsRepresented)
  · rw [if_pos hA, if_pos hA]
  · rw [if_neg hA, if_neg hA]
    by_cases hG : i &&& (1 <<< t ||| 1 <<< (t + qureg.numQubitsRepresented)) = 0
    · rw [if_pos hG, if_pos hG]
      have hne := or_mask_ne_self t (t + qureg.numQubitsRepresented) i hG
      simp only [pairBody, depolariseF, ComplexArray.amp, Function.update_noteq hne]
    · rw [if_neg hG, if_neg hG]

theorem mixDampingLocal_stateVec (sqrt : K → K) (qureg : Qureg K) (t : Nat) (damping : K)
    (hc : qureg.chunkId = 0) :
    (densmatr_mixDampingLocal sqrt qureg t damping).stateVec
      = forLoop qureg.numAmpsPerChunk (channelBody
          (fun i => i &&& (2 ^ t ||| 2 ^ (t + qureg.numQubitsRepresented)) = 2 ^ t
            ∨ i &&& (2 ^ t ||| 2 ^ (t + qureg.numQubitsRepresented))
              = 2 ^ (t + qureg.numQubitsRepresented))
          (fun i => i &&& (2 ^ t ||| 2 ^ (t + qureg.numQubitsRepresented)) = 0)
          (fun i => i ||| (2 ^ t ||| 2 ^ (t + qureg.numQubitsRepresented)))
          (sqrt (1 - damping)) (dampF damping)) qureg.stateVec := by
  rw [← Nat.one_shiftLeft, ← Nat.one_shiftLeft]
  simp only [densmatr_mixDampingLocal, hc, Nat.mul_zero, Nat.add_zero]
  apply forLoop_congr
  intro i _ sv
  unfold channelBody
  by_cases hA : i &&& (1 <<< t ||| 1 <<< (t + qureg.numQubitsRepresented)) = 1 <<< t
      ∨ i &&& (1 <<< t ||| 1 <<< (t + qureg.numQubitsRepresented))
        = 1 <<< (t + qureg.numQubitsRepresented)
  · rw [if_pos hA, if_pos hA]
  · rw [if_neg hA, if_neg hA]
    by_cases hG : i &&& (1 <<< t ||| 1 <<< (t + qureg.numQubitsRepresented)) = 0
    · rw [if_pos hG, if_pos hG]
      have hne := or_mask_ne_self t (t + qureg.numQubitsRepresented) i hG
      simp only [pairBody, dampF, ComplexArray.amp, Function.update_noteq hne]
    · rw [if_neg hG, if_neg hG]

end NormalForms

section OneQubitKernels

variable {K : Type} [Field K]

/-- Adding `2^p` and `2^q` to an index where both bits are clear flips both bits. -/
theorem add_masks_eq_flip (p q x : Nat) (hpq : p ≠ q) (h1 : x.testBit p = false)
    (h2 : x.testBit q = false) : x + 2 ^ p + 2 ^ q = flipBit (flipBit x p) q := by
  rw [add_two_pow_eq_flipBit x p h1]
  apply add_two_pow_eq_flipBit
  rw [testBit_flipBit, if_neg (fun e => hpq e.symm)]
  exact h2

theorem mixDephasing_amp (N t : Nat) (ht : t < N) (qureg : Qureg K)
    (hN : qureg.numQubitsRepresented = N) (hn : qureg.numAmpsPerChunk = 2 ^ (2 * N))
    (hc : qureg.chunkId = 0) (dephase : K) (j : Nat) (hj : j < 2 ^ (2 * N)) :
    (densmatr_mixDephasing qureg t dephase).stateVec.amp j
      = if j.testBit t ≠ j.testBit (t + N) then
          ((1 - dephase) * (qureg.stateVec.amp j).1, (1 - dephase) * (qureg.stateVec.amp j).2)
        else qureg.stateVec.amp j := by
  unfold densmatr_mixDephasing
  rw [oneQubitDegradeOffDiagonal_stateVec qureg t _ hc, hN, hn]
  have hpq : t ≠ t + N := by omega
  obtain ⟨r1, _, r3⟩ := forLoop_channelBody (2 ^ (2 * N))
    (fun i => i &&& (2 ^ t ||| 2 ^ (t + N)) = 2 ^ t ∨ i &&& (2 ^ t ||| 2 ^ (t + N)) = 2 ^ (t + N))
    (fun _ => False) (fun i => i) (1 - dephase) (fun a b => (a, b))
    (fun _ _ _ _ _ h _ => h.elim) (fun _ _ _ _ _ h _ _ _ => h.elim) qureg.stateVec
  have hA : (j &&& (2 ^ t ||| 2 ^ (t + N)) = 2 ^ t ∨ j &&& (2 ^ t ||| 2 ^ (t + N)) = 2 ^ (t + N))
      ↔ j.testBit t ≠ j.testBit (t + N) := by
    rw [and_mask_eq_inner t (t + N) j hpq, and_mask_eq_outer t (t + N) j hpq]
    cases j.testBit t <;> cases j.testBit (t + N) <;> simp
  by_cases hd : j.testBit t ≠ j.testBit (t + N)
  · rw [if_pos hd]
    exact r1 j hj (hA.mpr hd)
  · rw [if_neg hd]
    apply r3 j
    · rintro ⟨_, h | h⟩
      · exact hd (hA.mp h)
      · exact h
    · intro i _ _ h
      exact h.elim

theorem mixDepolarisingLocal_amp (N t : Nat) (ht : t < N) (qureg : Qureg K)
    (hN : qureg.numQubitsRepresented = N) (hn : qureg.numAmpsPerChunk = 2 ^ (2 * N))
    (hc : qureg.chunkId = 0) (depolLevel : K) (j : Nat) (hj : j < 2 ^ (2 * N)) :
    (densmatr_mixDepolarisingLocal qureg t depolLevel).stateVec.amp j
      = if j.testBit t ≠ j.testBit (t + N) then
          ((1 - depolLevel) * (qureg.stateVec.amp j).1,
            (1 - depolLevel) * (qureg.stateVec.amp j).2)
        else if j.testBit t = false then
          (depolariseF depolLevel (qureg.stateVec.amp j)
            (qureg.stateVec.amp (flipBit (flipBit j t) (t + N)))).1
        else (depolariseF depolLevel (qureg.stateVec.amp (flipBit (flipBit j t) (t + N)))
            (qureg.stateVec.amp j)).2 := by
  rw [mixDepolarisingLocal_stateVec qureg t _ hc, hN, hn]
  exact oneQubitChannel_amp (2 * N) t (t + N) (by omega) (by omega) (by omega) _ _ _ j hj

theorem mixDampingLocal_amp (N t : Nat) (ht : t < N) (sqrt : K → K) (qureg : Qureg K)
    (hN : qureg.numQubitsRepresented = N) (hn : qureg.numAmpsPerChunk = 2 ^ (2 * N))
    (hc : qureg.chunkId = 0) (damping : K) (j : Nat) (hj : j < 2 ^ (2 * N)) :
    (densmatr_mixDampingLocal sqrt qureg t damping).stateVec.amp j
      = if j.testBit t ≠ j.testBit (t + N) then
          (sqrt (1 - damping) * (qureg.stateVec.amp j).1,
            sqrt (1 - damping) * (qureg.stateVec.amp j).2)
        else if j.testBit t = false then
          (dampF damping (qureg.stateVec.amp j)
            (qureg.stateVec.amp (flipBit (flipBit j t) (t + N)))).1
        else (dampF damping (qureg.stateVec.amp (flipBit (flipBit j t) (t + N)))
            (qureg.stateVec.amp j)).2 := by
  rw [mixDampingLocal_stateVec sqrt qureg t _ hc, hN, hn]
  exact oneQubitChannel_amp (2 * N) t (t + N) (by omega) (by omega) (by omega) _ _ _ j hj

theorem extractBit_ne_iff (p q x : Nat) :
    extractBit p x ≠ extractBit q x ↔ x.testBit p ≠ x.testBit q := by
  rw [extractBit_eq_ite, extractBit_eq_ite]
  cases x.testBit p <;> cases x.testBit q <;> simp

theorem partner_lt (N t j : Nat) (ht : t < N) (hj : j < 2 ^ (2 * N)) :
    flipBit (flipBit j t) (t + N) < 2 ^ (2 * N) :=
  flip_both_lt (2 * N) t (t + N) j (by omega) (by omega) hj

end OneQubitKernels

section DepolarisingClaims

variable {K : Type} [Field K]

/-- C14. Depolarising (local): on a single-chunk density register of `N` qubits, for every
`t < N` and level `lambda`, `densmatr_mixDepolarisingLocal` multiplies every amplitude whose
row bit `t` and column bit `t + N` differ by `1 - lambda`, and replaces each amplitude `x`
with both bits 0 and its partner `y` with both bits 1 (at the index `j + 2^t + 2^(t+N)`) by
`(1 - lambda) x + lambda (x + y) / 2` and `(1 - lambda) y + lambda (x + y) / 2`, both
computed from the original `x` and `y`. -/
theorem mixDepolarisingLocal_mixes_pairs (N t : Nat) (ht : t < N) (qureg : Qureg K)
    (hN : qureg.numQubitsRepresented = N) (hn : qureg.numAmpsPerChunk = 2 ^ (2 * N))
    (hc : qureg.chunkId = 0) (lambda : K) (j : Nat) (hj : j < 2 ^ (2 * N)) :
    (extractBit t j ≠ extractBit (t + N) j →
      (densmatr_mixDepolarisingLocal qureg t lambda).stateVec.amp j
        = (1 - lambda) • qureg.stateVec.amp j) ∧
    (extractBit t j = 0 → extractBit (t + N) j = 0 →
      (densmatr_mixDepolarisingLocal qureg t lambda).stateVec.amp j
        = (1 - lambda) • qureg.stateVec.amp j
          + (lambda / 2) • (qureg.stateVec.amp j
              + qureg.stateVec.amp (j + 2 ^ t + 2 ^ (t + N))) ∧
      (densmatr_mixDepolarisingLocal qureg t lambda).stateVec.amp (j + 2 ^ t + 2 ^ (t + N))
        = (1 - lambda) • qureg.stateVec.amp (j + 2 ^ t + 2 ^ (t + N))
          + (lambda / 2) • (qureg.stateVec.amp j
              + qureg.stateVec.amp (j + 2 ^ t + 2 ^ (t + N)))) := by
  have hpq : t ≠ t + N := by omega
  constructor
  · intro hd
    rw [mixDepolarisingLocal_amp N t ht qureg hN hn hc lambda j hj,
      if_pos ((extractBit_ne_iff t (t + N) j).mp hd)]
    rfl
  · intro h1 h2
    have b1 := (extractBit_eq_zero_iff t j).mp h1
    have b2 := (extractBit_eq_zero_iff (t + N) j).mp h2
    have e := add_masks_eq_flip t (t + N) j hpq b1 b2
    have hlt := partner_lt N t j ht hj
    have c1 : (flipBit (flipBit j t) (t + N)).testBit t = true := by
      rw [testBit_flip_both, if_pos (Or.inl rfl), if_neg hpq, b1]; rfl
    have c2 : (flipBit (flipBit j t) (t + N)).testBit (t + N) = true := by
      rw [testBit_flip_both, if_pos (Or.inr rfl), if_neg hpq, b2]; rfl
    rw [e, mixDepolarisingLocal_amp N t ht qureg hN hn hc lambda j hj,
      mixDepolarisingLocal_amp N t ht qureg hN hn hc lambda _ hlt, flip_both_flip_both,
      if_neg (by rw [b1, b2]; simp), if_pos b1, if_neg (by rw [c1, c2]; simp),
      if_neg (by rw [c1]; simp)]
    constructor
    · refine Prod.ext ?_ ?_ <;> (simp [depolariseF]; ring)
    · refine Prod.ext ?_ ?_ <;> (simp [depolariseF]; ring)

end DepolarisingClaims

section DampingClaims

variable {K : Type} [Field K]

theorem initClassicalState_sample_amp (s : Nat) (hs : s < 2) (j : Nat) (hj : j < 4) :
    (densmatr_initClassicalState sampleBlankDensity s).stateVec.amp j
      = if j = 3 * s then (1, 0) else (0, 0) := by
  have hs' : s = 0 ∨ s = 1 := by omega
  have hj' : j = 0 ∨ j = 1 ∨ j = 2 ∨ j = 3 := by omega
  rcases hs' with rfl | rfl <;> rcases hj' with rfl | rfl | rfl | rfl <;>
    simp [densmatr_initClassicalState, sampleBlankDensity, forLoop, ComplexArray.amp,
      Function.update]

/-- Witness of C14: `N = 1`, `rho = |0><0|` (`densmatr_initClassicalState` with state 0),
`lambda = 1` gives the real parts `(1/2, 0, 0, 1/2)` and zero imaginary parts. -/
theorem mixDepolarisingLocal_mixes_pairs_witness :
    (densmatr_mixDepolarisingLocal (densmatr_initClassicalState sampleBlankDensity 0) 0
        (1 : ℚ)).stateVec.amp 0 = (1 / 2, 0) ∧
    (densmatr_mixDepolarisingLocal (densmatr_initClassicalState sampleBlankDensity 0) 0
        (1 : ℚ)).stateVec.amp 1 = (0, 0) ∧
    (densmatr_mixDepolarisingLocal (densmatr_initClassicalState sampleBlankDensity 0) 0
        (1 : ℚ)).stateVec.amp 2 = (0, 0) ∧
    (densmatr_mixDepolarisingLocal (densmatr_initClassicalState sampleBlankDensity 0) 0
        (1 : ℚ)).stateVec.amp 3 = (1 / 2, 0) := by
  have h := fun j hj => mixDepolarisingLocal_mixes_pairs 1 0 (by decide)
    (densmatr_initClassicalState sampleBlankDensity 0) rfl rfl rfl (1 : ℚ) j hj
  have h0 := (h 0 (by decide)).2 (by decide) (by decide)
  have h1 := (h 1 (by decide)).1 (by decide)
  have h2 := (h 2 (by decide)).1 (by decide)
  have e : 0 + 2 ^ 0 + 2 ^ (0 + 1) = 3 := by decide
  rw [e] at h0
  rw [initClassicalState_sample_amp 0 (by decide) 0 (by decide),
    initClassicalState_sample_amp 0 (by decide) 3 (by decide)] at h0
  rw [initClassicalState_sample_amp 0 (by decide) 1 (by decide)] at h1
  rw [initClassicalState_sample_amp 0 (by decide) 2 (by decide)] at h2
  refine ⟨?_, ?_, ?_, ?_⟩
  · rw [h0.1]; norm_num
  · rw [h1]; norm_num
  · rw [h2]; norm_num
  · rw [h0.2]; norm_num

/-- C15. Amplitude damping (local): on a single-chunk density register of `N` qubits, for
every `t < N` and level `lambda`, `densmatr_mixDampingLocal` multiplies every amplitude whose
row bit `t` and column bit `t + N` differ by `sqrt (1 - lambda)`, and replaces each amplitude
`x` with both bits 0 and its partner `y` with both bits 1 (at the index `j + 2^t + 2^(t+N)`)
by `x + lambda y` and `(1 - lambda) y`, both computed from the original `x` and `y`. -/
theorem mixDampingLocal_moves_population (N t : Nat) (ht : t < N) (sqrt : K → K)
    (qureg : Qureg K) (hN : qureg.numQubitsRepresented = N)
    (hn : qureg.numAmpsPerChunk = 2 ^ (2 * N)) (hc : qureg.chunkId = 0) (lambda : K) (j : Nat)
    (hj : j < 2 ^ (2 * N)) :
    (extractBit t j ≠ extractBit (t + N) j →
      (densmatr_mixDampingLocal sqrt qureg t lambda).stateVec.amp j
        = sqrt (1 - lambda) • qureg.stateVec.amp j) ∧
    (extractBit t j = 0 → extractBit (t + N) j = 0 →
      (densmatr_mixDampingLocal sqrt qureg t lambda).stateVec.amp j
        = qureg.stateVec.amp j + lambda • qureg.stateVec.amp (j + 2 ^ t + 2 ^ (t + N)) ∧
      (densmatr_mixDampingLocal sqrt qureg t lambda).stateVec.amp (j + 2 ^ t + 2 ^ (t + N))
        = (1 - lambda) • qureg.stateVec.amp (j + 2 ^ t + 2 ^ (t + N))) := by
  have hpq : t ≠ t + N := by omega
  constructor
  · intro hd
    rw [mixDampingLocal_amp N t ht sqrt qureg hN hn hc lambda j hj,
      if_pos ((extractBit_ne_iff t (t + N) j).mp hd)]
    rfl
  · intro h1 h2
    have b1 := (extractBit_eq_zero_iff t j).mp h1
    have b2 := (extractBit_eq_zero_iff (t + N) j).mp h2
    have e := add_masks_eq_flip t (t + N) j hpq b1 b2
    have hlt := partner_lt N t j ht hj
    have c1 : (flipBit (flipBit j t) (t + N)).testBit t = true := by
      rw [testBit_flip_both, if_pos (Or.inl rfl), if_neg hpq, b1]; rfl
    have c2 : (flipBit (flipBit j t) (t + N)).testBit (t + N) = true := by
      rw [testBit_flip_both, if_pos (Or.inr rfl), if_neg hpq, b2]; rfl
    rw [e, mixDampingLocal_amp N t ht sqrt qureg hN hn hc lambda j hj,
      mixDampingLocal_amp N t ht sqrt qureg hN hn hc lambda _ hlt, flip_both_flip_both,
      if_neg (by rw [b1, b2]; simp), if_pos b1, if_neg (by rw [c1, c2]; simp),
      if_neg (by rw [c1]; simp)]
    constructor
    · rfl
    · rfl

/-- Witness of C15: `N = 1`, `rho = |1><1|` (`densmatr_initClassicalState` with state 1),
`lambda = 1` gives the amplitude `(1, 0)` at index 0 and 0 elsewhere. -/
theorem mixDampingLocal_moves_population_witness :
    (densmatr_mixDampingLocal sqrtExact (densmatr_initClassicalState sampleBlankDensity 1) 0
        (1 : ℚ)).stateVec.amp 0 = (1, 0) ∧
    (densmatr_mixDampingLocal sqrtExact (densmatr_initClassicalState sampleBlankDensity 1) 0
        (1 : ℚ)).stateVec.amp 1 = (0, 0) ∧
    (densmatr_mixDampingLocal sqrtExact (densmatr_initClassicalState sampleBlankDensity 1) 0
        (1 : ℚ)).stateVec.amp 2 = (0, 0) ∧
    (densmatr_mixDampingLocal sqrtExact (densmatr_initClassicalState sampleBlankDensity 1) 0
        (1 : ℚ)).stateVec.amp 3 = (0, 0) := by
  have h := fun j hj => mixDampingLocal_moves_population 1 0 (by decide) sqrtExact
    (densmatr_initClassicalState sampleBlankDensity 1) rfl rfl rfl (1 : ℚ) j hj
  have h0 := (h 0 (by decide)).2 (by decide) (by decide)
  have h1 := (h 1 (by decide)).1 (by decide)
  have h2 := (h 2 (by decide)).1 (by decide)
  have e : 0 + 2 ^ 0 + 2 ^ (0 + 1) = 3 := by decide
  rw [e] at h0
  rw [initClassicalState_sample_amp 1 (by decide) 0 (by decide),
    initClassicalState_sample_amp 1 (by decide) 3 (by decide)] at h0
  rw [initClassicalState_sample_amp 1 (by decide) 1 (by decide)] at h1
  rw [initClassicalState_sample_amp 1 (by decide) 2 (by decide)] at h2
  refine ⟨?_, ?_, ?_, ?_⟩
  · rw [h0.1]; norm_num
  · rw [h1]; norm_num
  · rw [h2]; norm_num
  · rw [h0.2]; norm_num

end DampingClaims

section Entries

theorem testBit_entry (N r c j : Nat) (hr : r < 2 ^ N) :
    (r + c * 2 ^ N).testBit j = if j < N then r.testBit j else c.testBit (j - N) := by
  rw [Nat.add_comm]
  exact testBit_mul_two_pow_add c r N j hr

theorem entry_lt (N r c : Nat) (hr : r < 2 ^ N) (hc : c < 2 ^ N) : r + c * 2 ^ N < 2 ^ (2 * N) := by
  have h1 : (c + 1) * 2 ^ N ≤ 2 ^ N * 2 ^ N := Nat.mul_le_mul_right _ hc
  have h2 : (c + 1) * 2 ^ N = c * 2 ^ N + 2 ^ N := by ring
  have h3 : 2 ^ (2 * N) = 2 ^ N * 2 ^ N := by rw [← Nat.pow_add]; congr 1; omega
  omega

theorem flipBit_lt (k q x : Nat) (hq : q < k) (hx : x < 2 ^ k) : flipBit x q < 2 ^ k := by
  apply Nat.lt_pow_two_of_testBit
  intro i hi
  rw [testBit_flipBit, if_neg (by omega)]
  exact testBit_eq_false_of_lt_two_pow x k i hx hi

theorem flipBit_flipBit (x q : Nat) : flipBit (flipBit x q) q = x := by
  apply Nat.eq_of_testBit_eq
  intro j
  rw [testBit_flipBit, testBit_flipBit]
  by_cases h : j = q <;> simp [h]

/-- Flipping the row bit `t` and the column bit `t + N` of the index of the entry `(r, c)`
gives the index of the entry `(flipBit r t, flipBit c t)`. -/
theorem flip_entry (N t r c : Nat) (ht : t < N) (hr : r < 2 ^ N) :
    flipBit (flipBit (r + c * 2 ^ N) t) (t + N) = flipBit r t + flipBit c t * 2 ^ N := by
  have hpq : t ≠ t + N := by omega
  apply Nat.eq_of_testBit_eq
  intro j
  rw [testBit_flip_both, if_neg hpq, testBit_entry N r c j hr,
    testBit_entry N _ _ j (flipBit_lt N t r ht hr), testBit_flipBit, testBit_flipBit]
  by_cases h1 : j < N
  · have h2 : j ≠ t + N := by omega
    by_cases h3 : j = t
    · subst h3
      simp [h1]
    · simp [h1, h2, h3]
  · by_cases h3 : j = t + N
    · have h4 : j - N = t := by omega
      have h6 : ¬ j = t := by omega
      simp [h1, h3, h4, h6]
    · have h4 : j ≠ t := by omega
      have h5 : j - N ≠ t := by omega
      simp [h1, h3, h4, h5]

theorem diag_entry (N k : Nat) : k * (2 ^ N + 1) = k + k * 2 ^ N := by ring

end Entries

section Sums

variable {K : Type} [Field K]

theorem sum_flipBit (N t : Nat) (ht : t < N) (f : Nat → K) :
    ∑ k in Finset.range (2 ^ N), f (flipBit k t) = ∑ k in Finset.range (2 ^ N), f k := by
  apply Finset.sum_nbij' (fun k => flipBit k t) (fun k => flipBit k t)
  · intro k hk
    rw [Finset.mem_range] at hk ⊢
    exact flipBit_lt N t k ht hk
  · intro k hk
    rw [Finset.mem_range] at hk ⊢
    exact flipBit_lt N t k ht hk
  · intro k _
    exact flipBit_flipBit k t
  · intro k _
    exact flipBit_flipBit k t
  · intro k _
    rfl

theorem sum_flipBit_clear (N t : Nat) (ht : t < N) (f : Nat → K) :
    ∑ k in (Finset.range (2 ^ N)).filter (fun k => k.testBit t = false), f (flipBit k t)
      = ∑ k in (Finset.range (2 ^ N)).filter (fun k => ¬ k.testBit t = false), f k := by
  apply Finset.sum_nbij' (fun k => flipBit k t) (fun k => flipBit k t)
  · intro k hk
    rw [Finset.mem_filter, Finset.mem_range] at hk ⊢
    refine ⟨flipBit_lt N t k ht hk.1, ?_⟩
    rw [testBit_flipBit, if_pos rfl, hk.2]
    simp
  · intro k hk
    rw [Finset.mem_filter, Finset.mem_range] at hk ⊢
    refine ⟨flipBit_lt N t k ht hk.1, ?_⟩
    have : k.testBit t = true := by simpa using hk.2
    rw [testBit_flipBit, if_pos rfl, this]
    rfl
  · intro k _
    exact flipBit_flipBit k t
  · intro k _
    exact flipBit_flipBit k t
  · intro k _
    rfl

end Sums

section EntryForm

variable {K : Type} [Field K]

theorem mixDephasing_entry (N t : Nat) (ht : t < N) (qureg : Qureg K)
    (hN : qureg.numQubitsRepresented = N) (hn : qureg.numAmpsPerChunk = 2 ^ (2 * N))
    (hc : qureg.chunkId = 0) (dephase : K) (r c : Nat) (hr : r < 2 ^ N) (hcl : c < 2 ^ N) :
    (densmatr_mixDephasing qureg t dephase).stateVec.amp (r + c * 2 ^ N)
      = if r.testBit t ≠ c.testBit t then (1 - dephase) • qureg.stateVec.amp (r + c * 2 ^ N)
        else qureg.stateVec.amp (r + c * 2 ^ N) := by
  rw [mixDephasing_amp N t ht qureg hN hn hc dephase _ (entry_lt N r c hr hcl),
    testBit_entry N r c t hr, testBit_entry N r c (t + N) hr, if_pos ht,
    if_neg (show ¬ t + N < N by omega), Nat.add_sub_cancel]
  rfl

theorem mixDepolarisingLocal_entry (N t : Nat) (ht : t < N) (qureg : Qureg K)
    (hN : qureg.numQubitsRepresented = N) (hn : qureg.numAmpsPerChunk = 2 ^ (2 * N))
    (hc : qureg.chunkId = 0) (depolLevel : K) (r c : Nat) (hr : r < 2 ^ N) (hcl : c < 2 ^ N) :
    (densmatr_mixDepolarisingLocal qureg t depolLevel).stateVec.amp (r + c * 2 ^ N)
      = if r.testBit t ≠ c.testBit t then
          (1 - depolLevel) • qureg.stateVec.amp (r + c * 2 ^ N)
        else (1 - depolLevel) • qureg.stateVec.amp (r + c * 2 ^ N)
          + (depolLevel / 2) • (qureg.stateVec.amp (r + c * 2 ^ N)
              + qureg.stateVec.amp (flipBit r t + flipBit c t * 2 ^ N)) := by
  rw [mixDepolarisingLocal_amp N t ht qureg hN hn hc depolLevel _ (entry_lt N r c hr hcl),
    testBit_entry N r c t hr, testBit_entry N r c (t + N) hr, if_pos ht,
    if_neg (show ¬ t + N < N by omega), Nat.add_sub_cancel, flip_entry N t r c ht hr]
  by_cases hd : r.testBit t ≠ c.testBit t
  · rw [if_pos hd, if_pos hd]
    rfl
  · rw [if_neg hd, if_neg hd]
    by_cases hz : r.testBit t = false
    · rw [if_pos hz]
      refine Prod.ext ?_ ?_ <;> (simp [depolariseF]; ring)
    · rw [if_neg hz]
      refine Prod.ext ?_ ?_ <;> (simp [depolariseF]; ring)

theorem mixDampingLocal_entry (N t : Nat) (ht : t < N) (sqrt : K → K) (qureg : Qureg K)
    (hN : qureg.numQubitsRepresented = N) (hn : qureg.numAmpsPerChunk = 2 ^ (2 * N))
    (hc : qureg.chunkId = 0) (damping : K) (r c : Nat) (hr : r < 2 ^ N) (hcl : c < 2 ^ N) :
    (densmatr_mixDampingLocal sqrt qureg t damping).stateVec.amp (r + c * 2 ^ N)
      = if r.testBit t ≠ c.testBit t then
          sqrt (1 - damping) • qureg.stateVec.amp (r + c * 2 ^ N)
        else if r.testBit t = false then
          qureg.stateVec.amp (r + c * 2 ^ N)
            + damping • qureg.stateVec.amp (flipBit r t + flipBit c t * 2 ^ N)
        else (1 - damping) • qureg.stateVec.amp (r + c * 2 ^ N) := by
  rw [mixDampingLocal_amp N t ht sqrt qureg hN hn hc damping _ (entry_lt N r c hr hcl),
    testBit_entry N r c t hr, testBit_entry N r c (t + N) hr, if_pos ht,
    if_neg (show ¬ t + N < N by omega), Nat.add_sub_cancel, flip_entry N t r c ht hr]
  by_cases hd : r.testBit t ≠ c.testBit t
  · rw [if_pos hd, if_pos hd]
    rfl
  · rw [if_neg hd, if_neg hd]
    by_cases hz : r.testBit t = false
    · rw [if_pos hz, if_pos hz]
      rfl
    · rw [if_neg hz, if_neg hz]
      rfl

end EntryForm

section Trace

variable {K : Type} [Field K]

theorem mixDephasing_trace (N t : Nat) (ht : t < N) (qureg : Qureg K)
    (hN : qureg.numQubitsRepresented = N) (hn : qureg.numAmpsPerChunk = 2 ^ (2 * N))
    (hc : qureg.chunkId = 0) (dephase : K) :
    densityTrace N (densmatr_mixDephasing qureg t dephase).stateVec
      = densityTrace N qureg.stateVec := by
  unfold densityTrace
  apply Finset.sum_congr rfl
  intro k hk
  rw [Finset.mem_range] at hk
  have h := mixDephasing_entry N t ht qureg hN hn hc dephase k k hk hk
  rw [if_neg (fun h => h rfl), ← diag_entry] at h
  exact congrArg Prod.fst h

theorem mixDepolarisingLocal_trace (N t : Nat) (ht : t < N) (qureg : Qureg K)
    (hN : qureg.numQubitsRepresented = N) (hn : qureg.numAmpsPerChunk = 2 ^ (2 * N))
    (hc : qureg.chunkId = 0) (depolLevel : K) (h2 : (2 : K) ≠ 0) :
    densityTrace N (densmatr_mixDepolarisingLocal qureg t depolLevel).stateVec
      = densityTrace N qureg.stateVec := by
  unfold densityTrace
  have hterm : ∀ k ∈ Finset.range (2 ^ N),
      (densmatr_mixDepolarisingLocal qureg t depolLevel).stateVec.real (k * (2 ^ N + 1))
        = (1 - depolLevel) * qureg.stateVec.real (k * (2 ^ N + 1))
          + (depolLevel / 2) * (qureg.stateVec.real (k * (2 ^ N + 1))
            + qureg.stateVec.real (flipBit k t * (2 ^ N + 1))) := by
    intro k hk
    rw [Finset.mem_range] at hk
    have h := mixDepolarisingLocal_entry N t ht qureg hN hn hc depolLevel k k hk hk
    rw [if_neg (fun h => h rfl), ← diag_entry, ← diag_entry] at h
    exact congrArg Prod.fst h
  rw [Finset.sum_congr rfl hterm, Finset.sum_add_distrib, ← Finset.mul_sum, ← Finset.mul_sum,
    Finset.sum_add_distrib,
    sum_flipBit N t ht (fun k => qureg.stateVec.real (k * (2 ^ N + 1)))]
  field_simp
  ring

theorem mixDampingLocal_trace (N t : Nat) (ht : t < N) (sqrt : K → K) (qureg : Qureg K)
    (hN : qureg.numQubitsRepresented = N) (hn : qureg.numAmpsPerChunk = 2 ^ (2 * N))
    (hc : qureg.chunkId = 0) (damping : K) :
    densityTrace N (densmatr_mixDampingLocal sqrt qureg t damping).stateVec
      = densityTrace N qureg.stateVec := by
  unfold densityTrace
  have hterm : ∀ k ∈ Finset.range (2 ^ N),
      (densmatr_mixDampingLocal sqrt qureg t damping).stateVec.real (k * (2 ^ N + 1))
        = if k.testBit t = false then
            qureg.stateVec.real (k * (2 ^ N + 1))
              + damping * qureg.stateVec.real (flipBit k t * (2 ^ N + 1))
          else (1 - damping) * qureg.stateVec.real (k * (2 ^ N + 1)) := by
    intro k hk
    rw [Finset.mem_range] at hk
    have h := mixDampingLocal_entry N t ht sqrt qureg hN hn hc damping k k hk hk
    rw [if_neg (fun h => h rfl), ← diag_entry, ← diag_entry] at h
    refine Eq.trans (congrArg Prod.fst h) ?_
    by_cases hz : k.testBit t = false
    · rw [if_pos hz, if_pos hz]
      rfl
    · rw [if_neg hz, if_neg hz]
      rfl
  rw [Finset.sum_congr rfl hterm, Finset.sum_ite, Finset.sum_add_distrib, ← Finset.mul_sum,
    sum_flipBit_clear N t ht (fun k => qureg.stateVec.real (k * (2 ^ N + 1))),
    ← Finset.sum_filter_add_sum_filter_not (Finset.range (2 ^ N))
      (fun k => k.testBit t = false) (fun k => qureg.stateVec.real (k * (2 ^ N + 1))),
    ← Finset.mul_sum]
  ring

end Trace

section Hermitian

variable {K : Type} [Field K]

theorem ampConj_smul (a : K) (z : K × K) : ampConj (a • z) = a • ampConj z := by
  refine Prod.ext ?_ ?_ <;> simp [ampConj]

theorem ampConj_add (z w : K × K) : ampConj (z + w) = ampConj z + ampConj w := by
  refine Prod.ext ?_ ?_ <;> simp [ampConj]
  ring

theorem mixDephasing_hermitian (N t : Nat) (ht : t < N) (qureg : Qureg K)
    (hN : qureg.numQubitsRepresented = N) (hn : qureg.numAmpsPerChunk = 2 ^ (2 * N))
    (hc : qureg.chunkId = 0) (dephase : K) (hH : IsHermitian N qureg.stateVec) :
    IsHermitian N (densmatr_mixDephasing qureg t dephase).stateVec := by
  intro r hr c hcl
  rw [mixDephasing_entry N t ht qureg hN hn hc dephase r c hr hcl,
    mixDephasing_entry N t ht qureg hN hn hc dephase c r hcl hr, hH r hr c hcl]
  by_cases hd : r.testBit t ≠ c.testBit t
  · rw [if_pos hd, if_pos (Ne.symm hd), ampConj_smul]
  · rw [if_neg hd, if_neg (fun h => hd (Ne.symm h))]

theorem mixDepolarisingLocal_hermitian (N t : Nat) (ht : t < N) (qureg : Qureg K)
    (hN : qureg.numQubitsRepresented = N) (hn : qureg.numAmpsPerChunk = 2 ^ (2 * N))
    (hc : qureg.chunkId = 0) (depolLevel : K) (hH : IsHermitian N qureg.stateVec) :
    IsHermitian N (densmatr_mixDepolarisingLocal qureg t depolLevel).stateVec := by
  intro r hr c hcl
  have hfr := flipBit_lt N t r ht hr
  have hfc := flipBit_lt N t c ht hcl
  rw [mixDepolarisingLocal_entry N t ht qureg hN hn hc depolLevel r c hr hcl,
    mixDepolarisingLocal_entry N t ht qureg hN hn hc depolLevel c r hcl hr, hH r hr c hcl,
    hH _ hfr _ hfc]
  by_cases hd : r.testBit t ≠ c.testBit t
  · rw [if_pos hd, if_pos (Ne.symm hd), ampConj_smul]
  · rw [if_neg hd, if_neg (fun h => hd (Ne.symm h)), ampConj_add, ampConj_smul, ampConj_smul,
      ampConj_add]

theorem mixDampingLocal_hermitian (N t : Nat) (ht : t < N) (sqrt : K → K) (qureg : Qureg K)
    (hN : qureg.numQubitsRepresented = N) (hn : qureg.numAmpsPerChunk = 2 ^ (2 * N))
    (hc : qureg.chunkId = 0) (damping : K) (hH : IsHermitian N qureg.stateVec) :
    IsHermitian N (densmatr_mixDampingLocal sqrt qureg t damping).stateVec := by
  intro r hr c hcl
  have hfr := flipBit_lt N t r ht hr
  have hfc := flipBit_lt N t c ht hcl
  rw [mixDampingLocal_entry N t ht sqrt qureg hN hn hc damping r c hr hcl,
    mixDampingLocal_entry N t ht sqrt qureg hN hn hc damping c r hcl hr, hH r hr c hcl,
    hH _ hfr _ hfc]
  by_cases hd : r.testBit t ≠ c.testBit t
  · rw [if_pos hd, if_pos (Ne.symm hd), ampConj_smul]
  · have heq : r.testBit t = c.testBit t := by simpa using hd
    rw [if_neg hd, if_neg (fun h => hd (Ne.symm h))]
    by_cases hz : r.testBit t = false
    · rw [if_pos hz, if_pos (heq ▸ hz), ampConj_add, ampConj_smul]
    · rw [if_neg hz, if_neg (heq ▸ hz), ampConj_smul]

theorem sampleHermitian_isHermitian : IsHermitian 1 sampleHermitian.stateVec := by
  intro r hr c hc
  have hr' : r = 0 ∨ r = 1 := by
    have : r < 2 := hr
    omega
  have hc' : c = 0 ∨ c = 1 := by
    have : c < 2 := hc
    omega
  rcases hr' with rfl | rfl <;> rcases hc' with rfl | rfl <;>
    simp [sampleHermitian, ComplexArray.amp, ampConj]

end Hermitian

section InvariantClaims

variable {K : Type} [Field K]

/-- C16. Trace preservation: on a single-chunk density register of `N` qubits, for every
`t < N` and every level `lambda`, each of `densmatr_mixDephasing`,
`densmatr_mixDepolarisingLocal` and `densmatr_mixDampingLocal` leaves the trace (the sum of
the real parts of the amplitudes at the indices `k * (2^N + 1)`, `k < 2^N`) unchanged, for
every input matrix, in the exact arithmetic of a field in which `2 ≠ 0`, as the real
numbers. -/
theorem channels_preserve_trace (N t : Nat) (ht : t < N) (sqrt : K → K) (qureg : Qureg K)
    (hN : qureg.numQubitsRepresented = N) (hn : qureg.numAmpsPerChunk = 2 ^ (2 * N))
    (hc : qureg.chunkId = 0) (lambda : K) (h2 : (2 : K) ≠ 0) :
    densityTrace N (densmatr_mixDephasing qureg t lambda).stateVec
      = densityTrace N qureg.stateVec ∧
    densityTrace N (densmatr_mixDepolarisingLocal qureg t lambda).stateVec
      = densityTrace N qureg.stateVec ∧
    densityTrace N (densmatr_mixDampingLocal sqrt qureg t lambda).stateVec
      = densityTrace N qureg.stateVec :=
  ⟨mixDephasing_trace N t ht qureg hN hn hc lambda,
   mixDepolarisingLocal_trace N t ht qureg hN hn hc lambda h2,
   mixDampingLocal_trace N t ht sqrt qureg hN hn hc lambda⟩

/-- Witness of C16: the one-qubit matrix with diagonal `(1/3, 2/3)`, qubit 0, level `1/3`. -/
theorem channels_preserve_trace_witness :
    densityTrace 1 (densmatr_mixDephasing sampleHermitian 0 (1 / 3 : ℚ)).stateVec
      = densityTrace 1 sampleHermitian.stateVec ∧
    densityTrace 1 (densmatr_mixDepolarisingLocal sampleHermitian 0 (1 / 3 : ℚ)).stateVec
      = densityTrace 1 sampleHermitian.stateVec ∧
    densityTrace 1 (densmatr_mixDampingLocal sqrtExact sampleHermitian 0 (1 / 3 : ℚ)).stateVec
      = densityTrace 1 sampleHermitian.stateVec :=
  channels_preserve_trace 1 0 (by decide) sqrtExact sampleHermitian rfl rfl rfl (1 / 3)
    (by norm_num)

/-- C17. Hermiticity preservation: on a single-chunk density register of `N` qubits, if the
input satisfies `rho[r + c*2^N] = conj(rho[c + r*2^N])` for all `r, c < 2^N`, then so does the
output of each of `densmatr_mixDephasing`, `densmatr_mixDepolarisingLocal` and
`densmatr_mixDampingLocal`, for every `t < N` and every level `lambda` (the square root of the
damping kernel being a real number). -/
theorem channels_preserve_hermiticity (N t : Nat) (ht : t < N) (sqrt : K → K)
    (qureg : Qureg K) (hN : qureg.numQubitsRepresented = N)
    (hn : qureg.numAmpsPerChunk = 2 ^ (2 * N)) (hc : qureg.chunkId = 0) (lambda : K)
    (hH : IsHermitian N qureg.stateVec) :
    IsHermitian N (densmatr_mixDephasing qureg t lambda).stateVec ∧
    IsHermitian N (densmatr_mixDepolarisingLocal qureg t lambda).stateVec ∧
    IsHermitian N (densmatr_mixDampingLocal sqrt qureg t lambda).stateVec :=
  ⟨mixDephasing_hermitian N t ht qureg hN hn hc lambda hH,
   mixDepolarisingLocal_hermitian N t ht qureg hN hn hc lambda hH,
   mixDampingLocal_hermitian N t ht sqrt qureg hN hn hc lambda hH⟩

/-- Witness of C17: the one-qubit matrix with off-diagonal entries `1/4 ± i/5`, qubit 0,
level `1/3`. -/
theorem channels_preserve_hermiticity_witness :
    IsHermitian 1 (densmatr_mixDephasing sampleHermitian 0 (1 / 3 : ℚ)).stateVec ∧
    IsHermitian 1 (densmatr_mixDepolarisingLocal sampleHermitian 0 (1 / 3 : ℚ)).stateVec ∧
    IsHermitian 1 (densmatr_mixDampingLocal sqrtExact sampleHermitian 0 (1 / 3 : ℚ)).stateVec :=
  channels_preserve_hermiticity 1 0 (by decide) sqrtExact sampleHermitian rfl rfl rfl (1 / 3)
    sampleHermitian_isHermitian

end InvariantClaims

section TwoQubitDephasing

variable {K : Type} [Field K]

theorem mask_pattern_mismatch (p q x : Nat) (hpq : p ≠ q) :
    (x &&& (1 <<< p ||| 1 <<< q) = 1 <<< p ∨ x &&& (1 <<< p ||| 1 <<< q) = 1 <<< q)
      ↔ extractBit p x ≠ extractBit q x := by
  rw [Nat.one_shiftLeft, Nat.one_shiftLeft, and_mask_eq_inner p q x hpq,
    and_mask_eq_outer p q x hpq, extractBit_ne_iff]
  cases x.testBit p <;> cases x.testBit q <;> simp

theorem mixTwoQubitDephasing_stateVec (qureg : Qureg K) (q1 q2 : Nat) (dephase : K) :
    (densmatr_mixTwoQubitDephasing qureg q1 q2 dephase).stateVec
      = forLoop qureg.numAmpsPerChunk (channelBody
          (fun i =>
            (i + qureg.numAmpsPerChunk * qureg.chunkId)
                &&& (1 <<< q1 ||| 1 <<< (q1 + qureg.numQubitsRepresented)) = 1 <<< q1 ∨
            (i + qureg.numAmpsPerChunk * qureg.chunkId)
                &&& (1 <<< q1 ||| 1 <<< (q1 + qureg.numQubitsRepresented))
              = 1 <<< (q1 + qureg.numQubitsRepresented) ∨
            (i + qureg.numAmpsPerChunk * qureg.chunkId)
                &&& (1 <<< q2 ||| 1 <<< (q2 + qureg.numQubitsRepresented)) = 1 <<< q2 ∨
            (i + qureg.numAmpsPerChunk * qureg.chunkId)
                &&& (1 <<< q2 ||| 1 <<< (q2 + qureg.numQubitsRepresented))
              = 1 <<< (q2 + qureg.numQubitsRepresented))
          (fun _ => False) (fun i => i) (1 - dephase) (fun a b => (a, b))) qureg.stateVec := by
  simp only [densmatr_mixTwoQubitDephasing]
  apply forLoop_congr
  intro i _ sv
  unfold channelBody
  split_ifs <;> first | rfl | contradiction

/-- The two-qubit dephasing kernel, amplitude by amplitude of the chunk. -/
theorem mixTwoQubitDephasing_amp (N q1 q2 : Nat) (hN0 : 0 < N) (qureg : Qureg K)
    (hN : qureg.numQubitsRepresented = N) (dephase : K) (i : Nat)
    (hi : i < qureg.numAmpsPerChunk) :
    (densmatr_mixTwoQubitDephasing qureg q1 q2 dephase).stateVec.amp i
      = if extractBit q1 (i + qureg.numAmpsPerChunk * qureg.chunkId)
            ≠ extractBit (q1 + N) (i + qureg.numAmpsPerChunk * qureg.chunkId)
          ∨ extractBit q2 (i + qureg.numAmpsPerChunk * qureg.chunkId)
            ≠ extractBit (q2 + N) (i + qureg.numAmpsPerChunk * qureg.chunkId) then
          (1 - dephase) • qureg.stateVec.amp i
        else qureg.stateVec.amp i := by
  rw [mixTwoQubitDephasing_stateVec, hN]
  obtain ⟨r1, _, r3⟩ := forLoop_channelBody qureg.numAmpsPerChunk
    (fun i =>
      (i + qureg.numAmpsPerChunk * qureg.chunkId) &&& (1 <<< q1 ||| 1 <<< (q1 + N)) = 1 <<< q1 ∨
      (i + qureg.numAmpsPerChunk * qureg.chunkId) &&& (1 <<< q1 ||| 1 <<< (q1 + N))
        = 1 <<< (q1 + N) ∨
      (i + qureg.numAmpsPerChunk * qureg.chunkId) &&& (1 <<< q2 ||| 1 <<< (q2 + N)) = 1 <<< q2 ∨
      (i + qureg.numAmpsPerChunk * qureg.chunkId) &&& (1 <<< q2 ||| 1 <<< (q2 + N))
        = 1 <<< (q2 + N))
    (fun _ => False) (fun i => i) (1 - dephase) (fun a b => (a, b))
    (fun _ _ _ _ _ h _ => h.elim) (fun _ _ _ _ _ h _ _ _ => h.elim) qureg.stateVec
  have hA : ((i + qureg.numAmpsPerChunk * qureg.chunkId) &&& (1 <<< q1 ||| 1 <<< (q1 + N))
        = 1 <<< q1 ∨
      (i + qureg.numAmpsPerChunk * qureg.chunkId) &&& (1 <<< q1 ||| 1 <<< (q1 + N))
        = 1 <<< (q1 + N) ∨
      (i + qureg.numAmpsPerChunk * qureg.chunkId) &&& (1 <<< q2 ||| 1 <<< (q2 + N)) = 1 <<< q2 ∨
      (i + qureg.numAmpsPerChunk * qureg.chunkId) &&& (1 <<< q2 ||| 1 <<< (q2 + N))
        = 1 <<< (q2 + N))
      ↔ (extractBit q1 (i + qureg.numAmpsPerChunk * qureg.chunkId)
            ≠ extractBit (q1 + N) (i + qureg.numAmpsPerChunk * qureg.chunkId)
          ∨ extractBit q2 (i + qureg.numAmpsPerChunk * qureg.chunkId)
            ≠ extractBit (q2 + N) (i + qureg.numAmpsPerChunk * qureg.chunkId)) := by
    rw [← or_assoc, mask_pattern_mismatch q1 (q1 + N) _ (by omega),
      mask_pattern_mismatch q2 (q2 + N) _ (by omega)]
  by_cases hd : extractBit q1 (i + qureg.numAmpsPerChunk * qureg.chunkId)
            ≠ extractBit (q1 + N) (i + qureg.numAmpsPerChunk * qureg.chunkId)
          ∨ extractBit q2 (i + qureg.numAmpsPerChunk * qureg.chunkId)
            ≠ extractBit (q2 + N) (i + qureg.numAmpsPerChunk * qureg.chunkId)
  · rw [if_pos hd]
    exact r1 i hi (hA.mpr hd)
  · rw [if_neg hd]
    apply r3 i
    · rintro ⟨_, h | h⟩
      · exact hd (hA.mp h)
      · exact h
    · intro _ _ _ h
      exact h.elim

end TwoQubitDephasing

section TwoQubitDephasingClaims

variable {K : Type} [Field K]

/-- C18, as the code has it. Two-qubit dephasing: for every density register of `N ≥ 1`
qubits, every chunk, targets `t1`, `t2` and level `lambda`, `densmatr_mixTwoQubitDephasing`
multiplies by `1 - lambda` every local amplitude whose row bit differs from its column bit on
`t1` or on `t2` (bits `t` and `t + N` of the global index), and leaves unchanged every
amplitude whose row and column bits agree on both targets: the patterns `(00|00)`, `(01|01)`,
`(10|10)` and `(11|11)`. -/
theorem mixTwoQubitDephasing_scales_mismatches (N t1 t2 : Nat) (hN0 : 0 < N) (qureg : Qureg K)
    (hN : qureg.numQubitsRepresented = N) (lambda : K) (i : Nat)
    (hi : i < qureg.numAmpsPerChunk) :
    (densmatr_mixTwoQubitDephasing qureg t1 t2 lambda).stateVec.amp i
      = if extractBit t1 (i + qureg.numAmpsPerChunk * qureg.chunkId)
            ≠ extractBit (t1 + N) (i + qureg.numAmpsPerChunk * qureg.chunkId)
          ∨ extractBit t2 (i + qureg.numAmpsPerChunk * qureg.chunkId)
            ≠ extractBit (t2 + N) (i + qureg.numAmpsPerChunk * qureg.chunkId) then
          (1 - lambda) • qureg.stateVec.amp i
        else qureg.stateVec.amp i :=
  mixTwoQubitDephasing_amp N t1 t2 hN0 qureg hN lambda i hi

/-- Witness of C18: two qubits in one chunk, targets 0 and 1, level `1/2`, index 5 (row `01`,
column `01`). -/
theorem mixTwoQubitDephasing_scales_mismatches_witness :
    (densmatr_mixTwoQubitDephasing sampleDensity16 0 1 (1 / 2 : ℚ)).stateVec.amp 5
      = if extractBit 0 (5 + sampleDensity16.numAmpsPerChunk * sampleDensity16.chunkId)
            ≠ extractBit (0 + 2) (5 + sampleDensity16.numAmpsPerChunk * sampleDensity16.chunkId)
          ∨ extractBit 1 (5 + sampleDensity16.numAmpsPerChunk * sampleDensity16.chunkId)
            ≠ extractBit (1 + 2) (5 + sampleDensity16.numAmpsPerChunk * sampleDensity16.chunkId)
        then (1 - (1 / 2 : ℚ)) • sampleDensity16.stateVec.amp 5
        else sampleDensity16.stateVec.amp 5 :=
  mixTwoQubitDephasing_scales_mismatches 2 0 1 (by decide) sampleDensity16 rfl (1 / 2) 5
    (by decide)

/-- Counterexample to C18 as stated: on a two-qubit density register, targets 0 and 1, level
`1/2`, it is not the case that every amplitude whose pattern (row bits of `t1`, `t2` | column
bits of `t1`, `t2`) is neither `(00|00)` nor `(11|11)` is multiplied by `1 - lambda`: the
amplitude at index 5, of pattern `(10|10)`, keeps its value `6 + 10i`. -/
theorem mixTwoQubitDephasing_pattern_counterexample :
    ¬ (∀ i, i < 16 →
      ¬ ((extractBit 0 i = 0 ∧ extractBit 1 i = 0 ∧ extractBit (0 + 2) i = 0
            ∧ extractBit (1 + 2) i = 0)
          ∨ (extractBit 0 i = 1 ∧ extractBit 1 i = 1 ∧ extractBit (0 + 2) i = 1
            ∧ extractBit (1 + 2) i = 1)) →
      (densmatr_mixTwoQubitDephasing sampleDensity16 0 1 (1 / 2 : ℚ)).stateVec.amp i
        = (1 - (1 / 2 : ℚ)) • sampleDensity16.stateVec.amp i) := by
  intro h
  have h5 := h 5 (by decide) (by decide)
  rw [mixTwoQubitDephasing_amp 2 0 1 (by decide) sampleDensity16 rfl (1 / 2) 5 (by decide),
    if_neg (by decide)] at h5
  have h6 := congrArg Prod.fst h5
  simp [sampleDensity16, ComplexArray.amp] at h6
  norm_num at h6

end TwoQubitDephasingClaims

section SymmetricPairs

variable {K : Type} [Field K]

/-- A loop of channel steps that rewrite pairs symmetrically: when the partner of an
active task `i` is `σ i` for an involution `σ`, and the active tasks together with their
partners are the indices that satisfy `D`, every index that satisfies `D` receives `f` of its
amplitude and of the amplitude at `σ` of it, and every other amplitude is unchanged. -/
theorem forLoop_symmetric_pairs (n : Nat) (G : Nat → Prop) [DecidablePred G] (P σ : Nat → Nat)
    (D : Nat → Prop) [DecidablePred D] (c : K) (f : K × K → K × K → K × K)
    (hσσ : ∀ j, σ (σ j) = j) (hσn : ∀ j, j < n → σ j < n)
    (hGD : ∀ i, G i → D i) (hGP : ∀ i, G i → P i = σ i) (hGσ : ∀ i, G i → ¬ G (σ i))
    (hDσ : ∀ j, D j → ¬ G j → G (σ j)) (hDD : ∀ j, D j → D (σ j))
    (s : ComplexArray K) (j : Nat) (hj : j < n) :
    (forLoop n (channelBody (fun _ => False) G P c (fun x y => (f x y, f y x))) s).amp j
      = if D j then f (s.amp j) (s.amp (σ j)) else s.amp j := by
  obtain ⟨_, r2, r3⟩ := forLoop_channelBody n (fun _ => False) G P c
    (fun x y => (f x y, f y x))
    (by
      intro i i' _ _ _ hG hP
      refine ⟨fun h => h, ?_⟩
      rw [← hP, hGP i hG]
      exact hGσ i hG)
    (by
      intro i i' _ _ _ hG _ hG' hP
      rw [hGP i hG, hGP i' hG'] at hP
      have := congrArg σ hP
      rwa [hσσ, hσσ] at this)
    s
  by_cases hD : D j
  · rw [if_pos hD]
    by_cases hG : G j
    · have h := (r2 j hj (fun h => h) hG).1
      rw [hGP j hG] at h
      exact h
    · have hG' := hDσ j hD hG
      have h := (r2 (σ j) (hσn j hj) (fun h => h) hG').2
      rw [hGP _ hG', hσσ] at h
      exact h
  · rw [if_neg hD]
    apply r3 j
    · rintro ⟨_, h | h⟩
      · exact h
      · exact hD (hGD j h)
    · intro i _ _ hG hji
      apply hD
      rw [hji, hGP i hG]
      exact hDD i (hGD i hG)

end SymmetricPairs

section XorMasks

theorem testBit_xor_mask (x p q j : Nat) :
    (x ^^^ (2 ^ p ||| 2 ^ q)).testBit j
      = if p = j ∨ q = j then !x.testBit j else x.testBit j := by
  rw [Nat.testBit_xor, testBit_mask]
  by_cases h1 : p = j <;> by_cases h2 : q = j <;> simp [h1, h2]

theorem or_mask_eq_xor (p q x : Nat) (h : x &&& (2 ^ p ||| 2 ^ q) = 0) :
    x ||| (2 ^ p ||| 2 ^ q) = x ^^^ (2 ^ p ||| 2 ^ q) := by
  obtain ⟨h1, h2⟩ := (and_mask_eq_zero p q x).mp h
  apply Nat.eq_of_testBit_eq
  intro j
  rw [testBit_xor_mask, Nat.testBit_or, testBit_mask]
  by_cases e1 : p = j
  · subst e1; simp [h1]
  · by_cases e2 : q = j
    · subst e2; simp [h2]
    · simp [e1, e2]

theorem xor_mask_eq_flip (p q x : Nat) (hpq : p ≠ q) :
    x ^^^ (2 ^ p ||| 2 ^ q) = flipBit (flipBit x p) q := by
  apply Nat.eq_of_testBit_eq
  intro j
  rw [testBit_xor_mask, testBit_flip_both, if_neg hpq]
  by_cases e1 : p = j
  · subst e1; simp
  · by_cases e2 : q = j
    · subst e2; simp
    · have e1' : ¬ j = p := fun e => e1 e.symm
      have e2' : ¬ j = q := fun e => e2 e.symm
      simp [e1, e2, e1', e2']

theorem mask_lt (k p q : Nat) (hp : p < k) (hq : q < k) : 2 ^ p ||| 2 ^ q < 2 ^ k :=
  Nat.or_lt_two_pow (Nat.pow_lt_pow_right (by decide) hp) (Nat.pow_lt_pow_right (by decide) hq)

theorem xor_right_comm (x y z : Nat) : (x ^^^ y) ^^^ z = (x ^^^ z) ^^^ y := by
  rw [Nat.xor_assoc, Nat.xor_comm y z, ← Nat.xor_assoc]

/-- The guard of the steps of the two-qubit depolarising kernel in terms of bits: the
pattern on the qubit `(a, a')` is 0 and the pattern on `(b, b')` is 0 or the full mask. -/
theorem step_guard_iff (a a' b b' i : Nat) :
    (i &&& (2 ^ a ||| 2 ^ a') = 0
        ∧ (i &&& (2 ^ b ||| 2 ^ b') = 0 ∨ i &&& (2 ^ b ||| 2 ^ b') = 2 ^ b ||| 2 ^ b'))
      ↔ ((i.testBit a = false ∧ i.testBit a' = false) ∧ i.testBit b = i.testBit b') := by
  rw [and_mask_eq_zero, and_mask_eq_zero, and_mask_eq_mask]
  cases i.testBit b <;> cases i.testBit b' <;> simp

end XorMasks

section Passes

variable {K : Type} [Field K]

/-- Steps one and two of the two-qubit depolarising kernel, index by index: the pass that
pairs across the qubit with bit positions `(a, a')`, the other qubit having the positions
`(b, b')`. -/
theorem pass_across (k a a' b b' : Nat) (ha : a < k) (ha' : a' < k) (hba : b ≠ a)
    (hba' : b ≠ a') (hdc : b' ≠ a) (hdd : b' ≠ a') (c : K) (f : K × K → K × K → K × K)
    (s : ComplexArray K) (j : Nat) (hj : j < 2 ^ k) :
    (forLoop (2 ^ k) (channelBody (fun _ => False)
        (fun i => i &&& (2 ^ a ||| 2 ^ a') = 0
          ∧ (i &&& (2 ^ b ||| 2 ^ b') = 0 ∨ i &&& (2 ^ b ||| 2 ^ b') = 2 ^ b ||| 2 ^ b'))
        (fun i => i ||| (2 ^ a ||| 2 ^ a')) c (fun x y => (f x y, f y x))) s).amp j
      = if j.testBit a = j.testBit a' ∧ j.testBit b = j.testBit b' then
          f (s.amp j) (s.amp (j ^^^ (2 ^ a ||| 2 ^ a')))
        else s.amp j := by
  have ta : ∀ x, (x ^^^ (2 ^ a ||| 2 ^ a')).testBit a = !x.testBit a := by
    intro x; rw [testBit_xor_mask, if_pos (Or.inl rfl)]
  have ta' : ∀ x, (x ^^^ (2 ^ a ||| 2 ^ a')).testBit a' = !x.testBit a' := by
    intro x; rw [testBit_xor_mask, if_pos (Or.inr rfl)]
  have tb : ∀ x, (x ^^^ (2 ^ a ||| 2 ^ a')).testBit b = x.testBit b := by
    intro x
    rw [testBit_xor_mask, if_neg (by rintro (h | h); exact hba h.symm; exact hba' h.symm)]
  have tb' : ∀ x, (x ^^^ (2 ^ a ||| 2 ^ a')).testBit b' = x.testBit b' := by
    intro x
    rw [testBit_xor_mask, if_neg (by rintro (h | h); exact hdc h.symm; exact hdd h.symm)]
  exact forLoop_symmetric_pairs (2 ^ k) _ _ (fun j => j ^^^ (2 ^ a ||| 2 ^ a'))
    (fun j => j.testBit a = j.testBit a' ∧ j.testBit b = j.testBit b') c f
    (fun j => Nat.xor_cancel_right _ _)
    (fun j hj => Nat.xor_lt_two_pow hj (mask_lt k a a' ha ha'))
    (by
      intro i hG
      rw [step_guard_iff] at hG
      exact ⟨by rw [hG.1.1, hG.1.2], hG.2⟩)
    (fun i hG => or_mask_eq_xor a a' i hG.1)
    (by
      intro i hG hG'
      rw [step_guard_iff] at hG hG'
      rw [ta, hG.1.1] at hG'
      exact absurd hG'.1.1 (by decide))
    (by
      intro j hD hG
      rw [step_guard_iff] at hG ⊢
      rw [ta, ta', tb, tb']
      obtain ⟨h1, h2⟩ := hD
      refine ⟨?_, h2⟩
      rw [← h1]
      rw [← h1] at hG
      cases hb : j.testBit a
      · exact absurd ⟨⟨hb, hb⟩, h2⟩ hG
      · exact ⟨rfl, rfl⟩)
    (by
      intro j hD
      rw [ta, ta', tb, tb', hD.1]
      exact ⟨rfl, hD.2⟩)
    s j hj

/-- Step three of the two-qubit depolarising kernel, index by index: the tasks are those of
step two, on the qubit with positions `(b, b')`, and the partner has the bits of both qubits
flipped. -/
theorem pass_both (k a a' b b' : Nat) (ha : a < k) (ha' : a' < k) (hb : b < k) (hb' : b' < k)
    (hba : b ≠ a) (hba' : b ≠ a') (hdc : b' ≠ a) (hdd : b' ≠ a') (c : K)
    (f : K × K → K × K → K × K) (s : ComplexArray K) (j : Nat) (hj : j < 2 ^ k) :
    (forLoop (2 ^ k) (channelBody (fun _ => False)
        (fun i => i &&& (2 ^ b ||| 2 ^ b') = 0
          ∧ (i &&& (2 ^ a ||| 2 ^ a') = 0 ∨ i &&& (2 ^ a ||| 2 ^ a') = 2 ^ a ||| 2 ^ a'))
        (fun i => (i ||| (2 ^ b ||| 2 ^ b')) ^^^ (2 ^ a ||| 2 ^ a')) c
        (fun x y => (f x y, f y x))) s).amp j
      = if j.testBit a = j.testBit a' ∧ j.testBit b = j.testBit b' then
          f (s.amp j) (s.amp ((j ^^^ (2 ^ b ||| 2 ^ b')) ^^^ (2 ^ a ||| 2 ^ a')))
        else s.amp j := by
  have ta : ∀ x, ((x ^^^ (2 ^ b ||| 2 ^ b')) ^^^ (2 ^ a ||| 2 ^ a')).testBit a
      = !x.testBit a := by
    intro x
    rw [testBit_xor_mask, if_pos (Or.inl rfl), testBit_xor_mask,
      if_neg (by rintro (h | h); exact hba h; exact hdc h)]
  have ta' : ∀ x, ((x ^^^ (2 ^ b ||| 2 ^ b')) ^^^ (2 ^ a ||| 2 ^ a')).testBit a'
      = !x.testBit a' := by
    intro x
    rw [testBit_xor_mask, if_pos (Or.inr rfl), testBit_xor_mask,
      if_neg (by rintro (h | h); exact hba' h; exact hdd h)]
  have tb : ∀ x, ((x ^^^ (2 ^ b ||| 2 ^ b')) ^^^ (2 ^ a ||| 2 ^ a')).testBit b
      = !x.testBit b := by
    intro x
    rw [testBit_xor_mask, if_neg (by rintro (h | h); exact hba h.symm; exact hba' h.symm),
      testBit_xor_mask, if_pos (Or.inl rfl)]
  have tb' : ∀ x, ((x ^^^ (2 ^ b ||| 2 ^ b')) ^^^ (2 ^ a ||| 2 ^ a')).testBit b'
      = !x.testBit b' := by
    intro x
    rw [testBit_xor_mask, if_neg (by rintro (h | h); exact hdc h.symm; exact hdd h.symm),
      testBit_xor_mask, if_pos (Or.inr rfl)]
  exact forLoop_symmetric_pairs (2 ^ k) _ _
    (fun j => (j ^^^ (2 ^ b ||| 2 ^ b')) ^^^ (2 ^ a ||| 2 ^ a'))
    (fun j => j.testBit a = j.testBit a' ∧ j.testBit b = j.testBit b') c f
    (by
      intro j
      simp only
      rw [xor_right_comm (j ^^^ (2 ^ b ||| 2 ^ b')), Nat.xor_cancel_right,
        xor_right_comm j, Nat.xor_cancel_right])
    (fun j hj => Nat.xor_lt_two_pow (Nat.xor_lt_two_pow hj (mask_lt k b b' hb hb'))
      (mask_lt k a a' ha ha'))
    (by
      intro i hG
      rw [step_guard_iff] at hG
      exact ⟨hG.2, by rw [hG.1.1, hG.1.2]⟩)
    (by
      intro i hG
      simp only
      rw [or_mask_eq_xor b b' i hG.1])
    (by
      intro i hG hG'
      rw [step_guard_iff] at hG hG'
      rw [tb, hG.1.1] at hG'
      exact absurd hG'.1.1 (by decide))
    (by
      intro j hD hG
      rw [step_guard_iff] at hG ⊢
      rw [ta, ta', tb, tb']
      obtain ⟨h1, h2⟩ := hD
      refine ⟨?_, by rw [h1]⟩
      rw [← h2]
      rw [← h2] at hG
      cases hbb : j.testBit b
      · exact absurd ⟨⟨hbb, hbb⟩, h1⟩ hG
      · exact ⟨rfl, rfl⟩)
    (by
      intro j hD
      rw [ta, ta', tb, tb', hD.1, hD.2]
      exact ⟨rfl, rfl⟩)
    s j hj

end Passes

section TwoQubitDepolarising

variable {K : Type} [Field K]

theorem or_xor_mask_ne_self (a a' b b' i : Nat) (hba : b ≠ a) (hba' : b ≠ a')
    (h : i &&& (1 <<< b ||| 1 <<< b') = 0) :
    (i ||| (1 <<< b ||| 1 <<< b')) ^^^ (1 <<< a ||| 1 <<< a') ≠ i := by
  rw [Nat.one_shiftLeft, Nat.one_shiftLeft] at h
  rw [Nat.one_shiftLeft, Nat.one_shiftLeft, Nat.one_shiftLeft, Nat.one_shiftLeft]
  intro e
  have h1 := ((and_mask_eq_zero b b' i).mp h).1
  have h2 := congrArg (fun y => y.testBit b) e
  simp only at h2
  rw [or_mask_eq_xor b b' i h, testBit_xor_mask,
    if_neg (by rintro (h | h); exact hba h.symm; exact hba' h.symm), testBit_xor_mask,
    if_pos (Or.inl rfl), h1] at h2
  exact absurd h2 (by decide)

theorem forLoop_congr_init {σ : Type} (n : Nat) (body body' : Nat → σ → σ) (s s' : σ)
    (h : ∀ i, i < n → ∀ s, body i s = body' i s) (hs : s = s') :
    forLoop n body s = forLoop n body' s' := by
  subst hs
  exact forLoop_congr n body body' h s

/-- The three loops of `densmatr_mixTwoQubitDepolarisingLocal` on a register held in one
chunk, as loops of channel steps. -/
theorem mixTwoQubitDepolarisingLocal_stateVec (qureg : Qureg K) (q1 q2 : Nat) (hne : q1 ≠ q2)
    (hq2 : q2 < qureg.numQubitsRepresented) (delta gamma : K) (hc : qureg.chunkId = 0) :
    (densmatr_mixTwoQubitDepolarisingLocal qureg q1 q2 delta gamma).stateVec
      = forLoop qureg.numAmpsPerChunk (channelBody (fun _ => False)
          (fun i => i &&& (2 ^ q2 ||| 2 ^ (q2 + qureg.numQubitsRepresented)) = 0
            ∧ (i &&& (2 ^ q1 ||| 2 ^ (q1 + qureg.numQubitsRepresented)) = 0
              ∨ i &&& (2 ^ q1 ||| 2 ^ (q1 + qureg.numQubitsRepresented))
                = 2 ^ q1 ||| 2 ^ (q1 + qureg.numQubitsRepresented)))
          (fun i => (i ||| (2 ^ q2 ||| 2 ^ (q2 + qureg.numQubitsRepresented)))
            ^^^ (2 ^ q1 ||| 2 ^ (q1 + qureg.numQubitsRepresented))) 0
          (fun x y => (depolStepThreeF delta gamma x y, depolStepThreeF delta gamma y x)))
        (forLoop qureg.numAmpsPerChunk (channelBody (fun _ => False)
          (fun i => i &&& (2 ^ q2 ||| 2 ^ (q2 + qureg.numQubitsRepresented)) = 0
            ∧ (i &&& (2 ^ q1 ||| 2 ^ (q1 + qureg.numQubitsRepresented)) = 0
              ∨ i &&& (2 ^ q1 ||| 2 ^ (q1 + qureg.numQubitsRepresented))
                = 2 ^ q1 ||| 2 ^ (q1 + qureg.numQubitsRepresented)))
          (fun i => i ||| (2 ^ q2 ||| 2 ^ (q2 + qureg.numQubitsRepresented))) 0
          (fun x y => (depolStepF delta x y, depolStepF delta y x)))
        (forLoop qureg.numAmpsPerChunk (channelBody (fun _ => False)
          (fun i => i &&& (2 ^ q1 ||| 2 ^ (q1 + qureg.numQubitsRepresented)) = 0
            ∧ (i &&& (2 ^ q2 ||| 2 ^ (q2 + qureg.numQubitsRepresented)) = 0
              ∨ i &&& (2 ^ q2 ||| 2 ^ (q2 + qureg.numQubitsRepresented))
                = 2 ^ q2 ||| 2 ^ (q2 + qureg.numQubitsRepresented)))
          (fun i => i ||| (2 ^ q1 ||| 2 ^ (q1 + qureg.numQubitsRepresented))) 0
          (fun x y => (depolStepF delta x y, depolStepF delta y x)))
        qureg.stateVec)) := by
  have d1 : q2 ≠ q1 + qureg.numQubitsRepresented := by omega
  rw [← Nat.one_shiftLeft, ← Nat.one_shiftLeft, ← Nat.one_shiftLeft, ← Nat.one_shiftLeft]
  simp only [densmatr_mixTwoQubitDepolarisingLocal, hc, Nat.mul_zero, Nat.add_zero]
  refine forLoop_congr_init _ _ _ _ _ ?_ (forLoop_congr_init _ _ _ _ _ ?_
    (forLoop_congr_init _ _ _ _ _ ?_ rfl))
  · intro i _ sv
    unfold channelBody
    rw [if_neg (fun h => h)]
    split_ifs with hG
    · have hne := or_xor_mask_ne_self q1 (q1 + qureg.numQubitsRepresented) q2
        (q2 + qureg.numQubitsRepresented) i (fun e => hne e.symm) d1 hG.1
      simp only [pairBody, depolStepThreeF, ComplexArray.amp, Function.update_noteq hne]
    · rfl
  · intro i _ sv
    unfold channelBody
    rw [if_neg (fun h => h)]
    split_ifs with hG
    · have hne := or_mask_ne_self q2 (q2 + qureg.numQubitsRepresented) i hG.1
      simp only [pairBody, depolStepF, ComplexArray.amp, Function.update_noteq hne]
    · rfl
  · intro i _ sv
    unfold channelBody
    rw [if_neg (fun h => h)]
    split_ifs with hG
    · have hne := or_mask_ne_self q1 (q1 + qureg.numQubitsRepresented) i hG.1
      simp only [pairBody, depolStepF, ComplexArray.amp, Function.update_noteq hne]
    · rfl

end TwoQubitDepolarising

section TwoQubitDepolarisingNet

variable {K : Type} [Field K]

theorem extractBit_eq_iff (p q x : Nat) :
    extractBit p x = extractBit q x ↔ x.testBit p = x.testBit q := by
  rw [extractBit_eq_ite, extractBit_eq_ite]
  cases x.testBit p <;> cases x.testBit q <;> simp

/-- Net effect of the three loops of `densmatr_mixTwoQubitDepolarisingLocal`, index by
index, the partners being written with XOR masks. -/
theorem mixTwoQubitDepolarisingLocal_amp (N q1 q2 : Nat) (h1 : q1 < N) (h2 : q2 < N)
    (hne : q1 ≠ q2) (qureg : Qureg K) (hN : qureg.numQubitsRepresented = N)
    (hn : qureg.numAmpsPerChunk = 2 ^ (2 * N)) (hc : qureg.chunkId = 0) (delta gamma : K)
    (j : Nat) (hj : j < 2 ^ (2 * N)) :
    (densmatr_mixTwoQubitDepolarisingLocal qureg q1 q2 delta gamma).stateVec.amp j
      = if j.testBit q1 = j.testBit (q1 + N) ∧ j.testBit q2 = j.testBit (q2 + N) then
          gamma • ((1 + delta ^ 3) • qureg.stateVec.amp j
            + (delta + delta ^ 2) • (qureg.stateVec.amp (j ^^^ (2 ^ q1 ||| 2 ^ (q1 + N)))
              + qureg.stateVec.amp (j ^^^ (2 ^ q2 ||| 2 ^ (q2 + N)))
              + qureg.stateVec.amp
                  ((j ^^^ (2 ^ q2 ||| 2 ^ (q2 + N))) ^^^ (2 ^ q1 ||| 2 ^ (q1 + N)))))
        else qureg.stateVec.amp j := by
  have e1 : q2 ≠ q1 + N := by omega
  have e2 : q2 + N ≠ q1 := by omega
  have e3 : q2 + N ≠ q1 + N := by omega
  have e4 : q1 ≠ q2 + N := by omega
  have ha : q1 < 2 * N := by omega
  have ha' : q1 + N < 2 * N := by omega
  have hb : q2 < 2 * N := by omega
  have hb' : q2 + N < 2 * N := by omega
  have hq2 : q2 < qureg.numQubitsRepresented := by rw [hN]; exact h2
  rw [mixTwoQubitDepolarisingLocal_stateVec qureg q1 q2 hne hq2 delta gamma hc, hN, hn]
  have p1 := fun s x hx => pass_across (2 * N) q1 (q1 + N) q2 (q2 + N) ha ha'
    (fun e => hne e.symm) e1 e2 e3 (0 : K) (depolStepF delta) s x hx
  have p2 := fun s x hx => pass_across (2 * N) q2 (q2 + N) q1 (q1 + N) hb hb'
    hne e4 (fun e => e1 e.symm) (fun e => e3 e.symm) (0 : K) (depolStepF delta) s x hx
  have p3 := fun s x hx => pass_both (2 * N) q1 (q1 + N) q2 (q2 + N) ha ha' hb hb'
    (fun e => hne e.symm) e1 e2 e3 (0 : K) (depolStepThreeF delta gamma) s x hx
  have hx1 : ∀ x, x < 2 ^ (2 * N) → x ^^^ (2 ^ q1 ||| 2 ^ (q1 + N)) < 2 ^ (2 * N) :=
    fun x hx => Nat.xor_lt_two_pow hx (mask_lt _ _ _ ha ha')
  have hx2 : ∀ x, x < 2 ^ (2 * N) → x ^^^ (2 ^ q2 ||| 2 ^ (q2 + N)) < 2 ^ (2 * N) :=
    fun x hx => Nat.xor_lt_two_pow hx (mask_lt _ _ _ hb hb')
  have hD1 : ∀ x, (x.testBit q1 = x.testBit (q1 + N) ∧ x.testBit q2 = x.testBit (q2 + N)) →
      ((x ^^^ (2 ^ q1 ||| 2 ^ (q1 + N))).testBit q1
          = (x ^^^ (2 ^ q1 ||| 2 ^ (q1 + N))).testBit (q1 + N)
        ∧ (x ^^^ (2 ^ q1 ||| 2 ^ (q1 + N))).testBit q2
          = (x ^^^ (2 ^ q1 ||| 2 ^ (q1 + N))).testBit (q2 + N)) := by
    intro x hx
    rw [testBit_xor_mask, testBit_xor_mask, testBit_xor_mask, testBit_xor_mask,
      if_pos (Or.inl rfl), if_pos (Or.inr rfl),
      if_neg (by rintro (h | h); exact hne h; exact e1 h.symm),
      if_neg (by rintro (h | h); exact e2 h.symm; exact e3 h.symm), hx.1, hx.2]
    exact ⟨rfl, rfl⟩
  have hD2 : ∀ x, (x.testBit q1 = x.testBit (q1 + N) ∧ x.testBit q2 = x.testBit (q2 + N)) →
      ((x ^^^ (2 ^ q2 ||| 2 ^ (q2 + N))).testBit q1
          = (x ^^^ (2 ^ q2 ||| 2 ^ (q2 + N))).testBit (q1 + N)
        ∧ (x ^^^ (2 ^ q2 ||| 2 ^ (q2 + N))).testBit q2
          = (x ^^^ (2 ^ q2 ||| 2 ^ (q2 + N))).testBit (q2 + N)) := by
    intro x hx
    rw [testBit_xor_mask, testBit_xor_mask, testBit_xor_mask, testBit_xor_mask,
      if_pos (Or.inl rfl), if_pos (Or.inr rfl),
      if_neg (by rintro (h | h); exact hne h.symm; exact e2 h),
      if_neg (by rintro (h | h); exact e1 h; exact e3 h), hx.1, hx.2]
    exact ⟨rfl, rfl⟩
  by_cases hD : j.testBit q1 = j.testBit (q1 + N) ∧ j.testBit q2 = j.testBit (q2 + N)
  · have hDb := hD2 j hD
    have hDab := hD1 _ hDb
    have hDa := hD1 j hD
    have c1 : ((j ^^^ (2 ^ q2 ||| 2 ^ (q2 + N))) ^^^ (2 ^ q1 ||| 2 ^ (q1 + N)))
        ^^^ (2 ^ q2 ||| 2 ^ (q2 + N)) = j ^^^ (2 ^ q1 ||| 2 ^ (q1 + N)) := by
      rw [xor_right_comm (j ^^^ (2 ^ q2 ||| 2 ^ (q2 + N))), Nat.xor_cancel_right]
    rw [if_pos hD, p3 _ j hj, if_pos hD, p2 _ j hj, if_pos hD.symm,
      p2 _ _ (hx1 _ (hx2 j hj)), if_pos hDab.symm, c1,
      p1 _ j hj, if_pos hD, p1 _ _ (hx2 j hj), if_pos hDb,
      p1 _ _ (hx1 _ (hx2 j hj)), if_pos hDab, Nat.xor_cancel_right,
      p1 _ _ (hx1 j hj), if_pos hDa, Nat.xor_cancel_right]
    refine Prod.ext ?_ ?_ <;> (simp [depolStepF, depolStepThreeF]; ring)
  · rw [if_neg hD, p3 _ j hj, if_neg hD, p2 _ j hj, if_neg (fun h => hD h.symm), p1 _ j hj,
      if_neg hD]

end TwoQubitDepolarisingNet

section TwoQubitDepolarisingClaims

variable {K : Type} [Field K]

/-- C19. Two-qubit depolarising (local): on a single-chunk density register of `N` qubits
with distinct `q1, q2 < N`, `densmatr_mixTwoQubitDepolarisingLocal(q1, q2, delta, gamma)` runs
three passes over the tasks: step one on the tasks whose pattern on `q1` is 0 and whose
pattern on `q2` is 0 or the full mask, with partner `task OR mask1`; step two on the tasks
whose pattern on `q2` is 0 and whose pattern on `q1` is 0 or the full mask, with partner
`task OR mask2`; step three on the tasks of step two with partner `(task OR mask2) XOR mask1`,
which is the index with the row and column bits of both qubits flipped. Net effect: every
amplitude whose row bit equals its column bit on both `q1` and `q2` becomes
`gamma * ((1 + delta^3) * self + (delta + delta^2) * (sum of the three other amplitudes of
its 4-tuple))`, the three others being obtained by flipping row and column bits together on
`q1`, on `q2`, or on both; every other amplitude is unchanged. -/
theorem mixTwoQubitDepolarisingLocal_net_effect (N q1 q2 : Nat) (h1 : q1 < N) (h2 : q2 < N)
    (hne : q1 ≠ q2) (qureg : Qureg K) (hN : qureg.numQubitsRepresented = N)
    (hn : qureg.numAmpsPerChunk = 2 ^ (2 * N)) (hc : qureg.chunkId = 0) (delta gamma : K) :
    (densmatr_mixTwoQubitDepolarisingLocal qureg q1 q2 delta gamma).stateVec
      = forLoop (2 ^ (2 * N)) (channelBody (fun _ => False)
          (fun i => i &&& (2 ^ q2 ||| 2 ^ (q2 + N)) = 0
            ∧ (i &&& (2 ^ q1 ||| 2 ^ (q1 + N)) = 0
              ∨ i &&& (2 ^ q1 ||| 2 ^ (q1 + N)) = 2 ^ q1 ||| 2 ^ (q1 + N)))
          (fun i => (i ||| (2 ^ q2 ||| 2 ^ (q2 + N))) ^^^ (2 ^ q1 ||| 2 ^ (q1 + N))) 0
          (fun x y => (depolStepThreeF delta gamma x y, depolStepThreeF delta gamma y x)))
        (forLoop (2 ^ (2 * N)) (channelBody (fun _ => False)
          (fun i => i &&& (2 ^ q2 ||| 2 ^ (q2 + N)) = 0
            ∧ (i &&& (2 ^ q1 ||| 2 ^ (q1 + N)) = 0
              ∨ i &&& (2 ^ q1 ||| 2 ^ (q1 + N)) = 2 ^ q1 ||| 2 ^ (q1 + N)))
          (fun i => i ||| (2 ^ q2 ||| 2 ^ (q2 + N))) 0
          (fun x y => (depolStepF delta x y, depolStepF delta y x)))
        (forLoop (2 ^ (2 * N)) (channelBody (fun _ => False)
          (fun i => i &&& (2 ^ q1 ||| 2 ^ (q1 + N)) = 0
            ∧ (i &&& (2 ^ q2 ||| 2 ^ (q2 + N)) = 0
              ∨ i &&& (2 ^ q2 ||| 2 ^ (q2 + N)) = 2 ^ q2 ||| 2 ^ (q2 + N)))
          (fun i => i ||| (2 ^ q1 ||| 2 ^ (q1 + N))) 0
          (fun x y => (depolStepF delta x y, depolStepF delta y x)))
        qureg.stateVec)) ∧
    (∀ i, i &&& (2 ^ q2 ||| 2 ^ (q2 + N)) = 0 →
      (i ||| (2 ^ q2 ||| 2 ^ (q2 + N))) ^^^ (2 ^ q1 ||| 2 ^ (q1 + N))
        = flipBit (flipBit (flipBit (flipBit i q2) (q2 + N)) q1) (q1 + N)) ∧
    (∀ j, j < 2 ^ (2 * N) →
      (densmatr_mixTwoQubitDepolarisingLocal qureg q1 q2 delta gamma).stateVec.amp j
        = if extractBit q1 j = extractBit (q1 + N) j ∧ extractBit q2 j = extractBit (q2 + N) j
          then
            gamma • ((1 + delta ^ 3) • qureg.stateVec.amp j
              + (delta + delta ^ 2) • (qureg.stateVec.amp (flipBit (flipBit j q1) (q1 + N))
                + qureg.stateVec.amp (flipBit (flipBit j q2) (q2 + N))
                + qureg.stateVec.amp
                    (flipBit (flipBit (flipBit (flipBit j q2) (q2 + N)) q1) (q1 + N))))
          else qureg.stateVec.amp j) := by
  have d1 : q1 ≠ q1 + N := by omega
  have d2 : q2 ≠ q2 + N := by omega
  refine ⟨?_, ?_, ?_⟩
  · have h := mixTwoQubitDepolarisingLocal_stateVec qureg q1 q2 hne (by rw [hN]; exact h2)
      delta gamma hc
    rw [hN, hn] at h
    exact h
  · intro i hi
    rw [or_mask_eq_xor q2 (q2 + N) i hi, xor_mask_eq_flip q2 (q2 + N) i d2,
      xor_mask_eq_flip q1 (q1 + N) _ d1]
  · intro j hj
    rw [mixTwoQubitDepolarisingLocal_amp N q1 q2 h1 h2 hne qureg hN hn hc delta gamma j hj,
      xor_mask_eq_flip q2 (q2 + N) j d2, xor_mask_eq_flip q1 (q1 + N) j d1,
      xor_mask_eq_flip q1 (q1 + N) _ d1]
    simp only [extractBit_eq_iff]

/-- Witness of C19: two qubits in one chunk of sixteen amplitudes `(i + 1) + 2 i * I`,
qubits 0 and 1, `delta = 2`, `gamma = 3`: the amplitude at index 0 becomes
`3 * (9 * 1 + 6 * (6 + 11 + 16)) = 621` (real part), the one at index 1 is unchanged. -/
theorem mixTwoQubitDepolarisingLocal_net_effect_witness :
    (densmatr_mixTwoQubitDepolarisingLocal sampleDensity16 0 1 (2 : ℚ) 3).stateVec.amp 0
      = (621, 1080) ∧
    (densmatr_mixTwoQubitDepolarisingLocal sampleDensity16 0 1 (2 : ℚ) 3).stateVec.amp 1
      = sampleDensity16.stateVec.amp 1 := by
  have h := (mixTwoQubitDepolarisingLocal_net_effect 2 0 1 (by decide) (by decide) (by decide)
    sampleDensity16 rfl rfl rfl (2 : ℚ) 3).2.2
  have h0 := h 0 (by decide)
  have h1 := h 1 (by decide)
  rw [if_pos (by decide)] at h0
  rw [if_neg (by decide)] at h1
  have f1 : flipBit (flipBit 0 0) (0 + 2) = 5 := by decide
  have f2 : flipBit (flipBit 0 1) (1 + 2) = 10 := by decide
  have f3 : flipBit (flipBit 10 0) (0 + 2) = 15 := by decide
  rw [f1, f2, f3] at h0
  refine ⟨?_, h1⟩
  rw [h0]
  refine Prod.ext ?_ ?_ <;> (simp [sampleDensity16, ComplexArray.amp]; norm_num)

end TwoQubitDepolarisingClaims

section MultiControlled

variable {K : Type} [Field K]

theorem multiControlledUnitaryLocal_stateVec (qureg : Qureg K) (t ctrlMask flipMask : Nat)
    (u : ComplexMatrix2 K) :
    (statevec_multiControlledUnitaryLocal qureg t ctrlMask flipMask u).stateVec
      = forLoop (qureg.numAmpsPerChunk >>> 1)
          (pairBody (pairUp (1 <<< t)) (pairLo (1 <<< t)) (fun i a b =>
            if ctrlMask = ctrlMask &&&
                ((pairUp (1 <<< t) i + qureg.chunkId * qureg.numAmpsPerChunk) ^^^ flipMask)
            then unitaryF u a b else (a, b)))
          qureg.stateVec := by
  simp only [statevec_multiControlledUnitaryLocal]
  apply forLoop_congr
  intro i _ sv
  by_cases hcond : ctrlMask = ctrlMask &&&
      ((i / 1 <<< t * (2 * 1 <<< t) + i % 1 <<< t + qureg.chunkId * qureg.numAmpsPerChunk)
        ^^^ flipMask)
  · simp only [pairBody, pairUp, pairLo, if_pos hcond]
    rfl
  · simp only [pairBody, pairUp, pairLo, if_neg hcond, ComplexArray.amp,
      Function.update_eq_self]

theorem two_pow_and_eq_iff (c g : Nat) : 2 ^ c = 2 ^ c &&& g ↔ g.testBit c = true := by
  constructor
  · intro h
    have h' := congrArg (fun y => y.testBit c) h
    simp only [Nat.testBit_and, Nat.testBit_two_pow] at h'
    simpa using h'.symm
  · intro h
    apply Nat.eq_of_testBit_eq
    intro j
    rw [Nat.testBit_and, Nat.testBit_two_pow]
    by_cases e : c = j
    · subst e; simp [h]
    · simp [e]

theorem multiControlled_eq_controlled (qureg : Qureg K) (c t : Nat) (u : ComplexMatrix2 K) :
    statevec_multiControlledUnitaryLocal qureg t (2 ^ c) 0 u
      = statevec_controlledUnitaryLocal qureg c t u := by
  have hs : (statevec_multiControlledUnitaryLocal qureg t (2 ^ c) 0 u).stateVec
      = (statevec_controlledUnitaryLocal qureg c t u).stateVec := by
    simp only [statevec_multiControlledUnitaryLocal, statevec_controlledUnitaryLocal]
    apply forLoop_congr
    intro i _ sv
    have hiff : (2 ^ c = 2 ^ c &&&
        ((i / 1 <<< t * (2 * 1 <<< t) + i % 1 <<< t + qureg.chunkId * qureg.numAmpsPerChunk)
          ^^^ 0))
        ↔ extractBit c (i / 1 <<< t * (2 * 1 <<< t) + i % 1 <<< t
            + qureg.chunkId * qureg.numAmpsPerChunk) ≠ 0 := by
      rw [Nat.xor_zero, two_pow_and_eq_iff, extractBit_ne_zero_iff]
    by_cases hcond : extractBit c (i / 1 <<< t * (2 * 1 <<< t) + i % 1 <<< t
        + qureg.chunkId * qureg.numAmpsPerChunk) ≠ 0
    · rw [if_pos (hiff.mpr hcond), if_pos hcond]
    · rw [if_neg (fun h => hcond (hiff.mp h)), if_neg hcond]
  cases qureg with
  | mk nq na ci sv pv =>
    simp only [statevec_multiControlledUnitaryLocal, statevec_controlledUnitaryLocal] at hs ⊢
    rw [hs]

/-- The multi-controlled unitary kernel on the pair of upper index `x`. -/
theorem multiControlledUnitaryLocal_pair (k t : Nat) (ht : t < k) (qureg : Qureg K)
    (hn : qureg.numAmpsPerChunk = 2 ^ k) (ctrlMask flipMask : Nat) (u : ComplexMatrix2 K)
    (x : Nat) (hx : x < 2 ^ k) (hbit : x.testBit t = false) :
    (statevec_multiControlledUnitaryLocal qureg t ctrlMask flipMask u).stateVec.amp x
      = (if ctrlMask = ctrlMask &&& ((x + qureg.chunkId * 2 ^ k) ^^^ flipMask) then
          unitaryF u (qureg.stateVec.amp x) (qureg.stateVec.amp (x + 2 ^ t))
        else (qureg.stateVec.amp x, qureg.stateVec.amp (x + 2 ^ t))).1 ∧
    (statevec_multiControlledUnitaryLocal qureg t ctrlMask flipMask u).stateVec.amp (x + 2 ^ t)
      = (if ctrlMask = ctrlMask &&& ((x + qureg.chunkId * 2 ^ k) ^^^ flipMask) then
          unitaryF u (qureg.stateVec.amp x) (qureg.stateVec.amp (x + 2 ^ t))
        else (qureg.stateVec.amp x, qureg.stateVec.amp (x + 2 ^ t))).2 := by
  have hlo : x + 2 ^ t < 2 ^ k := by
    rw [add_two_pow_eq_flipBit x t hbit]
    exact flipBit_lt k t x ht hx
  have hloBit : (x + 2 ^ t).testBit t = true := testBit_add_two_pow_self x t hbit
  rw [multiControlledUnitaryLocal_stateVec, hn, Nat.one_shiftLeft]
  constructor
  · rw [forLoop_pairBody_index k t ht _ _ x hx, if_pos hbit, pairUp_pairTask t x hbit]
  · rw [forLoop_pairBody_index k t ht _ _ _ hlo, if_neg (by rw [hloBit]; decide),
      pairUp_pairTask_sub t _ hloBit, Nat.add_sub_cancel]

end MultiControlled

section MultiControlledClaims

variable {K : Type} [Field K]

/-- C20. Control condition of the multi-controlled unitary: for every register with
`numAmpsPerChunk = 2^k`, every chunk id, target `t < k`, control mask and flip mask,
`statevec_multiControlledUnitaryLocal` replaces the pair `(up, lo)` at
`(indexUp, indexUp + 2^t)` by `(u00*up + u01*lo, u10*up + u11*lo)` exactly when
`((global index of indexUp) XOR flipMask) AND ctrlMask = ctrlMask`, and leaves both amplitudes
of every other pair unchanged; with `flipMask = 0` and `ctrlMask = 2^c` it coincides with
`statevec_controlledUnitaryLocal(c, t, u)`. -/
theorem multiControlledUnitaryLocal_control_condition (k t : Nat) (ht : t < k)
    (qureg : Qureg K) (hn : qureg.numAmpsPerChunk = 2 ^ k) (ctrlMask flipMask : Nat)
    (u : ComplexMatrix2 K) :
    (∀ indexUp, indexUp < 2 ^ k → extractBit t indexUp = 0 →
      (((indexUp + qureg.chunkId * 2 ^ k) ^^^ flipMask) &&& ctrlMask = ctrlMask →
        (statevec_multiControlledUnitaryLocal qureg t ctrlMask flipMask u).stateVec.amp indexUp
          = (unitaryF u (qureg.stateVec.amp indexUp)
              (qureg.stateVec.amp (indexUp + 2 ^ t))).1 ∧
        (statevec_multiControlledUnitaryLocal qureg t ctrlMask flipMask u).stateVec.amp
            (indexUp + 2 ^ t)
          = (unitaryF u (qureg.stateVec.amp indexUp)
              (qureg.stateVec.amp (indexUp + 2 ^ t))).2) ∧
      (¬ ((indexUp + qureg.chunkId * 2 ^ k) ^^^ flipMask) &&& ctrlMask = ctrlMask →
        (statevec_multiControlledUnitaryLocal qureg t ctrlMask flipMask u).stateVec.amp indexUp
          = qureg.stateVec.amp indexUp ∧
        (statevec_multiControlledUnitaryLocal qureg t ctrlMask flipMask u).stateVec.amp
            (indexUp + 2 ^ t)
          = qureg.stateVec.amp (indexUp + 2 ^ t))) ∧
    (∀ c, statevec_multiControlledUnitaryLocal qureg t (2 ^ c) 0 u
      = statevec_controlledUnitaryLocal qureg c t u) := by
  refine ⟨?_, fun c => multiControlled_eq_controlled qureg c t u⟩
  intro x hx hbit
  have hb := (extractBit_eq_zero_iff t x).mp hbit
  obtain ⟨p1, p2⟩ := multiControlledUnitaryLocal_pair k t ht qureg hn ctrlMask flipMask u x hx hb
  have hiff : (ctrlMask = ctrlMask &&& ((x + qureg.chunkId * 2 ^ k) ^^^ flipMask))
      ↔ ((x + qureg.chunkId * 2 ^ k) ^^^ flipMask) &&& ctrlMask = ctrlMask := by
    rw [Nat.and_comm]
    exact eq_comm
  constructor
  · intro hcond
    rw [if_pos (hiff.mpr hcond)] at p1 p2
    exact ⟨p1, p2⟩
  · intro hcond
    rw [if_neg (fun h => hcond (hiff.mp h))] at p1 p2
    exact ⟨p1, p2⟩

/-- Witness of C20: the register of eight amplitudes, target 0, control mask `110`, flip
mask `010` (qubit 2 must be 1 and qubit 1 must be 0): the pair `(4, 5)` is rewritten, the
pair `(0, 1)` is not; and the control mask `100` is the control qubit 2. -/
theorem multiControlledUnitaryLocal_control_condition_witness :
    ((statevec_multiControlledUnitaryLocal sampleQureg8 0 6 2
          (compactMatrix sampleAlpha sampleBeta)).stateVec.amp 4
        = (unitaryF (compactMatrix sampleAlpha sampleBeta) (sampleQureg8.stateVec.amp 4)
            (sampleQureg8.stateVec.amp (4 + 2 ^ 0))).1 ∧
      (statevec_multiControlledUnitaryLocal sampleQureg8 0 6 2
          (compactMatrix sampleAlpha sampleBeta)).stateVec.amp (4 + 2 ^ 0)
        = (unitaryF (compactMatrix sampleAlpha sampleBeta) (sampleQureg8.stateVec.amp 4)
            (sampleQureg8.stateVec.amp (4 + 2 ^ 0))).2) ∧
    ((statevec_multiControlledUnitaryLocal sampleQureg8 0 6 2
          (compactMatrix sampleAlpha sampleBeta)).stateVec.amp 0
        = sampleQureg8.stateVec.amp 0 ∧
      (statevec_multiControlledUnitaryLocal sampleQureg8 0 6 2
          (compactMatrix sampleAlpha sampleBeta)).stateVec.amp (0 + 2 ^ 0)
        = sampleQureg8.stateVec.amp (0 + 2 ^ 0)) ∧
    statevec_multiControlledUnitaryLocal sampleQureg8 0 (2 ^ 2) 0
        (compactMatrix sampleAlpha sampleBeta)
      = statevec_controlledUnitaryLocal sampleQureg8 2 0
        (compactMatrix sampleAlpha sampleBeta) :=
  have h := multiControlledUnitaryLocal_control_condition 3 0 (by decide) sampleQureg8 rfl 6 2
    (compactMatrix sampleAlpha sampleBeta)
  ⟨(h.1 4 (by decide) (by decide)).1 (by decide),
   (h.1 0 (by decide) (by decide)).2 (by decide), h.2 2⟩

end MultiControlledClaims

section PartitionClaims

/-- The upper index of a task, as the pairwise kernels compute it. -/
theorem pairUp_two_pow (t i : Nat) :
    pairUp (2 ^ t) i = i / 2 ^ t * 2 ^ (t + 1) + i % 2 ^ t := by
  unfold pairUp
  rw [Nat.pow_succ, Nat.mul_comm (2 ^ t) 2]

end PartitionClaims

section ParityClaims

theorem bitCount_zero : bitCount 0 = 0 := by
  rw [bitCount]; simp

theorem bitCount_pos (m : Nat) (h : m ≠ 0) : bitCount m = m % 2 + bitCount (m / 2) := by
  rw [bitCount]; simp [h]

/-- Clearing the lowest set bit removes exactly one set bit. -/
theorem bitCount_clear_lowest (m : Nat) (h : m ≠ 0) :
    bitCount (m &&& (m - 1)) + 1 = bitCount m := by
  induction m using Nat.strong_induction_on with
  | _ m ih =>
    have hdiv : (m &&& (m - 1)) / 2 = m / 2 &&& (m - 1) / 2 := Nat.and_div_two
    have hmod : (m &&& (m - 1)) % 2 = 0 := by
      have := @Nat.and_mod_two_eq_one m (m - 1)
      omega
    rcases Nat.mod_two_eq_zero_or_one m with h0 | h1
    · -- even: the lowest set bit is higher up
      have hq : m / 2 ≠ 0 := by omega
      have e : (m - 1) / 2 = m / 2 - 1 := by omega
      have ihq := ih (m / 2) (by omega) hq
      rw [bitCount_pos m h, h0, Nat.zero_add, ← ihq]
      by_cases hz : m &&& (m - 1) = 0
      · rw [hz, bitCount_zero]
        have : m / 2 &&& (m / 2 - 1) = 0 := by rw [← e, ← hdiv, hz]
        rw [this, bitCount_zero]
      · rw [bitCount_pos _ hz, hmod, hdiv, e, Nat.zero_add]
    · have e : (m - 1) / 2 = m / 2 := by omega
      rw [bitCount_pos m h, h1]
      by_cases hz : m &&& (m - 1) = 0
      · have : m / 2 = 0 := by
          have := hdiv
          rw [hz, e, Nat.and_self] at this
          omega
        rw [hz, this, bitCount_zero]
      · rw [bitCount_pos _ hz, hmod, hdiv, e, Nat.and_self]
        omega

/-- The loop of `getBitMaskParity` started with parity `p` returns the parity of
`p + bitCount mask`. -/
theorem getBitMaskParity_while_eq (mask parity : Nat) (hp : parity < 2) :
    getBitMaskParity_while mask parity = (parity + bitCount mask) % 2 := by
  induction mask using Nat.strong_induction_on generalizing parity with
  | _ m ih =>
    rw [getBitMaskParity_while]
    by_cases h : m ≠ 0
    · rw [dif_pos h]
      have hlt : m &&& (m - 1) < m :=
        Nat.lt_of_le_of_lt Nat.and_le_right (Nat.sub_lt (Nat.pos_of_ne_zero h) Nat.one_pos)
      have hc := bitCount_clear_lowest m h
      by_cases hq : parity = 0
      · rw [if_pos hq, ih _ hlt 1 (by decide)]
        omega
      · rw [if_neg hq, ih _ hlt 0 (by decide)]
        omega
    · rw [dif_neg h]
      have : m = 0 := by simpa using h
      rw [this, bitCount_zero]
      omega

theorem getBitMaskParity_eq (mask : Nat) : getBitMaskParity mask = bitCount mask % 2 := by
  unfold getBitMaskParity
  simp only []
  rw [getBitMaskParity_while_eq _ _ (by decide), Nat.zero_add]

/-- Claim C24: `getBitMaskParity` returns a value for every mask (the definition is a total
function: each iteration of its loop strictly decreases the mask), the value is the parity
of the number of set bits of the mask, and one iteration of the loop, `mask & (mask - 1)`,
clears exactly one set bit of a non-zero mask and toggles the parity. -/
theorem getBitMaskParity_popcount_parity (mask : Nat) :
    getBitMaskParity mask = bitCount mask % 2 ∧
    (mask ≠ 0 →
      mask &&& (mask - 1) < mask ∧
      bitCount (mask &&& (mask - 1)) + 1 = bitCount mask ∧
      (∀ parity, getBitMaskParity_while mask parity
        = getBitMaskParity_while (mask &&& (mask - 1)) (if parity = 0 then 1 else 0))) ∧
    (∀ parity, getBitMaskParity_while 0 parity = parity) := by
  refine ⟨getBitMaskParity_eq mask, ?_, ?_⟩
  · intro h
    refine ⟨Nat.lt_of_le_of_lt Nat.and_le_right (Nat.sub_lt (Nat.pos_of_ne_zero h) Nat.one_pos),
      bitCount_clear_lowest mask h, ?_⟩
    intro parity
    conv_lhs => rw [getBitMaskParity_while]
    rw [dif_pos h]
  · intro parity
    rw [getBitMaskParity_while]
    simp

/-- Witness of C24: the mask `0b1011`. -/
theorem getBitMaskParity_popcount_parity_witness :
    getBitMaskParity 11 = 1 ∧ bitCount 11 = 3 ∧ 11 &&& (11 - 1) = 10 ∧ bitCount 10 = 2 := by
  have h := getBitMaskParity_popcount_parity 11
  have hb : bitCount 11 = 3 := by
    simp [bitCount_pos, bitCount_zero]
  have hc := (h.2.1 (by decide)).2.1
  have e : 11 &&& (11 - 1) = 10 := by decide
  refine ⟨by rw [h.1, hb], hb, e, ?_⟩
  rw [e, hb] at hc
  omega

end ParityClaims

section RotationClaims
variable {K : Type}

/-- A loop of `pointBody` over a range of indices, index by index. -/
theorem forRange_pointBody (a b : Nat) (g : Nat → K × K → K × K) (s : ComplexArray K)
    (x : Nat) :
    (forRange a b 1 (pointBody g) s).amp x
      = if a ≤ x ∧ x < b then g x (s.amp x) else s.amp x := by
  unfold forRange
  have hcount : (b - a + (1 - 1)) / 1 = b - a := by simp
  simp only [hcount, Nat.one_mul]
  obtain ⟨k1, k2⟩ := forLoop_footprint ComplexArray.amp (b - a)
    (fun j => pointBody g (a + j))
    (fun j y => y = a + j)
    (by
      intro j _ sv y hy
      have hy2 : y ≠ a + j := hy
      simp [ComplexArray.amp, pointBody, Function.update_noteq hy2])
    (by
      intro j _ sv sv' h y hy
      have hy2 : y = a + j := hy
      subst hy2
      have e := h _ rfl
      simp only [ComplexArray.amp, Prod.mk.injEq] at e
      simp [ComplexArray.amp, pointBody, e.1, e.2])
    (by
      intro j j' y _ _ h h'
      have h1 : y = a + j := h
      have h2 : y = a + j' := h'
      omega)
    s
  by_cases hx : a ≤ x ∧ x < b
  · rw [if_pos hx, k1 (x - a) (by omega) x (show x = a + (x - a) by omega)]
    have e : a + (x - a) = x := by omega
    rw [e]
    simp [ComplexArray.amp, pointBody]
  · rw [if_neg hx]
    exact k2 x (fun j hj h => hx (by have h1 : x = a + j := h; omega))

/-- A loop of `pointBody` over the first `n` indices, index by index. -/
theorem forLoop_pointBody (n : Nat) (g : Nat → K × K → K × K) (s : ComplexArray K)
    (x : Nat) :
    (forLoop n (pointBody g) s).amp x = if x < n then g x (s.amp x) else s.amp x := by
  have h := forRange_pointBody 0 n g s x
  unfold forRange at h
  have hcount : (n - 0 + (1 - 1)) / 1 = n := by simp
  simp only [hcount, Nat.zero_le, true_and] at h
  rw [← h]
  congr 1
  apply forLoop_congr
  intro i _ sv
  simp

variable [Field K]

/-- The value of `fac` in `statevec_multiRotateZ`. -/
theorem multiRotateZ_fac (mask g : Nat) :
    (((if getBitMaskParity (mask &&& g) ≠ 0 then -1 else 1 : Int) : Int) : K)
      = rotateZFac mask g := by
  unfold rotateZFac
  rw [getBitMaskParity_eq]
  have := Nat.mod_two_eq_zero_or_one (bitCount (mask &&& g))
  by_cases h : bitCount (mask &&& g) % 2 = 1
  · simp [h]
  · have h0 : bitCount (mask &&& g) % 2 = 0 := by omega
    simp [h0]

theorem rotateZFac_sq (mask g : Nat) : (rotateZFac mask g : K) * rotateZFac mask g = 1 := by
  unfold rotateZFac
  split <;> simp

/-- Function `statevec_multiRotateZ`, index by index. -/
theorem multiRotateZ_amp (cos sin : K → K) (qureg : Qureg K) (mask : Nat) (angle : K)
    (i : Nat) :
    (statevec_multiRotateZ cos sin qureg mask angle).stateVec.amp i
      = if i < qureg.numAmpsPerChunk then
          cmul (cos (angle / 2),
            -(rotateZFac mask (qureg.chunkId * qureg.numAmpsPerChunk + i) * sin (angle / 2)))
            (qureg.stateVec.amp i)
        else qureg.stateVec.amp i := by
  have e : (statevec_multiRotateZ cos sin qureg mask angle).stateVec
      = forLoop qureg.numAmpsPerChunk (pointBody (fun index z =>
          cmul (cos (angle / 2),
            -(rotateZFac mask (qureg.chunkId * qureg.numAmpsPerChunk + index)
              * sin (angle / 2))) z)) qureg.stateVec := by
    unfold statevec_multiRotateZ
    simp only []
    apply forLoop_congr
    intro index _ sv
    have hf := @multiRotateZ_fac K _ mask (index + qureg.chunkId * qureg.numAmpsPerChunk)
    have hg : (((-(if getBitMaskParity
        (mask &&& (index + qureg.chunkId * qureg.numAmpsPerChunk)) ≠ 0 then -1 else 1 : Int)
          : Int)) : K)
        = -rotateZFac mask (index + qureg.chunkId * qureg.numAmpsPerChunk) := by
      rw [Int.cast_neg, hf]
    rw [hf, hg, Nat.add_comm index]
    unfold pointBody cmul
    congr 1
    · ring_nf
    · ring_nf
  rw [e, forLoop_pointBody]

/-- Claim C23: `statevec_multiRotateZ` multiplies the amplitude at local index `i` by the
complex number `cos(angle/2) - i fac sin(angle/2)`, where `fac` is `-1` when `mask` AND the
global index `chunkId * numAmpsPerChunk + i` has an odd number of set bits and `1` otherwise;
and when `cos` is even, `sin` is odd and `cos² + sin² = 1`, the rotation by `angle` followed
by the rotation by `-angle` with the same mask gives back the register. -/
theorem multiRotateZ_phase_by_parity (cos sin : K → K) (qureg : Qureg K) (mask : Nat)
    (angle : K) :
    (∀ i, i < qureg.numAmpsPerChunk →
      (statevec_multiRotateZ cos sin qureg mask angle).stateVec.amp i
        = cmul (cos (angle / 2),
            -((if bitCount (mask &&& (qureg.chunkId * qureg.numAmpsPerChunk + i)) % 2 = 1
                then -1 else 1) * sin (angle / 2)))
            (qureg.stateVec.amp i)) ∧
    ((∀ x, cos (-x) = cos x) → (∀ x, sin (-x) = -sin x) →
      (∀ x, cos x * cos x + sin x * sin x = 1) →
      statevec_multiRotateZ cos sin (statevec_multiRotateZ cos sin qureg mask angle) mask
        (-angle) = qureg) := by
  constructor
  · intro i hi
    rw [multiRotateZ_amp, if_pos hi]
    rfl
  · intro hcos hsin hone
    have hfields : ∀ q : Qureg K, ∀ a : K,
        statevec_multiRotateZ cos sin q mask a
          = { q with stateVec := (statevec_multiRotateZ cos sin q mask a).stateVec } := by
      intro q a
      rfl
    have hn : (statevec_multiRotateZ cos sin qureg mask angle).numAmpsPerChunk
        = qureg.numAmpsPerChunk := rfl
    have hc : (statevec_multiRotateZ cos sin qureg mask angle).chunkId = qureg.chunkId := rfl
    have hsv : (statevec_multiRotateZ cos sin
        (statevec_multiRotateZ cos sin qureg mask angle) mask (-angle)).stateVec
        = qureg.stateVec := by
      apply ComplexArray.ext_amp
      intro i
      rw [multiRotateZ_amp, hn, hc]
      by_cases hi : i < qureg.numAmpsPerChunk
      · rw [if_pos hi, multiRotateZ_amp, if_pos hi, neg_div, hcos, hsin]
        have h1 := hone (angle / 2)
        have h2 := @rotateZFac_sq K _ mask (qureg.chunkId * qureg.numAmpsPerChunk + i)
        generalize (rotateZFac mask (qureg.chunkId * qureg.numAmpsPerChunk + i) : K) = f at h2 ⊢
        generalize cos (angle / 2) = c at h1 ⊢
        generalize sin (angle / 2) = s at h1 ⊢
        unfold cmul ComplexArray.amp
        simp only [Prod.mk.injEq]
        constructor
        · linear_combination (qureg.stateVec.real i) * h1
            + (s * s * qureg.stateVec.real i) * h2
        · linear_combination (qureg.stateVec.imag i) * h1
            + (s * s * qureg.stateVec.imag i) * h2
      · rw [if_neg hi, multiRotateZ_amp, if_neg hi]
    rw [hfields, hsv]
    rfl

/-- Witness of C23: the register `(1, 0, 0, 1)` of 2 qubits, mask `0b11`, angle `1/3`, with
the cosine and sine of the real numbers: the amplitude at index 1 (odd parity) is multiplied
by `cos(1/6) + i sin(1/6)`, and rotating back by `-1/3` restores the register. -/
theorem multiRotateZ_phase_by_parity_witness :
    (statevec_multiRotateZ Real.cos Real.sin (bellState (1 : ℝ)) 3 (1 / 3)).stateVec.amp 1
      = cmul (Real.cos (1 / 3 / 2),
          -((if bitCount (3 &&& ((bellState (1 : ℝ)).chunkId
              * (bellState (1 : ℝ)).numAmpsPerChunk + 1)) % 2 = 1 then -1 else 1)
            * Real.sin (1 / 3 / 2)))
          ((bellState (1 : ℝ)).stateVec.amp 1) ∧
    statevec_multiRotateZ Real.cos Real.sin
      (statevec_multiRotateZ Real.cos Real.sin (bellState (1 : ℝ)) 3 (1 / 3)) 3 (-(1 / 3))
      = bellState 1 :=
  ⟨(multiRotateZ_phase_by_parity Real.cos Real.sin (bellState (1 : ℝ)) 3 (1 / 3)).1 1
      (by decide),
    (multiRotateZ_phase_by_parity Real.cos Real.sin (bellState (1 : ℝ)) 3 (1 / 3)).2
      Real.cos_neg Real.sin_neg
      (fun x => by
        have h := Real.cos_sq_add_sin_sq x
        rw [pow_two, pow_two] at h
        exact h)⟩

end RotationClaims

section InitClaims
variable {K : Type} [Field K]

/-- Chunk and local index of a global index. -/
theorem chunk_local_iff (n c j g : Nat) (hn : 0 < n) (hj : j < n) :
    (c = g / n ∧ j = g % n) ↔ c * n + j = g := by
  constructor
  · rintro ⟨rfl, rfl⟩
    rw [Nat.mul_comm]
    exact Nat.div_add_mod g n
  · intro h
    subst h
    constructor
    · rw [Nat.mul_comm, Nat.mul_add_div hn, Nat.div_eq_of_lt hj, Nat.add_zero]
    · rw [Nat.mul_comm, Nat.mul_add_mod, Nat.mod_eq_of_lt hj]

/-- The array left by the two steps shared by `densmatr_initClassicalState` and
`statevec_initClassicalState`: zero the chunk, then write 1 at the local index of global
index `g` if the chunk holds it. -/
theorem classicalState_amp (n c g : Nat) (s : ComplexArray K) (hn : 0 < n) (j : Nat)
    (hj : j < n) :
    (if c = g / n then
        (⟨Function.update (forLoop n (pointBody (fun _ _ => ((0 : K), (0 : K)))) s).real
            (g % n) 1,
          Function.update (forLoop n (pointBody (fun _ _ => ((0 : K), (0 : K)))) s).imag
            (g % n) 0⟩ : ComplexArray K)
      else forLoop n (pointBody (fun _ _ => ((0 : K), (0 : K)))) s).amp j
      = if c * n + j = g then (1, 0) else (0, 0) := by
  have hz := forLoop_pointBody n (fun _ _ => ((0 : K), (0 : K))) s j
  rw [if_pos hj] at hz
  simp only [ComplexArray.amp, Prod.mk.injEq] at hz
  have hiff := chunk_local_iff n c j g hn hj
  by_cases hc : c = g / n
  · rw [if_pos hc]
    by_cases hjg : j = g % n
    · rw [if_pos (hiff.mp ⟨hc, hjg⟩), ← hjg]
      simp [ComplexArray.amp]
    · rw [if_neg (fun h => hjg (hiff.mpr h).2)]
      refine Prod.ext ?_ ?_
      · show Function.update _ _ _ j = 0
        rw [Function.update_noteq hjg]
        exact hz.1
      · show Function.update _ _ _ j = 0
        rw [Function.update_noteq hjg]
        exact hz.2
  · rw [if_neg hc, if_neg (fun h => hc (hiff.mpr h).1)]
    exact Prod.ext hz.1 hz.2

/-- Function `densmatr_initClassicalState`, index by index. -/
theorem densmatr_initClassicalState_amp (qureg : Qureg K) (stateInd : Nat)
    (hn : 0 < qureg.numAmpsPerChunk) (j : Nat) (hj : j < qureg.numAmpsPerChunk) :
    (densmatr_initClassicalState qureg stateInd).stateVec.amp j
      = if qureg.chunkId * qureg.numAmpsPerChunk + j
            = stateInd * (2 ^ qureg.numQubitsRepresented + 1) then (1, 0) else (0, 0) := by
  have h := classicalState_amp qureg.numAmpsPerChunk qureg.chunkId
    ((2 ^ qureg.numQubitsRepresented + 1) * stateInd) qureg.stateVec hn j hj
  rw [Nat.mul_comm stateInd, ← h]
  unfold densmatr_initClassicalState
  simp only [Nat.one_shiftLeft]
  split <;> rfl

/-- Function `statevec_initClassicalState`, index by index. -/
theorem statevec_initClassicalState_amp (qureg : Qureg K) (stateInd : Nat)
    (hn : 0 < qureg.numAmpsPerChunk) (j : Nat) (hj : j < qureg.numAmpsPerChunk) :
    (statevec_initClassicalState qureg stateInd).stateVec.amp j
      = if qureg.chunkId * qureg.numAmpsPerChunk + j = stateInd then (1, 0) else (0, 0) := by
  have h := classicalState_amp qureg.numAmpsPerChunk qureg.chunkId stateInd qureg.stateVec
    hn j hj
  rw [← h]
  unfold statevec_initClassicalState
  simp only []
  split <;> rfl

/-- Claim C25: in a chunk of `numAmpsPerChunk > 0` amplitudes, `densmatr_initClassicalState`
with state `i` leaves at local index `j` the amplitude `(1, 0)` when
`chunkId * numAmpsPerChunk + j = i * (2^N + 1)` and `(0, 0)` otherwise, and
`statevec_initClassicalState` does the same with the global index `i`; so over all chunk
ids and local indices exactly one amplitude is 1, the one of chunk `g / numAmpsPerChunk` at
local index `g mod numAmpsPerChunk` for the global index `g` of the state. -/
theorem initClassicalState_single_one (qureg : Qureg K) (stateInd : Nat)
    (hn : 0 < qureg.numAmpsPerChunk) :
    (∀ j, j < qureg.numAmpsPerChunk →
      (densmatr_initClassicalState qureg stateInd).stateVec.amp j
        = if qureg.chunkId * qureg.numAmpsPerChunk + j
              = stateInd * (2 ^ qureg.numQubitsRepresented + 1) then (1, 0) else (0, 0)) ∧
    (∀ j, j < qureg.numAmpsPerChunk →
      (statevec_initClassicalState qureg stateInd).stateVec.amp j
        = if qureg.chunkId * qureg.numAmpsPerChunk + j = stateInd then (1, 0) else (0, 0)) ∧
    (∀ c j, j < qureg.numAmpsPerChunk →
      ((densmatr_initClassicalState { qureg with chunkId := c } stateInd).stateVec.amp j
          = (1, 0)
        ↔ (c = stateInd * (2 ^ qureg.numQubitsRepresented + 1) / qureg.numAmpsPerChunk
          ∧ j = stateInd * (2 ^ qureg.numQubitsRepresented + 1) % qureg.numAmpsPerChunk))) ∧
    (∀ c j, j < qureg.numAmpsPerChunk →
      ((statevec_initClassicalState { qureg with chunkId := c } stateInd).stateVec.amp j
          = (1, 0)
        ↔ (c = stateInd / qureg.numAmpsPerChunk ∧ j = stateInd % qureg.numAmpsPerChunk))) := by
  have hne : ((0 : K), (0 : K)) ≠ (1, 0) := by
    intro h
    exact zero_ne_one (congrArg Prod.fst h)
  refine ⟨densmatr_initClassicalState_amp qureg stateInd hn,
    statevec_initClassicalState_amp qureg stateInd hn, ?_, ?_⟩
  · intro c j hj
    rw [densmatr_initClassicalState_amp { qureg with chunkId := c } stateInd hn j hj,
      chunk_local_iff _ c j _ hn hj]
    constructor
    · intro h
      by_contra hc
      rw [if_neg hc] at h
      exact hne h
    · intro h
      rw [if_pos h]
  · intro c j hj
    rw [statevec_initClassicalState_amp { qureg with chunkId := c } stateInd hn j hj,
      chunk_local_iff _ c j _ hn hj]
    constructor
    · intro h
      by_contra hc
      rw [if_neg hc] at h
      exact hne h
    · intro h
      rw [if_pos h]

/-- Witness of C25: a density matrix of 2 qubits in 4 chunks of 4 amplitudes, state 2
(global index 10): chunk 2 holds the amplitude 1 at local index 2; and a state-vector of
4 qubits in the same chunks, state 6: chunk 1 holds the amplitude 1 at local index 2. -/
theorem initClassicalState_single_one_witness :
    (densmatr_initClassicalState (zeroChunk 2 4 2 : Qureg ℚ) 2).stateVec.amp 2 = (1, 0) ∧
    (densmatr_initClassicalState (zeroChunk 2 4 2 : Qureg ℚ) 2).stateVec.amp 1 = (0, 0) ∧
    (statevec_initClassicalState (zeroChunk 4 4 1 : Qureg ℚ) 6).stateVec.amp 2 = (1, 0) ∧
    (statevec_initClassicalState (zeroChunk 4 4 1 : Qureg ℚ) 6).stateVec.amp 3 = (0, 0) := by
  have h := initClassicalState_single_one (zeroChunk 2 4 2 : Qureg ℚ) 2 (by decide)
  have g := initClassicalState_single_one (zeroChunk 4 4 1 : Qureg ℚ) 6 (by decide)
  refine ⟨(h.1 2 (by decide)).trans ?_, (h.1 1 (by decide)).trans ?_,
    (g.2.1 2 (by decide)).trans ?_, (g.2.1 3 (by decide)).trans ?_⟩ <;>
  simp [zeroChunk]

end InitClaims

section SetAmpsClaims
variable {K : Type}

/-- Function `statevec_setAmps`, index by index. -/
theorem setAmps_amp (qureg : Qureg K) (startInd : Nat) (reals imags : Nat → K)
    (numAmps : Nat) (j : Nat) :
    (statevec_setAmps qureg startInd reals imags numAmps).stateVec.amp j
      = if j < qureg.numAmpsPerChunk ∧ startInd ≤ qureg.chunkId * qureg.numAmpsPerChunk + j
            ∧ qureg.chunkId * qureg.numAmpsPerChunk + j < startInd + numAmps then
          (reals (qureg.chunkId * qureg.numAmpsPerChunk + j - startInd),
            imags (qureg.chunkId * qureg.numAmpsPerChunk + j - startInd))
        else qureg.stateVec.amp j := by
  have e : (statevec_setAmps qureg startInd reals imags numAmps).stateVec
      = forRange
          (if (startInd : Int) - ((qureg.chunkId * qureg.numAmpsPerChunk : Nat) : Int) < 0
            then 0
            else (startInd : Int) - ((qureg.chunkId * qureg.numAmpsPerChunk : Nat) : Int)).toNat
          (if (startInd : Int) - ((qureg.chunkId * qureg.numAmpsPerChunk : Nat) : Int)
              + (numAmps : Int) > (qureg.numAmpsPerChunk : Int)
            then (qureg.numAmpsPerChunk : Int)
            else (startInd : Int) - ((qureg.chunkId * qureg.numAmpsPerChunk : Nat) : Int)
              + (numAmps : Int)).toNat 1
          (pointBody (fun index _ =>
            (reals ((index : Int) + setAmps_offset qureg startInd).toNat,
              imags ((index : Int) + setAmps_offset qureg startInd).toNat)))
          qureg.stateVec := rfl
  rw [e, forRange_pointBody]
  unfold setAmps_offset
  generalize qureg.chunkId * qureg.numAmpsPerChunk = m
  generalize qureg.numAmpsPerChunk = n
  by_cases hc : j < n ∧ startInd ≤ m + j ∧ m + j < startInd + numAmps
  · have hidx : ((j : Int) + ((m : Int) - (startInd : Int))).toNat = m + j - startInd := by
      omega
    rw [if_pos hc, if_pos, hidx]
    split <;> split <;> omega
  · rw [if_neg hc, if_neg]
    split <;> split <;> omega

/-- The loop of `statevec_setAmps`. -/
theorem setAmps_loop (qureg : Qureg K) (startInd : Nat) (reals imags : Nat → K)
    (numAmps : Nat) :
    (statevec_setAmps qureg startInd reals imags numAmps).stateVec
      = forRange (setAmps_localStartInd qureg startInd).toNat
          (setAmps_localEndInd qureg startInd numAmps).toNat 1
          (pointBody (fun index _ =>
            (reals ((index : Int) + setAmps_offset qureg startInd).toNat,
              imags ((index : Int) + setAmps_offset qureg startInd).toNat)))
          qureg.stateVec := rfl

/-- Claim C28: the loop of `statevec_setAmps` runs over the local indices from the clamped
`localStartInd` to the clamped `localEndInd` and writes element `index + offset` of `reals`
and `imags` at `index`; every index it visits lies in the local chunk and reads an element
in `[0, numAmps)`; the amplitude at local index `j` becomes element
`chunkId * numAmpsPerChunk + j - startInd` exactly when `j` is in the chunk and its global
index is in `[startInd, startInd + numAmps)`, and is kept otherwise; a range that lies
entirely outside the chunk leaves the register as it was. -/
theorem setAmps_writes_local_range (qureg : Qureg K) (startInd : Nat)
    (reals imags : Nat → K) (numAmps : Nat) :
    (statevec_setAmps qureg startInd reals imags numAmps).stateVec
      = forRange (setAmps_localStartInd qureg startInd).toNat
          (setAmps_localEndInd qureg startInd numAmps).toNat 1
          (pointBody (fun index _ =>
            (reals ((index : Int) + setAmps_offset qureg startInd).toNat,
              imags ((index : Int) + setAmps_offset qureg startInd).toNat)))
          qureg.stateVec ∧
    (∀ index : Nat, (setAmps_localStartInd qureg startInd).toNat ≤ index →
      index < (setAmps_localEndInd qureg startInd numAmps).toNat →
      index < qureg.numAmpsPerChunk ∧
      0 ≤ (index : Int) + setAmps_offset qureg startInd ∧
      (index : Int) + setAmps_offset qureg startInd < (numAmps : Int)) ∧
    (∀ j, (statevec_setAmps qureg startInd reals imags numAmps).stateVec.amp j
      = if j < qureg.numAmpsPerChunk ∧ startInd ≤ qureg.chunkId * qureg.numAmpsPerChunk + j
            ∧ qureg.chunkId * qureg.numAmpsPerChunk + j < startInd + numAmps then
          (reals (qureg.chunkId * qureg.numAmpsPerChunk + j - startInd),
            imags (qureg.chunkId * qureg.numAmpsPerChunk + j - startInd))
        else qureg.stateVec.amp j) ∧
    (startInd + numAmps ≤ qureg.chunkId * qureg.numAmpsPerChunk
        ∨ qureg.chunkId * qureg.numAmpsPerChunk + qureg.numAmpsPerChunk ≤ startInd →
      statevec_setAmps qureg startInd reals imags numAmps = qureg) := by
  refine ⟨rfl, ?_, setAmps_amp qureg startInd reals imags numAmps, ?_⟩
  · intro index h1 h2
    unfold setAmps_localStartInd at h1
    unfold setAmps_localEndInd at h2
    unfold setAmps_offset
    generalize qureg.chunkId * qureg.numAmpsPerChunk = m at h1 h2 ⊢
    generalize qureg.numAmpsPerChunk = n at h1 h2 ⊢
    split at h1 <;> split at h2 <;> omega
  · intro h
    have hsv : (statevec_setAmps qureg startInd reals imags numAmps).stateVec
        = qureg.stateVec := by
      apply ComplexArray.ext_amp
      intro j
      rw [setAmps_amp, if_neg]
      omega
    have hq : statevec_setAmps qureg startInd reals imags numAmps
        = { qureg with
            stateVec := (statevec_setAmps qureg startInd reals imags numAmps).stateVec } := rfl
    rw [hq, hsv]

/-- Witness of C28: chunk 1 of 4 amplitudes; the 3 values set from global index 3 land at
local indices 0 and 1, and 2 values set from global index 0 leave the chunk as it was. -/
theorem setAmps_writes_local_range_witness :
    (statevec_setAmps (zeroChunk 3 4 1 : Qureg ℚ) 3 sampleReals sampleImags 3).stateVec.amp 0
      = (101, 201) ∧
    (statevec_setAmps (zeroChunk 3 4 1 : Qureg ℚ) 3 sampleReals sampleImags 3).stateVec.amp 1
      = (102, 202) ∧
    (statevec_setAmps (zeroChunk 3 4 1 : Qureg ℚ) 3 sampleReals sampleImags 3).stateVec.amp 2
      = (0, 0) ∧
    statevec_setAmps (zeroChunk 3 4 1 : Qureg ℚ) 0 sampleReals sampleImags 2
      = zeroChunk 3 4 1 := by
  have h := setAmps_writes_local_range (zeroChunk 3 4 1 : Qureg ℚ) 3 sampleReals sampleImags 3
  have g := setAmps_writes_local_range (zeroChunk 3 4 1 : Qureg ℚ) 0 sampleReals sampleImags 2
  refine ⟨(h.2.2.1 0).trans ?_, (h.2.2.1 1).trans ?_, (h.2.2.1 2).trans ?_,
    g.2.2.2 (Or.inl (by decide))⟩
  · simp [zeroChunk, sampleReals, sampleImags]
    norm_num
  · simp [zeroChunk, sampleReals, sampleImags]
    norm_num
  · simp [zeroChunk, ComplexArray.amp]

end SetAmpsClaims

section FidelityClaims
variable {K : Type} [Field K]

/-- A loop that adds a term to an accumulator of pairs, component by component, computes
the sum of the terms. -/
theorem forLoop_add_pair (n : Nat) (f : Nat → K × K) :
    forLoop n (fun i (acc : K × K) => (acc.1 + (f i).1, acc.2 + (f i).2)) (0, 0)
      = ∑ i in Finset.range n, f i := by
  induction n with
  | zero => rfl
  | succ n ih =>
    simp only [forLoop]
    rw [ih, Finset.sum_range_succ]
    rfl

theorem toInt32_of_range (x : Int) (h0 : -2 ^ 31 ≤ x) (h1 : x < 2 ^ 31) : toInt32 x = x := by
  unfold toInt32
  rw [Int.emod_eq_of_lt (by omega) (by omega)]
  omega

theorem toInt32_natCast (n : Nat) (h : n < 2 ^ 31) : toInt32 (n : Int) = (n : Int) :=
  toInt32_of_range _ (by have : (0 : Int) ≤ n := Int.natCast_nonneg n; omega)
    (by exact_mod_cast h)

omit [Field K] in
theorem readAt_natCast (a : Nat → K) (n : Nat) : readAt a (n : Int) = some (a n) := by
  unfold readAt
  rw [if_pos (Int.natCast_nonneg n), Int.toNat_natCast]

omit [Field K] in
theorem readAt_neg (a : Nat → K) (i : Int) (h : i < 0) : readAt a i = none := by
  unfold readAt
  rw [if_neg (by omega)]

/-- A loop on an optional state whose iterations all produce a value. -/
theorem forLoop_some {α : Type} (n : Nat) (f : Nat → α → α) (g : Nat → Option α → Option α)
    (h : ∀ i, i < n → ∀ a, g i (some a) = some (f i a)) (s : α) :
    forLoop n g (some s) = some (forLoop n f s) := by
  induction n with
  | zero => rfl
  | succ n ih =>
    simp only [forLoop]
    rw [ih (fun i hi => h i (Nat.lt_succ_of_lt hi)), h n (Nat.lt_succ_self n)]

/-- A loop on an optional state with an iteration that produces no value has none. -/
theorem forLoop_none {α : Type} (n : Nat) (g : Nat → Option α → Option α)
    (hnone : ∀ i, g i none = none) (c : Nat) (hc : c < n) (hbad : ∀ s, g c s = none)
    (s : Option α) : forLoop n g s = none := by
  induction n with
  | zero => omega
  | succ n ih =>
    simp only [forLoop]
    by_cases h : c = n
    · subst h
      exact hbad _
    · rw [ih (by omega)]
      exact hnone n

/-- Function `densmatr_calcFidelityLocal` as a sum over rows of sums over local columns,
when no `int` of the kernel overflows. -/
theorem calcFidelityLocal_sum (qureg : Qureg K) (pureState : QuregAttributes)
    (hD : pureState.numAmpsTotal < 2 ^ 31)
    (hcols : (qureg.chunkId + 1) * pureState.numAmpsPerChunk ≤ pureState.numAmpsTotal)
    (hchunk : pureState.numAmpsTotal * pureState.numAmpsPerChunk ≤ 2 ^ 31) :
    densmatr_calcFidelityLocal qureg pureState
      = some (∑ r in Finset.range pureState.numAmpsTotal,
          (cmul (ampConj (qureg.pairStateVec.amp r))
            (∑ c in Finset.range pureState.numAmpsPerChunk,
              cmul (qureg.stateVec.amp (r + pureState.numAmpsTotal * c))
                (qureg.pairStateVec.amp
                  (qureg.chunkId * pureState.numAmpsPerChunk + c)))).1) := by
  obtain ⟨n, D⟩ := pureState
  simp only at hD hcols hchunk ⊢
  have hexp : (qureg.chunkId + 1) * n = qureg.chunkId * n + n := by ring
  rw [hexp] at hcols
  have hn : n < 2 ^ 31 := by omega
  have hs : qureg.chunkId * n < 2 ^ 31 := by omega
  rw [← forLoop_add]
  unfold densmatr_calcFidelityLocal
  simp only [toInt32_natCast D hD, toInt32_natCast n hn, toInt32_natCast _ hs,
    Int.toNat_natCast]
  apply forLoop_some
  intro r hr acc
  have hinner : forLoop n (fun col (rowSum : Option (K × K)) =>
      rowSum.bind (fun rowSum =>
      (readAt qureg.stateVec.real (toInt32 ((r : Int) + toInt32 ((D : Int) * (col : Int))))).bind
        (fun densElemRe =>
      (readAt qureg.stateVec.imag (toInt32 ((r : Int) + toInt32 ((D : Int) * (col : Int))))).bind
        (fun densElemIm =>
      (readAt qureg.pairStateVec.real (toInt32 (((qureg.chunkId * n : Nat) : Int) + (col : Int)))).bind
        (fun vecElemRe =>
      (readAt qureg.pairStateVec.imag (toInt32 (((qureg.chunkId * n : Nat) : Int) + (col : Int)))).bind
        (fun vecElemIm =>
      some (rowSum.1 + (densElemRe * vecElemRe - densElemIm * vecElemIm),
        rowSum.2 + (densElemRe * vecElemIm + densElemIm * vecElemRe)))))))) (some (0, 0))
      = some (∑ c in Finset.range n, cmul (qureg.stateVec.amp (r + D * c))
          (qureg.pairStateVec.amp (qureg.chunkId * n + c))) := by
    rw [← forLoop_add_pair]
    apply forLoop_some
    intro c hc a
    have hprod : D * c + D ≤ D * n := by
      have : D * (c + 1) ≤ D * n := Nat.mul_le_mul_left D hc
      rwa [Nat.mul_succ] at this
    have e1 : toInt32 ((D : Int) * (c : Int)) = ((D * c : Nat) : Int) := by
      rw [← Nat.cast_mul]
      exact toInt32_natCast _ (by omega)
    have e2 : toInt32 ((r : Int) + ((D * c : Nat) : Int)) = ((r + D * c : Nat) : Int) := by
      rw [← Nat.cast_add]
      exact toInt32_natCast _ (by omega)
    have e3 : toInt32 (((qureg.chunkId * n : Nat) : Int) + (c : Int))
        = ((qureg.chunkId * n + c : Nat) : Int) := by
      rw [← Nat.cast_add]
      exact toInt32_natCast _ (by omega)
    rw [e1, e2, e3]
    simp only [readAt_natCast, Option.some_bind, cmul, ComplexArray.amp]
  rw [hinner]
  simp only [readAt_natCast, Option.some_bind, cmul, ComplexArray.amp, ampConj]
  congr 1
  simp only [Prod.fst_sum, Prod.snd_sum]
  ring

/-- Claim C27: `densmatr_calcFidelityLocal` on a register whose sizes fit the `int` indices
of the kernel, and its overflow. For every register and pure state with
`numAmpsTotal = D < 2^31`, the columns of the chunk inside the matrix and at most `2^31`
amplitudes of the density matrix on the chunk (`D * colsPerNode ≤ 2^31`), the kernel returns
the real part of the sum over the rows `r < D` of `conj(psi[r])` times the sum over the local
columns `c` of `rho_local[r + D c] * psi[chunkId * colsPerNode + c]`, with `psi` read from
the pair buffer; on a single chunk (`chunkId = 0`, `colsPerNode = D`) this is the real part
of `<psi| rho |psi>`, the double sum of `conj(psi[r]) rho[r + D c] psi[c]`.
The last part is the divergence: for the density matrix `|e><e|` of 16 qubits on one chunk
and the pure state `|e>`, `e = 2^15`, the index `row + dim*col` of row 0 and column `2^15`
is the `int` `-2^31`, in front of the array, and the kernel has no value, where the claim
gives the fidelity 1. -/
theorem calcFidelityLocal_real_part :
    (∀ (qureg : Qureg K) (pureState : QuregAttributes),
      pureState.numAmpsTotal < 2 ^ 31 →
      (qureg.chunkId + 1) * pureState.numAmpsPerChunk ≤ pureState.numAmpsTotal →
      pureState.numAmpsTotal * pureState.numAmpsPerChunk ≤ 2 ^ 31 →
      densmatr_calcFidelityLocal qureg pureState
        = some (∑ r in Finset.range pureState.numAmpsTotal,
            cmul (ampConj (qureg.pairStateVec.amp r))
              (∑ c in Finset.range pureState.numAmpsPerChunk,
                cmul (qureg.stateVec.amp (r + pureState.numAmpsTotal * c))
                  (qureg.pairStateVec.amp
                    (qureg.chunkId * pureState.numAmpsPerChunk + c)))).1 ∧
      (qureg.chunkId = 0 → pureState.numAmpsPerChunk = pureState.numAmpsTotal →
        densmatr_calcFidelityLocal qureg pureState
          = some (∑ r in Finset.range pureState.numAmpsTotal,
              ∑ c in Finset.range pureState.numAmpsTotal,
                cmul (ampConj (qureg.pairStateVec.amp r))
                  (cmul (qureg.stateVec.amp (r + pureState.numAmpsTotal * c))
                    (qureg.pairStateVec.amp c))).1)) ∧
    (toInt32 (0 + toInt32 (toInt32 ((2 ^ 16 : Nat) : Int) * ((2 ^ 15 : Nat) : Int)))
        = -2 ^ 31 ∧
      densmatr_calcFidelityLocal sampleFidelity16 ⟨2 ^ 16, 2 ^ 16⟩ = none ∧
      (∑ r in Finset.range (2 ^ 16), ∑ c in Finset.range (2 ^ 16),
        cmul (ampConj (sampleFidelity16.pairStateVec.amp r))
          (cmul (sampleFidelity16.stateVec.amp (r + 2 ^ 16 * c))
            (sampleFidelity16.pairStateVec.amp c))).1 = 1) := by
  refine ⟨?_, ?_, ?_, ?_⟩
  · intro qureg pureState hD hcols hchunk
    constructor
    · rw [calcFidelityLocal_sum qureg pureState hD hcols hchunk, Prod.fst_sum]
    · intro hc hn
      rw [calcFidelityLocal_sum qureg pureState hD hcols hchunk, Prod.fst_sum, hc, hn]
      congr 1
      apply Finset.sum_congr rfl
      intro r _
      rw [Prod.fst_sum]
      simp only [cmul, Prod.fst_sum, Prod.snd_sum, Nat.zero_mul, Nat.zero_add, Finset.mul_sum,
        ← Finset.sum_sub_distrib]
  · decide
  · unfold densmatr_calcFidelityLocal
    have hdim : (toInt32 (((2 ^ 16 : Nat)) : Int)).toNat = 65536 := by decide
    simp only [hdim]
    apply forLoop_none 65536 _ (fun i => rfl) 0 (by decide)
    intro s
    have hin : forLoop 65536 (fun col (rowSum : Option (ℚ × ℚ)) =>
        rowSum.bind (fun rowSum =>
        (readAt sampleFidelity16.stateVec.real (toInt32 (((0 : Nat) : Int)
          + toInt32 (toInt32 ((2 ^ 16 : Nat) : Int) * (col : Int))))).bind
          (fun densElemRe =>
        (readAt sampleFidelity16.stateVec.imag (toInt32 (((0 : Nat) : Int)
          + toInt32 (toInt32 ((2 ^ 16 : Nat) : Int) * (col : Int))))).bind
          (fun densElemIm =>
        (readAt sampleFidelity16.pairStateVec.real (toInt32 (toInt32
          ((sampleFidelity16.chunkId * 2 ^ 16 : Nat) : Int) + (col : Int)))).bind
          (fun vecElemRe =>
        (readAt sampleFidelity16.pairStateVec.imag (toInt32 (toInt32
          ((sampleFidelity16.chunkId * 2 ^ 16 : Nat) : Int) + (col : Int)))).bind
          (fun vecElemIm =>
        some (rowSum.1 + (densElemRe * vecElemRe - densElemIm * vecElemIm),
          rowSum.2 + (densElemRe * vecElemIm + densElemIm * vecElemRe)))))))) (some (0, 0))
        = none := by
      apply forLoop_none 65536 _ (fun i => rfl) 32768 (by decide)
      intro s
      have hneg : toInt32 (((0 : Nat) : Int)
          + toInt32 (toInt32 ((2 ^ 16 : Nat) : Int) * ((32768 : Nat) : Int))) < 0 := by decide
      rw [readAt_neg _ _ hneg]
      cases s <;> rfl
    rw [hin]
    cases s with
    | none => rfl
    | some a =>
      simp only [Option.some_bind, Option.bind_none]
      cases readAt sampleFidelity16.pairStateVec.real ((0 : Nat) : Int) with
      | none => rfl
      | some b =>
        simp only [Option.some_bind]
        cases readAt sampleFidelity16.pairStateVec.imag ((0 : Nat) : Int) <;> rfl
  · simp only [Prod.fst_sum]
    have hmem : (2 ^ 15 : Nat) ∈ Finset.range (2 ^ 16) := Finset.mem_range.mpr (by decide)
    rw [Finset.sum_eq_single (2 ^ 15), Finset.sum_eq_single (2 ^ 15)]
    · have e : (2 : Nat) ^ 15 + 2 ^ 16 * 2 ^ 15 = 2 ^ 15 + 2 ^ 31 := by decide
      rw [e]
      simp [cmul, ampConj, ComplexArray.amp, sampleFidelity16]
    · intro c _ hc
      simp [cmul, ampConj, ComplexArray.amp, sampleFidelity16, hc]
      intro h
      exact absurd h (by simpa using hc)
    · intro h
      exact absurd hmem h
    · intro r _ hr
      apply Finset.sum_eq_zero
      intro c _
      simp [cmul, ampConj, ComplexArray.amp, sampleFidelity16, hr]
      intro _ _
      simpa using hr
    · intro h
      exact absurd hmem h

/-- Witness of C27: the density matrix of the pure state `(1 - 3 I, 2 - I)` of one qubit on a
single chunk, against the same state: the fidelity is `(|psi_0|² + |psi_1|²)² = 225`. -/
theorem calcFidelityLocal_real_part_witness :
    densmatr_calcFidelityLocal (densmatr_initPureStateLocal samplePureSource ⟨2, 2⟩) ⟨2, 2⟩
      = some 225 := by
  have h := ((@calcFidelityLocal_real_part ℚ _).1
    (densmatr_initPureStateLocal samplePureSource ⟨2, 2⟩) ⟨2, 2⟩ (by decide) (by decide)
    (by decide)).2 rfl rfl
  rw [h]
  congr 1
  simp [Finset.sum_range_succ, densmatr_initPureStateLocal, samplePureSource, forLoop, cmul,
    ampConj, ComplexArray.amp, Function.update]
  norm_num

end FidelityClaims

section PureStateClaims
variable {K : Type}

/-- The inner loop of `densmatr_initPureStateLocal` for column `col`: it writes the entries
of the column and nothing else. -/
theorem initPureState_column (D col : Nat) (v : Nat → K × K) (s : ComplexArray K) :
    (∀ row, row < D →
      (forLoop D (fun row (dens : ComplexArray K) =>
        (⟨Function.update dens.real (row + col * D) (v row).1,
          Function.update dens.imag (row + col * D) (v row).2⟩ : ComplexArray K)) s).amp
          (row + col * D) = v row) ∧
    (∀ j, (∀ row, row < D → j ≠ row + col * D) →
      (forLoop D (fun row (dens : ComplexArray K) =>
        (⟨Function.update dens.real (row + col * D) (v row).1,
          Function.update dens.imag (row + col * D) (v row).2⟩ : ComplexArray K)) s).amp j
        = s.amp j) := by
  obtain ⟨k1, k2⟩ := forLoop_footprint ComplexArray.amp D
    (fun row (dens : ComplexArray K) =>
      (⟨Function.update dens.real (row + col * D) (v row).1,
        Function.update dens.imag (row + col * D) (v row).2⟩ : ComplexArray K))
    (fun row y => y = row + col * D)
    (by
      intro row _ sv y hy
      have hy2 : y ≠ row + col * D := hy
      simp [ComplexArray.amp, Function.update_noteq hy2])
    (by
      intro row _ sv sv' _ y hy
      have hy2 : y = row + col * D := hy
      subst hy2
      simp [ComplexArray.amp])
    (by
      intro row row2 y _ _ h h'
      have h1 : y = row + col * D := h
      have h2 : y = row2 + col * D := h'
      omega)
    s
  constructor
  · intro row hrow
    rw [k1 row hrow _ rfl]
    simp [ComplexArray.amp]
  · intro j hj
    exact k2 j (fun row hrow h => hj row hrow h)

/-- The nested loops of `densmatr_initPureStateLocal`: entry `row + col * D` receives the
value computed for `(row, col)`. -/
theorem initPureState_loops (D cols : Nat) (v : Nat → Nat → K × K) (s : ComplexArray K)
    (col row : Nat) (hcol : col < cols) (hrow : row < D) :
    (forLoop cols (fun col =>
      forLoop D (fun row (dens : ComplexArray K) =>
        (⟨Function.update dens.real (row + col * D) (v col row).1,
          Function.update dens.imag (row + col * D) (v col row).2⟩ : ComplexArray K))) s).amp
        (row + col * D) = v col row := by
  obtain ⟨k1, _⟩ := forLoop_footprint ComplexArray.amp cols
    (fun col =>
      forLoop D (fun row (dens : ComplexArray K) =>
        (⟨Function.update dens.real (row + col * D) (v col row).1,
          Function.update dens.imag (row + col * D) (v col row).2⟩ : ComplexArray K)))
    (fun col y => ∃ row, row < D ∧ y = row + col * D)
    (by
      intro c _ sv y hy
      exact (initPureState_column D c (v c) sv).2 y
        (fun r hr h => hy ⟨r, hr, h⟩))
    (by
      intro c _ sv sv' _ y hy
      obtain ⟨r, hr, rfl⟩ := hy
      rw [(initPureState_column D c (v c) sv).1 r hr,
        (initPureState_column D c (v c) sv').1 r hr])
    (by
      intro c c2 y _ _ h h'
      obtain ⟨r, hr, e⟩ := h
      obtain ⟨r2, hr2, e2⟩ := h'
      have hD : 0 < D := by omega
      have a1 : y / D = c := by
        rw [e, Nat.add_comm, Nat.mul_comm, Nat.mul_add_div hD, Nat.div_eq_of_lt hr,
          Nat.add_zero]
      have a2 : y / D = c2 := by
        rw [e2, Nat.add_comm, Nat.mul_comm, Nat.mul_add_div hD, Nat.div_eq_of_lt hr2,
          Nat.add_zero]
      exact a1.symm.trans a2)
    s
  rw [k1 col hcol _ ⟨row, hrow, rfl⟩]
  exact (initPureState_column D col (v col) _).1 row hrow

variable [Field K]

/-- Function `densmatr_initPureStateLocal`, entry by entry. -/
theorem initPureStateLocal_amp (targetQureg : Qureg K) (copyQureg : QuregAttributes)
    (col row : Nat) (hcol : col < copyQureg.numAmpsPerChunk)
    (hrow : row < copyQureg.numAmpsTotal) :
    (densmatr_initPureStateLocal targetQureg copyQureg).stateVec.amp
        (row + col * copyQureg.numAmpsTotal)
      = cmul (targetQureg.pairStateVec.amp row)
          (ampConj (targetQureg.pairStateVec.amp
            (col + targetQureg.chunkId * copyQureg.numAmpsPerChunk))) := by
  have h := initPureState_loops copyQureg.numAmpsTotal copyQureg.numAmpsPerChunk
    (fun col row => cmul (targetQureg.pairStateVec.amp row)
      (ampConj (targetQureg.pairStateVec.amp
        (col + targetQureg.chunkId * copyQureg.numAmpsPerChunk))))
    targetQureg.stateVec col row hcol hrow
  exact h

/-- Claim C26: `densmatr_initPureStateLocal` writes at index `row + col * D`, for every local
column `col < colsPerNode` and row `row < D`, the product
`psi[row] * conj(psi[col + chunkId * colsPerNode])` of amplitudes read from the pair buffer;
on a single chunk of a register of `N` qubits (`D = colsPerNode = 2^N`, `chunkId = 0`) the
result is `|psi><psi|`, it is Hermitian and its trace is the sum of `|psi_i|²`. -/
theorem initPureStateLocal_outer_product (targetQureg : Qureg K)
    (copyQureg : QuregAttributes) :
    (∀ col row, col < copyQureg.numAmpsPerChunk → row < copyQureg.numAmpsTotal →
      (densmatr_initPureStateLocal targetQureg copyQureg).stateVec.amp
          (row + col * copyQureg.numAmpsTotal)
        = cmul (targetQureg.pairStateVec.amp row)
            (ampConj (targetQureg.pairStateVec.amp
              (col + targetQureg.chunkId * copyQureg.numAmpsPerChunk)))) ∧
    (∀ N, targetQureg.chunkId = 0 → copyQureg.numAmpsPerChunk = 2 ^ N →
      copyQureg.numAmpsTotal = 2 ^ N →
      (∀ row col, row < 2 ^ N → col < 2 ^ N →
        (densmatr_initPureStateLocal targetQureg copyQureg).stateVec.amp (row + col * 2 ^ N)
          = cmul (targetQureg.pairStateVec.amp row)
              (ampConj (targetQureg.pairStateVec.amp col))) ∧
      IsHermitian N (densmatr_initPureStateLocal targetQureg copyQureg).stateVec ∧
      densityTrace N (densmatr_initPureStateLocal targetQureg copyQureg).stateVec
        = totalProb (2 ^ N) targetQureg.pairStateVec) := by
  refine ⟨fun col row hcol hrow => initPureStateLocal_amp targetQureg copyQureg col row
    hcol hrow, ?_⟩
  intro N hc hcols hD
  have hent : ∀ row col, row < 2 ^ N → col < 2 ^ N →
      (densmatr_initPureStateLocal targetQureg copyQureg).stateVec.amp (row + col * 2 ^ N)
        = cmul (targetQureg.pairStateVec.amp row)
            (ampConj (targetQureg.pairStateVec.amp col)) := by
    intro row col hrow hcol
    have h := initPureStateLocal_amp targetQureg copyQureg col row (hcols ▸ hcol)
      (hD ▸ hrow)
    rw [hc, hD, Nat.zero_mul, Nat.add_zero] at h
    exact h
  refine ⟨hent, ?_, ?_⟩
  · intro r hr c hcc
    rw [hent r c hr hcc, hent c r hcc hr]
    simp only [cmul, ampConj, ComplexArray.amp, Prod.mk.injEq]
    constructor <;> ring
  · unfold densityTrace totalProb
    apply Finset.sum_congr rfl
    intro i hi
    have hi2 : i < 2 ^ N := Finset.mem_range.mp hi
    have e : i * (2 ^ N + 1) = i + i * 2 ^ N := by ring
    have h := congrArg Prod.fst (hent i i hi2 hi2)
    rw [e]
    refine Eq.trans h ?_
    simp only [cmul, ampConj, ComplexArray.amp, normSq]
    ring

/-- Witness of C26: the pure state `(1 - 3 I, 2 - I)` of one qubit on a single chunk: the
entry of row 1 and column 0 is `psi_1 conj(psi_0) = 5 + 5 I`, and the trace is 15. -/
theorem initPureStateLocal_outer_product_witness :
    (densmatr_initPureStateLocal samplePureSource ⟨2, 2⟩).stateVec.amp (1 + 0 * 2 ^ 1)
      = (5, 5) ∧
    IsHermitian 1 (densmatr_initPureStateLocal samplePureSource ⟨2, 2⟩).stateVec ∧
    densityTrace 1 (densmatr_initPureStateLocal samplePureSource ⟨2, 2⟩).stateVec = 15 := by
  have h := (initPureStateLocal_outer_product samplePureSource ⟨2, 2⟩).2 1 rfl rfl rfl
  refine ⟨(h.1 1 0 (by decide) (by decide)).trans ?_, h.2.1, h.2.2.trans ?_⟩
  · simp [samplePureSource, cmul, ampConj, ComplexArray.amp]
    norm_num
  · simp [totalProb, normSq, samplePureSource, ComplexArray.amp, Finset.sum_range_succ]
    norm_num

end PureStateClaims

section ControlledNotClaims
variable {K : Type}

/-- The loop of `statevec_controlledNotLocal` in the form of `pairBody`. -/
theorem controlledNotLocal_stateVec (qureg : Qureg K) (c t : Nat) :
    (statevec_controlledNotLocal qureg c t).stateVec
      = forLoop (qureg.numAmpsPerChunk >>> 1)
          (pairBody (pairUp (1 <<< t)) (pairLo (1 <<< t)) (fun i a b =>
            if extractBit c (pairUp (1 <<< t) i + qureg.chunkId * qureg.numAmpsPerChunk) ≠ 0
            then (b, a) else (a, b)))
          qureg.stateVec := by
  simp only [statevec_controlledNotLocal]
  apply forLoop_congr
  intro i _ sv
  by_cases hcond : extractBit c
      (i / 1 <<< t * (2 * 1 <<< t) + i % 1 <<< t + qureg.chunkId * qureg.numAmpsPerChunk) ≠ 0
  · simp only [pairBody, pairUp, pairLo, if_pos hcond]
    rfl
  · simp only [pairBody, pairUp, pairLo, if_neg hcond, ComplexArray.amp,
      Function.update_eq_self]

/-- Function `statevec_controlledNotLocal`, index by index. -/
theorem controlledNotLocal_amp (k t c : Nat) (ht : t < k) (hct : c ≠ t) (qureg : Qureg K)
    (hn : qureg.numAmpsPerChunk = 2 ^ k) (i : Nat) (hi : i < 2 ^ k) :
    (statevec_controlledNotLocal qureg c t).stateVec.amp i
      = if extractBit c (qureg.chunkId * 2 ^ k + i) = 1 then qureg.stateVec.amp (i ^^^ 2 ^ t)
        else qureg.stateVec.amp i := by
  have hflip : i ^^^ 2 ^ t = flipBit i t := by
    unfold flipBit
    rw [Nat.one_shiftLeft]
  have hctrl : ∀ y, y < 2 ^ k → y.testBit c = i.testBit c →
      (extractBit c (y + qureg.chunkId * 2 ^ k) ≠ 0
        ↔ extractBit c (qureg.chunkId * 2 ^ k + i) = 1) := by
    intro y hy hyc
    rw [extractBit_ne_zero_iff, extractBit_eq_one_iff, Nat.add_comm (qureg.chunkId * 2 ^ k),
      testBit_global k _ y c hy, testBit_global k _ i c hi, hyc]
  rw [controlledNotLocal_stateVec, hn, Nat.one_shiftLeft,
    forLoop_pairBody_index k t ht _ _ i hi]
  by_cases hbit : i.testBit t = false
  · rw [if_pos hbit, pairUp_pairTask t i hbit, hflip, ← add_two_pow_eq_flipBit i t hbit]
    by_cases hc : extractBit c (qureg.chunkId * 2 ^ k + i) = 1
    · rw [if_pos ((hctrl i hi rfl).mpr hc), if_pos hc]
    · rw [if_neg (fun h => hc ((hctrl i hi rfl).mp h)), if_neg hc]
  · have hb1 : i.testBit t = true := by simpa using hbit
    have hsub : i - 2 ^ t = flipBit i t := by
      have h0 : (flipBit i t).testBit t = false := by
        rw [testBit_flipBit, if_pos rfl, hb1]
        rfl
      have h1 := add_two_pow_eq_flipBit (flipBit i t) t h0
      rw [flipBit_flipBit] at h1
      omega
    have hlt : i - 2 ^ t < 2 ^ k := Nat.lt_of_le_of_lt (Nat.sub_le _ _) hi
    have hbc : (i - 2 ^ t).testBit c = i.testBit c := by
      rw [hsub, testBit_flipBit, if_neg hct]
    rw [if_neg hbit, pairUp_pairTask_sub t i hb1, hflip, ← hsub]
    by_cases hc : extractBit c (qureg.chunkId * 2 ^ k + i) = 1
    · rw [if_pos ((hctrl _ hlt hbc).mpr hc), if_pos hc]
    · rw [if_neg (fun h => hc ((hctrl _ hlt hbc).mp h)), if_neg hc]

/-- Claim C22: for a chunk of `2^k` amplitudes, a target qubit `t < k` and a control qubit
`c ≠ t`, `statevec_controlledNotLocal` leaves at every local index `i` the amplitude that
was at `i XOR 2^t` when bit `c` of the global index `chunkId * 2^k + i` is 1, and the
amplitude that was at `i` otherwise. -/
theorem controlledNotLocal_flips_target (k t c : Nat) (ht : t < k) (hct : c ≠ t)
    (qureg : Qureg K) (hn : qureg.numAmpsPerChunk = 2 ^ k) (i : Nat) (hi : i < 2 ^ k) :
    (statevec_controlledNotLocal qureg c t).stateVec.amp i
      = if extractBit c (qureg.chunkId * 2 ^ k + i) = 1 then qureg.stateVec.amp (i ^^^ 2 ^ t)
        else qureg.stateVec.amp i :=
  controlledNotLocal_amp k t c ht hct qureg hn i hi

variable [Field K]

/-- The loop of `statevec_hadamardLocal` in the form of `pairBody`. -/
theorem hadamardLocal_stateVec (sqrt : K → K) (qureg : Qureg K) (t : Nat) :
    (statevec_hadamardLocal sqrt qureg t).stateVec
      = forLoop (qureg.numAmpsPerChunk >>> 1)
          (pairBody (pairUp (1 <<< t)) (pairLo (1 <<< t))
            (fun _ a b => hadamardF (1 / sqrt 2) a b))
          qureg.stateVec := rfl

/-- Function `statevec_hadamardLocal`, index by index. -/
theorem hadamardLocal_amp (k t : Nat) (ht : t < k) (sqrt : K → K) (qureg : Qureg K)
    (hn : qureg.numAmpsPerChunk = 2 ^ k) (x : Nat) (hx : x < 2 ^ k) :
    (statevec_hadamardLocal sqrt qureg t).stateVec.amp x
      = if x.testBit t = false then
          (hadamardF (1 / sqrt 2) (qureg.stateVec.amp x) (qureg.stateVec.amp (x + 2 ^ t))).1
        else
          (hadamardF (1 / sqrt 2) (qureg.stateVec.amp (x - 2 ^ t)) (qureg.stateVec.amp x)).2 := by
  rw [hadamardLocal_stateVec, hn, Nat.one_shiftLeft, forLoop_pairBody_index k t ht _ _ x hx]

/-- Chunk size after `statevec_initClassicalState`. -/
theorem statevec_initClassicalState_numAmps (qureg : Qureg K) (stateInd : Nat) :
    (statevec_initClassicalState qureg stateInd).numAmpsPerChunk = qureg.numAmpsPerChunk := by
  unfold statevec_initClassicalState
  simp only []
  split <;> rfl

/-- Chunk id after `statevec_initClassicalState`. -/
theorem statevec_initClassicalState_chunkId (qureg : Qureg K) (stateInd : Nat) :
    (statevec_initClassicalState qureg stateInd).chunkId = qureg.chunkId := by
  unfold statevec_initClassicalState
  simp only []
  split <;> rfl

/-- The state `H(0) |0..0>` of a register of `k > 0` qubits on one chunk: amplitude
`1/sqrt 2` at the indices 0 and 1. -/
theorem hadamard_zero_state_amp (k : Nat) (hk : 0 < k) (sqrt : K → K) (x : Nat)
    (hx : x < 2 ^ k) :
    (statevec_hadamardLocal sqrt
        (statevec_initClassicalState (zeroChunk k (2 ^ k) 0 : Qureg K) 0) 0).stateVec.amp x
      = if x = 0 ∨ x = 1 then (1 / sqrt 2, 0) else (0, 0) := by
  have hpos : 0 < 2 ^ k := Nat.two_pow_pos k
  have h2 : 2 ≤ 2 ^ k := by
    calc 2 = 2 ^ 1 := rfl
      _ ≤ 2 ^ k := Nat.pow_le_pow_right (by decide) hk
  have hinit : ∀ j, j < 2 ^ k →
      (statevec_initClassicalState (zeroChunk k (2 ^ k) 0 : Qureg K) 0).stateVec.amp j
        = if j = 0 then (1, 0) else (0, 0) := by
    intro j hj
    rw [statevec_initClassicalState_amp _ 0 hpos j hj]
    simp [zeroChunk]
  rw [hadamardLocal_amp k 0 hk sqrt _ (statevec_initClassicalState_numAmps _ _) x hx]
  by_cases hb : x.testBit 0 = false
  · have hev : x % 2 = 0 := by
      rw [Nat.testBit_zero] at hb
      simpa using hb
    have hlo : x + 2 ^ 0 < 2 ^ k := by
      have := Nat.pow_succ 2 (k - 1)
      obtain ⟨m, hm⟩ : ∃ m, 2 ^ k = 2 * m := ⟨2 ^ (k - 1), by
        rw [← Nat.pow_succ']
        congr 1
        omega⟩
      omega
    rw [if_pos hb, hinit x hx, hinit _ hlo]
    by_cases h0 : x = 0
    · subst h0
      simp [hadamardF]
    · have : ¬ (x = 0 ∨ x = 1) := by omega
      rw [if_neg this, if_neg h0, if_neg (show ¬ x + 2 ^ 0 = 0 by omega)]
      simp [hadamardF]
  · have hodd : x % 2 = 1 := by
      rw [Nat.testBit_zero] at hb
      simpa using hb
    have hlt : x - 2 ^ 0 < 2 ^ k := by omega
    rw [if_neg hb, hinit x hx, hinit _ hlt]
    by_cases h1 : x = 1
    · subst h1
      simp [hadamardF]
    · have : ¬ (x = 0 ∨ x = 1) := by omega
      rw [if_neg this, if_neg (show ¬ x = 0 by omega), if_neg (show ¬ x - 2 ^ 0 = 0 by
        rw [Nat.pow_zero]; omega)]
      simp [hadamardF]

/-- Witness of C22: `|00>`, then `H(0)`, then `CNOT(0, 1)` gives the Bell state
`(1/sqrt 2, 0, 0, 1/sqrt 2)`; `|000>`, then `H(0)`, `CNOT(0, 1)`, `CNOT(1, 2)` gives the
amplitude `1/sqrt 2` at the indices 0 and 7 and 0 elsewhere. -/
theorem controlledNotLocal_flips_target_witness :
    ((statevec_controlledNotLocal (statevec_hadamardLocal Real.sqrt
      (statevec_initClassicalState (zeroChunk 2 (2 ^ 2) 0 : Qureg ℝ) 0) 0) 0 1).stateVec.amp 0
      = (1 / Real.sqrt 2, 0) ∧
    (statevec_controlledNotLocal (statevec_hadamardLocal Real.sqrt
      (statevec_initClassicalState (zeroChunk 2 (2 ^ 2) 0 : Qureg ℝ) 0) 0) 0 1).stateVec.amp 1
      = (0, 0) ∧
    (statevec_controlledNotLocal (statevec_hadamardLocal Real.sqrt
      (statevec_initClassicalState (zeroChunk 2 (2 ^ 2) 0 : Qureg ℝ) 0) 0) 0 1).stateVec.amp 2
      = (0, 0) ∧
    (statevec_controlledNotLocal (statevec_hadamardLocal Real.sqrt
      (statevec_initClassicalState (zeroChunk 2 (2 ^ 2) 0 : Qureg ℝ) 0) 0) 0 1).stateVec.amp 3
      = (1 / Real.sqrt 2, 0)) ∧
    ((statevec_controlledNotLocal (statevec_controlledNotLocal (statevec_hadamardLocal Real.sqrt
      (statevec_initClassicalState (zeroChunk 3 (2 ^ 3) 0 : Qureg ℝ) 0) 0) 0 1) 1 2).stateVec.amp
        0 = (1 / Real.sqrt 2, 0) ∧
    (statevec_controlledNotLocal (statevec_controlledNotLocal (statevec_hadamardLocal Real.sqrt
      (statevec_initClassicalState (zeroChunk 3 (2 ^ 3) 0 : Qureg ℝ) 0) 0) 0 1) 1 2).stateVec.amp
        7 = (1 / Real.sqrt 2, 0) ∧
    (statevec_controlledNotLocal (statevec_controlledNotLocal (statevec_hadamardLocal Real.sqrt
      (statevec_initClassicalState (zeroChunk 3 (2 ^ 3) 0 : Qureg ℝ) 0) 0) 0 1) 1 2).stateVec.amp
        1 = (0, 0) ∧
    (statevec_controlledNotLocal (statevec_controlledNotLocal (statevec_hadamardLocal Real.sqrt
      (statevec_initClassicalState (zeroChunk 3 (2 ^ 3) 0 : Qureg ℝ) 0) 0) 0 1) 1 2).stateVec.amp
        2 = (0, 0) ∧
    (statevec_controlledNotLocal (statevec_controlledNotLocal (statevec_hadamardLocal Real.sqrt
      (statevec_initClassicalState (zeroChunk 3 (2 ^ 3) 0 : Qureg ℝ) 0) 0) 0 1) 1 2).stateVec.amp
        3 = (0, 0) ∧
    (statevec_controlledNotLocal (statevec_controlledNotLocal (statevec_hadamardLocal Real.sqrt
      (statevec_initClassicalState (zeroChunk 3 (2 ^ 3) 0 : Qureg ℝ) 0) 0) 0 1) 1 2).stateVec.amp
        4 = (0, 0) ∧
    (statevec_controlledNotLocal (statevec_controlledNotLocal (statevec_hadamardLocal Real.sqrt
      (statevec_initClassicalState (zeroChunk 3 (2 ^ 3) 0 : Qureg ℝ) 0) 0) 0 1) 1 2).stateVec.amp
        5 = (0, 0) ∧
    (statevec_controlledNotLocal (statevec_controlledNotLocal (statevec_hadamardLocal Real.sqrt
      (statevec_initClassicalState (zeroChunk 3 (2 ^ 3) 0 : Qureg ℝ) 0) 0) 0 1) 1 2).stateVec.amp
        6 = (0, 0)) := by
  have h := fun i hi => controlledNotLocal_flips_target 2 1 0 (by decide) (by decide)
    (statevec_hadamardLocal Real.sqrt
      (statevec_initClassicalState (zeroChunk 2 (2 ^ 2) 0 : Qureg ℝ) 0) 0)
    (statevec_initClassicalState_numAmps _ _) i hi
  have g := hadamard_zero_state_amp 2 (by decide) Real.sqrt
  have c : (statevec_hadamardLocal Real.sqrt
      (statevec_initClassicalState (zeroChunk 2 (2 ^ 2) 0 : Qureg ℝ) 0) 0).chunkId = 0 :=
    statevec_initClassicalState_chunkId _ _
  have h1 := fun i hi => controlledNotLocal_flips_target 3 1 0 (by decide) (by decide)
    (statevec_hadamardLocal Real.sqrt
      (statevec_initClassicalState (zeroChunk 3 (2 ^ 3) 0 : Qureg ℝ) 0) 0)
    (statevec_initClassicalState_numAmps _ _) i hi
  have h2 := fun i hi => controlledNotLocal_flips_target 3 2 1 (by decide) (by decide)
    (statevec_controlledNotLocal (statevec_hadamardLocal Real.sqrt
      (statevec_initClassicalState (zeroChunk 3 (2 ^ 3) 0 : Qureg ℝ) 0) 0) 0 1)
    (statevec_initClassicalState_numAmps _ _) i hi
  have g3 := hadamard_zero_state_amp 3 (by decide) Real.sqrt
  have c1 : (statevec_hadamardLocal Real.sqrt
      (statevec_initClassicalState (zeroChunk 3 (2 ^ 3) 0 : Qureg ℝ) 0) 0).chunkId = 0 :=
    statevec_initClassicalState_chunkId _ _
  have c2 : (statevec_controlledNotLocal (statevec_hadamardLocal Real.sqrt
      (statevec_initClassicalState (zeroChunk 3 (2 ^ 3) 0 : Qureg ℝ) 0) 0) 0 1).chunkId = 0 :=
    statevec_initClassicalState_chunkId _ _
  refine ⟨⟨?_, ?_, ?_, ?_⟩, ?_, ?_, ?_, ?_, ?_, ?_, ?_, ?_⟩
  · rw [h 0 (by decide), c, if_neg (show ¬ extractBit 0 (0 * 2 ^ 2 + 0) = 1 by decide),
      g 0 (by decide), if_pos (Or.inl rfl)]
  · rw [h 1 (by decide), c, if_pos (show extractBit 0 (0 * 2 ^ 2 + 1) = 1 by decide),
      show 1 ^^^ 2 ^ 1 = 3 by decide, g 3 (by decide), if_neg (by decide)]
  · rw [h 2 (by decide), c, if_neg (show ¬ extractBit 0 (0 * 2 ^ 2 + 2) = 1 by decide),
      g 2 (by decide), if_neg (by decide)]
  · rw [h 3 (by decide), c, if_pos (show extractBit 0 (0 * 2 ^ 2 + 3) = 1 by decide),
      show 3 ^^^ 2 ^ 1 = 1 by decide, g 1 (by decide), if_pos (Or.inr rfl)]
  · rw [h2 0 (by decide), c2, if_neg (show ¬ extractBit 1 (0 * 2 ^ 3 + 0) = 1 by decide),
      h1 0 (by decide), c1, if_neg (show ¬ extractBit 0 (0 * 2 ^ 3 + 0) = 1 by decide),
      g3 0 (by decide), if_pos (Or.inl rfl)]
  · rw [h2 7 (by decide), c2, if_pos (show extractBit 1 (0 * 2 ^ 3 + 7) = 1 by decide),
      show 7 ^^^ 2 ^ 2 = 3 by decide, h1 3 (by decide), c1,
      if_pos (show extractBit 0 (0 * 2 ^ 3 + 3) = 1 by decide),
      show 3 ^^^ 2 ^ 1 = 1 by decide, g3 1 (by decide), if_pos (Or.inr rfl)]
  · rw [h2 1 (by decide), c2, if_neg (show ¬ extractBit 1 (0 * 2 ^ 3 + 1) = 1 by decide),
      h1 1 (by decide), c1, if_pos (show extractBit 0 (0 * 2 ^ 3 + 1) = 1 by decide),
      show 1 ^^^ 2 ^ 1 = 3 by decide, g3 3 (by decide), if_neg (by decide)]
  · rw [h2 2 (by decide), c2, if_pos (show extractBit 1 (0 * 2 ^ 3 + 2) = 1 by decide),
      show 2 ^^^ 2 ^ 2 = 6 by decide, h1 6 (by decide), c1,
      if_neg (show ¬ extractBit 0 (0 * 2 ^ 3 + 6) = 1 by decide), g3 6 (by decide),
      if_neg (by decide)]
  · rw [h2 3 (by decide), c2, if_pos (show extractBit 1 (0 * 2 ^ 3 + 3) = 1 by decide),
      show 3 ^^^ 2 ^ 2 = 7 by decide, h1 7 (by decide), c1,
      if_pos (show extractBit 0 (0 * 2 ^ 3 + 7) = 1 by decide),
      show 7 ^^^ 2 ^ 1 = 5 by decide, g3 5 (by decide), if_neg (by decide)]
  · rw [h2 4 (by decide), c2, if_neg (show ¬ extractBit 1 (0 * 2 ^ 3 + 4) = 1 by decide),
      h1 4 (by decide), c1, if_neg (show ¬ extractBit 0 (0 * 2 ^ 3 + 4) = 1 by decide),
      g3 4 (by decide), if_neg (by decide)]
  · rw [h2 5 (by decide), c2, if_neg (show ¬ extractBit 1 (0 * 2 ^ 3 + 5) = 1 by decide),
      h1 5 (by decide), c1, if_pos (show extractBit 0 (0 * 2 ^ 3 + 5) = 1 by decide),
      show 5 ^^^ 2 ^ 1 = 7 by decide, g3 7 (by decide), if_neg (by decide)]
  · rw [h2 6 (by decide), c2, if_pos (show extractBit 1 (0 * 2 ^ 3 + 6) = 1 by decide),
      show 6 ^^^ 2 ^ 2 = 2 by decide, h1 2 (by decide), c1,
      if_neg (show ¬ extractBit 0 (0 * 2 ^ 3 + 2) = 1 by decide), g3 2 (by decide),
      if_neg (by decide)]

end ControlledNotClaims

section CompactSmallClaims
variable {K : Type} [Field K]

/-- The corner `[task * 2^t * 2, task * 2^t * 2 + 2^t)` of a task holds the indices of block
`task` whose bit `t` is clear. -/
theorem task_corner_iff (t task x : Nat) :
    (task * 2 ^ t * 2 ≤ x ∧ x < task * 2 ^ t * 2 + 2 ^ t) ↔
      (x / 2 ^ (t + 1) = task ∧ extractBit t x = 0) := by
  have hpos : 0 < 2 ^ t := Nat.two_pow_pos t
  have e : task * (2 ^ t * 2) = task * 2 ^ t * 2 := by ring
  constructor
  · rintro ⟨h1, h2⟩
    obtain ⟨a1, a2, _⟩ := split_unique t task 0 (x - task * 2 ^ t * 2) x (by decide)
      (by omega) (by rw [Nat.pow_succ]; omega)
    exact ⟨a1, a2⟩
  · rintro ⟨h1, h2⟩
    have s1 := split_at_bit t x
    rw [h1, h2, Nat.pow_succ] at s1
    have := Nat.mod_lt x hpos
    omega

/-- The nested loops of `statevec_compactUnitaryLocalSIMD` rewrite every pair of the chunk
once. -/
theorem isPairMap_allSIMD (alpha beta : Complex K) (k t : Nat) (ht : t < k) (h2 : 2 ≤ t) :
    IsPairMap (compactF alpha beta) t
      (forLoop (2 ^ (k - t - 1)) (fun thisTask =>
        forRange (thisTask * 2 ^ t * 2) (thisTask * 2 ^ t * 2 + 2 ^ t) 4
          (fun indexUp sv =>
            controlledCompactUnitarySIMD_pair (mm256_set1_pd alpha.real)
              (mm256_set1_pd alpha.imag) (mm256_set1_pd beta.real) (mm256_set1_pd beta.imag)
              indexUp (indexUp + 2 ^ t) sv)))
      (fun x => x < 2 ^ k ∧ x.testBit t = false) := by
  have ht4 : 2 ^ t = 4 * 2 ^ (t - 2) := by
    obtain ⟨d, rfl⟩ : ∃ d, t = 2 + d := ⟨t - 2, by omega⟩
    rw [Nat.pow_add]
    simp
  apply isPairMap_congr _ _ _ (fun x => ∃ task, task < 2 ^ (k - t - 1) ∧
    (task * 2 ^ t * 2 ≤ x ∧ x < task * 2 ^ t * 2 + 2 ^ t))
  · apply isPairMap_forLoop
    · intro task _
      apply isPairMap_forRangeSIMD alpha beta t _ _ (2 ^ (t - 2)) h2
      · rw [← ht4]
      · intro x h1 h2
        exact (extractBit_eq_zero_iff _ _).mp ((task_corner_iff t task x).mp ⟨h1, h2⟩).2
    · intro task task' x _ _ hx hx'
      exact ((task_corner_iff t task x).mp hx).1.symm.trans
        ((task_corner_iff t task' x).mp hx').1
  · intro x
    have hb := digits_union_block k t x ht (extractBit t x = 0)
    rw [← extractBit_eq_zero_iff, ← hb]
    constructor
    · rintro ⟨task, htask, h⟩
      exact ⟨task, htask, (task_corner_iff t task x).mp h⟩
    · rintro ⟨task, htask, h⟩
      exact ⟨task, htask, (task_corner_iff t task x).mpr h⟩

/-- The kernel `statevec_compactUnitaryLocal` rewrites every pair of the chunk once. -/
theorem compactUnitaryLocal_pairMap (k t : Nat) (ht : t < k) (qureg : Qureg K)
    (hn : qureg.numAmpsPerChunk = 2 ^ k) (alpha beta : Complex K) :
    ∃ T, IsPairMap (compactF alpha beta) t T (fun x => x < 2 ^ k ∧ x.testBit t = false) ∧
      statevec_compactUnitaryLocal qureg t alpha beta
        = { qureg with stateVec := T qureg.stateVec } := by
  refine ⟨forLoop ((2 ^ k) >>> 1) (fun thisTask sv =>
      controlledCompactUnitary_pair alpha.real alpha.imag beta.real beta.imag
        (pairUp (2 ^ t) thisTask) (pairUp (2 ^ t) thisTask + 2 ^ t) sv), ?_, ?_⟩
  · apply isPairMap_congr _ _ _ (fun x => ∃ i, i < (2 ^ k) >>> 1 ∧ x = pairUp (2 ^ t) i)
    · apply isPairMap_forLoop
      · intro i _
        have hclean : (pairUp (2 ^ t) i).testBit t = false := by
          rw [pairUp_eq_insertZeroBit, testBit_insertZeroBit]
          simp
        exact isPairMap_pair alpha beta t _ hclean
      · intro i i' x _ _ h h'
        have e : pairUp (2 ^ t) i = pairUp (2 ^ t) i' := h.symm.trans h'
        have e' := congrArg (pairTask (2 ^ t)) e
        rw [pairTask_pairUp _ _ (Nat.two_pow_pos t), pairTask_pairUp _ _ (Nat.two_pow_pos t)]
          at e'
        exact e'
    · intro x
      constructor
      · rintro ⟨i, hi, rfl⟩
        refine ⟨pairUp_lt k t i ht hi, ?_⟩
        rw [pairUp_eq_insertZeroBit, testBit_insertZeroBit]
        simp
      · rintro ⟨h1, h2⟩
        exact ⟨pairTask (2 ^ t) x, pairTask_lt k t x ht h1, (pairUp_pairTask t x h2).symm⟩
  · simp only [statevec_compactUnitaryLocal, hn, Nat.one_shiftLeft]
    rfl

/-- The kernel `statevec_compactUnitaryLocalSmall` rewrites every pair of the chunk once,
on its scalar path and on its 4-lane path. -/
theorem compactUnitaryLocalSmall_pairMap (k t : Nat) (ht : t < k) (qureg : Qureg K)
    (hn : qureg.numAmpsPerChunk = 2 ^ k) (alpha beta : Complex K) :
    ∃ T, IsPairMap (compactF alpha beta) t T (fun x => x < 2 ^ k ∧ x.testBit t = false) ∧
      statevec_compactUnitaryLocalSmall qureg t alpha beta
        = { qureg with stateVec := T qureg.stateVec } := by
  by_cases h4 : 1 <<< t ≥ 4
  · have h2 : 2 ≤ t := by
      rw [Nat.one_shiftLeft] at h4
      by_contra hlt
      have : t = 0 ∨ t = 1 := by omega
      rcases this with rfl | rfl <;> simp at h4
    refine ⟨_, isPairMap_allSIMD alpha beta k t ht h2, ?_⟩
    unfold statevec_compactUnitaryLocalSmall
    simp only [if_pos h4]
    simp only [statevec_compactUnitaryLocalSIMD, hn, Nat.one_shiftLeft,
      two_pow_shiftRight k t ht]
  · refine ⟨_, isPairMap_allSmall alpha beta k t ht, ?_⟩
    unfold statevec_compactUnitaryLocalSmall
    simp only [if_neg h4]
    simp only [hn, Nat.one_shiftLeft, two_pow_shiftRight k t ht]

theorem compactUnitaryLocalSmall_eq_local_aux (k t : Nat) (ht : t < k) (qureg : Qureg K)
    (hn : qureg.numAmpsPerChunk = 2 ^ k) (alpha beta : Complex K) :
    statevec_compactUnitaryLocalSmall qureg t alpha beta
      = statevec_compactUnitaryLocal qureg t alpha beta := by
  obtain ⟨T, hT, e⟩ := compactUnitaryLocalSmall_pairMap k t ht qureg hn alpha beta
  obtain ⟨T2, hT2, e2⟩ := compactUnitaryLocal_pairMap k t ht qureg hn alpha beta
  rw [e, e2, isPairMap_unique _ t T T2 _ hT hT2]

/-- Claim C30: for a chunk of `2^k` amplitudes and a target qubit `t < k`,
`statevec_compactUnitaryLocalSmall` (the scalar nested loops for `2^t < 4`, the 4-lane loops
of `statevec_compactUnitaryLocalSIMD` otherwise) rewrites exactly the pairs
`(indexUp, indexUp + 2^t)` with `indexUp < 2^k` and bit `t` of `indexUp` clear, each with the
rotation of `statevec_compactUnitaryLocal`, and returns the same register as
`statevec_compactUnitaryLocal`. -/
theorem compactUnitaryLocalSmall_eq_local (k t : Nat) (ht : t < k) (qureg : Qureg K)
    (hn : qureg.numAmpsPerChunk = 2 ^ k) (alpha beta : Complex K) :
    (∃ T, IsPairMap (compactF alpha beta) t T (fun x => x < 2 ^ k ∧ x.testBit t = false) ∧
      statevec_compactUnitaryLocalSmall qureg t alpha beta
        = { qureg with stateVec := T qureg.stateVec } ∧
      statevec_compactUnitaryLocal qureg t alpha beta
        = { qureg with stateVec := T qureg.stateVec }) ∧
    statevec_compactUnitaryLocalSmall qureg t alpha beta
      = statevec_compactUnitaryLocal qureg t alpha beta := by
  obtain ⟨T, hT, e⟩ := compactUnitaryLocalSmall_pairMap k t ht qureg hn alpha beta
  have h := compactUnitaryLocalSmall_eq_local_aux k t ht qureg hn alpha beta
  exact ⟨⟨T, hT, e, h ▸ e⟩, h⟩

/-- Witness of C30: 3 qubits on one chunk, `alpha = 3/5 I`, `beta = 4/5`, target qubit 2
(the 4-lane path) and target qubit 0 (the scalar path). -/
theorem compactUnitaryLocalSmall_eq_local_witness :
    statevec_compactUnitaryLocalSmall sampleQureg8 2 sampleAlpha sampleBeta
      = statevec_compactUnitaryLocal sampleQureg8 2 sampleAlpha sampleBeta ∧
    statevec_compactUnitaryLocalSmall sampleQureg8 0 sampleAlpha sampleBeta
      = statevec_compactUnitaryLocal sampleQureg8 0 sampleAlpha sampleBeta :=
  ⟨(compactUnitaryLocalSmall_eq_local 3 2 (by decide) sampleQureg8 rfl sampleAlpha
      sampleBeta).2,
    (compactUnitaryLocalSmall_eq_local 3 0 (by decide) sampleQureg8 rfl sampleAlpha
      sampleBeta).2⟩

end CompactSmallClaims

section TargetIndices

/-- The sorted copy of `k` distinct targets is strictly ascending and holds the same
values. -/
theorem qsortInts_sorted (targs : Nat → Nat) (k : Nat)
    (hinj : ∀ i j, i < k → j < k → targs i = targs j → i = j) :
    (∀ i j, i < j → j < k → qsortInts targs k i < qsortInts targs k j) ∧
    (∀ q, (∃ t, t < k ∧ qsortInts targs k t = q) ↔ (∃ j, j < k ∧ targs j = q)) := by
  have hlen : (((List.range k).map targs).insertionSort (fun x y => x ≤ y)).length = k := by
    rw [List.length_insertionSort, List.length_map, List.length_range]
  have hnodupL : ((List.range k).map targs).Nodup :=
    List.Nodup.map_on (fun x hx y hy h => hinj x y (List.mem_range.mp hx)
      (List.mem_range.mp hy) h) (List.nodup_range k)
  have hperm := List.perm_insertionSort (fun x y : Nat => x ≤ y) ((List.range k).map targs)
  have hnodupS := hperm.nodup_iff.mpr hnodupL
  have hsorted : List.Sorted (fun x y : Nat => x ≤ y)
      (((List.range k).map targs).insertionSort (fun x y => x ≤ y)) :=
    List.sorted_insertionSort (fun x y : Nat => x ≤ y) ((List.range k).map targs)
  have hstrict := List.Sorted.lt_of_le hsorted hnodupS
  have hget : ∀ t (ht : t < k), qsortInts targs k t
      = (((List.range k).map targs).insertionSort (fun x y => x ≤ y)).get
          ⟨t, hlen.symm ▸ ht⟩ := by
    intro t ht
    unfold qsortInts
    exact List.getD_eq_getElem _ _ (hlen.symm ▸ ht)
  constructor
  · intro i j hij hj
    rw [hget i (by omega), hget j hj]
    exact hstrict.rel_get_of_lt (show (⟨i, _⟩ : Fin _) < ⟨j, _⟩ from hij)
  · intro q
    have hmem : q ∈ ((List.range k).map targs).insertionSort (fun x y => x ≤ y)
        ↔ q ∈ (List.range k).map targs := hperm.mem_iff
    constructor
    · rintro ⟨t, ht, rfl⟩
      have h1 : qsortInts targs k t ∈ (List.range k).map targs := by
        rw [← hmem, hget t ht]
        exact List.get_mem _ _ _
      obtain ⟨j, hj, e⟩ := List.mem_map.mp h1
      exact ⟨j, List.mem_range.mp hj, e⟩
    · rintro ⟨j, hj, rfl⟩
      have h1 : targs j ∈ ((List.range k).map targs).insertionSort (fun x y => x ≤ y) :=
        hmem.mpr (List.mem_map.mpr ⟨j, List.mem_range.mpr hj, rfl⟩)
      obtain ⟨t, e⟩ := List.get_of_mem h1
      have ht : t.1 < k := Nat.lt_of_lt_of_eq t.2 hlen
      refine ⟨t.1, ht, ?_⟩
      rw [hget t.1 ht]
      exact e

/-- After zero bits are inserted at strictly ascending positions, the bit at each of the
positions is 0. -/
theorem insertZeroBits_testBit (st : Nat → Nat) (k task : Nat)
    (hmono : ∀ i j, i < j → j < k → st i < st j) (t : Nat) (ht : t < k) :
    (forLoop k (fun t x => insertZeroBit x (st t)) task).testBit (st t) = false := by
  induction k with
  | zero => omega
  | succ k ih =>
    simp only [forLoop]
    rw [testBit_insertZeroBit]
    by_cases htk : t = k
    · subst htk
      simp
    · have hlt : st t < st k := hmono t k (by omega) (by omega)
      rw [if_pos hlt]
      exact ih (fun i j hij hj => hmono i j hij (by omega)) (by omega)

/-- Inserting zero bits is one-to-one. -/
theorem insertZeroBits_inj (st : Nat → Nat) (k task task2 : Nat)
    (h : forLoop k (fun t x => insertZeroBit x (st t)) task
      = forLoop k (fun t x => insertZeroBit x (st t)) task2) : task = task2 := by
  induction k with
  | zero => exact h
  | succ k ih =>
    simp only [forLoop] at h
    rw [← pairUp_eq_insertZeroBit, ← pairUp_eq_insertZeroBit] at h
    have e := congrArg (pairTask (2 ^ st k)) h
    rw [pairTask_pairUp _ _ (Nat.two_pow_pos _), pairTask_pairUp _ _ (Nat.two_pow_pos _)] at e
    exact ih e

/-- Strictly ascending positions below `n`: position `j` of `k` leaves room for the `k - j`
positions from it on. -/
theorem ascending_room (st : Nat → Nat) (k n : Nat)
    (hmono : ∀ i j, i < j → j < k → st i < st j) (hlt : ∀ t, t < k → st t < n) (j : Nat)
    (hj : j < k) : st j + (k - j) ≤ n := by
  obtain ⟨d, hd⟩ : ∃ d, k - j = d + 1 := ⟨k - j - 1, by omega⟩
  have key : ∀ d j, j + d + 1 = k → st j + (d + 1) ≤ n := by
    intro d
    induction d with
    | zero =>
      intro j hjk
      have := hlt j (by omega)
      omega
    | succ d ih =>
      intro j hjk
      have h1 := ih (j + 1) (by omega)
      have h2 := hmono j (j + 1) (by omega) (by omega)
      omega
  rw [hd]
  exact key d j (by omega)

/-- Every index below `2^n` with zeros at the `k` strictly ascending positions is the image
of a task below `2^(n - k)`. -/
theorem insertZeroBits_surj (st : Nat → Nat) (k : Nat) :
    ∀ n b, (∀ i j, i < j → j < k → st i < st j) → (∀ t, t < k → st t < n) → b < 2 ^ n →
      (∀ t, t < k → b.testBit (st t) = false) →
      ∃ task, task < 2 ^ (n - k) ∧ forLoop k (fun t x => insertZeroBit x (st t)) task = b := by
  induction k with
  | zero =>
    intro n b _ _ hb _
    exact ⟨b, hb, rfl⟩
  | succ k ih =>
    intro n b hmono hlt hb hzero
    have hq : st k < n := hlt k (by omega)
    have hbit : b.testBit (st k) = false := hzero k (by omega)
    have hrem : pairTask (2 ^ st k) b < 2 ^ (n - 1) := by
      have := pairTask_lt n (st k) b hq hb
      rwa [two_pow_shiftRight_one n (by omega)] at this
    obtain ⟨task, htask, e⟩ := ih (n - 1) (pairTask (2 ^ st k) b)
      (fun i j hij hj => hmono i j hij (by omega))
      (fun t ht => by
        have h1 := hmono t k ht (by omega)
        omega)
      hrem
      (fun t ht => by
        have h1 := hmono t k ht (by omega)
        rw [testBit_pairTask, if_pos h1]
        exact hzero t (by omega))
    refine ⟨task, ?_, ?_⟩
    · have : n - 1 - k = n - (k + 1) := by omega
      rwa [this] at htask
    · simp only [forLoop]
      rw [e, ← pairUp_eq_insertZeroBit]
      exact pairUp_pairTask (st k) b hbit

/-- Bits of the pattern `P(i)` outside the targets. -/
theorem targetBits_testBit_other (targs : Nat → Nat) (k i q : Nat)
    (hq : ∀ j, j < k → targs j ≠ q) : (targetBits targs k i).testBit q = false := by
  unfold targetBits
  induction k with
  | zero => simp [forLoop]
  | succ k ih =>
    simp only [forLoop]
    have h1 := ih (fun j hj => hq j (by omega))
    have h2 : (2 ^ targs k).testBit q = false := by
      rw [Nat.testBit_two_pow]
      simpa using hq k (by omega)
    split
    · rw [Nat.testBit_or, h1, h2]
      rfl
    · exact h1

/-- Bits of the pattern `P(i)` at the targets. -/
theorem targetBits_testBit_targ (targs : Nat → Nat) (k i : Nat)
    (hinj : ∀ i j, i < k → j < k → targs i = targs j → i = j) (j : Nat) (hj : j < k) :
    (targetBits targs k i).testBit (targs j) = i.testBit j := by
  induction k with
  | zero => omega
  | succ k ih =>
    have hinj2 : ∀ i j, i < k → j < k → targs i = targs j → i = j :=
      fun a b ha hb => hinj a b (by omega) (by omega)
    have hstep : targetBits targs (k + 1) i
        = if i.testBit k then targetBits targs k i ||| 2 ^ targs k
          else targetBits targs k i := rfl
    rw [hstep]
    by_cases hjk : j = k
    · subst hjk
      have h0 := targetBits_testBit_other targs j i (targs j) (fun a ha e => by
        have := hinj a j (by omega) (by omega) e
        omega)
      by_cases hb : i.testBit j = true
      · rw [if_pos hb, Nat.testBit_or, h0, Nat.testBit_two_pow, hb]
        simp
      · rw [if_neg hb, h0]
        simpa using hb
    · have h1 := ih hinj2 (by omega)
      have h2 : (2 ^ targs k).testBit (targs j) = false := by
        rw [Nat.testBit_two_pow]
        simp only [decide_eq_false_iff_not]
        intro e
        have := hinj k j (by omega) (by omega) e
        omega
      split
      · rw [Nat.testBit_or, h1, h2]
        simp
      · exact h1

/-- The index `ampInds[i]` that the gather loop computes from `thisInd00 = b`: `b XOR P(i)`,
for distinct targets. -/
theorem gatherIndex_eq_xor (targs : Nat → Nat) (k b i : Nat)
    (hinj : ∀ i j, i < k → j < k → targs i = targs j → i = j) :
    forLoop k (fun t ind => if extractBit t i ≠ 0 then flipBit ind (targs t) else ind) b
      = b ^^^ targetBits targs k i := by
  induction k with
  | zero =>
    simp [forLoop, targetBits]
  | succ k ih =>
    have hinj2 : ∀ i j, i < k → j < k → targs i = targs j → i = j :=
      fun a b ha hb => hinj a b (by omega) (by omega)
    have hstep : targetBits targs (k + 1) i
        = if i.testBit k then targetBits targs k i ||| 2 ^ targs k
          else targetBits targs k i := rfl
    simp only [forLoop]
    rw [ih hinj2, hstep]
    by_cases hb : i.testBit k = true
    · rw [if_pos ((extractBit_ne_zero_iff k i).mpr hb), if_pos hb]
      have h0 := targetBits_testBit_other targs k i (targs k) (fun a ha e => by
        have := hinj a k (by omega) (by omega) e
        omega)
      have hor : targetBits targs k i ||| 2 ^ targs k
          = targetBits targs k i ^^^ 2 ^ targs k := by
        apply Nat.eq_of_testBit_eq
        intro q
        rw [Nat.testBit_or, Nat.testBit_xor, Nat.testBit_two_pow]
        by_cases hq : targs k = q
        · subst hq
          rw [h0]
          simp
        · simp [hq]
      unfold flipBit
      rw [hor, Nat.one_shiftLeft, Nat.xor_assoc]
    · rw [if_neg (fun h => hb ((extractBit_ne_zero_iff k i).mp h)), if_neg hb]

/-- Two members `b XOR P(i)`, `b2 XOR P(i2)` of groups with zero target bits in `b`, `b2`
are the same index only for the same group and member. -/
theorem group_index_inj (targs : Nat → Nat) (k b b2 i i2 : Nat)
    (hinj : ∀ i j, i < k → j < k → targs i = targs j → i = j)
    (hb : ∀ j, j < k → b.testBit (targs j) = false)
    (hb2 : ∀ j, j < k → b2.testBit (targs j) = false)
    (hi : i < 2 ^ k) (hi2 : i2 < 2 ^ k)
    (h : b ^^^ targetBits targs k i = b2 ^^^ targetBits targs k i2) : b = b2 ∧ i = i2 := by
  have hii : i = i2 := by
    apply Nat.eq_of_testBit_eq
    intro j
    by_cases hj : j < k
    · have e := congrArg (fun x => Nat.testBit x (targs j)) h
      simp only [Nat.testBit_xor, hb j hj, hb2 j hj, targetBits_testBit_targ targs k _ hinj j hj]
        at e
      simpa using e
    · rw [testBit_eq_false_of_lt_two_pow i k j hi (by omega),
        testBit_eq_false_of_lt_two_pow i2 k j hi2 (by omega)]
  subst hii
  exact ⟨Nat.xor_left_inj.mp h, rfl⟩

end TargetIndices

section MultiQubit
variable {K : Type} [Field K]

/-- The loop of `statevec_multiControlledMultiQubitUnitaryLocal` over the tasks. -/
theorem multiQubitUnitaryLocal_stateVec (qureg : Qureg K) (ctrlMask : Nat)
    (targs : Nat → Nat) (numTargs : Nat) (u : ComplexMatrixN K) :
    (statevec_multiControlledMultiQubitUnitaryLocal qureg ctrlMask targs numTargs u).stateVec
      = forLoop (qureg.numAmpsPerChunk >>> numTargs) (fun thisTask sv =>
          if ctrlMask ≠ 0 ∧ (ctrlMask &&&
              (forLoop numTargs (fun t x => insertZeroBit x (qsortInts targs numTargs t))
                thisTask + qureg.chunkId * qureg.numAmpsPerChunk)) ≠ ctrlMask then sv
          else multiQubitTask u (1 <<< u.numQubits) (fun i =>
            forLoop numTargs
              (fun t ind => if extractBit t i ≠ 0 then flipBit ind (targs t) else ind)
              (forLoop numTargs (fun t x => insertZeroBit x (qsortInts targs numTargs t))
                thisTask)) sv) qureg.stateVec := rfl

/-- The gather loop fills the private arrays of a task. -/
theorem gather_loop (M : Nat) (ind : Nat → Nat) (sv : ComplexArray K) (i : Nat) (hi : i < M) :
    (forLoop M (fun i (priv : (Nat → Nat) × (Nat → K) × (Nat → K)) =>
        (Function.update priv.1 i (ind i), Function.update priv.2.1 i (sv.real (ind i)),
          Function.update priv.2.2 i (sv.imag (ind i))))
        (fun _ => 0, fun _ => 0, fun _ => 0)).1 i = ind i ∧
    (forLoop M (fun i (priv : (Nat → Nat) × (Nat → K) × (Nat → K)) =>
        (Function.update priv.1 i (ind i), Function.update priv.2.1 i (sv.real (ind i)),
          Function.update priv.2.2 i (sv.imag (ind i))))
        (fun _ => 0, fun _ => 0, fun _ => 0)).2.1 i = sv.real (ind i) ∧
    (forLoop M (fun i (priv : (Nat → Nat) × (Nat → K) × (Nat → K)) =>
        (Function.update priv.1 i (ind i), Function.update priv.2.1 i (sv.real (ind i)),
          Function.update priv.2.2 i (sv.imag (ind i))))
        (fun _ => 0, fun _ => 0, fun _ => 0)).2.2 i = sv.imag (ind i) := by
  induction M with
  | zero => omega
  | succ M ih =>
    simp only [forLoop]
    by_cases h : i = M
    · subst h
      simp
    · have h1 := ih (by omega)
      simp only [Function.update_noteq h]
      exact h1

/-- The inner loop of the write phase adds its terms to the amplitude at `ind` and keeps
the others. -/
theorem accumulate_loop (M ind : Nat) (f h : Nat → K) (s0 : ComplexArray K) :
    (forLoop M (fun c (acc : ComplexArray K) =>
        (⟨Function.update acc.real ind (acc.real ind + f c),
          Function.update acc.imag ind (acc.imag ind + h c)⟩ : ComplexArray K)) s0).amp ind
      = (s0.real ind + ∑ c in Finset.range M, f c, s0.imag ind + ∑ c in Finset.range M, h c) ∧
    (∀ j, j ≠ ind →
      (forLoop M (fun c (acc : ComplexArray K) =>
        (⟨Function.update acc.real ind (acc.real ind + f c),
          Function.update acc.imag ind (acc.imag ind + h c)⟩ : ComplexArray K)) s0).amp j
        = s0.amp j) := by
  induction M with
  | zero => simp [forLoop, ComplexArray.amp]
  | succ M ih =>
    obtain ⟨h1, h2⟩ := ih
    simp only [ComplexArray.amp, Prod.mk.injEq] at h1
    constructor
    · simp only [forLoop, ComplexArray.amp, Function.update_same, Finset.sum_range_succ,
        h1.1, h1.2, add_assoc]
    · intro j hj
      have := h2 j hj
      simp only [ComplexArray.amp, Prod.mk.injEq] at this
      simp only [forLoop, ComplexArray.amp, Function.update_noteq hj, this.1, this.2]

/-- The statements of a task: every member of the group receives the sum over its row of
the matrix of the products with the amplitudes the group held, and every index outside the
group keeps its amplitude. -/
theorem multiQubitTask_amp (u : ComplexMatrixN K) (M : Nat) (ind : Nat → Nat)
    (hinj : ∀ r r2, r < M → r2 < M → ind r = ind r2 → r = r2) (sv : ComplexArray K) :
    (∀ r, r < M → (multiQubitTask u M ind sv).amp (ind r)
      = ∑ c in Finset.range M, cmul (u.real r c, u.imag r c) (sv.amp (ind c))) ∧
    (∀ j, (∀ r, r < M → j ≠ ind r) → (multiQubitTask u M ind sv).amp j = sv.amp j) := by
  have hbody : multiQubitTask u M ind sv
      = forLoop M (fun r (s : ComplexArray K) =>
          forLoop M (fun c (acc : ComplexArray K) =>
            (⟨Function.update acc.real (ind r)
                (acc.real (ind r) + (sv.real (ind c) * u.real r c - sv.imag (ind c) * u.imag r c)),
              Function.update acc.imag (ind r)
                (acc.imag (ind r) + (sv.real (ind c) * u.imag r c + sv.imag (ind c) * u.real r c))⟩
              : ComplexArray K))
            ⟨Function.update s.real (ind r) 0, Function.update s.imag (ind r) 0⟩) sv := by
    unfold multiQubitTask
    simp only []
    apply forLoop_congr
    intro r hr s
    have gr := gather_loop M ind sv r hr
    rw [gr.1]
    apply forLoop_congr
    intro c hc acc
    have gc := gather_loop M ind sv c hc
    rw [gc.2.1, gc.2.2]
  have hval : ∀ (r : Nat) (s : ComplexArray K),
      (forLoop M (fun c (acc : ComplexArray K) =>
          (⟨Function.update acc.real (ind r)
              (acc.real (ind r) + (sv.real (ind c) * u.real r c - sv.imag (ind c) * u.imag r c)),
            Function.update acc.imag (ind r)
              (acc.imag (ind r) + (sv.real (ind c) * u.imag r c + sv.imag (ind c) * u.real r c))⟩
            : ComplexArray K))
          ⟨Function.update s.real (ind r) 0, Function.update s.imag (ind r) 0⟩).amp (ind r)
        = ∑ c in Finset.range M, cmul (u.real r c, u.imag r c) (sv.amp (ind c)) := by
    intro r s
    rw [(accumulate_loop M (ind r) _ _ _).1]
    simp only [Function.update_same, zero_add]
    refine Prod.ext ?_ ?_
    · rw [Prod.fst_sum]
      simp only []
      apply Finset.sum_congr rfl
      intro c _
      simp only [cmul, ComplexArray.amp]
      ring
    · rw [Prod.snd_sum]
      simp only []
      apply Finset.sum_congr rfl
      intro c _
      simp only [cmul, ComplexArray.amp]
      ring
  have hkeep : ∀ (r : Nat) (s : ComplexArray K) (j : Nat), j ≠ ind r →
      (forLoop M (fun c (acc : ComplexArray K) =>
          (⟨Function.update acc.real (ind r)
              (acc.real (ind r) + (sv.real (ind c) * u.real r c - sv.imag (ind c) * u.imag r c)),
            Function.update acc.imag (ind r)
              (acc.imag (ind r) + (sv.real (ind c) * u.imag r c + sv.imag (ind c) * u.real r c))⟩
            : ComplexArray K))
          ⟨Function.update s.real (ind r) 0, Function.update s.imag (ind r) 0⟩).amp j
        = s.amp j := by
    intro r s j hj
    rw [(accumulate_loop M (ind r) _ _ _).2 j hj]
    simp only [ComplexArray.amp, Function.update_noteq hj]
  rw [hbody]
  obtain ⟨k1, k2⟩ := forLoop_footprint ComplexArray.amp M
    (fun r (s : ComplexArray K) =>
      forLoop M (fun c (acc : ComplexArray K) =>
        (⟨Function.update acc.real (ind r)
            (acc.real (ind r) + (sv.real (ind c) * u.real r c - sv.imag (ind c) * u.imag r c)),
          Function.update acc.imag (ind r)
            (acc.imag (ind r) + (sv.real (ind c) * u.imag r c + sv.imag (ind c) * u.real r c))⟩
          : ComplexArray K))
        ⟨Function.update s.real (ind r) 0, Function.update s.imag (ind r) 0⟩)
    (fun r j => j = ind r)
    (by
      intro r _ s j hj
      exact hkeep r s j hj)
    (by
      intro r _ s s2 _ j hj
      have hj2 : j = ind r := hj
      subst hj2
      rw [hval r s, hval r s2])
    (by
      intro r r2 j hr hr2 h h2
      have e1 : j = ind r := h
      have e2 : j = ind r2 := h2
      exact hinj r r2 hr hr2 (e1.symm.trans e2))
    sv
  constructor
  · intro r hr
    rw [k1 r hr (ind r) rfl]
    exact hval r sv
  · intro j hj
    exact k2 j (fun r hr h => hj r hr h)

end MultiQubit

section MultiQubitClaims
variable {K : Type} [Field K]

theorem multiQubitUnitaryLocal_group_aux (n k : Nat) (qureg : Qureg K)
    (hn : qureg.numAmpsPerChunk = 2 ^ n) (ctrlMask : Nat) (targs : Nat → Nat)
    (u : ComplexMatrixN K) (hu : u.numQubits = k) (hlt : ∀ j, j < k → targs j < n)
    (hinj : ∀ i j, i < k → j < k → targs i = targs j → i = j)
    (b : Nat) (hb : b < 2 ^ n) (hzero : ∀ j, j < k → b.testBit (targs j) = false)
    (r : Nat) (hr : r < 2 ^ k) :
    (statevec_multiControlledMultiQubitUnitaryLocal qureg ctrlMask targs k u).stateVec.amp
        (b ^^^ targetBits targs k r)
      = if ctrlMask ≠ 0 ∧ ctrlMask &&& (qureg.chunkId * 2 ^ n + b) ≠ ctrlMask then
          qureg.stateVec.amp (b ^^^ targetBits targs k r)
        else ∑ c in Finset.range (2 ^ k),
          cmul (u.real r c, u.imag r c) (qureg.stateVec.amp (b ^^^ targetBits targs k c)) := by
  obtain ⟨hmono, hset⟩ := qsortInts_sorted targs k hinj
  have hstlt : ∀ t, t < k → qsortInts targs k t < n := by
    intro t ht
    obtain ⟨j, hj, e⟩ := (hset _).mp ⟨t, ht, rfl⟩
    rw [← e]
    exact hlt j hj
  have hkn : k ≤ n := by
    by_cases h0 : 0 < k
    · have := ascending_room (qsortInts targs k) k n hmono hstlt 0 h0
      omega
    · omega
  have hins0 : ∀ task j, j < k →
      (forLoop k (fun t x => insertZeroBit x (qsortInts targs k t)) task).testBit (targs j)
        = false := by
    intro task j hj
    obtain ⟨t, ht, e⟩ := (hset _).mpr ⟨j, hj, rfl⟩
    rw [← e]
    exact insertZeroBits_testBit (qsortInts targs k) k task hmono t ht
  have hbst : ∀ t, t < k → b.testBit (qsortInts targs k t) = false := by
    intro t ht
    obtain ⟨j, hj, e⟩ := (hset _).mp ⟨t, ht, rfl⟩
    rw [← e]
    exact hzero j hj
  obtain ⟨task, htask, hb2⟩ := insertZeroBits_surj (qsortInts targs k) k n b hmono hstlt hb hbst
  have hshift : (2 ^ n) >>> k = 2 ^ (n - k) := by
    rw [Nat.shiftRight_eq_div_pow, Nat.pow_div hkn (by decide)]
  rw [multiQubitUnitaryLocal_stateVec, hn, hu, Nat.one_shiftLeft, hshift]
  have hgather : ∀ task i,
      forLoop k (fun t ind => if extractBit t i ≠ 0 then flipBit ind (targs t) else ind)
          (forLoop k (fun t x => insertZeroBit x (qsortInts targs k t)) task)
        = forLoop k (fun t x => insertZeroBit x (qsortInts targs k t)) task
          ^^^ targetBits targs k i :=
    fun task i => gatherIndex_eq_xor targs k _ i hinj
  simp only [hgather]
  have hginj : ∀ task r r2, r < 2 ^ k → r2 < 2 ^ k →
      forLoop k (fun t x => insertZeroBit x (qsortInts targs k t)) task ^^^ targetBits targs k r
        = forLoop k (fun t x => insertZeroBit x (qsortInts targs k t)) task
          ^^^ targetBits targs k r2 → r = r2 := by
    intro task r r2 hr hr2 e
    exact (group_index_inj targs k _ _ r r2 hinj (hins0 task) (hins0 task) hr hr2 e).2
  obtain ⟨k1, _⟩ := forLoop_footprint ComplexArray.amp (2 ^ (n - k))
    (fun thisTask (sv : ComplexArray K) =>
      if ctrlMask ≠ 0 ∧ (ctrlMask &&&
          (forLoop k (fun t x => insertZeroBit x (qsortInts targs k t)) thisTask
            + qureg.chunkId * 2 ^ n)) ≠ ctrlMask then sv
      else multiQubitTask u (2 ^ k) (fun i =>
        forLoop k (fun t x => insertZeroBit x (qsortInts targs k t)) thisTask
          ^^^ targetBits targs k i) sv)
    (fun thisTask j => ∃ i, i < 2 ^ k ∧
      j = forLoop k (fun t x => insertZeroBit x (qsortInts targs k t)) thisTask
        ^^^ targetBits targs k i)
    (by
      intro thisTask _ sv j hj
      by_cases hg : ctrlMask ≠ 0 ∧ (ctrlMask &&&
          (forLoop k (fun t x => insertZeroBit x (qsortInts targs k t)) thisTask
            + qureg.chunkId * 2 ^ n)) ≠ ctrlMask
      · simp only [if_pos hg]
      · simp only [if_neg hg]
        exact (multiQubitTask_amp u (2 ^ k) _ (hginj thisTask) sv).2 j
          (fun i hi e => hj ⟨i, hi, e⟩))
    (by
      intro thisTask _ sv sv2 hagree j hj
      obtain ⟨i, hi, rfl⟩ := hj
      by_cases hg : ctrlMask ≠ 0 ∧ (ctrlMask &&&
          (forLoop k (fun t x => insertZeroBit x (qsortInts targs k t)) thisTask
            + qureg.chunkId * 2 ^ n)) ≠ ctrlMask
      · simp only [if_pos hg]
        exact hagree _ ⟨i, hi, rfl⟩
      · simp only [if_neg hg]
        rw [(multiQubitTask_amp u (2 ^ k) _ (hginj thisTask) sv).1 i hi,
          (multiQubitTask_amp u (2 ^ k) _ (hginj thisTask) sv2).1 i hi]
        apply Finset.sum_congr rfl
        intro c hc
        rw [hagree _ ⟨c, Finset.mem_range.mp hc, rfl⟩])
    (by
      intro t1 t2 j _ _ h1 h2
      obtain ⟨i1, hi1, e1⟩ := h1
      obtain ⟨i2, hi2, e2⟩ := h2
      have e := group_index_inj targs k _ _ i1 i2 hinj (hins0 t1) (hins0 t2) hi1 hi2
        (e1.symm.trans e2)
      exact insertZeroBits_inj (qsortInts targs k) k t1 t2 e.1)
    qureg.stateVec
  have hk1 := k1 task htask (b ^^^ targetBits targs k r) ⟨r, hr, by rw [hb2]⟩
  rw [hk1]
  simp only [hb2, Nat.add_comm b]
  by_cases hg : ctrlMask ≠ 0 ∧ ctrlMask &&& (qureg.chunkId * 2 ^ n + b) ≠ ctrlMask
  · simp only [if_pos hg]
  · simp only [if_neg hg]
    have ht := (multiQubitTask_amp u (2 ^ k) (fun i => b ^^^ targetBits targs k i)
      (by
        intro r1 r2 h1 h2 e
        have := hginj task r1 r2 h1 h2
        rw [hb2] at this
        exact this e) qureg.stateVec).1 r hr
    exact ht

/-- Claim C21: for a chunk of `2^n` amplitudes and `k` distinct targets below `n` given in
any order, with a matrix `u` on `k` qubits, `statevec_multiControlledMultiQubitUnitaryLocal`
treats the group of every local index `b < 2^n` whose target bits are all 0 as follows,
where `P(i)` (`targetBits`) has bit `targs[j]` set for each set bit `j` of `i`: when
`ctrlMask ≠ 0` and `ctrlMask AND (chunkId * 2^n + b) ≠ ctrlMask` every amplitude
`b XOR P(i)` of the group is unchanged, otherwise the amplitude at `b XOR P(r)` becomes the
sum over `c < 2^k` of `u[r][c]` times the old amplitude at `b XOR P(c)`. -/
theorem multiQubitUnitaryLocal_group (n k : Nat) (qureg : Qureg K)
    (hn : qureg.numAmpsPerChunk = 2 ^ n) (ctrlMask : Nat) (targs : Nat → Nat)
    (u : ComplexMatrixN K) (hu : u.numQubits = k) (hlt : ∀ j, j < k → targs j < n)
    (hinj : ∀ i, i < k → ∀ j, j < k → targs i = targs j → i = j)
    (b : Nat) (hb : b < 2 ^ n) (hzero : ∀ j, j < k → b.testBit (targs j) = false) :
    (ctrlMask ≠ 0 ∧ ctrlMask &&& (qureg.chunkId * 2 ^ n + b) ≠ ctrlMask →
      ∀ i, i < 2 ^ k →
        (statevec_multiControlledMultiQubitUnitaryLocal qureg ctrlMask targs k u).stateVec.amp
            (b ^^^ targetBits targs k i)
          = qureg.stateVec.amp (b ^^^ targetBits targs k i)) ∧
    (¬ (ctrlMask ≠ 0 ∧ ctrlMask &&& (qureg.chunkId * 2 ^ n + b) ≠ ctrlMask) →
      ∀ r, r < 2 ^ k →
        (statevec_multiControlledMultiQubitUnitaryLocal qureg ctrlMask targs k u).stateVec.amp
            (b ^^^ targetBits targs k r)
          = ∑ c in Finset.range (2 ^ k),
              cmul (u.real r c, u.imag r c)
                (qureg.stateVec.amp (b ^^^ targetBits targs k c))) := by
  have h := multiQubitUnitaryLocal_group_aux n k qureg hn ctrlMask targs u hu hlt
    (fun i j hi hj e => hinj i hi j hj e) b hb hzero
  constructor
  · intro hg i hi
    rw [h i hi, if_pos hg]
  · intro hg r hr
    rw [h r hr, if_neg hg]

/-- Witness of C21: 3 qubits on one chunk, targets `(2, 0)`, the cyclic matrix
`u[c + 1 mod 4][c] = 1`, the group of `b = 0`: without controls the amplitude at index
`P(1) = 4` becomes the old amplitude at index `P(0) = 0`, and the amplitude at `P(2) = 1`
the old one at `P(1) = 4`; with the control mask `2` (qubit 1, clear in `b`) the amplitude at
index 4 is unchanged. -/
theorem multiQubitUnitaryLocal_group_witness :
    (statevec_multiControlledMultiQubitUnitaryLocal sampleQureg8 0 sampleTargs 2
        sampleCycleMatrix).stateVec.amp 4 = sampleQureg8.stateVec.amp 0 ∧
    (statevec_multiControlledMultiQubitUnitaryLocal sampleQureg8 0 sampleTargs 2
        sampleCycleMatrix).stateVec.amp 1 = sampleQureg8.stateVec.amp 4 ∧
    (statevec_multiControlledMultiQubitUnitaryLocal sampleQureg8 2 sampleTargs 2
        sampleCycleMatrix).stateVec.amp 4 = sampleQureg8.stateVec.amp 4 := by
  have h := multiQubitUnitaryLocal_group 3 2 sampleQureg8 rfl 0 sampleTargs
    sampleCycleMatrix rfl (by decide) (by decide) 0 (by decide) (by decide)
  have g := multiQubitUnitaryLocal_group 3 2 sampleQureg8 rfl 2 sampleTargs
    sampleCycleMatrix rfl (by decide) (by decide) 0 (by decide) (by decide)
  have p0 : targetBits sampleTargs 2 0 = 0 := by decide
  have p1 : targetBits sampleTargs 2 1 = 4 := by decide
  have p2 : targetBits sampleTargs 2 2 = 1 := by decide
  have p3 : targetBits sampleTargs 2 3 = 5 := by decide
  have h1 := h.2 (by decide) 1 (by decide)
  have h2 := h.2 (by decide) 2 (by decide)
  have g1 := g.1 (by decide) 1 (by decide)
  rw [p1, Nat.zero_xor] at h1 g1
  rw [p2, Nat.zero_xor] at h2
  refine ⟨h1.trans ?_, h2.trans ?_, g1⟩
  · simp [Finset.sum_range_succ, p0, p1, p2, p3, cmul, sampleCycleMatrix]
  · simp [Finset.sum_range_succ, p0, p1, p2, p3, cmul, sampleCycleMatrix]

end MultiQubitClaims

section Reductions
variable {K : Type} [Field K]

/-- Function `densmatr_calcPurityLocal` as a sum. -/
theorem calcPurityLocal_sum (qureg : Qureg K) :
    densmatr_calcPurityLocal qureg
      = ∑ i in Finset.range qureg.numAmpsPerChunk,
          (qureg.stateVec.real i * qureg.stateVec.real i
            + qureg.stateVec.imag i * qureg.stateVec.imag i) := by
  rw [← forLoop_add]
  rfl

/-- Function `densmatr_calcHilbertSchmidtDistanceSquaredLocal` as a sum. -/
theorem calcHilbertSchmidtDistanceSquaredLocal_sum (a b : Qureg K) :
    densmatr_calcHilbertSchmidtDistanceSquaredLocal a b
      = ∑ i in Finset.range a.numAmpsPerChunk,
          ((a.stateVec.real i - b.stateVec.real i) * (a.stateVec.real i - b.stateVec.real i)
            + (a.stateVec.imag i - b.stateVec.imag i)
              * (a.stateVec.imag i - b.stateVec.imag i)) := by
  rw [← forLoop_add]
  rfl

/-- Function `densmatr_calcInnerProductLocal` as a sum. -/
theorem calcInnerProductLocal_sum (a b : Qureg K) :
    densmatr_calcInnerProductLocal a b
      = ∑ i in Finset.range a.numAmpsPerChunk,
          (a.stateVec.real i * b.stateVec.real i
            + a.stateVec.imag i * b.stateVec.imag i) := by
  rw [← forLoop_add]
  rfl

end Reductions

section ReductionClaims

/-- Claim C40: for registers `a`, `b` with the same `numAmpsPerChunk`, over an ordered field,
`densmatr_calcHilbertSchmidtDistanceSquaredLocal(a, b)` equals
`densmatr_calcPurityLocal(a) + densmatr_calcPurityLocal(b)
- 2 * densmatr_calcInnerProductLocal(a, b)`; it is symmetric in `a` and `b`, non-negative,
and zero when `a` and `b` hold the same amplitudes in the chunk. -/
theorem hilbertSchmidt_purity_innerProduct {K : Type} [LinearOrderedField K] (a b : Qureg K)
    (hn : a.numAmpsPerChunk = b.numAmpsPerChunk) :
    densmatr_calcHilbertSchmidtDistanceSquaredLocal a b
      = densmatr_calcPurityLocal a + densmatr_calcPurityLocal b
        - 2 * densmatr_calcInnerProductLocal a b ∧
    densmatr_calcHilbertSchmidtDistanceSquaredLocal a b
      = densmatr_calcHilbertSchmidtDistanceSquaredLocal b a ∧
    0 ≤ densmatr_calcHilbertSchmidtDistanceSquaredLocal a b ∧
    ((∀ i, i < a.numAmpsPerChunk → a.stateVec.amp i = b.stateVec.amp i) →
      densmatr_calcHilbertSchmidtDistanceSquaredLocal a b = 0) := by
  refine ⟨?_, ?_, ?_, ?_⟩
  · rw [calcHilbertSchmidtDistanceSquaredLocal_sum, calcPurityLocal_sum, calcPurityLocal_sum,
      calcInnerProductLocal_sum, ← hn, Finset.mul_sum, ← Finset.sum_add_distrib,
      ← Finset.sum_sub_distrib]
    apply Finset.sum_congr rfl
    intro i _
    ring
  · rw [calcHilbertSchmidtDistanceSquaredLocal_sum, calcHilbertSchmidtDistanceSquaredLocal_sum,
      ← hn]
    apply Finset.sum_congr rfl
    intro i _
    ring
  · rw [calcHilbertSchmidtDistanceSquaredLocal_sum]
    apply Finset.sum_nonneg
    intro i _
    exact add_nonneg (mul_self_nonneg _) (mul_self_nonneg _)
  · intro h
    rw [calcHilbertSchmidtDistanceSquaredLocal_sum]
    apply Finset.sum_eq_zero
    intro i hi
    have e := h i (Finset.mem_range.mp hi)
    simp only [ComplexArray.amp, Prod.mk.injEq] at e
    rw [e.1, e.2]
    ring

/-- Witness of C40: two registers of 4 amplitudes over the rationals: the purities are 50
and 30, the inner product is 10 and the distance is `50 + 30 - 2 * 10 = 60`. -/
theorem hilbertSchmidt_purity_innerProduct_witness :
    densmatr_calcHilbertSchmidtDistanceSquaredLocal sampleReductionA sampleReductionB = 60 ∧
    densmatr_calcPurityLocal sampleReductionA = 50 ∧
    densmatr_calcPurityLocal sampleReductionB = 30 ∧
    densmatr_calcInnerProductLocal sampleReductionA sampleReductionB = 10 := by
  have h := (hilbertSchmidt_purity_innerProduct sampleReductionA sampleReductionB rfl).1
  have pa : densmatr_calcPurityLocal sampleReductionA = 50 := by
    rw [calcPurityLocal_sum]
    simp [sampleReductionA, Finset.sum_range_succ]
    norm_num
  have pb : densmatr_calcPurityLocal sampleReductionB = 30 := by
    rw [calcPurityLocal_sum]
    simp [sampleReductionB, Finset.sum_range_succ]
    norm_num
  have ip : densmatr_calcInnerProductLocal sampleReductionA sampleReductionB = 10 := by
    rw [calcInnerProductLocal_sum]
    simp [sampleReductionA, sampleReductionB, Finset.sum_range_succ]
    norm_num
  refine ⟨?_, pa, pb, ip⟩
  rw [h, pa, pb, ip]
  norm_num

end ReductionClaims

section CollapseNorm
variable {K : Type} [Field K]

/-- Chunk size after `statevec_collapseToKnownProbOutcomeLocal`. -/
theorem collapseLocal_numAmps (sqrt : K → K) (qureg : Qureg K) (t outcome : Nat) (p : K) :
    (statevec_collapseToKnownProbOutcomeLocal sqrt qureg t outcome p).numAmpsPerChunk
      = qureg.numAmpsPerChunk := by
  unfold statevec_collapseToKnownProbOutcomeLocal
  simp only []
  split <;> rfl

/-- Squared modulus of an amplitude after the collapse. -/
theorem collapseLocal_normSq (k t outcome : Nat) (ht : t < k) (ho : outcome < 2)
    (sqrt : K → K) (qureg : Qureg K) (hn : qureg.numAmpsPerChunk = 2 ^ k) (p : K)
    (hs : sqrt p * sqrt p = p) (hp : p ≠ 0) (i : Nat) (hi : i < 2 ^ k) :
    normSq ((statevec_collapseToKnownProbOutcomeLocal sqrt qureg t outcome p).stateVec.amp i)
      = if extractBit t i = outcome then normSq (qureg.stateVec.amp i) / p else 0 := by
  have hs0 : sqrt p ≠ 0 := by
    intro h0
    rw [h0, mul_zero] at hs
    exact hp hs.symm
  rw [collapseLocal_amp k t outcome ht ho sqrt qureg hn p i hi]
  by_cases hb : extractBit t i = outcome
  · rw [if_pos hb, if_pos hb]
    simp only [normSq, ComplexArray.amp]
    generalize sqrt p = s at hs hs0
    subst hs
    field_simp
  · rw [if_neg hb, if_neg hb]
    simp [normSq]

/-- After the collapse to `outcome` with the probability `p` of that outcome, the total
norm is 1 and the probability of zero is 1 or 0. -/
theorem collapseLocal_renormalised (k t outcome : Nat) (ht : t < k) (ho : outcome < 2)
    (sqrt : K → K) (qureg : Qureg K) (hn : qureg.numAmpsPerChunk = 2 ^ k) (p : K)
    (hs : sqrt p * sqrt p = p) (hp : p ≠ 0)
    (hpv : p = ∑ i in (Finset.range (2 ^ k)).filter (fun i => extractBit t i = outcome),
      normSq (qureg.stateVec.amp i)) :
    totalProb (2 ^ k)
        (statevec_collapseToKnownProbOutcomeLocal sqrt qureg t outcome p).stateVec = 1 ∧
    statevec_findProbabilityOfZeroLocal
        (statevec_collapseToKnownProbOutcomeLocal sqrt qureg t outcome p) t
      = if outcome = 0 then 1 else 0 := by
  have hsum : ∑ i in (Finset.range (2 ^ k)).filter (fun i => extractBit t i = outcome),
      normSq (qureg.stateVec.amp i) / p = 1 := by
    rw [← Finset.sum_div, ← hpv]
    exact div_self hp
  constructor
  · unfold totalProb
    rw [Finset.sum_congr rfl (fun i hi => collapseLocal_normSq k t outcome ht ho sqrt qureg hn
      p hs hp i (Finset.mem_range.mp hi)), ← Finset.sum_filter]
    exact hsum
  · rw [statevec_findProbabilityOfZeroLocal_eq k t ht _
      ((collapseLocal_numAmps sqrt qureg t outcome p).trans hn)]
    rw [Finset.sum_congr rfl (fun i hi => collapseLocal_normSq k t outcome ht ho sqrt qureg hn
      p hs hp i (Finset.mem_range.mp (Finset.mem_filter.mp hi).1))]
    by_cases h0 : outcome = 0
    · subst h0
      rw [if_pos rfl]
      rw [Finset.sum_congr rfl (fun i hi => if_pos (Finset.mem_filter.mp hi).2)]
      exact hsum
    · rw [if_neg h0]
      apply Finset.sum_eq_zero
      intro i hi
      rw [if_neg]
      rw [(Finset.mem_filter.mp hi).2]
      exact fun h => h0 h.symm

end CollapseNorm

section CollapseNormClaims

/-- Claim C37: for a state over the real numbers with `numAmpsPerChunk = 2^k` and `t < k`,
if `p0 = statevec_findProbabilityOfZeroLocal(t) > 0` then after
`statevec_collapseToKnownProbOutcomeLocal(t, 0, p0)` the sum of `re² + im²` over the
amplitudes is 1 and `statevec_findProbabilityOfZeroLocal(t)` returns 1; and if `p1`, the sum
of `re² + im²` over the indices with bit `t` equal to 1, is positive, then after the collapse
to outcome 1 with `p1` the sum is 1 and the probability of zero is 0. -/
theorem collapseLocal_renormalises (k t : Nat) (ht : t < k) (qureg : Qureg ℝ)
    (hn : qureg.numAmpsPerChunk = 2 ^ k) :
    (0 < statevec_findProbabilityOfZeroLocal qureg t →
      totalProb (2 ^ k)
          (statevec_collapseToKnownProbOutcomeLocal Real.sqrt qureg t 0
            (statevec_findProbabilityOfZeroLocal qureg t)).stateVec = 1 ∧
      statevec_findProbabilityOfZeroLocal
          (statevec_collapseToKnownProbOutcomeLocal Real.sqrt qureg t 0
            (statevec_findProbabilityOfZeroLocal qureg t)) t = 1) ∧
    (0 < ∑ i in (Finset.range (2 ^ k)).filter (fun i => extractBit t i = 1),
        normSq (qureg.stateVec.amp i) →
      totalProb (2 ^ k)
          (statevec_collapseToKnownProbOutcomeLocal Real.sqrt qureg t 1
            (∑ i in (Finset.range (2 ^ k)).filter (fun i => extractBit t i = 1),
              normSq (qureg.stateVec.amp i))).stateVec = 1 ∧
      statevec_findProbabilityOfZeroLocal
          (statevec_collapseToKnownProbOutcomeLocal Real.sqrt qureg t 1
            (∑ i in (Finset.range (2 ^ k)).filter (fun i => extractBit t i = 1),
              normSq (qureg.stateVec.amp i))) t = 0) := by
  constructor
  · intro hp
    have h := collapseLocal_renormalised k t 0 ht (by decide) Real.sqrt qureg hn
      (statevec_findProbabilityOfZeroLocal qureg t) (Real.mul_self_sqrt (le_of_lt hp))
      (ne_of_gt hp) (statevec_findProbabilityOfZeroLocal_eq k t ht qureg hn)
    exact ⟨h.1, h.2.trans (if_pos rfl)⟩
  · intro hp
    have h := collapseLocal_renormalised k t 1 ht (by decide) Real.sqrt qureg hn
      _ (Real.mul_self_sqrt (le_of_lt hp)) (ne_of_gt hp) rfl
    exact ⟨h.1, h.2.trans (if_neg (by decide))⟩

/-- Witness of C37: the Bell state `(1/sqrt 2, 0, 0, 1/sqrt 2)`, qubit 0: the probability of
zero is positive, and after the collapse to outcome 0 the total norm is 1. -/
theorem collapseLocal_renormalises_witness :
    totalProb (2 ^ 2)
        (statevec_collapseToKnownProbOutcomeLocal Real.sqrt (bellState (1 / Real.sqrt 2)) 0 0
          (statevec_findProbabilityOfZeroLocal (bellState (1 / Real.sqrt 2)) 0)).stateVec = 1 ∧
    statevec_findProbabilityOfZeroLocal
        (statevec_collapseToKnownProbOutcomeLocal Real.sqrt (bellState (1 / Real.sqrt 2)) 0 0
          (statevec_findProbabilityOfZeroLocal (bellState (1 / Real.sqrt 2)) 0)) 0 = 1 := by
  have hpos : 0 < statevec_findProbabilityOfZeroLocal (bellState (1 / Real.sqrt 2)) 0 := by
    rw [statevec_findProbabilityOfZeroLocal_eq 2 0 (by decide) _ rfl]
    have hf : (Finset.range (2 ^ 2)).filter (fun i => extractBit 0 i = 0) = {0, 2} := by
      decide
    rw [hf]
    have hs0 : (0 : ℝ) < Real.sqrt 2 := Real.sqrt_pos.mpr (by norm_num)
    simp [bellState, normSq, ComplexArray.amp]
  exact (collapseLocal_renormalises 2 0 (by decide) (bellState (1 / Real.sqrt 2)) rfl).1 hpos

end CollapseNormClaims

section DephasingFrame
variable {K : Type} [Field K]

/-- The row bit `t` and the column bit `t` of a diagonal index agree. -/
theorem diag_bits_agree (N t k : Nat) (ht : t < N) (hk : k < 2 ^ N) :
    extractBit t (k * (2 ^ N + 1)) = extractBit (t + N) (k * (2 ^ N + 1)) := by
  rw [extractBit_eq_iff, diag_entry, testBit_entry N k k t hk, testBit_entry N k k (t + N) hk,
    if_pos ht, if_neg (show ¬ t + N < N by omega), Nat.add_sub_cancel]

end DephasingFrame

section DephasingFrameClaims
variable {K : Type} [Field K]

/-- Claim C38: for every density register of `N ≥ 1` qubits, every chunk, targets
`t1, t2 < N` and level `lambda`, `densmatr_mixTwoQubitDephasing` multiplies a local amplitude
by `1 - lambda` when the row bit and the column bit of its global index differ on `t1` or
differ on `t2`, and leaves it as it was otherwise; so every amplitude whose row and column
bits agree on both targets is unchanged, in particular every diagonal element (global index
`k (2^N + 1)`), and on a single chunk the trace is unchanged. -/
theorem mixTwoQubitDephasing_frame (N t1 t2 : Nat) (h1 : t1 < N) (h2 : t2 < N)
    (qureg : Qureg K) (hN : qureg.numQubitsRepresented = N) (lambda : K) :
    (∀ i, i < qureg.numAmpsPerChunk →
      (extractBit t1 (i + qureg.numAmpsPerChunk * qureg.chunkId)
            ≠ extractBit (t1 + N) (i + qureg.numAmpsPerChunk * qureg.chunkId)
          ∨ extractBit t2 (i + qureg.numAmpsPerChunk * qureg.chunkId)
            ≠ extractBit (t2 + N) (i + qureg.numAmpsPerChunk * qureg.chunkId)) →
      (densmatr_mixTwoQubitDephasing qureg t1 t2 lambda).stateVec.amp i
        = (1 - lambda) • qureg.stateVec.amp i) ∧
    (∀ i, i < qureg.numAmpsPerChunk →
      extractBit t1 (i + qureg.numAmpsPerChunk * qureg.chunkId)
        = extractBit (t1 + N) (i + qureg.numAmpsPerChunk * qureg.chunkId) →
      extractBit t2 (i + qureg.numAmpsPerChunk * qureg.chunkId)
        = extractBit (t2 + N) (i + qureg.numAmpsPerChunk * qureg.chunkId) →
      (densmatr_mixTwoQubitDephasing qureg t1 t2 lambda).stateVec.amp i
        = qureg.stateVec.amp i) ∧
    (∀ i k, i < qureg.numAmpsPerChunk → k < 2 ^ N →
      i + qureg.numAmpsPerChunk * qureg.chunkId = k * (2 ^ N + 1) →
      (densmatr_mixTwoQubitDephasing qureg t1 t2 lambda).stateVec.amp i
        = qureg.stateVec.amp i) ∧
    (qureg.chunkId = 0 → qureg.numAmpsPerChunk = 2 ^ (2 * N) →
      densityTrace N (densmatr_mixTwoQubitDephasing qureg t1 t2 lambda).stateVec
        = densityTrace N qureg.stateVec) := by
  have hN0 : 0 < N := by omega
  have hkeep : ∀ i, i < qureg.numAmpsPerChunk →
      extractBit t1 (i + qureg.numAmpsPerChunk * qureg.chunkId)
        = extractBit (t1 + N) (i + qureg.numAmpsPerChunk * qureg.chunkId) →
      extractBit t2 (i + qureg.numAmpsPerChunk * qureg.chunkId)
        = extractBit (t2 + N) (i + qureg.numAmpsPerChunk * qureg.chunkId) →
      (densmatr_mixTwoQubitDephasing qureg t1 t2 lambda).stateVec.amp i
        = qureg.stateVec.amp i := by
    intro i hi e1 e2
    rw [mixTwoQubitDephasing_amp N t1 t2 hN0 qureg hN lambda i hi, if_neg]
    rintro (h | h)
    · exact h e1
    · exact h e2
  have hdiag : ∀ i k, i < qureg.numAmpsPerChunk → k < 2 ^ N →
      i + qureg.numAmpsPerChunk * qureg.chunkId = k * (2 ^ N + 1) →
      (densmatr_mixTwoQubitDephasing qureg t1 t2 lambda).stateVec.amp i
        = qureg.stateVec.amp i := by
    intro i k hi hk e
    apply hkeep i hi
    · rw [e]
      exact diag_bits_agree N t1 k h1 hk
    · rw [e]
      exact diag_bits_agree N t2 k h2 hk
  refine ⟨?_, hkeep, hdiag, ?_⟩
  · intro i hi hd
    rw [mixTwoQubitDephasing_amp N t1 t2 hN0 qureg hN lambda i hi, if_pos hd]
  · intro hc hn
    unfold densityTrace
    apply Finset.sum_congr rfl
    intro k hk
    have hk2 : k < 2 ^ N := Finset.mem_range.mp hk
    have hlt : k * (2 ^ N + 1) < qureg.numAmpsPerChunk := by
      rw [hn, diag_entry]
      exact entry_lt N k k hk2 hk2
    have h := hdiag (k * (2 ^ N + 1)) k hlt hk2 (by rw [hc, Nat.mul_zero, Nat.add_zero])
    exact congrArg Prod.fst h

/-- Witness of C38: two qubits in one chunk, targets 0 and 1, level `1/2`: the amplitude at
index 5 (row `01`, column `01`) is unchanged, the one at index 1 (row `01`, column `00`) is
halved, and the trace is unchanged. -/
theorem mixTwoQubitDephasing_frame_witness :
    (densmatr_mixTwoQubitDephasing sampleDensity16 0 1 (1 / 2 : ℚ)).stateVec.amp 5
      = sampleDensity16.stateVec.amp 5 ∧
    (densmatr_mixTwoQubitDephasing sampleDensity16 0 1 (1 / 2 : ℚ)).stateVec.amp 1
      = (1 - (1 / 2 : ℚ)) • sampleDensity16.stateVec.amp 1 ∧
    densityTrace 2 (densmatr_mixTwoQubitDephasing sampleDensity16 0 1 (1 / 2 : ℚ)).stateVec
      = densityTrace 2 sampleDensity16.stateVec :=
  have h := mixTwoQubitDephasing_frame 2 0 1 (by decide) (by decide) sampleDensity16 rfl
    (1 / 2 : ℚ)
  ⟨h.2.1 5 (by decide) (by decide) (by decide), h.1 1 (by decide) (by decide),
    h.2.2.2 rfl rfl⟩

end DephasingFrameClaims

section TupleSums
variable {K : Type} [Field K]

/-- Flipping the row and column bits of the qubit `p` keeps the agreement of the row and
column bits on the qubits `p` and `q`. -/
theorem agree_xor_mask (N p q x : Nat) (hp : p < N) (hq : q < N) (hne : p ≠ q) :
    ((x ^^^ (2 ^ p ||| 2 ^ (p + N))).testBit p = (x ^^^ (2 ^ p ||| 2 ^ (p + N))).testBit (p + N)
      ∧ (x ^^^ (2 ^ p ||| 2 ^ (p + N))).testBit q
        = (x ^^^ (2 ^ p ||| 2 ^ (p + N))).testBit (q + N))
    ↔ (x.testBit p = x.testBit (p + N) ∧ x.testBit q = x.testBit (q + N)) := by
  rw [testBit_xor_mask, testBit_xor_mask, testBit_xor_mask, testBit_xor_mask,
    if_pos (Or.inl rfl), if_pos (Or.inr rfl),
    if_neg (show ¬ (p = q ∨ p + N = q) by omega),
    if_neg (show ¬ (p = q + N ∨ p + N = q + N) by omega)]
  cases x.testBit p <;> cases x.testBit (p + N) <;> simp

/-- The sum of a 4-tuple in XOR-mask form: multiplied by `gamma (1 + delta)^3` when the row
and column bits of its members agree on `q1` and `q2`, unchanged otherwise. -/
theorem mixTwoQubitDepolarisingLocal_tuple_xor (N q1 q2 : Nat) (h1 : q1 < N) (h2 : q2 < N)
    (hne : q1 ≠ q2) (qureg : Qureg K) (hN : qureg.numQubitsRepresented = N)
    (hn : qureg.numAmpsPerChunk = 2 ^ (2 * N)) (hc : qureg.chunkId = 0) (delta gamma : K)
    (j : Nat) (hj : j < 2 ^ (2 * N)) :
    (densmatr_mixTwoQubitDepolarisingLocal qureg q1 q2 delta gamma).stateVec.amp j
      + (densmatr_mixTwoQubitDepolarisingLocal qureg q1 q2 delta gamma).stateVec.amp
          (j ^^^ (2 ^ q1 ||| 2 ^ (q1 + N)))
      + (densmatr_mixTwoQubitDepolarisingLocal qureg q1 q2 delta gamma).stateVec.amp
          (j ^^^ (2 ^ q2 ||| 2 ^ (q2 + N)))
      + (densmatr_mixTwoQubitDepolarisingLocal qureg q1 q2 delta gamma).stateVec.amp
          ((j ^^^ (2 ^ q2 ||| 2 ^ (q2 + N))) ^^^ (2 ^ q1 ||| 2 ^ (q1 + N)))
      = (if j.testBit q1 = j.testBit (q1 + N) ∧ j.testBit q2 = j.testBit (q2 + N)
          then gamma * (1 + delta) ^ 3 else 1)
        • (qureg.stateVec.amp j + qureg.stateVec.amp (j ^^^ (2 ^ q1 ||| 2 ^ (q1 + N)))
          + qureg.stateVec.amp (j ^^^ (2 ^ q2 ||| 2 ^ (q2 + N)))
          + qureg.stateVec.amp
              ((j ^^^ (2 ^ q2 ||| 2 ^ (q2 + N))) ^^^ (2 ^ q1 ||| 2 ^ (q1 + N)))) := by
  have ha : q1 < 2 * N := by omega
  have ha' : q1 + N < 2 * N := by omega
  have hb : q2 < 2 * N := by omega
  have hb' : q2 + N < 2 * N := by omega
  have hx1 : ∀ x, x < 2 ^ (2 * N) → x ^^^ (2 ^ q1 ||| 2 ^ (q1 + N)) < 2 ^ (2 * N) :=
    fun x hx => Nat.xor_lt_two_pow hx (mask_lt _ _ _ ha ha')
  have hx2 : ∀ x, x < 2 ^ (2 * N) → x ^^^ (2 ^ q2 ||| 2 ^ (q2 + N)) < 2 ^ (2 * N) :=
    fun x hx => Nat.xor_lt_two_pow hx (mask_lt _ _ _ hb hb')
  have g1 := agree_xor_mask N q1 q2 j h1 h2 hne
  have g2 : ((j ^^^ (2 ^ q2 ||| 2 ^ (q2 + N))).testBit q1
        = (j ^^^ (2 ^ q2 ||| 2 ^ (q2 + N))).testBit (q1 + N)
      ∧ (j ^^^ (2 ^ q2 ||| 2 ^ (q2 + N))).testBit q2
        = (j ^^^ (2 ^ q2 ||| 2 ^ (q2 + N))).testBit (q2 + N))
      ↔ (j.testBit q1 = j.testBit (q1 + N) ∧ j.testBit q2 = j.testBit (q2 + N)) := by
    rw [and_comm, agree_xor_mask N q2 q1 j h2 h1 (fun e => hne e.symm), and_comm]
  have g3 := (agree_xor_mask N q1 q2 (j ^^^ (2 ^ q2 ||| 2 ^ (q2 + N))) h1 h2 hne).trans g2
  have A := mixTwoQubitDepolarisingLocal_amp N q1 q2 h1 h2 hne qureg hN hn hc delta gamma
  rw [A j hj, A _ (hx1 j hj), A _ (hx2 j hj), A _ (hx1 _ (hx2 j hj))]
  simp only [g1, g2, g3]
  have c0 : (j ^^^ (2 ^ q1 ||| 2 ^ (q1 + N))) ^^^ (2 ^ q2 ||| 2 ^ (q2 + N))
      = (j ^^^ (2 ^ q2 ||| 2 ^ (q2 + N))) ^^^ (2 ^ q1 ||| 2 ^ (q1 + N)) := xor_right_comm _ _ _
  have c1 : ((j ^^^ (2 ^ q2 ||| 2 ^ (q2 + N))) ^^^ (2 ^ q1 ||| 2 ^ (q1 + N)))
      ^^^ (2 ^ q2 ||| 2 ^ (q2 + N)) = j ^^^ (2 ^ q1 ||| 2 ^ (q1 + N)) := by
    rw [xor_right_comm (j ^^^ (2 ^ q2 ||| 2 ^ (q2 + N))), Nat.xor_cancel_right]
  by_cases hD : j.testBit q1 = j.testBit (q1 + N) ∧ j.testBit q2 = j.testBit (q2 + N)
  · simp only [if_pos hD, c1, c0, Nat.xor_cancel_right]
    generalize qureg.stateVec.amp j = w
    generalize qureg.stateVec.amp (j ^^^ (2 ^ q1 ||| 2 ^ (q1 + N))) = x
    generalize qureg.stateVec.amp (j ^^^ (2 ^ q2 ||| 2 ^ (q2 + N))) = y
    generalize qureg.stateVec.amp
      ((j ^^^ (2 ^ q2 ||| 2 ^ (q2 + N))) ^^^ (2 ^ q1 ||| 2 ^ (q1 + N))) = z
    refine Prod.ext ?_ ?_ <;> (simp; ring)
  · simp only [if_neg hD, one_smul]

/-- The sum of each 4-tuple after `densmatr_mixTwoQubitDepolarisingLocal`. -/
theorem mixTwoQubitDepolarisingLocal_tuple (N q1 q2 : Nat) (h1 : q1 < N) (h2 : q2 < N)
    (hne : q1 ≠ q2) (qureg : Qureg K) (hN : qureg.numQubitsRepresented = N)
    (hn : qureg.numAmpsPerChunk = 2 ^ (2 * N)) (hc : qureg.chunkId = 0) (delta gamma : K)
    (j : Nat) (hj : j < 2 ^ (2 * N)) :
    tupleSum N q1 q2 (densmatr_mixTwoQubitDepolarisingLocal qureg q1 q2 delta gamma).stateVec j
      = (if extractBit q1 j = extractBit (q1 + N) j ∧ extractBit q2 j = extractBit (q2 + N) j
          then gamma * (1 + delta) ^ 3 else 1) • tupleSum N q1 q2 qureg.stateVec j := by
  have d1 : q1 ≠ q1 + N := by omega
  have d2 : q2 ≠ q2 + N := by omega
  have h := mixTwoQubitDepolarisingLocal_tuple_xor N q1 q2 h1 h2 hne qureg hN hn hc delta gamma
    j hj
  rw [xor_mask_eq_flip q2 (q2 + N) j d2, xor_mask_eq_flip q1 (q1 + N) j d1,
    xor_mask_eq_flip q1 (q1 + N) _ d1] at h
  simp only [extractBit_eq_iff]
  exact h

/-- The trace after `densmatr_mixTwoQubitDepolarisingLocal` is `gamma (1 + delta)^3` times
the trace before. -/
theorem mixTwoQubitDepolarisingLocal_trace_scaled (N q1 q2 : Nat) (h1 : q1 < N) (h2 : q2 < N)
    (hne : q1 ≠ q2) (qureg : Qureg K) (hN : qureg.numQubitsRepresented = N)
    (hn : qureg.numAmpsPerChunk = 2 ^ (2 * N)) (hc : qureg.chunkId = 0) (delta gamma : K) :
    densityTrace N (densmatr_mixTwoQubitDepolarisingLocal qureg q1 q2 delta gamma).stateVec
      = gamma * (1 + delta) ^ 3 * densityTrace N qureg.stateVec := by
  have d1 : q1 ≠ q1 + N := by omega
  have d2 : q2 ≠ q2 + N := by omega
  unfold densityTrace
  have hterm : ∀ k ∈ Finset.range (2 ^ N),
      (densmatr_mixTwoQubitDepolarisingLocal qureg q1 q2 delta gamma).stateVec.real
          (k * (2 ^ N + 1))
        = gamma * ((1 + delta ^ 3) * qureg.stateVec.real (k * (2 ^ N + 1))
          + (delta + delta ^ 2) * (qureg.stateVec.real (flipBit k q1 * (2 ^ N + 1))
            + qureg.stateVec.real (flipBit k q2 * (2 ^ N + 1))
            + qureg.stateVec.real (flipBit (flipBit k q2) q1 * (2 ^ N + 1)))) := by
    intro k hk
    rw [Finset.mem_range] at hk
    have h := mixTwoQubitDepolarisingLocal_amp N q1 q2 h1 h2 hne qureg hN hn hc delta gamma
      (k * (2 ^ N + 1)) (by rw [diag_entry]; exact entry_lt N k k hk hk)
    rw [xor_mask_eq_flip q2 (q2 + N) _ d2, xor_mask_eq_flip q1 (q1 + N) _ d1,
      xor_mask_eq_flip q1 (q1 + N) _ d1, diag_entry, flip_entry N q1 k k h1 hk,
      flip_entry N q2 k k h2 hk, flip_entry N q1 _ _ h1 (flipBit_lt N q2 k h2 hk),
      testBit_entry N k k q1 hk, testBit_entry N k k (q1 + N) hk,
      testBit_entry N k k q2 hk, testBit_entry N k k (q2 + N) hk, if_pos h1, if_pos h2,
      if_neg (show ¬ q1 + N < N by omega), if_neg (show ¬ q2 + N < N by omega),
      Nat.add_sub_cancel, Nat.add_sub_cancel, if_pos ⟨rfl, rfl⟩, ← diag_entry, ← diag_entry,
      ← diag_entry, ← diag_entry] at h
    have h3 := congrArg Prod.fst h
    simpa [ComplexArray.amp] using h3
  rw [Finset.sum_congr rfl hterm, ← Finset.mul_sum, Finset.sum_add_distrib, ← Finset.mul_sum,
    ← Finset.mul_sum, Finset.sum_add_distrib, Finset.sum_add_distrib,
    sum_flipBit N q1 h1 (fun k => qureg.stateVec.real (k * (2 ^ N + 1))),
    sum_flipBit N q2 h2 (fun k => qureg.stateVec.real (k * (2 ^ N + 1))),
    sum_flipBit N q2 h2 (fun k => qureg.stateVec.real (flipBit k q1 * (2 ^ N + 1))),
    sum_flipBit N q1 h1 (fun k => qureg.stateVec.real (k * (2 ^ N + 1)))]
  ring

end TupleSums

section TupleSumClaims
variable {K : Type} [Field K]

/-- Claim C39 (amended): on a single-chunk density register of `N` qubits with distinct
`q1, q2 < N`, `densmatr_mixTwoQubitDepolarisingLocal(q1, q2, delta, gamma)` multiplies by
`gamma (1 + delta)^3` the sum of each 4-tuple of amplitudes related by flipping row and
column bits together on `q1` and/or `q2` whose members have equal row and column bits on
both `q1` and `q2`, and leaves the sum of every other such 4-tuple (and its members)
unchanged; the trace is multiplied by `gamma (1 + delta)^3`, hence unchanged for every
`delta, gamma` with `gamma (1 + delta)^3 = 1`, for every input matrix. -/
theorem mixTwoQubitDepolarisingLocal_tuple_sums (N q1 q2 : Nat) (h1 : q1 < N) (h2 : q2 < N)
    (hne : q1 ≠ q2) (qureg : Qureg K) (hN : qureg.numQubitsRepresented = N)
    (hn : qureg.numAmpsPerChunk = 2 ^ (2 * N)) (hc : qureg.chunkId = 0) (delta gamma : K) :
    (∀ j, j < 2 ^ (2 * N) →
      extractBit q1 j = extractBit (q1 + N) j → extractBit q2 j = extractBit (q2 + N) j →
      tupleSum N q1 q2
          (densmatr_mixTwoQubitDepolarisingLocal qureg q1 q2 delta gamma).stateVec j
        = (gamma * (1 + delta) ^ 3) • tupleSum N q1 q2 qureg.stateVec j) ∧
    (∀ j, j < 2 ^ (2 * N) →
      ¬ (extractBit q1 j = extractBit (q1 + N) j ∧ extractBit q2 j = extractBit (q2 + N) j) →
      tupleSum N q1 q2
          (densmatr_mixTwoQubitDepolarisingLocal qureg q1 q2 delta gamma).stateVec j
        = tupleSum N q1 q2 qureg.stateVec j) ∧
    densityTrace N (densmatr_mixTwoQubitDepolarisingLocal qureg q1 q2 delta gamma).stateVec
      = gamma * (1 + delta) ^ 3 * densityTrace N qureg.stateVec ∧
    (gamma * (1 + delta) ^ 3 = 1 →
      densityTrace N (densmatr_mixTwoQubitDepolarisingLocal qureg q1 q2 delta gamma).stateVec
        = densityTrace N qureg.stateVec) := by
  have ht := mixTwoQubitDepolarisingLocal_trace_scaled N q1 q2 h1 h2 hne qureg hN hn hc delta
    gamma
  refine ⟨?_, ?_, ht, ?_⟩
  · intro j hj e1 e2
    rw [mixTwoQubitDepolarisingLocal_tuple N q1 q2 h1 h2 hne qureg hN hn hc delta gamma j hj,
      if_pos ⟨e1, e2⟩]
  · intro j hj hD
    rw [mixTwoQubitDepolarisingLocal_tuple N q1 q2 h1 h2 hne qureg hN hn hc delta gamma j hj,
      if_neg hD, one_smul]
  · intro hg
    rw [ht, hg, one_mul]

/-- Witness of C39: two qubits in one chunk of sixteen amplitudes `(i + 1) + 2 i * I`,
qubits 0 and 1: with `delta = 2`, `gamma = 3` the sum of the 4-tuple of index 0
(indices 0, 5, 10, 15) is multiplied by `81`, and with `delta = 1`, `gamma = 1/8` the trace
is unchanged. -/
theorem mixTwoQubitDepolarisingLocal_tuple_sums_witness :
    tupleSum 2 0 1 (densmatr_mixTwoQubitDepolarisingLocal sampleDensity16 0 1 (2 : ℚ) 3).stateVec
        0
      = ((3 : ℚ) * (1 + 2) ^ 3) • tupleSum 2 0 1 sampleDensity16.stateVec 0 ∧
    densityTrace 2
        (densmatr_mixTwoQubitDepolarisingLocal sampleDensity16 0 1 (1 : ℚ) (1 / 8)).stateVec
      = densityTrace 2 sampleDensity16.stateVec :=
  ⟨(mixTwoQubitDepolarisingLocal_tuple_sums 2 0 1 (by decide) (by decide) (by decide)
      sampleDensity16 rfl rfl rfl (2 : ℚ) 3).1 0 (by decide) (by decide) (by decide),
    (mixTwoQubitDepolarisingLocal_tuple_sums 2 0 1 (by decide) (by decide) (by decide)
      sampleDensity16 rfl rfl rfl (1 : ℚ) (1 / 8)).2.2.2 (by norm_num)⟩

/-- Counterexample to C39 as stated: on a two-qubit density register, qubits 0 and 1,
`delta = 2`, `gamma = 3`, it is not the case that the sum of each 4-tuple is multiplied by
`gamma (1 + delta)^3 = 81`: the 4-tuple of index 1 (indices 1, 4, 11, 14), whose row and
column bits differ on qubit 0, keeps its sum `34 + 60 i`. -/
theorem mixTwoQubitDepolarisingLocal_tuple_counterexample :
    ¬ (∀ j, j < 16 →
      tupleSum 2 0 1
          (densmatr_mixTwoQubitDepolarisingLocal sampleDensity16 0 1 (2 : ℚ) 3).stateVec j
        = ((3 : ℚ) * (1 + 2) ^ 3) • tupleSum 2 0 1 sampleDensity16.stateVec j) := by
  intro h
  have h1 := h 1 (by decide)
  rw [mixTwoQubitDepolarisingLocal_tuple 2 0 1 (by decide) (by decide) (by decide)
    sampleDensity16 rfl rfl rfl (2 : ℚ) 3 1 (by decide), if_neg (by decide), one_smul] at h1
  have f1 : flipBit (flipBit 1 0) (0 + 2) = 4 := by decide
  have f2 : flipBit (flipBit 1 1) (1 + 2) = 11 := by decide
  have f3 : flipBit (flipBit 11 0) (0 + 2) = 14 := by decide
  have h2 := congrArg Prod.fst h1
  simp only [tupleSum, f1, f2, f3] at h2
  simp [sampleDensity16, ComplexArray.amp] at h2
  norm_num at h2

end TupleSumClaims

section PairSteps
variable {K : Type}

/-- The inner loop of a restructured kernel over the upper indices `start, ..., stop - 1`,
for any step `P` that rewrites one pair with `F`. -/
theorem isPairMap_step_forRange (F : K × K → K × K → (K × K) × (K × K)) (t : Nat)
    (P : Nat → Nat → ComplexArray K → ComplexArray K)
    (hP : ∀ up, up.testBit t = false → IsPairMap F t (P up (up + 2 ^ t)) (fun x => x = up))
    (start stop : Nat) (hclean : ∀ x, start ≤ x → x < stop → x.testBit t = false) :
    IsPairMap F t (forRange start stop 1 (fun indexUp sv => P indexUp (indexUp + 2 ^ t) sv))
      (fun x => start ≤ x ∧ x < stop) := by
  unfold forRange
  have hcount : (stop - start + (1 - 1)) / 1 = stop - start := by simp
  rw [hcount]
  apply isPairMap_congr _ _ _ (fun x => ∃ i, i < stop - start ∧ x = start + 1 * i)
  · apply isPairMap_forLoop
    · intro i hi
      exact hP _ (hclean _ (by omega) (by omega))
    · intro i i' x _ _ h h'
      omega
  · intro x
    constructor
    · rintro ⟨i, hi, rfl⟩
      omega
    · rintro ⟨h1, h2⟩
      exact ⟨x - start, by omega, by omega⟩

/-- The loops over the half blocks of the target qubit rewrite every pair of the chunk. -/
theorem isPairMap_step_halfBlocks (F : K × K → K × K → (K × K) × (K × K)) (k t : Nat)
    (ht : t < k) (P : Nat → Nat → ComplexArray K → ComplexArray K)
    (hP : ∀ up, up.testBit t = false → IsPairMap F t (P up (up + 2 ^ t)) (fun x => x = up)) :
    IsPairMap F t
      (forLoop (2 ^ (k - t - 1)) (fun thisTask =>
        forRange (thisTask * 2 ^ t * 2) (thisTask * 2 ^ t * 2 + 2 ^ t) 1
          (fun indexUp sv => P indexUp (indexUp + 2 ^ t) sv)))
      (fun x => x < 2 ^ k ∧ x.testBit t = false) := by
  have hpos : 0 < 2 ^ t := Nat.two_pow_pos t
  have hdig : ∀ task x, (task * 2 ^ t * 2 ≤ x ∧ x < task * 2 ^ t * 2 + 2 ^ t) ↔
      (x / 2 ^ (t + 1) = task ∧ extractBit t x = 0) := by
    intro task x
    have e : task * (2 ^ t * 2) = task * 2 ^ t * 2 := by ring
    constructor
    · rintro ⟨h1, h2⟩
      obtain ⟨a1, a2, _⟩ := split_unique t task 0 (x - task * 2 ^ t * 2) x (by decide)
        (by omega) (by rw [Nat.pow_succ]; omega)
      exact ⟨a1, a2⟩
    · rintro ⟨h1, h2⟩
      have s1 := split_at_bit t x
      rw [h1, h2, Nat.pow_succ] at s1
      have := Nat.mod_lt x hpos
      omega
  apply isPairMap_congr _ _ _ (fun x => ∃ task, task < 2 ^ (k - t - 1) ∧
    (task * 2 ^ t * 2 ≤ x ∧ x < task * 2 ^ t * 2 + 2 ^ t))
  · apply isPairMap_forLoop
    · intro task _
      apply isPairMap_step_forRange F t P hP
      intro x h1 h2
      exact (extractBit_eq_zero_iff _ _).mp ((hdig task x).mp ⟨h1, h2⟩).2
    · intro task task' x _ _ hx hx'
      exact ((hdig task x).mp hx).1.symm.trans ((hdig task' x).mp hx').1
  · intro x
    have hb := digits_union_block k t x ht (extractBit t x = 0)
    rw [← extractBit_eq_zero_iff, ← hb]
    constructor
    · rintro ⟨task, htask, h⟩
      exact ⟨task, htask, (hdig task x).mp h⟩
    · rintro ⟨task, htask, h⟩
      exact ⟨task, htask, (hdig task x).mpr h⟩

/-- The predicated loop over all tasks rewrites the pairs whose upper index passes the
guard. -/
theorem isPairMap_step_tasks (F : K × K → K × K → (K × K) × (K × K)) (k t : Nat)
    (ht : t < k) (P : Nat → Nat → ComplexArray K → ComplexArray K)
    (hP : ∀ up, up.testBit t = false → IsPairMap F t (P up (up + 2 ^ t)) (fun x => x = up))
    (guard : Nat → Prop) [DecidablePred guard] :
    IsPairMap F t
      (forLoop ((2 ^ k) >>> 1) (fun thisTask sv =>
        if guard (pairUp (2 ^ t) thisTask) then
          P (pairUp (2 ^ t) thisTask) (pairUp (2 ^ t) thisTask + 2 ^ t) sv
        else sv))
      (fun x => x < 2 ^ k ∧ x.testBit t = false ∧ guard x) := by
  apply isPairMap_congr _ _ _ (fun x => ∃ i, i < (2 ^ k) >>> 1 ∧
    (x = pairUp (2 ^ t) i ∧ guard (pairUp (2 ^ t) i)))
  · apply isPairMap_forLoop
    · intro i _
      have hclean : (pairUp (2 ^ t) i).testBit t = false := by
        rw [pairUp_eq_insertZeroBit, testBit_insertZeroBit]
        simp
      by_cases hc : guard (pairUp (2 ^ t) i)
      · simp only [hc, if_true]
        exact isPairMap_congr _ _ _ _ _ (hP _ hclean)
          (fun x => ⟨fun h => ⟨h, trivial⟩, fun h => h.1⟩)
      · simp only [hc, if_false]
        exact isPairMap_congr _ _ _ _ _ (isPairMap_id _ t)
          (fun x => ⟨fun h => h.elim, fun h => h.2⟩)
    · intro i i' x _ _ h h'
      have e : pairUp (2 ^ t) i = pairUp (2 ^ t) i' := h.1.symm.trans h'.1
      have e' := congrArg (pairTask (2 ^ t)) e
      rw [pairTask_pairUp _ _ (Nat.two_pow_pos t), pairTask_pairUp _ _ (Nat.two_pow_pos t)]
        at e'
      exact e'
  · intro x
    constructor
    · rintro ⟨i, hi, rfl, hc⟩
      refine ⟨pairUp_lt k t i ht hi, ?_, hc⟩
      rw [pairUp_eq_insertZeroBit, testBit_insertZeroBit]
      simp
    · rintro ⟨h1, h2, h3⟩
      have hx : pairUp (2 ^ t) (pairTask (2 ^ t) x) = x := pairUp_pairTask t x h2
      refine ⟨pairTask (2 ^ t) x, pairTask_lt k t x ht h1, hx.symm, ?_⟩
      rw [hx]
      exact h3

/-- The loop over all tasks without a guard rewrites every pair of the chunk. -/
theorem isPairMap_step_allTasks (F : K × K → K × K → (K × K) × (K × K)) (k t : Nat)
    (ht : t < k) (P : Nat → Nat → ComplexArray K → ComplexArray K)
    (hP : ∀ up, up.testBit t = false → IsPairMap F t (P up (up + 2 ^ t)) (fun x => x = up)) :
    IsPairMap F t
      (forLoop ((2 ^ k) >>> 1) (fun thisTask sv =>
        P (pairUp (2 ^ t) thisTask) (pairUp (2 ^ t) thisTask + 2 ^ t) sv))
      (fun x => x < 2 ^ k ∧ x.testBit t = false) := by
  have h := isPairMap_step_tasks F k t ht P hP (fun _ => True)
  simp only [if_true, and_true] at h
  exact h

/-- The loops over blocks and tasks around the scalar inner loop, for any step `P`. -/
theorem isPairMap_step_blocks (F : K × K → K × K → (K × K) × (K × K)) (k p q bp bq t : Nat)
    (hq : q < p) (hp : p < k) (hbp : bp < 2) (hbq : bq < 2)
    (ht : (t = p ∧ bp = 0) ∨ (t = q ∧ bq = 0))
    (P : Nat → Nat → ComplexArray K → ComplexArray K)
    (hP : ∀ up, up.testBit t = false → IsPairMap F t (P up (up + 2 ^ t)) (fun x => x = up))
    (start stop : Nat → Nat → Nat)
    (hstart : ∀ block task, start block task
      = block * 2 ^ (p + 1) + bp * 2 ^ p + task * 2 ^ (q + 1) + bq * 2 ^ q)
    (hstop : ∀ block task, stop block task
      = block * 2 ^ (p + 1) + bp * 2 ^ p + task * 2 ^ (q + 1) + bq * 2 ^ q + 2 ^ q) :
    IsPairMap F t
      (forLoop (2 ^ (k - p - 1)) (fun block =>
        forLoop (2 ^ (p - q - 1)) (fun task =>
          forRange (start block task) (stop block task) 1 (fun indexUp sv =>
            P indexUp (indexUp + 2 ^ t) sv))))
      (fun x => x < 2 ^ k ∧ extractBit p x = bp ∧ extractBit q x = bq) :=
  isPairMap_blocks _ k p q bp bq t hq hp hbp hbq ht start stop _ hstart hstop
    (fun _ _ hclean => isPairMap_step_forRange F t P hP _ _ hclean)

/-- Applying twice a pair map whose `F` undoes itself gives back the array. -/
theorem isPairMap_involution (F : K × K → K × K → (K × K) × (K × K)) (t : Nat)
    (T : ComplexArray K → ComplexArray K) (U : Nat → Prop) (h : IsPairMap F t T U)
    (hF : ∀ a b, F (F a b).1 (F a b).2 = (a, b)) (s : ComplexArray K) : T (T s) = s := by
  apply ComplexArray.ext_amp
  intro x
  by_cases hx : U x
  · rw [(h.2.1 (T s) x hx).1, (h.2.1 s x hx).1, (h.2.1 s x hx).2, hF]
  · by_cases hy : ∃ y, U y ∧ x = y + 2 ^ t
    · obtain ⟨y, hy, rfl⟩ := hy
      rw [(h.2.1 (T s) y hy).2, (h.2.1 s y hy).1, (h.2.1 s y hy).2, hF]
    · have hlo : ∀ y, U y → x ≠ y + 2 ^ t := fun y hy' hxy => hy ⟨y, hy', hxy⟩
      rw [h.2.2 (T s) x hx hlo, h.2.2 s x hx hlo]

/-- A pair map for `F` is a pair map for any `G` that agrees with `F`. -/
theorem isPairMap_congr_fun (F G : K × K → K × K → (K × K) × (K × K)) (t : Nat)
    (T : ComplexArray K → ComplexArray K) (U : Nat → Prop) (h : IsPairMap F t T U)
    (hFG : ∀ a b, F a b = G a b) : IsPairMap G t T U := by
  have e : F = G := funext fun a => funext fun b => hFG a b
  rw [← e]
  exact h

end PairSteps

section PauliY
variable {K : Type} [Field K]

/-- One Pauli-Y step is a pair map for the single upper index `up`: both new amplitudes
are computed from the original pair. -/
theorem isPairMap_pauliY_pair (conjFac : Int) (t up : Nat) (hup : up.testBit t = false) :
    IsPairMap (pauliYF (conjFac : K)) t (pauliY_pair conjFac up (up + 2 ^ t))
      (fun x => x = up) := by
  have hpos : 0 < 2 ^ t := Nat.two_pow_pos t
  have hne : up ≠ up + 2 ^ t := by omega
  have hne' : up + 2 ^ t ≠ up := by omega
  refine ⟨?_, ?_, ?_⟩
  · rintro x rfl
    exact hup
  · rintro s x rfl
    simp [pauliY_pair, ComplexArray.amp, pauliYF, Function.update_noteq hne,
      Function.update_noteq hne']
  · intro s x hx hlo
    have hx2 : x ≠ up + 2 ^ t := hlo up rfl
    simp [pauliY_pair, ComplexArray.amp, Function.update_noteq hx, Function.update_noteq hx2]

/-- One step of `statevec_unitaryLocal` is a pair map for the single upper index `up`. -/
theorem isPairMap_unitary_pair (u : ComplexMatrix2 K) (t up : Nat)
    (hup : up.testBit t = false) :
    IsPairMap (unitaryF u) t (unitary_pair u up (up + 2 ^ t)) (fun x => x = up) := by
  have hpos : 0 < 2 ^ t := Nat.two_pow_pos t
  have hne : up ≠ up + 2 ^ t := by omega
  refine ⟨?_, ?_, ?_⟩
  · rintro x rfl
    exact hup
  · rintro s x rfl
    simp [unitary_pair, ComplexArray.amp, unitaryF, Function.update_noteq hne]
  · intro s x hx hlo
    have hx2 : x ≠ up + 2 ^ t := hlo up rfl
    simp [unitary_pair, ComplexArray.amp, Function.update_noteq hx, Function.update_noteq hx2]

/-- The loop of `statevec_pauliYLocal` over a chunk of `2^k` amplitudes. -/
theorem pauliYLocal_eq (k t : Nat) (qureg : Qureg K) (hn : qureg.numAmpsPerChunk = 2 ^ k)
    (conjFac : Int) :
    statevec_pauliYLocal qureg t conjFac
      = { qureg with stateVec := (forLoop ((2 ^ k) >>> 1) (fun thisTask sv =>
            pauliY_pair conjFac (pairUp (2 ^ t) thisTask) (pairUp (2 ^ t) thisTask + 2 ^ t) sv)
          qureg.stateVec) } := by
  have h : statevec_pauliYLocal qureg t conjFac
      = { qureg with stateVec := (forLoop (qureg.numAmpsPerChunk >>> 1) (fun thisTask sv =>
            pauliY_pair conjFac (pairUp (1 <<< t) thisTask) (pairUp (1 <<< t) thisTask + 1 <<< t)
              sv) qureg.stateVec) } := rfl
  rw [h, hn, Nat.one_shiftLeft]

/-- The loops of `statevec_pauliYLocalSmall` over a chunk of `2^k` amplitudes. -/
theorem pauliYLocalSmall_eq (k t : Nat) (ht : t < k) (qureg : Qureg K)
    (hn : qureg.numAmpsPerChunk = 2 ^ k) (conjFac : Int) :
    statevec_pauliYLocalSmall qureg t conjFac
      = { qureg with stateVec := (forLoop (2 ^ (k - t - 1)) (fun thisTask =>
            forRange (thisTask * 2 ^ t * 2) (thisTask * 2 ^ t * 2 + 2 ^ t) 1
              (fun indexUp sv => pauliY_pair conjFac indexUp (indexUp + 2 ^ t) sv))
          qureg.stateVec) } := by
  have h : statevec_pauliYLocalSmall qureg t conjFac
      = { qureg with stateVec := (forLoop (qureg.numAmpsPerChunk >>> (1 + t)) (fun thisTask =>
            forRange (thisTask * 1 <<< t * 2) (thisTask * 1 <<< t * 2 + 1 <<< t) 1
              (fun indexUp sv => pauliY_pair conjFac indexUp (indexUp + 1 <<< t) sv))
          qureg.stateVec) } := rfl
  rw [h, hn, Nat.one_shiftLeft, two_pow_shiftRight k t ht]

/-- The loop of `statevec_unitaryLocal` over a chunk of `2^k` amplitudes. -/
theorem unitaryLocal_eq (k t : Nat) (qureg : Qureg K) (hn : qureg.numAmpsPerChunk = 2 ^ k)
    (u : ComplexMatrix2 K) :
    statevec_unitaryLocal qureg t u
      = { qureg with stateVec := (forLoop ((2 ^ k) >>> 1) (fun thisTask sv =>
            unitary_pair u (pairUp (2 ^ t) thisTask) (pairUp (2 ^ t) thisTask + 2 ^ t) sv)
          qureg.stateVec) } := by
  have h : statevec_unitaryLocal qureg t u
      = { qureg with stateVec := (forLoop (qureg.numAmpsPerChunk >>> 1) (fun thisTask sv =>
            unitary_pair u (pairUp (1 <<< t) thisTask) (pairUp (1 <<< t) thisTask + 1 <<< t)
              sv) qureg.stateVec) } := rfl
  rw [h, hn, Nat.one_shiftLeft]

theorem unitaryF_pauliYMatrix (conjFac : Int) (a b : K × K) :
    unitaryF (pauliYMatrix conjFac) a b = pauliYF (conjFac : K) a b := by
  simp [unitaryF, pauliYMatrix, pauliYF]

theorem pauliYF_involution (c : K) (hc : c * c = 1) (a b : K × K) :
    pauliYF c (pauliYF c a b).1 (pauliYF c a b).2 = (a, b) := by
  simp only [pauliYF]
  refine Prod.ext (Prod.ext ?_ ?_) (Prod.ext ?_ ?_)
  · simp only
    linear_combination a.1 * hc
  · simp only
    linear_combination a.2 * hc
  · simp only
    linear_combination b.1 * hc
  · simp only
    linear_combination b.2 * hc

theorem conjFac_sq (conjFac : Int) (h : conjFac = 1 ∨ conjFac = -1) :
    (conjFac : K) * (conjFac : K) = 1 := by
  rcases h with h | h <;> rw [h] <;> simp

end PauliY

section PauliYClaims
variable {K : Type} [Field K]

/-- Claim C33: Pauli-Y reads before it overwrites. For every register with
`numAmpsPerChunk = 2^k`, target `t < k` and integer `conjFac`, `statevec_pauliYLocal` sets
each pair `(x, x + 2^t)`, `x < 2^k` with bit `t` clear, to
`up' = conjFac (Im lo, -Re lo)` and `lo' = conjFac (-Im up, Re up)` computed from the original
`up` and `lo`; `statevec_pauliYLocalSmall` returns the same register, and both equal
`statevec_unitaryLocal(t, conjFac * {{0, -i}, {i, 0}})`; for `conjFac` in `{1, -1}` applying
either twice gives back the register. -/
theorem pauliY_reads_before_overwrite (k t : Nat) (ht : t < k) (qureg : Qureg K)
    (hn : qureg.numAmpsPerChunk = 2 ^ k) (conjFac : Int) :
    (∀ x, x < 2 ^ k → x.testBit t = false →
      (statevec_pauliYLocal qureg t conjFac).stateVec.amp x
        = ((conjFac : K) * qureg.stateVec.imag (x + 2 ^ t),
            (conjFac : K) * -qureg.stateVec.real (x + 2 ^ t)) ∧
      (statevec_pauliYLocal qureg t conjFac).stateVec.amp (x + 2 ^ t)
        = ((conjFac : K) * -qureg.stateVec.imag x, (conjFac : K) * qureg.stateVec.real x)) ∧
    statevec_pauliYLocalSmall qureg t conjFac = statevec_pauliYLocal qureg t conjFac ∧
    statevec_pauliYLocal qureg t conjFac
      = statevec_unitaryLocal qureg t (pauliYMatrix conjFac) ∧
    ((conjFac = 1 ∨ conjFac = -1) →
      statevec_pauliYLocal (statevec_pauliYLocal qureg t conjFac) t conjFac = qureg ∧
      statevec_pauliYLocalSmall (statevec_pauliYLocalSmall qureg t conjFac) t conjFac
        = qureg) := by
  have hL := isPairMap_step_allTasks (pauliYF (conjFac : K)) k t ht (pauliY_pair conjFac)
    (isPairMap_pauliY_pair conjFac t)
  have hS := isPairMap_step_halfBlocks (pauliYF (conjFac : K)) k t ht (pauliY_pair conjFac)
    (isPairMap_pauliY_pair conjFac t)
  have hU := isPairMap_congr_fun _ (pauliYF (conjFac : K)) t _ _
    (isPairMap_step_allTasks (unitaryF (pauliYMatrix conjFac)) k t ht
      (unitary_pair (pauliYMatrix conjFac)) (isPairMap_unitary_pair (pauliYMatrix conjFac) t))
    (unitaryF_pauliYMatrix conjFac)
  refine ⟨?_, ?_, ?_, ?_⟩
  · intro x hx hbit
    rw [pauliYLocal_eq k t qureg hn conjFac]
    exact hL.2.1 qureg.stateVec x ⟨hx, hbit⟩
  · rw [pauliYLocalSmall_eq k t ht qureg hn conjFac, pauliYLocal_eq k t qureg hn conjFac,
      isPairMap_unique _ t _ _ _ hS hL qureg.stateVec]
  · rw [pauliYLocal_eq k t qureg hn conjFac, unitaryLocal_eq k t qureg hn,
      isPairMap_unique _ t _ _ _ hL hU qureg.stateVec]
  · intro hc
    have hF := pauliYF_involution (conjFac : K) (conjFac_sq conjFac hc)
    constructor
    · rw [pauliYLocal_eq k t (statevec_pauliYLocal qureg t conjFac) hn conjFac,
        pauliYLocal_eq k t qureg hn conjFac]
      simp only []
      rw [isPairMap_involution _ t _ _ hL hF qureg.stateVec]
    · rw [pauliYLocalSmall_eq k t ht (statevec_pauliYLocalSmall qureg t conjFac) hn conjFac,
        pauliYLocalSmall_eq k t ht qureg hn conjFac]
      simp only []
      rw [isPairMap_involution _ t _ _ hS hF qureg.stateVec]

/-- Witness of C33: a register of eight amplitudes `i + (i² - 3) i`, target qubit 1,
`conjFac = -1`: the pair `(0, 2)` becomes `up' = -(Im lo, -Re lo) = (-1, 2)` and
`lo' = -(-Im up, Re up) = (-3, 0)`, the two kernels agree, and two applications give back
the register. -/
theorem pauliY_reads_before_overwrite_witness :
    (statevec_pauliYLocal sampleQureg8 1 (-1)).stateVec.amp 0 = (-1, 2) ∧
    (statevec_pauliYLocal sampleQureg8 1 (-1)).stateVec.amp 2 = (-3, 0) ∧
    statevec_pauliYLocalSmall sampleQureg8 1 (-1) = statevec_pauliYLocal sampleQureg8 1 (-1) ∧
    statevec_pauliYLocal sampleQureg8 1 (-1)
      = statevec_unitaryLocal sampleQureg8 1 (pauliYMatrix (-1)) ∧
    statevec_pauliYLocal (statevec_pauliYLocal sampleQureg8 1 (-1)) 1 (-1) = sampleQureg8 ∧
    statevec_pauliYLocalSmall (statevec_pauliYLocalSmall sampleQureg8 1 (-1)) 1 (-1)
      = sampleQureg8 := by
  have h := pauliY_reads_before_overwrite 3 1 (by decide) sampleQureg8 rfl (-1)
  have h0 := h.1 0 (by decide) (by decide)
  refine ⟨?_, ?_, h.2.1, h.2.2.1, (h.2.2.2 (Or.inr rfl)).1, (h.2.2.2 (Or.inr rfl)).2⟩
  · rw [h0.1]
    refine Prod.ext ?_ ?_ <;> (simp [sampleQureg8]; try norm_num)
  · have h2 := h0.2
    rw [show (0 : Nat) + 2 ^ 1 = 2 from rfl] at h2
    rw [h2]
    refine Prod.ext ?_ ?_ <;> (simp [sampleQureg8]; try norm_num)

end PauliYClaims

section ControlledNotSmall
variable {K : Type}

/-- One swap step is a pair map for the single upper index `up`. -/
theorem isPairMap_controlledNot_pair (t up : Nat) (hup : up.testBit t = false) :
    IsPairMap (swapF : K × K → K × K → (K × K) × (K × K)) t
      (controlledNot_pair up (up + 2 ^ t)) (fun x => x = up) := by
  have hpos : 0 < 2 ^ t := Nat.two_pow_pos t
  have hne : up ≠ up + 2 ^ t := by omega
  refine ⟨?_, ?_, ?_⟩
  · rintro x rfl
    exact hup
  · rintro s x rfl
    simp [controlledNot_pair, ComplexArray.amp, swapF, Function.update_noteq hne]
  · intro s x hx hlo
    have hx2 : x ≠ up + 2 ^ t := hlo up rfl
    simp [controlledNot_pair, ComplexArray.amp, Function.update_noteq hx,
      Function.update_noteq hx2]

/-- One counting step is a pair map for the single upper index `up`. -/
theorem isPairMap_visitStep (t up : Nat) (hup : up.testBit t = false) :
    IsPairMap visitF t (visitStep up (up + 2 ^ t)) (fun x => x = up) := by
  have hpos : 0 < 2 ^ t := Nat.two_pow_pos t
  have hne : up + 2 ^ t ≠ up := by omega
  refine ⟨?_, ?_, ?_⟩
  · rintro x rfl
    exact hup
  · rintro s x rfl
    simp [visitStep, ComplexArray.amp, visitF, Function.update_noteq hne]
  · intro s x hx hlo
    simp [visitStep, ComplexArray.amp, Function.update_noteq hx]

/-- The loops of `statevec_controlledNotLocalSmall` for a control qubit inside the chunk
rewrite the pairs whose upper index has the control bit set, whatever the step. -/
theorem isPairMap_smallLoops (F : K × K → K × K → (K × K) × (K × K)) (k t c : Nat) (ht : t < k)
    (hck : c < k) (hct : c ≠ t) (P : Nat → Nat → ComplexArray K → ComplexArray K)
    (hP : ∀ up, up.testBit t = false → IsPairMap F t (P up (up + 2 ^ t)) (fun x => x = up)) :
    IsPairMap F t (controlledNotLocalSmall_loops (2 ^ k) c t P)
      (fun x => x < 2 ^ k ∧ x.testBit c = true ∧ x.testBit t = false) := by
  by_cases htc : t > c
  · have hstart : ∀ block task, block * (2 * 2 ^ t) + 2 ^ c * task * 2 + 2 ^ c
        = block * 2 ^ (t + 1) + 0 * 2 ^ t + task * 2 ^ (c + 1) + 1 * 2 ^ c := by
      intro block task
      rw [Nat.pow_succ, Nat.pow_succ]
      ring
    have hstop : ∀ block task, block * (2 * 2 ^ t) + 2 ^ c * task * 2 + 2 ^ c + 2 ^ c
        = block * 2 ^ (t + 1) + 0 * 2 ^ t + task * 2 ^ (c + 1) + 1 * 2 ^ c + 2 ^ c := by
      intro block task
      rw [hstart]
    have h := isPairMap_step_blocks F k t c 0 1 t htc ht (by decide) (by decide)
      (Or.inl ⟨rfl, rfl⟩) P hP _ _ hstart hstop
    have e : controlledNotLocalSmall_loops (2 ^ k) c t P
        = forLoop (2 ^ (k - t - 1)) (fun block =>
            forLoop (2 ^ (t - c - 1)) (fun task =>
              forRange (block * (2 * 2 ^ t) + 2 ^ c * task * 2 + 2 ^ c)
                (block * (2 * 2 ^ t) + 2 ^ c * task * 2 + 2 ^ c + 2 ^ c) 1
                (fun indexUp sv => P indexUp (indexUp + 2 ^ t) sv))) := by
      simp only [controlledNotLocalSmall_loops, htc, if_true, Nat.one_shiftLeft,
        two_pow_shiftRight k t ht]
    rw [e]
    refine isPairMap_congr _ _ _ _ _ h ?_
    intro x
    rw [extractBit_eq_zero_iff, extractBit_eq_one_iff]
    constructor
    · rintro ⟨a, b, d⟩
      exact ⟨a, d, b⟩
    · rintro ⟨a, b, d⟩
      exact ⟨a, d, b⟩
  · have hct' : t < c := by omega
    have hstart : ∀ block task, block * (2 <<< c) + 2 ^ t * task * 2 + 2 ^ c
        = block * 2 ^ (c + 1) + 1 * 2 ^ c + task * 2 ^ (t + 1) + 0 * 2 ^ t := by
      intro block task
      rw [Nat.shiftLeft_eq, Nat.pow_succ, Nat.pow_succ]
      ring
    have hstop : ∀ block task, block * (2 <<< c) + 2 ^ t * task * 2 + 2 ^ t + 2 ^ c
        = block * 2 ^ (c + 1) + 1 * 2 ^ c + task * 2 ^ (t + 1) + 0 * 2 ^ t + 2 ^ t := by
      intro block task
      rw [Nat.shiftLeft_eq, Nat.pow_succ, Nat.pow_succ]
      ring
    have h := isPairMap_step_blocks F k c t 1 0 t hct' hck (by decide) (by decide)
      (Or.inr ⟨rfl, rfl⟩) P hP _ _ hstart hstop
    have e : controlledNotLocalSmall_loops (2 ^ k) c t P
        = forLoop (2 ^ (k - c - 1)) (fun block =>
            forLoop (2 ^ (c - t - 1)) (fun task =>
              forRange (block * (2 <<< c) + 2 ^ t * task * 2 + 2 ^ c)
                (block * (2 <<< c) + 2 ^ t * task * 2 + 2 ^ t + 2 ^ c) 1
                (fun indexUp sv => P indexUp (indexUp + 2 ^ t) sv))) := by
      simp only [controlledNotLocalSmall_loops, htc, if_false, Nat.one_shiftLeft,
        two_pow_shiftRight k c hck]
    rw [e]
    refine isPairMap_congr _ _ _ _ _ h ?_
    intro x
    rw [extractBit_eq_zero_iff, extractBit_eq_one_iff]

/-- The loop of `statevec_controlledNotLocalAll` over a chunk of `2^k` amplitudes. -/
theorem controlledNotLocalAll_eq (k t c : Nat) (qureg : Qureg K)
    (hn : qureg.numAmpsPerChunk = 2 ^ k) :
    statevec_controlledNotLocalAll qureg c t
      = { qureg with stateVec := (forLoop ((2 ^ k) >>> 1) (fun thisTask sv =>
            controlledNot_pair (pairUp (2 ^ t) thisTask) (pairUp (2 ^ t) thisTask + 2 ^ t) sv)
          qureg.stateVec) } := by
  have h : statevec_controlledNotLocalAll qureg c t
      = { qureg with stateVec := (forLoop (qureg.numAmpsPerChunk >>> 1) (fun thisTask sv =>
            controlledNot_pair (pairUp (1 <<< t) thisTask)
              (pairUp (1 <<< t) thisTask + 1 <<< t) sv) qureg.stateVec) } := rfl
  rw [h, hn, Nat.one_shiftLeft]

/-- The loop of `statevec_controlledNotLocal` over a chunk of `2^k` amplitudes. -/
theorem controlledNotLocal_eq (k t c : Nat) (qureg : Qureg K)
    (hn : qureg.numAmpsPerChunk = 2 ^ k) :
    statevec_controlledNotLocal qureg c t
      = { qureg with stateVec := (forLoop ((2 ^ k) >>> 1) (fun thisTask sv =>
            if extractBit c (pairUp (2 ^ t) thisTask + qureg.chunkId * 2 ^ k) ≠ 0 then
              controlledNot_pair (pairUp (2 ^ t) thisTask) (pairUp (2 ^ t) thisTask + 2 ^ t) sv
            else sv) qureg.stateVec) } := by
  have h : statevec_controlledNotLocal qureg c t
      = { qureg with stateVec := (forLoop (qureg.numAmpsPerChunk >>> 1) (fun thisTask sv =>
            if extractBit c (pairUp (1 <<< t) thisTask
                + qureg.chunkId * qureg.numAmpsPerChunk) ≠ 0 then
              controlledNot_pair (pairUp (1 <<< t) thisTask)
                (pairUp (1 <<< t) thisTask + 1 <<< t) sv
            else sv) qureg.stateVec) } := rfl
  rw [h, hn, Nat.one_shiftLeft]

/-- The restructured kernel for a control qubit inside the chunk runs its loops. -/
theorem controlledNotLocalSmall_inside (k t c : Nat) (hck : c < k) (qureg : Qureg K)
    (hn : qureg.numAmpsPerChunk = 2 ^ k) :
    statevec_controlledNotLocalSmall qureg c t
      = { qureg with stateVec :=
            controlledNotLocalSmall_loops (2 ^ k) c t controlledNot_pair qureg.stateVec } := by
  have hlt : ¬ (1 <<< c ≥ qureg.numAmpsPerChunk) := by
    rw [hn, Nat.one_shiftLeft]
    have := Nat.pow_lt_pow_right (show 1 < 2 by decide) hck
    omega
  have h : statevec_controlledNotLocalSmall qureg c t
      = { qureg with stateVec := (controlledNotLocalSmall_loops qureg.numAmpsPerChunk c t
            controlledNot_pair qureg.stateVec) } := by
    unfold statevec_controlledNotLocalSmall
    rw [if_neg hlt]
    rfl
  rw [h, hn]

/-- The restructured kernel for a control qubit fixed by the chunk id swaps all pairs or
none. -/
theorem controlledNotLocalSmall_outside (k t c : Nat) (hck : ¬ c < k) (qureg : Qureg K)
    (hn : qureg.numAmpsPerChunk = 2 ^ k) :
    statevec_controlledNotLocalSmall qureg c t
      = if extractBit c (qureg.chunkId * 2 ^ k) = 1 then
          statevec_controlledNotLocalAll qureg c t
        else qureg := by
  have hge : 1 <<< c ≥ qureg.numAmpsPerChunk := by
    rw [hn, Nat.one_shiftLeft]
    exact Nat.pow_le_pow_right (by decide) (by omega)
  unfold statevec_controlledNotLocalSmall
  rw [if_pos hge, hn]
  by_cases hb : extractBit c (qureg.chunkId * 2 ^ k) = 1
  · rw [if_pos hb, if_pos (by rw [hb]; decide)]
  · have h0 : extractBit c (qureg.chunkId * 2 ^ k) = 0 := by
      have := extractBit_lt_two c (qureg.chunkId * 2 ^ k)
      omega
    rw [if_neg hb, if_neg (by rw [h0]; decide)]

/-- The restructured kernel leaves the same register as the predicated one. -/
theorem controlledNotLocalSmall_eq_local_aux (k t c : Nat) (ht : t < k) (hct : c ≠ t)
    (qureg : Qureg K) (hn : qureg.numAmpsPerChunk = 2 ^ k) :
    statevec_controlledNotLocalSmall qureg c t = statevec_controlledNotLocal qureg c t := by
  have hL := isPairMap_step_tasks (swapF : K × K → K × K → (K × K) × (K × K)) k t ht
    controlledNot_pair (isPairMap_controlledNot_pair t)
    (fun x => extractBit c (x + qureg.chunkId * 2 ^ k) ≠ 0)
  rw [controlledNotLocal_eq k t c qureg hn]
  by_cases hck : c < k
  · rw [controlledNotLocalSmall_inside k t c hck qureg hn]
    have hS := isPairMap_smallLoops (swapF : K × K → K × K → (K × K) × (K × K)) k t c ht hck
      hct controlledNot_pair (isPairMap_controlledNot_pair t)
    have hS' := isPairMap_congr _ _ _ _
      (fun x => x < 2 ^ k ∧ x.testBit t = false
        ∧ extractBit c (x + qureg.chunkId * 2 ^ k) ≠ 0) hS (by
      intro x
      constructor
      · rintro ⟨a, b, d⟩
        refine ⟨a, d, ?_⟩
        rw [extractBit_ne_zero_iff, testBit_global k _ x c a, if_pos hck]
        exact b
      · rintro ⟨a, b, d⟩
        rw [extractBit_ne_zero_iff, testBit_global k _ x c a, if_pos hck] at d
        exact ⟨a, d, b⟩)
    rw [isPairMap_unique _ t _ _ _ hS' hL qureg.stateVec]
  · have hbit : ∀ x, x < 2 ^ k →
        (x + qureg.chunkId * 2 ^ k).testBit c = (qureg.chunkId * 2 ^ k).testBit c := by
      intro x hx
      have h0 := testBit_global k qureg.chunkId 0 c (Nat.two_pow_pos k)
      rw [Nat.zero_add] at h0
      rw [testBit_global k _ x c hx, h0, if_neg hck, if_neg hck]
    rw [controlledNotLocalSmall_outside k t c hck qureg hn]
    by_cases hb : extractBit c (qureg.chunkId * 2 ^ k) = 1
    · rw [if_pos hb, controlledNotLocalAll_eq k t c qureg hn]
      have hA := isPairMap_step_allTasks (swapF : K × K → K × K → (K × K) × (K × K)) k t ht
        controlledNot_pair (isPairMap_controlledNot_pair t)
      have hA' := isPairMap_congr _ _ _ _
        (fun x => x < 2 ^ k ∧ x.testBit t = false
          ∧ extractBit c (x + qureg.chunkId * 2 ^ k) ≠ 0) hA (by
        intro x
        constructor
        · rintro ⟨a, b⟩
          refine ⟨a, b, ?_⟩
          rw [extractBit_ne_zero_iff, hbit x a]
          exact (extractBit_eq_one_iff _ _).mp hb
        · rintro ⟨a, b, _⟩
          exact ⟨a, b⟩)
      rw [isPairMap_unique _ t _ _ _ hA' hL qureg.stateVec]
    · rw [if_neg hb]
      have hI := isPairMap_congr _ _ _ _
        (fun x => x < 2 ^ k ∧ x.testBit t = false
          ∧ extractBit c (x + qureg.chunkId * 2 ^ k) ≠ 0)
        (isPairMap_id (swapF : K × K → K × K → (K × K) × (K × K)) t) (by
        intro x
        constructor
        · intro h
          exact h.elim
        · rintro ⟨a, _, d⟩
          rw [extractBit_ne_zero_iff, hbit x a] at d
          exact hb ((extractBit_eq_one_iff _ _).mpr d))
      have hu := isPairMap_unique _ t _ _ _ hI hL qureg.stateVec
      rw [← hu]

/-- The number of visits of each upper index by the loops of
`statevec_controlledNotLocalSmall`. -/
theorem controlledNotLocalSmall_visits (k t c : Nat) (ht : t < k) (hck : c < k) (hct : c ≠ t)
    (x : Nat) :
    (controlledNotLocalSmall_loops (2 ^ k) c t visitStep ⟨fun _ => 0, fun _ => 0⟩).real x
      = if x < 2 ^ k ∧ x.testBit c = true ∧ x.testBit t = false then 1 else 0 := by
  have h := isPairMap_smallLoops visitF k t c ht hck hct visitStep (isPairMap_visitStep t)
  by_cases hx : x < 2 ^ k ∧ x.testBit c = true ∧ x.testBit t = false
  · rw [if_pos hx]
    exact congrArg Prod.fst (h.2.1 ⟨fun _ => 0, fun _ => 0⟩ x hx).1
  · rw [if_neg hx]
    by_cases hy : ∃ y, (y < 2 ^ k ∧ y.testBit c = true ∧ y.testBit t = false) ∧ x = y + 2 ^ t
    · obtain ⟨y, hy, rfl⟩ := hy
      exact congrArg Prod.fst (h.2.1 ⟨fun _ => 0, fun _ => 0⟩ y hy).2
    · exact congrArg Prod.fst (h.2.2 ⟨fun _ => 0, fun _ => 0⟩ x hx
        (fun y hy' hxy => hy ⟨y, hy', hxy⟩))

end ControlledNotSmall

section ControlledNotSmallClaims
variable {K : Type}

/-- Claim C31: for every register with `numAmpsPerChunk = 2^k`, every chunk id, target
`t < k` and control `c ≠ t`, `statevec_controlledNotLocalSmall(c, t)` leaves exactly the same
register as `statevec_controlledNotLocal(c, t)`. When `2^c ≥ numAmpsPerChunk` it is
`statevec_controlledNotLocalAll`, which swaps all partner pairs `(x, x + 2^t)`, if bit `c` of
the chunk's first global index `chunkId * 2^k` is 1, and it changes nothing otherwise. When
`2^c < numAmpsPerChunk` it runs its block/task/offset loops, and these visit each upper
index below `2^k` with bit `c = 1` and bit `t = 0` exactly once and no other index. -/
theorem controlledNotLocalSmall_eq_local (k t c : Nat) (ht : t < k) (hct : c ≠ t)
    (qureg : Qureg K) (hn : qureg.numAmpsPerChunk = 2 ^ k) :
    statevec_controlledNotLocalSmall qureg c t = statevec_controlledNotLocal qureg c t ∧
    (2 ^ c ≥ 2 ^ k →
      statevec_controlledNotLocalSmall qureg c t
        = (if extractBit c (qureg.chunkId * 2 ^ k) = 1 then
            statevec_controlledNotLocalAll qureg c t
          else qureg) ∧
      ∀ x, x < 2 ^ k → x.testBit t = false →
        (statevec_controlledNotLocalAll qureg c t).stateVec.amp x
          = qureg.stateVec.amp (x + 2 ^ t) ∧
        (statevec_controlledNotLocalAll qureg c t).stateVec.amp (x + 2 ^ t)
          = qureg.stateVec.amp x) ∧
    (2 ^ c < 2 ^ k →
      statevec_controlledNotLocalSmall qureg c t
        = { qureg with stateVec :=
              controlledNotLocalSmall_loops (2 ^ k) c t controlledNot_pair qureg.stateVec } ∧
      ∀ x, (controlledNotLocalSmall_loops (2 ^ k) c t visitStep
            ⟨fun _ => 0, fun _ => 0⟩).real x
          = if x < 2 ^ k ∧ x.testBit c = true ∧ x.testBit t = false then 1 else 0) := by
  refine ⟨controlledNotLocalSmall_eq_local_aux k t c ht hct qureg hn, ?_, ?_⟩
  · intro hge
    have hck : ¬ c < k := by
      intro h
      have := Nat.pow_lt_pow_right (show 1 < 2 by decide) h
      omega
    refine ⟨controlledNotLocalSmall_outside k t c hck qureg hn, ?_⟩
    intro x hx hbit
    rw [controlledNotLocalAll_eq k t c qureg hn]
    exact (isPairMap_step_allTasks (swapF : K × K → K × K → (K × K) × (K × K)) k t ht
      controlledNot_pair (isPairMap_controlledNot_pair t)).2.1 qureg.stateVec x ⟨hx, hbit⟩
  · intro hlt
    have hck : c < k := (Nat.pow_lt_pow_iff_right (show 1 < 2 by decide)).mp hlt
    exact ⟨controlledNotLocalSmall_inside k t c hck qureg hn,
      controlledNotLocalSmall_visits k t c ht hck hct⟩

/-- Witness of C31: a register of eight amplitudes, control qubit 2 and target qubit 0: the
restructured kernel and the predicated kernel agree, and the loops visit the upper index 4
(bit 2 set, bit 0 clear) once and the index 5 never. -/
theorem controlledNotLocalSmall_eq_local_witness :
    statevec_controlledNotLocalSmall sampleQureg8 2 0 = statevec_controlledNotLocal sampleQureg8 2 0
    ∧ (controlledNotLocalSmall_loops (2 ^ 3) 2 0 visitStep ⟨fun _ => 0, fun _ => 0⟩).real 4 = 1
    ∧ (controlledNotLocalSmall_loops (2 ^ 3) 2 0 visitStep ⟨fun _ => 0, fun _ => 0⟩).real 5
      = 0 := by
  have h := @controlledNotLocalSmall_eq_local ℚ 3 0 2 (by decide) (by decide) sampleQureg8 rfl
  have hv := (h.2.2 (by decide)).2
  refine ⟨h.1, ?_, ?_⟩
  · rw [hv 4, if_pos (by decide)]
  · rw [hv 5, if_neg (by decide)]

end ControlledNotSmallClaims

section TwoQubit
variable {K : Type} [Field K]

theorem qsortInts_pair (q1 q2 : Nat) :
    qsortInts (pairTargs q1 q2) 2 0 = (if q1 < q2 then q1 else q2) ∧
    qsortInts (pairTargs q1 q2) 2 1 = (if q1 < q2 then q2 else q1) := by
  have hr : List.range 2 = [0, 1] := rfl
  unfold qsortInts
  rw [hr]
  simp only [List.map, pairTargs, if_true, one_ne_zero, if_false, List.insertionSort,
    List.orderedInsert]
  by_cases h : q1 ≤ q2
  · by_cases h2 : q1 < q2
    · simp [h, h2]
    · have e : q1 = q2 := by omega
      subst e
      simp
  · have h2 : ¬ q1 < q2 := by omega
    simp [h, h2]

theorem insertLoop_pair (q1 q2 task : Nat) :
    forLoop 2 (fun t x => insertZeroBit x (qsortInts (pairTargs q1 q2) 2 t)) task
      = insertTwoZeroBits task q1 q2 := by
  have h := qsortInts_pair q1 q2
  simp only [forLoop, h.1, h.2, insertTwoZeroBits]

theorem gatherLoop_pair (q1 q2 b : Nat) :
    (forLoop 2 (fun t ind => if extractBit t 0 ≠ 0 then flipBit ind (pairTargs q1 q2 t)
      else ind) b = b) ∧
    (forLoop 2 (fun t ind => if extractBit t 1 ≠ 0 then flipBit ind (pairTargs q1 q2 t)
      else ind) b = flipBit b q1) ∧
    (forLoop 2 (fun t ind => if extractBit t 2 ≠ 0 then flipBit ind (pairTargs q1 q2 t)
      else ind) b = flipBit b q2) ∧
    (forLoop 2 (fun t ind => if extractBit t 3 ≠ 0 then flipBit ind (pairTargs q1 q2 t)
      else ind) b = flipBit (flipBit b q1) q2) := by
  refine ⟨?_, ?_, ?_, ?_⟩ <;> simp [forLoop, extractBit, pairTargs]

omit [Field K] in
theorem matrix4ToN_entry (u : ComplexMatrix4 K) (r c : Fin 4) :
    (matrix4ToN u).real r.val c.val = u.real r c ∧
    (matrix4ToN u).imag r.val c.val = u.imag r c := by
  simp [matrix4ToN, Nat.mod_eq_of_lt r.isLt, Nat.mod_eq_of_lt c.isLt]

/-- The statements of a task of the multi-qubit kernel on a group of four distinct indices
are the eight assignments of the two-qubit kernel. -/
theorem multiQubitTask_four (u : ComplexMatrix4 K) (ind : Nat → Nat)
    (h01 : ind 0 ≠ ind 1) (h02 : ind 0 ≠ ind 2) (h03 : ind 0 ≠ ind 3) (h12 : ind 1 ≠ ind 2)
    (h13 : ind 1 ≠ ind 3) (h23 : ind 2 ≠ ind 3) (sv : ComplexArray K) :
    multiQubitTask (matrix4ToN u) 4 ind sv
      = ⟨Function.update (Function.update (Function.update (Function.update sv.real (ind 0)
            (u.real 0 0 * sv.real (ind 0) - u.imag 0 0 * sv.imag (ind 0) +
              u.real 0 1 * sv.real (ind 1) - u.imag 0 1 * sv.imag (ind 1) +
              u.real 0 2 * sv.real (ind 2) - u.imag 0 2 * sv.imag (ind 2) +
              u.real 0 3 * sv.real (ind 3) - u.imag 0 3 * sv.imag (ind 3)))
          (ind 1)
            (u.real 1 0 * sv.real (ind 0) - u.imag 1 0 * sv.imag (ind 0) +
              u.real 1 1 * sv.real (ind 1) - u.imag 1 1 * sv.imag (ind 1) +
              u.real 1 2 * sv.real (ind 2) - u.imag 1 2 * sv.imag (ind 2) +
              u.real 1 3 * sv.real (ind 3) - u.imag 1 3 * sv.imag (ind 3)))
          (ind 2)
            (u.real 2 0 * sv.real (ind 0) - u.imag 2 0 * sv.imag (ind 0) +
              u.real 2 1 * sv.real (ind 1) - u.imag 2 1 * sv.imag (ind 1) +
              u.real 2 2 * sv.real (ind 2) - u.imag 2 2 * sv.imag (ind 2) +
              u.real 2 3 * sv.real (ind 3) - u.imag 2 3 * sv.imag (ind 3)))
          (ind 3)
            (u.real 3 0 * sv.real (ind 0) - u.imag 3 0 * sv.imag (ind 0) +
              u.real 3 1 * sv.real (ind 1) - u.imag 3 1 * sv.imag (ind 1) +
              u.real 3 2 * sv.real (ind 2) - u.imag 3 2 * sv.imag (ind 2) +
              u.real 3 3 * sv.real (ind 3) - u.imag 3 3 * sv.imag (ind 3)),
        Function.update (Function.update (Function.update (Function.update sv.imag (ind 0)
            (u.imag 0 0 * sv.real (ind 0) + u.real 0 0 * sv.imag (ind 0) +
              u.imag 0 1 * sv.real (ind 1) + u.real 0 1 * sv.imag (ind 1) +
              u.imag 0 2 * sv.real (ind 2) + u.real 0 2 * sv.imag (ind 2) +
              u.imag 0 3 * sv.real (ind 3) + u.real 0 3 * sv.imag (ind 3)))
          (ind 1)
            (u.imag 1 0 * sv.real (ind 0) + u.real 1 0 * sv.imag (ind 0) +
              u.imag 1 1 * sv.real (ind 1) + u.real 1 1 * sv.imag (ind 1) +
              u.imag 1 2 * sv.real (ind 2) + u.real 1 2 * sv.imag (ind 2) +
              u.imag 1 3 * sv.real (ind 3) + u.real 1 3 * sv.imag (ind 3)))
          (ind 2)
            (u.imag 2 0 * sv.real (ind 0) + u.real 2 0 * sv.imag (ind 0) +
              u.imag 2 1 * sv.real (ind 1) + u.real 2 1 * sv.imag (ind 1) +
              u.imag 2 2 * sv.real (ind 2) + u.real 2 2 * sv.imag (ind 2) +
              u.imag 2 3 * sv.real (ind 3) + u.real 2 3 * sv.imag (ind 3)))
          (ind 3)
            (u.imag 3 0 * sv.real (ind 0) + u.real 3 0 * sv.imag (ind 0) +
              u.imag 3 1 * sv.real (ind 1) + u.real 3 1 * sv.imag (ind 1) +
              u.imag 3 2 * sv.real (ind 2) + u.real 3 2 * sv.imag (ind 2) +
              u.imag 3 3 * sv.real (ind 3) + u.real 3 3 * sv.imag (ind 3))⟩ := by
  have hinj : ∀ r r2, r < 4 → r2 < 4 → ind r = ind r2 → r = r2 := by
    intro r r2 hr hr2 e
    interval_cases r <;> interval_cases r2 <;> first | rfl | (exfalso; first
      | exact h01 e | exact h02 e | exact h03 e | exact h12 e | exact h13 e | exact h23 e
      | exact h01 e.symm | exact h02 e.symm | exact h03 e.symm | exact h12 e.symm
      | exact h13 e.symm | exact h23 e.symm)
  obtain ⟨hin, hout⟩ := multiQubitTask_amp (matrix4ToN u) 4 ind hinj sv
  have er : ∀ r c : Fin 4, (matrix4ToN u).real r.val c.val = u.real r c :=
    fun r c => (matrix4ToN_entry u r c).1
  have ei : ∀ r c : Fin 4, (matrix4ToN u).imag r.val c.val = u.imag r c :=
    fun r c => (matrix4ToN_entry u r c).2
  have hsum : ∀ r : Fin 4, (multiQubitTask (matrix4ToN u) 4 ind sv).amp (ind r.val)
      = (u.real r 0 * sv.real (ind 0) - u.imag r 0 * sv.imag (ind 0) +
          u.real r 1 * sv.real (ind 1) - u.imag r 1 * sv.imag (ind 1) +
          u.real r 2 * sv.real (ind 2) - u.imag r 2 * sv.imag (ind 2) +
          u.real r 3 * sv.real (ind 3) - u.imag r 3 * sv.imag (ind 3),
        u.imag r 0 * sv.real (ind 0) + u.real r 0 * sv.imag (ind 0) +
          u.imag r 1 * sv.real (ind 1) + u.real r 1 * sv.imag (ind 1) +
          u.imag r 2 * sv.real (ind 2) + u.real r 2 * sv.imag (ind 2) +
          u.imag r 3 * sv.real (ind 3) + u.real r 3 * sv.imag (ind 3)) := by
    intro r
    rw [hin r.val r.isLt]
    have e0 := er r 0
    have e1 := er r 1
    have e2 := er r 2
    have e3 := er r 3
    have f0 := ei r 0
    have f1 := ei r 1
    have f2 := ei r 2
    have f3 := ei r 3
    have v0 : ((0 : Fin 4) : Nat) = 0 := rfl
    have v1 : ((1 : Fin 4) : Nat) = 1 := rfl
    have v2 : ((2 : Fin 4) : Nat) = 2 := rfl
    have v3 : ((3 : Fin 4) : Nat) = 3 := rfl
    rw [v0] at e0 f0
    rw [v1] at e1 f1
    rw [v2] at e2 f2
    rw [v3] at e3 f3
    simp only [Finset.sum_range_succ, Finset.sum_range_zero, cmul, ComplexArray.amp, e0, e1,
      e2, e3, f0, f1, f2, f3]
    refine Prod.ext ?_ ?_
    · simp only [Prod.fst_add, Prod.fst_zero]
      ring
    · simp only [Prod.snd_add, Prod.snd_zero]
      ring
  apply ComplexArray.ext_amp
  intro j
  by_cases j3 : j = ind 3
  · subst j3
    have hv := hsum 3
    rw [show ((3 : Fin 4) : Nat) = 3 from rfl] at hv
    rw [hv]
    simp [ComplexArray.amp]
  · by_cases j2 : j = ind 2
    · subst j2
      have hv := hsum 2
      rw [show ((2 : Fin 4) : Nat) = 2 from rfl] at hv
      rw [hv]
      simp [ComplexArray.amp, Function.update_noteq h23]
    · by_cases j1 : j = ind 1
      · subst j1
        have hv := hsum 1
        rw [show ((1 : Fin 4) : Nat) = 1 from rfl] at hv
        rw [hv]
        simp [ComplexArray.amp, Function.update_noteq h12, Function.update_noteq h13]
      · by_cases j0 : j = ind 0
        · subst j0
          have hv := hsum 0
          rw [show ((0 : Fin 4) : Nat) = 0 from rfl] at hv
          rw [hv]
          simp [ComplexArray.amp, Function.update_noteq h01, Function.update_noteq h02,
            Function.update_noteq h03]
        · rw [hout j (by
            intro r hr
            interval_cases r
            · exact j0
            · exact j1
            · exact j2
            · exact j3)]
          simp [ComplexArray.amp, Function.update_noteq j0, Function.update_noteq j1,
            Function.update_noteq j2, Function.update_noteq j3]

/-- Bits `q1` and `q2` of `insertTwoZeroBits task q1 q2` are zero. -/
theorem insertTwoZeroBits_clear (task q1 q2 : Nat) (hne : q1 ≠ q2) :
    (insertTwoZeroBits task q1 q2).testBit q1 = false ∧
    (insertTwoZeroBits task q1 q2).testBit q2 = false := by
  rw [insertTwoZeroBits_eq]
  by_cases h : q1 < q2
  · rw [if_pos h]
    constructor
    · rw [testBit_insertZeroBit_twice task q1 q2 q1 h]
      simp
    · rw [testBit_insertZeroBit_twice task q1 q2 q2 h]
      simp [Nat.ne_of_gt h, Nat.lt_asymm h]
  · have h' : q2 < q1 := by omega
    rw [if_neg h]
    constructor
    · rw [testBit_insertZeroBit_twice task q2 q1 q1 h']
      simp [Nat.ne_of_gt h', Nat.lt_asymm h']
    · rw [testBit_insertZeroBit_twice task q2 q1 q2 h']
      simp

/-- The four indices of a group of the two-qubit kernel are distinct. -/
theorem twoQubit_indices_distinct (b q1 q2 : Nat) (hne : q1 ≠ q2) :
    b ≠ flipBit b q1 ∧ b ≠ flipBit b q2 ∧ b ≠ flipBit (flipBit b q1) q2 ∧
    flipBit b q1 ≠ flipBit b q2 ∧ flipBit b q1 ≠ flipBit (flipBit b q1) q2 ∧
    flipBit b q2 ≠ flipBit (flipBit b q1) q2 := by
  have t1 : ∀ x y : Nat, x.testBit q1 ≠ y.testBit q1 → x ≠ y := fun x y h e => h (by rw [e])
  have t2 : ∀ x y : Nat, x.testBit q2 ≠ y.testBit q2 → x ≠ y := fun x y h e => h (by rw [e])
  have hne' : q2 ≠ q1 := fun e => hne e.symm
  refine ⟨t1 _ _ ?_, t2 _ _ ?_, t1 _ _ ?_, t1 _ _ ?_, t2 _ _ ?_, t1 _ _ ?_⟩
  · rw [testBit_flipBit, if_pos rfl]; cases b.testBit q1 <;> simp
  · rw [testBit_flipBit, if_pos rfl]; cases b.testBit q2 <;> simp
  · rw [testBit_flipBit, if_neg hne, testBit_flipBit, if_pos rfl]; cases b.testBit q1 <;> simp
  · rw [testBit_flipBit, if_pos rfl, testBit_flipBit, if_neg hne]; cases b.testBit q1 <;> simp
  · rw [testBit_flipBit, if_neg hne', testBit_flipBit, if_pos rfl, testBit_flipBit,
      if_neg hne']; cases b.testBit q2 <;> simp
  · rw [testBit_flipBit, if_neg hne, testBit_flipBit, if_neg hne, testBit_flipBit,
      if_pos rfl]; cases b.testBit q1 <;> simp

/-- The multi-qubit kernel with the targets `[q1, q2]` returns the register of the two-qubit
kernel. -/
theorem multiQubit_eq_twoQubit (qureg : Qureg K) (ctrlMask q1 q2 : Nat) (hne : q1 ≠ q2)
    (u : ComplexMatrix4 K) :
    statevec_multiControlledMultiQubitUnitaryLocal qureg ctrlMask (pairTargs q1 q2) 2
        (matrix4ToN u)
      = statevec_multiControlledTwoQubitUnitaryLocal qureg ctrlMask q1 q2 u := by
  have hs := multiQubitUnitaryLocal_stateVec qureg ctrlMask (pairTargs q1 q2) 2 (matrix4ToN u)
  have hrec : statevec_multiControlledMultiQubitUnitaryLocal qureg ctrlMask (pairTargs q1 q2) 2
      (matrix4ToN u) = { qureg with stateVec :=
        (statevec_multiControlledMultiQubitUnitaryLocal qureg ctrlMask (pairTargs q1 q2) 2
          (matrix4ToN u)).stateVec } := rfl
  rw [hrec, hs]
  unfold statevec_multiControlledTwoQubitUnitaryLocal
  simp only []
  congr 1
  apply forLoop_congr
  intro task _ sv
  rw [insertLoop_pair]
  by_cases hg : ctrlMask ≠ 0 ∧ ctrlMask &&&
      (insertTwoZeroBits task q1 q2 + qureg.chunkId * qureg.numAmpsPerChunk) ≠ ctrlMask
  · rw [if_pos hg, if_pos hg]
  · rw [if_neg hg, if_neg hg]
    obtain ⟨g0, g1, g2, g3⟩ := gatherLoop_pair q1 q2 (insertTwoZeroBits task q1 q2)
    obtain ⟨d01, d02, d03, d12, d13, d23⟩ :=
      twoQubit_indices_distinct (insertTwoZeroBits task q1 q2) q1 q2 hne
    have h4 : 1 <<< (matrix4ToN u).numQubits = 4 := rfl
    rw [h4, multiQubitTask_four u _ (by rw [g0, g1]; exact d01) (by rw [g0, g2]; exact d02)
      (by rw [g0, g3]; exact d03) (by rw [g1, g2]; exact d12) (by rw [g1, g3]; exact d13)
      (by rw [g2, g3]; exact d23) sv]
    simp only [g0, g1, g2, g3]

theorem targetBits_pair (q1 q2 : Nat) :
    targetBits (pairTargs q1 q2) 2 0 = 0 ∧ targetBits (pairTargs q1 q2) 2 1 = 2 ^ q1 ∧
    targetBits (pairTargs q1 q2) 2 2 = 2 ^ q2 ∧
    targetBits (pairTargs q1 q2) 2 3 = 2 ^ q1 ||| 2 ^ q2 := by
  have t11 : Nat.testBit 1 1 = false := by decide
  have t21 : Nat.testBit 2 1 = true := by decide
  have t31 : Nat.testBit 3 1 = true := by decide
  refine ⟨?_, ?_, ?_, ?_⟩ <;> simp [targetBits, forLoop, pairTargs, t11, t21, t31]

/-- Rows of the matrix in the two-qubit kernel: the amplitude of a group at matrix index
`r` is the sum over the row `r` of the products with the amplitudes the group held. -/
theorem twoQubit_rows (k : Nat) (qureg : Qureg K) (hn : qureg.numAmpsPerChunk = 2 ^ k)
    (ctrlMask q1 q2 : Nat) (h1 : q1 < k) (h2 : q2 < k) (hne : q1 ≠ q2) (u : ComplexMatrix4 K)
    (b : Nat) (hb : b < 2 ^ k) (hb1 : b.testBit q1 = false) (hb2 : b.testBit q2 = false)
    (hctrl : ctrlMask = 0 ∨ ctrlMask &&& (qureg.chunkId * 2 ^ k + b) = ctrlMask) (r : Fin 4) :
    (statevec_multiControlledTwoQubitUnitaryLocal qureg ctrlMask q1 q2 u).stateVec.amp
        (b ^^^ targetBits (pairTargs q1 q2) 2 r.val)
      = cmul (u.real r 0, u.imag r 0) (qureg.stateVec.amp b)
        + cmul (u.real r 1, u.imag r 1) (qureg.stateVec.amp (flipBit b q1))
        + cmul (u.real r 2, u.imag r 2) (qureg.stateVec.amp (flipBit b q2))
        + cmul (u.real r 3, u.imag r 3) (qureg.stateVec.amp (flipBit (flipBit b q1) q2)) := by
  have hinj : ∀ i j, i < 2 → j < 2 → pairTargs q1 q2 i = pairTargs q1 q2 j → i = j := by
    intro i j hi hj e
    interval_cases i <;> interval_cases j <;> simp [pairTargs] at e ⊢ <;> omega
  have hlt : ∀ j, j < 2 → pairTargs q1 q2 j < k := by
    intro j hj
    interval_cases j <;> simp [pairTargs] <;> assumption
  have hzero : ∀ j, j < 2 → b.testBit (pairTargs q1 q2 j) = false := by
    intro j hj
    interval_cases j <;> simp [pairTargs] <;> assumption
  have h := multiQubitUnitaryLocal_group_aux k 2 qureg hn ctrlMask (pairTargs q1 q2)
    (matrix4ToN u) rfl hlt hinj b hb hzero r.val r.isLt
  rw [multiQubit_eq_twoQubit qureg ctrlMask q1 q2 hne u, if_neg (by
    rintro ⟨c1, c2⟩
    rcases hctrl with c | c
    · exact c1 c
    · exact c2 c)] at h
  rw [h]
  obtain ⟨p0, p1, p2, p3⟩ := targetBits_pair q1 q2
  have x1 : b ^^^ 2 ^ q1 = flipBit b q1 := by
    unfold flipBit
    rw [Nat.one_shiftLeft]
  have x2 : b ^^^ 2 ^ q2 = flipBit b q2 := by
    unfold flipBit
    rw [Nat.one_shiftLeft]
  have x3 : b ^^^ (2 ^ q1 ||| 2 ^ q2) = flipBit (flipBit b q1) q2 := xor_mask_eq_flip q1 q2 b hne
  have v0 : ((0 : Fin 4) : Nat) = 0 := rfl
  have v1 : ((1 : Fin 4) : Nat) = 1 := rfl
  have v2 : ((2 : Fin 4) : Nat) = 2 := rfl
  have v3 : ((3 : Fin 4) : Nat) = 3 := rfl
  have e0 := matrix4ToN_entry u r 0
  have e1 := matrix4ToN_entry u r 1
  have e2 := matrix4ToN_entry u r 2
  have e3 := matrix4ToN_entry u r 3
  rw [v0] at e0
  rw [v1] at e1
  rw [v2] at e2
  rw [v3] at e3
  have hpow : (2 : Nat) ^ 2 = 4 := rfl
  rw [hpow]
  simp only [Finset.sum_range_succ, Finset.sum_range_zero, zero_add, p0, p1, p2, p3,
    Nat.xor_zero, x1, x2, x3, e0.1, e0.2, e1.1, e1.2, e2.1, e2.2, e3.1, e3.2]

end TwoQubit

section TwoQubitClaims
variable {K : Type} [Field K]

/-- Claim C32: the N-qubit kernel generalises the two-qubit kernel. For every register with
`numAmpsPerChunk = 2^k`, distinct `q1, q2 < k` (so `k ≥ 2`), every control mask and every
4x4 matrix `u`, `statevec_multiControlledMultiQubitUnitaryLocal` with `targs = [q1, q2]` and
`u` returns, in exact arithmetic, the register that
`statevec_multiControlledTwoQubitUnitaryLocal(ctrlMask, q1, q2, u)` returns. In both, for every
group that passes the control test (base index `b` with bits `q1`, `q2` clear), the row of
matrix index 1 is written to the index `b` with `q1` set and the row of matrix index 2 to the
index `b` with `q2` set, the columns 0, 1, 2, 3 multiplying the amplitudes at `b`, `b` with
`q1` set, `b` with `q2` set and `b` with both set, whichever of `q1`, `q2` is larger. -/
theorem multiQubit_generalises_twoQubit (k : Nat) (qureg : Qureg K)
    (hn : qureg.numAmpsPerChunk = 2 ^ k) (ctrlMask q1 q2 : Nat) (h1 : q1 < k) (h2 : q2 < k)
    (hne : q1 ≠ q2) (u : ComplexMatrix4 K) :
    statevec_multiControlledMultiQubitUnitaryLocal qureg ctrlMask (pairTargs q1 q2) 2
        (matrix4ToN u)
      = statevec_multiControlledTwoQubitUnitaryLocal qureg ctrlMask q1 q2 u ∧
    (∀ b, b < 2 ^ k → b.testBit q1 = false → b.testBit q2 = false →
      (ctrlMask = 0 ∨ ctrlMask &&& (qureg.chunkId * 2 ^ k + b) = ctrlMask) →
      (statevec_multiControlledTwoQubitUnitaryLocal qureg ctrlMask q1 q2 u).stateVec.amp
          (flipBit b q1)
        = cmul (u.real 1 0, u.imag 1 0) (qureg.stateVec.amp b)
          + cmul (u.real 1 1, u.imag 1 1) (qureg.stateVec.amp (flipBit b q1))
          + cmul (u.real 1 2, u.imag 1 2) (qureg.stateVec.amp (flipBit b q2))
          + cmul (u.real 1 3, u.imag 1 3) (qureg.stateVec.amp (flipBit (flipBit b q1) q2)) ∧
      (statevec_multiControlledTwoQubitUnitaryLocal qureg ctrlMask q1 q2 u).stateVec.amp
          (flipBit b q2)
        = cmul (u.real 2 0, u.imag 2 0) (qureg.stateVec.amp b)
          + cmul (u.real 2 1, u.imag 2 1) (qureg.stateVec.amp (flipBit b q1))
          + cmul (u.real 2 2, u.imag 2 2) (qureg.stateVec.amp (flipBit b q2))
          + cmul (u.real 2 3, u.imag 2 3)
              (qureg.stateVec.amp (flipBit (flipBit b q1) q2))) := by
  refine ⟨multiQubit_eq_twoQubit qureg ctrlMask q1 q2 hne u, ?_⟩
  intro b hb hb1 hb2 hctrl
  obtain ⟨_, p1, p2, _⟩ := targetBits_pair q1 q2
  have r1 := twoQubit_rows k qureg hn ctrlMask q1 q2 h1 h2 hne u b hb hb1 hb2 hctrl 1
  have r2 := twoQubit_rows k qureg hn ctrlMask q1 q2 h1 h2 hne u b hb hb1 hb2 hctrl 2
  have v1 : ((1 : Fin 4) : Nat) = 1 := rfl
  have v2 : ((2 : Fin 4) : Nat) = 2 := rfl
  rw [v1, p1] at r1
  rw [v2, p2] at r2
  have x1 : b ^^^ 2 ^ q1 = flipBit b q1 := by
    unfold flipBit
    rw [Nat.one_shiftLeft]
  have x2 : b ^^^ 2 ^ q2 = flipBit b q2 := by
    unfold flipBit
    rw [Nat.one_shiftLeft]
  rw [x1] at r1
  rw [x2] at r2
  exact ⟨r1, r2⟩

/-- Witness of C32: a register of eight amplitudes, targets `q1 = 2` and `q2 = 0` (the
larger one first), no controls, the sample matrix `u[r][c] = (r + 2 c) + (r c - 1) i`. -/
theorem multiQubit_generalises_twoQubit_witness :
    statevec_multiControlledMultiQubitUnitaryLocal sampleQureg8 0 (pairTargs 2 0) 2
        (matrix4ToN sampleMatrix4)
      = statevec_multiControlledTwoQubitUnitaryLocal sampleQureg8 0 2 0 sampleMatrix4 :=
  (multiQubit_generalises_twoQubit 3 sampleQureg8 rfl 0 2 0 (by decide) (by decide)
    (by decide) sampleMatrix4).1

end TwoQubitClaims

section DiagWalk
variable {K : Type} [Field K]

theorem forLoop_append {α : Type} (n : Nat) (f : Nat → α) (l : List α) :
    forLoop n (fun v log => log ++ [f v]) l = l ++ (List.range n).map f := by
  induction n with
  | zero => simp [forLoop]
  | succ n ih =>
    simp only [forLoop]
    rw [ih, List.range_succ, List.map_append, List.append_assoc]
    rfl

end DiagWalk

section DiagWalkClaims
variable {K : Type} [Field K]

end DiagWalkClaims

section DepolDistributed
variable {K : Type} [Field K]

/-- The loop of `densmatr_oneQubitDegradeOffDiagonal` on any chunk. -/
theorem oneQubitDegradeOffDiagonal_stateVec_chunk (qureg : Qureg K) (t : Nat) (retain : K) :
    (densmatr_oneQubitDegradeOffDiagonal qureg t retain).stateVec
      = forLoop qureg.numAmpsPerChunk (channelBody
          (fun i =>
            (i + qureg.numAmpsPerChunk * qureg.chunkId)
                &&& (1 <<< t ||| 1 <<< (t + qureg.numQubitsRepresented)) = 1 <<< t ∨
            (i + qureg.numAmpsPerChunk * qureg.chunkId)
                &&& (1 <<< t ||| 1 <<< (t + qureg.numQubitsRepresented))
              = 1 <<< (t + qureg.numQubitsRepresented))
          (fun _ => False) (fun i => i) retain (fun a b => (a, b))) qureg.stateVec := by
  simp only [densmatr_oneQubitDegradeOffDiagonal]
  apply forLoop_congr
  intro i _ sv
  unfold channelBody
  split_ifs <;> first | rfl | contradiction

/-- The dephasing kernel on any chunk, amplitude by amplitude. -/
theorem mixDephasing_amp_chunk (N t : Nat) (hN0 : 0 < N) (qureg : Qureg K)
    (hN : qureg.numQubitsRepresented = N) (dephase : K) (i : Nat)
    (hi : i < qureg.numAmpsPerChunk) :
    (densmatr_mixDephasing qureg t dephase).stateVec.amp i
      = if extractBit t (i + qureg.numAmpsPerChunk * qureg.chunkId)
            ≠ extractBit (t + N) (i + qureg.numAmpsPerChunk * qureg.chunkId) then
          ((1 - dephase) * (qureg.stateVec.amp i).1, (1 - dephase) * (qureg.stateVec.amp i).2)
        else qureg.stateVec.amp i := by
  unfold densmatr_mixDephasing
  rw [oneQubitDegradeOffDiagonal_stateVec_chunk, hN]
  obtain ⟨r1, _, r3⟩ := forLoop_channelBody qureg.numAmpsPerChunk
    (fun i =>
      (i + qureg.numAmpsPerChunk * qureg.chunkId) &&& (1 <<< t ||| 1 <<< (t + N)) = 1 <<< t ∨
      (i + qureg.numAmpsPerChunk * qureg.chunkId) &&& (1 <<< t ||| 1 <<< (t + N))
        = 1 <<< (t + N))
    (fun _ => False) (fun i => i) (1 - dephase) (fun a b => (a, b))
    (fun _ _ _ _ _ h _ => h.elim) (fun _ _ _ _ _ h _ _ _ => h.elim) qureg.stateVec
  have hA := mask_pattern_mismatch t (t + N) (i + qureg.numAmpsPerChunk * qureg.chunkId)
    (by omega)
  by_cases hd : extractBit t (i + qureg.numAmpsPerChunk * qureg.chunkId)
      ≠ extractBit (t + N) (i + qureg.numAmpsPerChunk * qureg.chunkId)
  · rw [if_pos hd]
    exact r1 i hi (hA.mpr hd)
  · rw [if_neg hd]
    apply r3 i
    · rintro ⟨_, h | h⟩
      · exact hd (hA.mp h)
      · exact h
    · intro _ _ _ h
      exact h.elim

theorem pairUp_strictMono (h a b : Nat) (hh : 0 < h) (hab : a < b) :
    pairUp h a < pairUp h b := by
  unfold pairUp
  have ha := Nat.div_add_mod a h
  have hb := Nat.div_add_mod b h
  have ra := Nat.mod_lt a hh
  have rb := Nat.mod_lt b hh
  have hq : a / h ≤ b / h := Nat.div_le_div_right (Nat.le_of_lt hab)
  rcases Nat.lt_or_eq_of_le hq with hlt | heq
  · have h1 : (a / h + 1) * (2 * h) ≤ b / h * (2 * h) := Nat.mul_le_mul_right _ hlt
    have h2 : (a / h + 1) * (2 * h) = a / h * (2 * h) + 2 * h := by ring
    omega
  · rw [heq] at ha ⊢
    omega

/-- The index before the shift by `outerBit`: the task ordinal with a zero inserted at the
target bit. -/
theorem depol_base_index (N t tau : Nat) (ht : t < N) :
    tau / 2 ^ (N - 1) * 2 ^ N + tau % 2 ^ (N - 1) / 2 ^ t * (2 * 2 ^ t) + tau % 2 ^ t
      = pairUp (2 ^ t) tau := by
  obtain ⟨d, rfl⟩ : ∃ d, N = t + 1 + d := ⟨N - (t + 1), by omega⟩
  have e1 : t + 1 + d - 1 = t + d := by omega
  unfold pairUp
  rw [e1, Nat.pow_add 2 t d, ← Nat.div_div_eq_div_mul, Nat.mod_mul_right_div_self]
  have hq := Nat.div_add_mod (tau / 2 ^ t) (2 ^ d)
  have e2 : tau / 2 ^ t / 2 ^ d * 2 ^ (t + 1 + d) + tau / 2 ^ t % 2 ^ d * (2 * 2 ^ t)
      = (2 ^ d * (tau / 2 ^ t / 2 ^ d) + tau / 2 ^ t % 2 ^ d) * (2 * 2 ^ t) := by ring
  rw [e2, hq]

omit [Field K] in
/-- The index of a task in closed form, for a chunk of `2^j` whole columns no larger than
half an outer block: the task ordinal with the column bit of the chunk inserted at the
target bit. -/
theorem mixDepolarisingDistributed_index_eq (N t j : Nat) (ht : t < N) (hj : j ≤ t)
    (qureg : Qureg K) (hN : qureg.numQubitsRepresented = N)
    (hn : qureg.numAmpsPerChunk = 2 ^ (N + j)) (tau : Nat) (htau : tau < 2 ^ (N + j - 1)) :
    mixDepolarisingDistributed_index qureg t tau
      = pairUp (2 ^ t) tau + (if qureg.chunkId.testBit (t - j) then 1 else 0) * 2 ^ t := by
  have hlt : pairUp (2 ^ t) tau < 2 ^ (N + j) := by
    apply pairUp_lt (N + j) t tau (by omega)
    rw [two_pow_shiftRight_one (N + j) (by omega)]
    exact htau
  simp only [mixDepolarisingDistributed_index, hN, hn, Nat.one_shiftLeft]
  rw [two_pow_shiftRight_one N (by omega), Nat.and_pow_two_sub_one_eq_mod,
    Nat.and_pow_two_sub_one_eq_mod, depol_base_index N t tau ht, extractBit_eq_ite,
    Nat.testBit_shiftRight, Nat.mul_comm (2 ^ (N + j)), testBit_global (N + j) _ _ _ hlt,
    if_neg (show ¬ N + t < N + j by omega)]
  have e : N + t - (N + j) = t - j := by omega
  rw [e]

/-- Bit `t` of the index of a task is the column bit of the chunk. -/
theorem depol_index_testBit (t tau : Nat) (b : Bool) :
    (pairUp (2 ^ t) tau + (if b then 1 else 0) * 2 ^ t).testBit t = b := by
  have h0 : (pairUp (2 ^ t) tau).testBit t = false := by
    rw [pairUp_eq_insertZeroBit, testBit_insertZeroBit]
    simp
  cases b
  · simp [h0]
  · simp only [if_true, Nat.one_mul]
    exact testBit_add_two_pow_self _ t h0

/-- The kernel: the dephasing pass, then the loop that rewrites the amplitude at the index of
each task with the amplitude of the pair buffer at the task ordinal. -/
theorem mixDepolarisingDistributed_eq (qureg : Qureg K) (t : Nat) (depolLevel : K) :
    densmatr_mixDepolarisingDistributed qureg t depolLevel
      = { qureg with stateVec := (forLoop (qureg.numAmpsPerChunk >>> 1) (fun thisTask sv =>
          ⟨Function.update sv.real (mixDepolarisingDistributed_index qureg t thisTask)
              ((1 - depolLevel) * sv.real (mixDepolarisingDistributed_index qureg t thisTask)
                + depolLevel * (sv.real (mixDepolarisingDistributed_index qureg t thisTask)
                  + qureg.pairStateVec.real thisTask) / 2),
            Function.update sv.imag (mixDepolarisingDistributed_index qureg t thisTask)
              ((1 - depolLevel) * sv.imag (mixDepolarisingDistributed_index qureg t thisTask)
                + depolLevel * (sv.imag (mixDepolarisingDistributed_index qureg t thisTask)
                  + qureg.pairStateVec.imag thisTask) / 2)⟩)
          (densmatr_mixDephasing qureg t depolLevel).stateVec) } := rfl

omit [Field K] in
/-- A loop whose iteration `i` rewrites the amplitude at `idx i` from that amplitude alone,
for pairwise distinct indices. -/
theorem forLoop_indexed (n : Nat) (idx : Nat → Nat) (g : Nat → K × K → K × K)
    (hinj : ∀ i i', i < n → i' < n → idx i = idx i' → i = i') (s : ComplexArray K) :
    (∀ i, i < n →
      (forLoop n (fun i (sv : ComplexArray K) =>
        (⟨Function.update sv.real (idx i) (g i (sv.amp (idx i))).1,
          Function.update sv.imag (idx i) (g i (sv.amp (idx i))).2⟩ : ComplexArray K)) s).amp
          (idx i)
        = g i (s.amp (idx i))) ∧
    (∀ x, (∀ i, i < n → x ≠ idx i) →
      (forLoop n (fun i (sv : ComplexArray K) =>
        (⟨Function.update sv.real (idx i) (g i (sv.amp (idx i))).1,
          Function.update sv.imag (idx i) (g i (sv.amp (idx i))).2⟩ : ComplexArray K)) s).amp x
        = s.amp x) := by
  obtain ⟨k1, k2⟩ := forLoop_footprint ComplexArray.amp n
    (fun i (sv : ComplexArray K) =>
      (⟨Function.update sv.real (idx i) (g i (sv.amp (idx i))).1,
        Function.update sv.imag (idx i) (g i (sv.amp (idx i))).2⟩ : ComplexArray K))
    (fun i y => y = idx i)
    (by
      intro i _ sv y hy
      have hy2 : y ≠ idx i := hy
      simp [ComplexArray.amp, Function.update_noteq hy2])
    (by
      intro i _ sv sv' h y hy
      have hy2 : y = idx i := hy
      subst hy2
      have e := h _ rfl
      simp only [ComplexArray.amp, Prod.mk.injEq] at e
      simp [ComplexArray.amp, e.1, e.2])
    (by
      intro i i' y hi hi' h h'
      have h1 : y = idx i := h
      have h2 : y = idx i' := h'
      exact hinj i i' hi hi' (h1.symm.trans h2))
    s
  refine ⟨?_, ?_⟩
  · intro i hi
    rw [k1 i hi (idx i) rfl]
    simp [ComplexArray.amp]
  · intro x hx
    exact k2 x (fun i hi h => hx i hi h)

end DepolDistributed

section DepolDistributedClaims
variable {K : Type} [Field K]

/-- Claim C35: distributed depolarising visits each on-diagonal element once. For a density
register of `N` qubits whose chunk holds `2^j` whole columns (`numAmpsPerChunk = 2^(N+j)`)
with `numAmpsPerChunk ≤ 2^(t+N)`, that is `j ≤ t`, and a target `t < N`:
`densmatr_mixDepolarisingDistributed` runs the dephasing pass and then a loop over the task
ordinals `tau < numAmpsPerChunk / 2` that rewrites the amplitude at the index of the task;
that index lies in the chunk, its row bit `t` equals the column bit `t` of its global index,
the indices increase with the task ordinal, and every local index whose row bit `t` equals
its column bit is the index of a task; the amplitude `x` there becomes
`(1 - lambda) x + lambda (x + pair[tau]) / 2`, and every other local amplitude is multiplied
by `1 - lambda`. -/
theorem mixDepolarisingDistributed_second_pass (N t j : Nat) (ht : t < N) (hj : j ≤ t)
    (qureg : Qureg K) (hN : qureg.numQubitsRepresented = N)
    (hn : qureg.numAmpsPerChunk = 2 ^ (N + j)) (depolLevel : K) :
    densmatr_mixDepolarisingDistributed qureg t depolLevel
      = { qureg with stateVec := (forLoop (qureg.numAmpsPerChunk >>> 1) (fun thisTask sv =>
          ⟨Function.update sv.real (mixDepolarisingDistributed_index qureg t thisTask)
              ((1 - depolLevel) * sv.real (mixDepolarisingDistributed_index qureg t thisTask)
                + depolLevel * (sv.real (mixDepolarisingDistributed_index qureg t thisTask)
                  + qureg.pairStateVec.real thisTask) / 2),
            Function.update sv.imag (mixDepolarisingDistributed_index qureg t thisTask)
              ((1 - depolLevel) * sv.imag (mixDepolarisingDistributed_index qureg t thisTask)
                + depolLevel * (sv.imag (mixDepolarisingDistributed_index qureg t thisTask)
                  + qureg.pairStateVec.imag thisTask) / 2)⟩)
          (densmatr_mixDephasing qureg t depolLevel).stateVec) } ∧
    (∀ tau, tau < 2 ^ (N + j - 1) →
      tau < qureg.numAmpsPerChunk ∧
      mixDepolarisingDistributed_index qureg t tau < qureg.numAmpsPerChunk ∧
      extractBit t (mixDepolarisingDistributed_index qureg t tau
          + qureg.numAmpsPerChunk * qureg.chunkId)
        = extractBit (t + N) (mixDepolarisingDistributed_index qureg t tau
          + qureg.numAmpsPerChunk * qureg.chunkId)) ∧
    (∀ tau tau2, tau < tau2 → tau2 < 2 ^ (N + j - 1) →
      mixDepolarisingDistributed_index qureg t tau
        < mixDepolarisingDistributed_index qureg t tau2) ∧
    (∀ i, i < qureg.numAmpsPerChunk →
      extractBit t (i + qureg.numAmpsPerChunk * qureg.chunkId)
        = extractBit (t + N) (i + qureg.numAmpsPerChunk * qureg.chunkId) →
      ∃ tau, tau < 2 ^ (N + j - 1) ∧ mixDepolarisingDistributed_index qureg t tau = i) ∧
    (∀ tau, tau < 2 ^ (N + j - 1) →
      (densmatr_mixDepolarisingDistributed qureg t depolLevel).stateVec.amp
          (mixDepolarisingDistributed_index qureg t tau)
        = ((1 - depolLevel)
              * qureg.stateVec.real (mixDepolarisingDistributed_index qureg t tau)
            + depolLevel * (qureg.stateVec.real (mixDepolarisingDistributed_index qureg t tau)
              + qureg.pairStateVec.real tau) / 2,
          (1 - depolLevel)
              * qureg.stateVec.imag (mixDepolarisingDistributed_index qureg t tau)
            + depolLevel * (qureg.stateVec.imag (mixDepolarisingDistributed_index qureg t tau)
              + qureg.pairStateVec.imag tau) / 2)) ∧
    (∀ i, i < qureg.numAmpsPerChunk →
      extractBit t (i + qureg.numAmpsPerChunk * qureg.chunkId)
        ≠ extractBit (t + N) (i + qureg.numAmpsPerChunk * qureg.chunkId) →
      (densmatr_mixDepolarisingDistributed qureg t depolLevel).stateVec.amp i
        = ((1 - depolLevel) * qureg.stateVec.real i,
            (1 - depolLevel) * qureg.stateVec.imag i)) := by
  have hpos : 0 < 2 ^ t := Nat.two_pow_pos t
  have hk : t < N + j := by omega
  have hhalf : (2 ^ (N + j)) >>> 1 = 2 ^ (N + j - 1) :=
    two_pow_shiftRight_one (N + j) (by omega)
  have hidx := mixDepolarisingDistributed_index_eq N t j ht hj qureg hN hn
  have hlt : ∀ tau, tau < 2 ^ (N + j - 1) →
      mixDepolarisingDistributed_index qureg t tau < 2 ^ (N + j) := by
    intro tau htau
    rw [hidx tau htau]
    have h1 := pairLo_lt (N + j) t tau hk (by rw [hhalf]; exact htau)
    unfold pairLo at h1
    unfold pairUp
    split <;> omega
  -- row and column bits of the global index of a local index
  have hrow : ∀ i, i < 2 ^ (N + j) →
      (i + 2 ^ (N + j) * qureg.chunkId).testBit t = i.testBit t := by
    intro i hi
    rw [Nat.mul_comm, testBit_global (N + j) _ i t hi, if_pos hk]
  have hcol : ∀ i, i < 2 ^ (N + j) →
      (i + 2 ^ (N + j) * qureg.chunkId).testBit (t + N) = qureg.chunkId.testBit (t - j) := by
    intro i hi
    rw [Nat.mul_comm, testBit_global (N + j) _ i (t + N) hi,
      if_neg (show ¬ t + N < N + j by omega)]
    have e : t + N - (N + j) = t - j := by omega
    rw [e]
  have hagree : ∀ tau, tau < 2 ^ (N + j - 1) →
      extractBit t (mixDepolarisingDistributed_index qureg t tau
          + qureg.numAmpsPerChunk * qureg.chunkId)
        = extractBit (t + N) (mixDepolarisingDistributed_index qureg t tau
          + qureg.numAmpsPerChunk * qureg.chunkId) := by
    intro tau htau
    rw [extractBit_eq_iff, hn, hrow _ (hlt tau htau), hcol _ (hlt tau htau), hidx tau htau]
    exact depol_index_testBit t tau _
  have hmono : ∀ tau tau2, tau < tau2 → tau2 < 2 ^ (N + j - 1) →
      mixDepolarisingDistributed_index qureg t tau
        < mixDepolarisingDistributed_index qureg t tau2 := by
    intro tau tau2 h12 h2
    rw [hidx tau (by omega), hidx tau2 h2]
    exact Nat.add_lt_add_right (pairUp_strictMono (2 ^ t) tau tau2 hpos h12) _
  have hinj : ∀ i i', i < qureg.numAmpsPerChunk >>> 1 → i' < qureg.numAmpsPerChunk >>> 1 →
      mixDepolarisingDistributed_index qureg t i = mixDepolarisingDistributed_index qureg t i' →
      i = i' := by
    intro i i' hi hi' e
    rw [hn, hhalf] at hi hi'
    rcases Nat.lt_trichotomy i i' with h | h | h
    · exact absurd e (Nat.ne_of_lt (hmono i i' h hi'))
    · exact h
    · exact absurd e.symm (Nat.ne_of_lt (hmono i' i h hi))
  have honto : ∀ i, i < qureg.numAmpsPerChunk →
      extractBit t (i + qureg.numAmpsPerChunk * qureg.chunkId)
        = extractBit (t + N) (i + qureg.numAmpsPerChunk * qureg.chunkId) →
      ∃ tau, tau < 2 ^ (N + j - 1) ∧ mixDepolarisingDistributed_index qureg t tau = i := by
    intro i hi hbits
    rw [hn] at hi hbits
    rw [extractBit_eq_iff, hrow i hi, hcol i hi] at hbits
    have htask : pairTask (2 ^ t) i < 2 ^ (N + j - 1) := by
      have := pairTask_lt (N + j) t i hk hi
      rw [hhalf] at this
      exact this
    refine ⟨pairTask (2 ^ t) i, htask, ?_⟩
    rw [hidx _ htask, ← hbits]
    by_cases hb : i.testBit t = true
    · rw [if_pos hb, Nat.one_mul]
      exact pairLo_pairTask t i hb
    · rw [if_neg hb, Nat.zero_mul, Nat.add_zero]
      exact pairUp_pairTask t i (by simpa using hb)
  obtain ⟨l1, l2⟩ := forLoop_indexed (qureg.numAmpsPerChunk >>> 1)
    (mixDepolarisingDistributed_index qureg t)
    (fun tau z => ((1 - depolLevel) * z.1 + depolLevel * (z.1 + qureg.pairStateVec.real tau) / 2,
      (1 - depolLevel) * z.2 + depolLevel * (z.2 + qureg.pairStateVec.imag tau) / 2))
    hinj (densmatr_mixDephasing qureg t depolLevel).stateVec
  have hN0 : 0 < N := by omega
  refine ⟨rfl, ?_, hmono, honto, ?_, ?_⟩
  · intro tau htau
    refine ⟨?_, ?_, hagree tau htau⟩
    · rw [hn]
      have : 2 ^ (N + j - 1) ≤ 2 ^ (N + j) := Nat.pow_le_pow_right (by decide) (by omega)
      omega
    · rw [hn]
      exact hlt tau htau
  · intro tau htau
    have hd := mixDephasing_amp_chunk N t hN0 qureg hN depolLevel
      (mixDepolarisingDistributed_index qureg t tau) (by rw [hn]; exact hlt tau htau)
    rw [if_neg (fun h => h (hagree tau htau))] at hd
    rw [mixDepolarisingDistributed_eq]
    have h1 := l1 tau (by rw [hn, hhalf]; exact htau)
    rw [hd] at h1
    exact h1
  · intro i hi hbits
    have hd := mixDephasing_amp_chunk N t hN0 qureg hN depolLevel i hi
    rw [if_pos hbits] at hd
    rw [mixDepolarisingDistributed_eq]
    have h2 := l2 i (by
      intro tau htau e
      rw [hn, hhalf] at htau
      rw [e] at hbits
      exact hbits (hagree tau htau))
    rw [hd] at h2
    exact h2

/-- Witness of C35: chunk 1 of 2 of a density matrix of 2 qubits, target qubit 1,
`lambda = 1/2`: the task 0 rewrites the local index 2 (global index 10, row and column bit
both 1), which becomes `(1/2) (3 + 4i) + (1/2) ((3 + 4i) + 10) / 2`, and the amplitude at
the local index 0 (global index 8, row bit 0 and column bit 1) is halved. -/
theorem mixDepolarisingDistributed_second_pass_witness :
    mixDepolarisingDistributed_index sampleDepolChunk 1 0 = 2 ∧
    (densmatr_mixDepolarisingDistributed sampleDepolChunk 1 (1 / 2 : ℚ)).stateVec.amp 2
      = (19 / 4, 3) ∧
    (densmatr_mixDepolarisingDistributed sampleDepolChunk 1 (1 / 2 : ℚ)).stateVec.amp 0
      = (1 / 2, 0) := by
  have h := mixDepolarisingDistributed_second_pass 2 1 1 (by decide) (by decide)
    sampleDepolChunk rfl rfl (1 / 2 : ℚ)
  have e : mixDepolarisingDistributed_index sampleDepolChunk 1 0 = 2 := by decide
  have h4 := h.2.2.2.2.1 0 (by decide)
  have h5 := h.2.2.2.2.2 0 (by decide) (by decide)
  rw [e] at h4
  refine ⟨e, ?_, ?_⟩
  · rw [h4]
    refine Prod.ext ?_ ?_ <;> (simp [sampleDepolChunk]; try norm_num)
  · rw [h5]
    refine Prod.ext ?_ ?_ <;> (simp [sampleDepolChunk]; try norm_num)

end DepolDistributedClaims

section ControlledDistributed
variable {K : Type} [Field K]

/-- The predicated scalar loop of the distributed controlled kernel: output amplitude `i`
is `distF` of the initial amplitudes `i` of the two inputs when the guard holds at `i`,
everything else is unchanged. -/
theorem controlledDistributed_scalar_loop (rot1 rot2 : Complex K) (up lo out : ArrayRef)
    (n : Nat) (G : Nat → Prop) [DecidablePred G] (q : Qureg K) (x : ArrayRef × Nat) :
    (forLoop n (fun thisTask mem =>
        if G thisTask then
          compactUnitaryDistributed_body rot1.real rot1.imag rot2.real rot2.imag up lo out
            thisTask mem
        else mem) q).ampAt x
      = if x.1 = out ∧ x.2 < n ∧ G x.2 then
          distF rot1 rot2 (q.ampAt (up, x.2)) (q.ampAt (lo, x.2))
        else q.ampAt x := by
  obtain ⟨k1, k2⟩ := forLoop_footprint Qureg.ampAt n
    (fun thisTask mem =>
      if G thisTask then
        compactUnitaryDistributed_body rot1.real rot1.imag rot2.real rot2.imag up lo out
          thisTask mem
      else mem)
    (fun i y => y.2 = i)
    (by
      intro i _ s y hy
      by_cases hg : G i
      · simp only [hg, if_true]
        rw [compactUnitaryDistributed_body_ampAt, if_neg (fun h => hy h.2)]
      · simp only [hg, if_false])
    (by
      intro i _ s s' hag y hy
      by_cases hg : G i
      · simp only [hg, if_true]
        rw [compactUnitaryDistributed_body_ampAt, compactUnitaryDistributed_body_ampAt,
          hag (up, i) rfl, hag (lo, i) rfl, hag y hy]
      · simp only [hg, if_false]
        exact hag y hy)
    (by
      intro i i' y _ _ h h'
      exact h.symm.trans h')
    q
  by_cases hx : x.2 < n
  · rw [k1 x.2 hx x rfl]
    by_cases hg : G x.2
    · simp only [hg, if_true]
      rw [compactUnitaryDistributed_body_ampAt]
      simp [hx]
    · simp only [hg, if_false, and_false]
  · rw [k2 x (fun i hi h => hx (h ▸ hi)), if_neg (fun h => hx h.2.1)]

/-- The 4-lane loop over the indices `start, ..., start + 4 m - 1`. -/
theorem controlledDistributed_simd_range (rot1 rot2 : Complex K) (up lo out : ArrayRef)
    (start m : Nat) (q : Qureg K) (x : ArrayRef × Nat) :
    (forRange start (start + 4 * m) 4 (compactUnitaryDistributedSIMD_body
        (mm256_set1_pd rot1.real) (mm256_set1_pd rot1.imag) (mm256_set1_pd rot2.real)
        (mm256_set1_pd rot2.imag) up lo out) q).ampAt x
      = if x.1 = out ∧ start ≤ x.2 ∧ x.2 < start + 4 * m then
          distF rot1 rot2 (q.ampAt (up, x.2)) (q.ampAt (lo, x.2))
        else q.ampAt x := by
  unfold forRange
  have hcount : (start + 4 * m - start + (4 - 1)) / 4 = m := by omega
  rw [hcount]
  obtain ⟨k1, k2⟩ := forLoop_footprint Qureg.ampAt m
    (fun j => compactUnitaryDistributedSIMD_body (mm256_set1_pd rot1.real)
      (mm256_set1_pd rot1.imag) (mm256_set1_pd rot2.real) (mm256_set1_pd rot2.imag)
      up lo out (start + 4 * j))
    (fun j y => start + 4 * j ≤ y.2 ∧ y.2 < start + 4 * j + 4)
    (by
      intro j _ s y hy
      rw [compactUnitaryDistributedSIMD_body_ampAt, if_neg]
      intro h
      apply hy
      omega)
    (by
      intro j _ s s' hag y hy
      rw [compactUnitaryDistributedSIMD_body_ampAt, compactUnitaryDistributedSIMD_body_ampAt,
        hag (up, y.2) hy, hag (lo, y.2) hy, hag y hy])
    (by
      intro j j' y _ _ h h'
      omega)
    q
  by_cases hx : start ≤ x.2 ∧ x.2 < start + 4 * m
  · rw [k1 ((x.2 - start) / 4) (by omega) x (by omega),
      compactUnitaryDistributedSIMD_body_ampAt]
    have h1 : start + 4 * ((x.2 - start) / 4) ≤ x.2
        ∧ x.2 < start + 4 * ((x.2 - start) / 4) + 4 := by omega
    simp only [hx, h1, and_true]
  · rw [k2 x (fun j hj h => hx (by omega)), if_neg (fun h => hx h.2)]

/-- The block loop of the 4-lane variant: the upper halves of the blocks of `2^(c+1)`
amplitudes of the chunk are the local indices with bit `c` set. -/
theorem controlledDistributed_simd_blocks (rot1 rot2 : Complex K) (up lo out : ArrayRef)
    (k c : Nat) (hc : c < k) (h2 : 2 ≤ c) (q : Qureg K) (x : ArrayRef × Nat) :
    (forLoop (2 ^ (k - c - 1)) (fun thisBlock mem =>
        forRange (thisBlock * 2 ^ (c + 1) + 2 ^ c) ((thisBlock + 1) * 2 ^ (c + 1)) 4
          (compactUnitaryDistributedSIMD_body (mm256_set1_pd rot1.real)
            (mm256_set1_pd rot1.imag) (mm256_set1_pd rot2.real) (mm256_set1_pd rot2.imag)
            up lo out) mem) q).ampAt x
      = if x.1 = out ∧ x.2 < 2 ^ k ∧ x.2.testBit c = true then
          distF rot1 rot2 (q.ampAt (up, x.2)) (q.ampAt (lo, x.2))
        else q.ampAt x := by
  have hpos : 0 < 2 ^ c := Nat.two_pow_pos c
  have hB : 2 ^ (c + 1) = 2 ^ c + 2 ^ c := by rw [Nat.pow_succ]; omega
  have h4 : 2 ^ c = 4 * 2 ^ (c - 2) := by
    obtain ⟨d, rfl⟩ : ∃ d, c = 2 + d := ⟨c - 2, by omega⟩
    rw [Nat.pow_add]
    simp
  have hstop : ∀ b, (b + 1) * 2 ^ (c + 1) = b * 2 ^ (c + 1) + 2 ^ c + 4 * 2 ^ (c - 2) := by
    intro b
    rw [← h4, Nat.add_mul, Nat.one_mul, hB]
    omega
  have hinner : ∀ b (s : Qureg K) (y : ArrayRef × Nat),
      (forRange (b * 2 ^ (c + 1) + 2 ^ c) ((b + 1) * 2 ^ (c + 1)) 4
          (compactUnitaryDistributedSIMD_body (mm256_set1_pd rot1.real)
            (mm256_set1_pd rot1.imag) (mm256_set1_pd rot2.real) (mm256_set1_pd rot2.imag)
            up lo out) s).ampAt y
        = if y.1 = out ∧ b * 2 ^ (c + 1) + 2 ^ c ≤ y.2 ∧ y.2 < (b + 1) * 2 ^ (c + 1) then
            distF rot1 rot2 (s.ampAt (up, y.2)) (s.ampAt (lo, y.2))
          else s.ampAt y := by
    intro b s y
    rw [hstop b, controlledDistributed_simd_range]
  have hdig : ∀ b y, (b * 2 ^ (c + 1) + 2 ^ c ≤ y ∧ y < (b + 1) * 2 ^ (c + 1)) ↔
      (y / 2 ^ (c + 1) = b ∧ extractBit c y = 1) := by
    intro b y
    have e : (b + 1) * 2 ^ (c + 1) = b * 2 ^ (c + 1) + 2 ^ (c + 1) := by ring
    constructor
    · rintro ⟨h1, h2⟩
      obtain ⟨a1, a2, _⟩ := split_unique c b 1 (y - b * 2 ^ (c + 1) - 2 ^ c) y (by decide)
        (by omega) (by omega)
      exact ⟨a1, a2⟩
    · rintro ⟨h1, h2⟩
      have s1 := split_at_bit c y
      rw [h1, h2] at s1
      have := Nat.mod_lt y hpos
      omega
  obtain ⟨k1, k2⟩ := forLoop_footprint Qureg.ampAt (2 ^ (k - c - 1))
    (fun thisBlock mem =>
      forRange (thisBlock * 2 ^ (c + 1) + 2 ^ c) ((thisBlock + 1) * 2 ^ (c + 1)) 4
        (compactUnitaryDistributedSIMD_body (mm256_set1_pd rot1.real)
          (mm256_set1_pd rot1.imag) (mm256_set1_pd rot2.real) (mm256_set1_pd rot2.imag)
          up lo out) mem)
    (fun b y => b * 2 ^ (c + 1) + 2 ^ c ≤ y.2 ∧ y.2 < (b + 1) * 2 ^ (c + 1))
    (by
      intro b _ s y hy
      rw [hinner, if_neg (fun h => hy h.2)])
    (by
      intro b _ s s' hag y hy
      rw [hinner, hinner, hag (up, y.2) hy, hag (lo, y.2) hy, hag y hy])
    (by
      intro b b' y _ _ h h'
      exact ((hdig b y.2).mp h).1.symm.trans ((hdig b' y.2).mp h').1)
    q
  have hunion := digits_union_block k c x.2 hc (extractBit c x.2 = 1)
  by_cases hx : x.2 < 2 ^ k ∧ x.2.testBit c = true
  · have hx' : x.2 < 2 ^ k ∧ extractBit c x.2 = 1 := ⟨hx.1, (extractBit_eq_one_iff _ _).mpr hx.2⟩
    obtain ⟨b, hb, hb1, hb2⟩ := hunion.mpr hx'
    have hW := (hdig b x.2).mpr ⟨hb1, hb2⟩
    rw [k1 b hb x hW, hinner]
    simp only [hW, hx, and_self, and_true]
  · rw [k2 x (by
      intro b hb hW
      obtain ⟨d1, d2⟩ := (hdig b x.2).mp hW
      have := hunion.mp ⟨b, hb, d1, d2⟩
      exact hx ⟨this.1, (extractBit_eq_one_iff _ _).mp this.2⟩)]
    rw [if_neg (fun h => hx h.2)]

/-- The block walk of `statevec_controlledCompactUnitaryDistributedSIMD` for a control
qubit inside a chunk of `2^k` amplitudes: `2^(k-c-1)` blocks, the tasks of block `b` running
over its upper half. -/
theorem controlledDistributedSIMD_eq (rot1 rot2 : Complex K) (up lo out : ArrayRef)
    (k c : Nat) (hc : c < k) (q : Qureg K) (hn : q.numAmpsPerChunk = 2 ^ k) :
    statevec_controlledCompactUnitaryDistributedSIMD q c rot1 rot2 up lo out
      = forLoop (2 ^ (k - c - 1)) (fun thisBlock mem =>
          forRange (thisBlock * 2 ^ (c + 1) + 2 ^ c) ((thisBlock + 1) * 2 ^ (c + 1)) 4
            (compactUnitaryDistributedSIMD_body (mm256_set1_pd rot1.real)
              (mm256_set1_pd rot1.imag) (mm256_set1_pd rot2.real) (mm256_set1_pd rot2.imag)
              up lo out) mem) q := by
  have hkc : 2 ^ k = 2 ^ (k - c - 1) * 2 ^ (c + 1) := by
    rw [← Nat.pow_add]; congr 1; omega
  have hBpos : 0 < 2 ^ (c + 1) := Nat.two_pow_pos _
  have h2c : 2 <<< c = 2 ^ (c + 1) := by
    rw [Nat.shiftLeft_eq, Nat.pow_succ, Nat.mul_comm]
  have hhalf : (2 ^ (c + 1)) >>> 1 = 2 ^ c := by
    rw [two_pow_shiftRight_one (c + 1) (by omega), Nat.add_sub_cancel]
  have hstart : q.chunkId * 2 ^ k / 2 ^ (c + 1) * 2 ^ (c + 1) = q.chunkId * 2 ^ k := by
    apply Nat.div_mul_cancel
    rw [hkc, ← Nat.mul_assoc]
    exact Nat.dvd_mul_left _ _
  have hrange : (if 2 ^ k > 2 ^ (c + 1) then 2 ^ k / 2 ^ (c + 1) else 1) = 2 ^ (k - c - 1) := by
    have hdiv : 2 ^ k / 2 ^ (c + 1) = 2 ^ (k - c - 1) := by
      rw [hkc, Nat.mul_div_cancel _ hBpos]
    by_cases h : 2 ^ k > 2 ^ (c + 1)
    · rw [if_pos h, hdiv]
    · rw [if_neg h]
      have hle : k ≤ c + 1 := by
        by_contra hgt
        exact h (Nat.pow_lt_pow_right (by decide) (by omega))
      have e : k - c - 1 = 0 := by omega
      rw [e]
      rfl
  have hend : (((q.chunkId + 1) * 2 ^ k : Nat) : Int)
      - ((q.chunkId * 2 ^ k / 2 ^ (c + 1) * 2 ^ (c + 1) : Nat) : Int) = ((2 ^ k : Nat) : Int) := by
    rw [hstart]
    push_cast
    ring
  have hpos : ¬ (((2 ^ k : Nat) : Int) ≤ 0) := by
    have := Nat.two_pow_pos k
    omega
  unfold statevec_controlledCompactUnitaryDistributedSIMD
  simp only [hn, h2c, hhalf, hrange, hend, hpos, if_false]
  apply forLoop_congr
  intro b hb mem
  have hle : (b + 1) * 2 ^ (c + 1) ≤ 2 ^ k := by
    rw [hkc]
    exact Nat.mul_le_mul_right _ hb
  have hmin : (min ((2 ^ k : Nat) : Int) (((b + 1) * 2 ^ (c + 1) : Nat) : Int)).toNat
      = (b + 1) * 2 ^ (c + 1) := by
    rw [min_eq_right (by exact_mod_cast hle)]
    exact Int.toNat_ofNat _
  rw [hmin]

/-- The value `1 << (c - 1)` of the dispatch test for the controls 0, 1 and 2: `-2^31`, 1
and 2, all below 4. -/
theorem intOneShiftLeft_pred (c : Nat) (h1 : c < 3) :
    ¬ (intOneShiftLeft ((c : Int) - 1) ≥ 4) := by
  have h : c = 0 ∨ c = 1 ∨ c = 2 := by omega
  rcases h with rfl | rfl | rfl <;> decide

/-- The value `1 << (c - 1)` of the dispatch test for `3 ≤ c ≤ 31` is `2^(c-1) ≥ 4`. -/
theorem intOneShiftLeft_ge (c : Nat) (h3 : 3 ≤ c) (h31 : c ≤ 31) :
    intOneShiftLeft ((c : Int) - 1) ≥ 4 := by
  interval_cases c <;> decide

/-- The kernel for a control qubit inside the chunk, index by index: correct on the scalar
path for every control, and on the 4-lane path, taken only for controls `c ≥ 3`. -/
theorem controlledCompactUnitaryDistributed_ampAt
    (rot1 rot2 : Complex K) (up lo out : ArrayRef) (k c : Nat) (hc : c < k)
    (q : Qureg K) (hn : q.numAmpsPerChunk = 2 ^ k)
    (x : ArrayRef × Nat) :
    (statevec_controlledCompactUnitaryDistributed q c rot1 rot2 up lo out).ampAt x
      = if x.1 = out ∧ x.2 < 2 ^ k ∧ (x.2 + q.chunkId * 2 ^ k).testBit c = true then
          distF rot1 rot2 (q.ampAt (up, x.2)) (q.ampAt (lo, x.2))
        else q.ampAt x := by
  have hlt : ¬ (1 <<< c ≥ q.numAmpsPerChunk) := by
    rw [hn, Nat.one_shiftLeft]
    have := Nat.pow_lt_pow_right (show 1 < 2 by decide) hc
    omega
  have hbit : ∀ y, y < 2 ^ k → ((y + q.chunkId * 2 ^ k).testBit c = true ↔ y.testBit c = true) := by
    intro y hy
    rw [testBit_global k _ y c hy, if_pos hc]
  have hcond : (x.1 = out ∧ x.2 < 2 ^ k ∧ (x.2 + q.chunkId * 2 ^ k).testBit c = true)
      ↔ (x.1 = out ∧ x.2 < 2 ^ k ∧ x.2.testBit c = true) := by
    constructor
    · rintro ⟨a, b, d⟩
      exact ⟨a, b, (hbit x.2 b).mp d⟩
    · rintro ⟨a, b, d⟩
      exact ⟨a, b, (hbit x.2 b).mpr d⟩
  unfold statevec_controlledCompactUnitaryDistributed
  rw [if_neg hlt]
  simp only []
  by_cases hd : intOneShiftLeft ((c : Int) - 1) ≥ 4
  · rw [if_pos hd]
    have h2 : 2 ≤ c := by
      by_contra hlt2
      exact intOneShiftLeft_pred c (by omega) hd
    rw [controlledDistributedSIMD_eq rot1 rot2 up lo out k c hc q hn,
      controlledDistributed_simd_blocks rot1 rot2 up lo out k c hc h2 q x]
    simp only [hcond]
  · rw [if_neg hd, hn]
    have h := controlledDistributed_scalar_loop rot1 rot2 up lo out (2 ^ k)
      (fun thisTask => extractBit c (thisTask + q.chunkId * 2 ^ k) ≠ 0) q x
    rw [h]
    simp only [extractBit_ne_zero_iff]

end ControlledDistributed

section ControlledDistributedClaims
variable {K : Type} [Field K]

/-- Claim C34: distributed controlled compact unitary, every dispatch path. For every
register with `numAmpsPerChunk = 2^k`, every chunk id and every control `c < k`, the control
`c = 0` included:
(1) `statevec_controlledCompactUnitaryDistributed` writes
`out[i] = rot1 * up[i] + conj(rot2) * lo[i]` for exactly the local indices `i` whose global
index has bit `c` set and leaves every other amplitude untouched;
(2) for `c ≥ 2` the block-walking 4-lane variant writes the same index set and values as the
predicated scalar loop;
(3) for `3 ≤ c ≤ 31` the kernel is the 4-lane variant;
(4) for `c ≤ 2` the kernel is the predicated scalar loop: for `c = 0` the dispatch test
evaluates `1 << -1`, which is `-2^31 < 4`. -/
theorem controlledCompactUnitaryDistributed_dispatch (rot1 rot2 : Complex K)
    (up lo out : ArrayRef) (k c : Nat) (q : Qureg K) (hc : c < k)
    (hn : q.numAmpsPerChunk = 2 ^ k) :
    (∀ x : ArrayRef × Nat,
      (statevec_controlledCompactUnitaryDistributed q c rot1 rot2 up lo out).ampAt x
        = if x.1 = out ∧ x.2 < 2 ^ k ∧ (x.2 + q.chunkId * 2 ^ k).testBit c = true then
            distF rot1 rot2 (q.ampAt (up, x.2)) (q.ampAt (lo, x.2))
          else q.ampAt x) ∧
    (2 ≤ c → ∀ x : ArrayRef × Nat,
      (statevec_controlledCompactUnitaryDistributedSIMD q c rot1 rot2 up lo out).ampAt x
        = (forLoop q.numAmpsPerChunk (fun thisTask mem =>
            if extractBit c (thisTask + q.chunkId * q.numAmpsPerChunk) ≠ 0 then
              compactUnitaryDistributed_body rot1.real rot1.imag rot2.real rot2.imag
                up lo out thisTask mem
            else mem) q).ampAt x) ∧
    (3 ≤ c → c ≤ 31 →
      statevec_controlledCompactUnitaryDistributed q c rot1 rot2 up lo out
        = statevec_controlledCompactUnitaryDistributedSIMD q c rot1 rot2 up lo out) ∧
    (c ≤ 2 →
      statevec_controlledCompactUnitaryDistributed q c rot1 rot2 up lo out
        = forLoop q.numAmpsPerChunk (fun thisTask mem =>
            if extractBit c (thisTask + q.chunkId * q.numAmpsPerChunk) ≠ 0 then
              compactUnitaryDistributed_body rot1.real rot1.imag rot2.real rot2.imag
                up lo out thisTask mem
            else mem) q) := by
  have hlt : ¬ (1 <<< c ≥ q.numAmpsPerChunk) := by
    rw [hn, Nat.one_shiftLeft]
    have := Nat.pow_lt_pow_right (show 1 < 2 by decide) hc
    omega
  refine ⟨?_, ?_, ?_, ?_⟩
  · intro x
    exact controlledCompactUnitaryDistributed_ampAt rot1 rot2 up lo out k c hc q hn x
  · intro h2 x
    rw [controlledDistributedSIMD_eq rot1 rot2 up lo out k c hc q hn,
      controlledDistributed_simd_blocks rot1 rot2 up lo out k c hc h2 q x, hn,
      controlledDistributed_scalar_loop rot1 rot2 up lo out (2 ^ k)
        (fun thisTask => extractBit c (thisTask + q.chunkId * 2 ^ k) ≠ 0) q x]
    simp only [extractBit_ne_zero_iff]
    by_cases hx : x.2 < 2 ^ k
    · rw [testBit_global k _ x.2 c hx, if_pos hc]
    · simp only [hx, false_and, and_false]
  · intro h3 h31
    unfold statevec_controlledCompactUnitaryDistributed
    rw [if_neg hlt]
    simp only []
    rw [if_pos (intOneShiftLeft_ge c h3 h31)]
  · intro h2
    unfold statevec_controlledCompactUnitaryDistributed
    rw [if_neg hlt]
    simp only []
    rw [if_neg (intOneShiftLeft_pred c (by omega))]

/-- Witness of C34: on a chunk of sixteen amplitudes `(i + 1) + 2 i * I` with a pair buffer
of zeros, control qubit 3, `rot1 = 3i/5`: the kernel is the 4-lane variant, it writes
`out[8] = (3i/5) (9 + 16 i)` and leaves `out[0]`; on a chunk of four amplitudes 1, 2, 3, 4
with control qubit 0 and `rot1 = 2` the kernel doubles the amplitude at index 1 and leaves
the one at index 2. -/
theorem controlledCompactUnitaryDistributed_dispatch_witness :
    (statevec_controlledCompactUnitaryDistributed sampleDensity16 3 sampleAlpha
        sampleBeta ArrayRef.stateVec ArrayRef.pairStateVec ArrayRef.stateVec).ampAt
      (ArrayRef.stateVec, 8) = (-(48 / 5), 27 / 5) ∧
    (statevec_controlledCompactUnitaryDistributed sampleDensity16 3 sampleAlpha
        sampleBeta ArrayRef.stateVec ArrayRef.pairStateVec ArrayRef.stateVec).ampAt
      (ArrayRef.stateVec, 0) = (1, 0) ∧
    statevec_controlledCompactUnitaryDistributed sampleDensity16 3 sampleAlpha
        sampleBeta ArrayRef.stateVec ArrayRef.pairStateVec ArrayRef.stateVec
      = statevec_controlledCompactUnitaryDistributedSIMD sampleDensity16 3 sampleAlpha
          sampleBeta ArrayRef.stateVec ArrayRef.pairStateVec ArrayRef.stateVec ∧
    (statevec_controlledCompactUnitaryDistributed sampleDistChunk 0
        sampleRotTwo sampleRotZero ArrayRef.stateVec ArrayRef.pairStateVec
        ArrayRef.stateVec).ampAt (ArrayRef.stateVec, 1) = (4, 0) ∧
    (statevec_controlledCompactUnitaryDistributed sampleDistChunk 0
        sampleRotTwo sampleRotZero ArrayRef.stateVec ArrayRef.pairStateVec
        ArrayRef.stateVec).ampAt (ArrayRef.stateVec, 2) = (3, 0) := by
  have h := @controlledCompactUnitaryDistributed_dispatch ℚ _ sampleAlpha
    sampleBeta ArrayRef.stateVec ArrayRef.pairStateVec ArrayRef.stateVec 4 3 sampleDensity16
    (by decide) rfl
  have g := @controlledCompactUnitaryDistributed_dispatch ℚ _
    sampleRotTwo sampleRotZero ArrayRef.stateVec ArrayRef.pairStateVec ArrayRef.stateVec 2 0
    sampleDistChunk (by decide) rfl
  have h1 := h.1
  have g1 := g.1
  refine ⟨?_, ?_, h.2.2.1 (by decide) (by decide), ?_, ?_⟩
  · rw [h1, if_pos (by decide)]
    simp [Qureg.ampAt, Qureg.array, ComplexArray.amp, distF, sampleDensity16, sampleAlpha,
      sampleBeta]
    norm_num
  · rw [h1, if_neg (by decide)]
    simp [Qureg.ampAt, Qureg.array, ComplexArray.amp, sampleDensity16]
  · rw [g1, if_pos (by decide)]
    simp [Qureg.ampAt, Qureg.array, ComplexArray.amp, distF, sampleDistChunk, sampleRotTwo,
      sampleRotZero]
    norm_num
  · rw [g1, if_neg (by decide)]
    simp [Qureg.ampAt, Qureg.array, ComplexArray.amp, sampleDistChunk]
    norm_num

end ControlledDistributedClaims

section PartitionB
variable {K : Type}

/-- The pairs of the loop of `statevec_compactUnitaryLocal`: task `i` works on
`pairUp (2^t) i` and its partner. -/
theorem pairVisits_eq (k t : Nat) (qureg : Qureg K) (hn : qureg.numAmpsPerChunk = 2 ^ k) :
    pairVisits qureg t
      = (List.range (2 ^ k / 2)).map (fun task =>
          (pairUp (2 ^ t) task, pairUp (2 ^ t) task + 2 ^ t)) := by
  have hhalf : (2 ^ k) >>> 1 = 2 ^ k / 2 := by
    rw [Nat.shiftRight_eq_div_pow, Nat.pow_one]
  unfold pairVisits statevec_compactUnitaryLocal_tasks
  simp only [hn, Nat.one_shiftLeft, hhalf]
  rw [forLoop_append, List.nil_append]
  rfl

/-- The indices of the pairs of `2^k / 2` tasks, upper ones first, are the indices below
`2^k`, each one once. -/
theorem pair_indices_perm (k t : Nat) (ht : t < k) :
    ((List.range (2 ^ k / 2)).map (fun task => pairUp (2 ^ t) task)
      ++ (List.range (2 ^ k / 2)).map (fun task => pairUp (2 ^ t) task + 2 ^ t)).Perm
      (List.range (2 ^ k)) := by
  have hpos : 0 < 2 ^ t := Nat.two_pow_pos t
  have hhalf : (2 ^ k) >>> 1 = 2 ^ k / 2 := by
    rw [Nat.shiftRight_eq_div_pow, Nat.pow_one]
  have hclean : ∀ task, (pairUp (2 ^ t) task).testBit t = false := by
    intro task
    rw [pairUp_eq_insertZeroBit, testBit_insertZeroBit]
    simp
  have hinj : ∀ a b, pairUp (2 ^ t) a = pairUp (2 ^ t) b → a = b := by
    intro a b e
    have e2 := congrArg (pairTask (2 ^ t)) e
    rwa [pairTask_pairUp _ _ hpos, pairTask_pairUp _ _ hpos] at e2
  have hnd : ((List.range (2 ^ k / 2)).map (fun task => pairUp (2 ^ t) task)
      ++ (List.range (2 ^ k / 2)).map (fun task => pairUp (2 ^ t) task + 2 ^ t)).Nodup := by
    rw [List.nodup_append]
    refine ⟨List.Nodup.map (fun a b e => hinj a b e) (List.nodup_range _),
      List.Nodup.map (fun a b e => hinj a b (Nat.add_right_cancel e)) (List.nodup_range _), ?_⟩
    intro x hx hx2
    rw [List.mem_map] at hx hx2
    obtain ⟨a, _, rfl⟩ := hx
    obtain ⟨b, _, e⟩ := hx2
    have h1 := hclean a
    rw [← e, testBit_add_two_pow_self _ _ (hclean b)] at h1
    exact Bool.noConfusion h1
  rw [List.perm_ext_iff_of_nodup hnd (List.nodup_range _)]
  intro x
  rw [List.mem_append, List.mem_map, List.mem_map, List.mem_range]
  constructor
  · rintro (⟨a, ha, rfl⟩ | ⟨a, ha, rfl⟩)
    · exact pairUp_lt k t a ht (hhalf ▸ List.mem_range.mp ha)
    · have := pairLo_lt k t a ht (hhalf ▸ List.mem_range.mp ha)
      rwa [pairLo_eq_pairUp_add] at this
  · intro hx
    by_cases hb : x.testBit t = false
    · exact Or.inl ⟨pairTask (2 ^ t) x,
        List.mem_range.mpr (hhalf ▸ pairTask_lt k t x ht hx), pairUp_pairTask t x hb⟩
    · have hb1 : x.testBit t = true := by simpa using hb
      refine Or.inr ⟨pairTask (2 ^ t) x,
        List.mem_range.mpr (hhalf ▸ pairTask_lt k t x ht hx), ?_⟩
      rw [← pairLo_eq_pairUp_add]
      exact pairLo_pairTask t x hb1

end PartitionB

section PartitionKernelClaims
variable {K : Type} [Field K]

/-- Claim C29: the block decomposition of `statevec_compactUnitaryLocal` is a partition. For
a chunk of `2^k` amplitudes and a target qubit `t < k`: the kernel is its loop over the tasks
with the update of the pair `(indexUp, indexLo)` as its statement; the pairs of the loop
are, in order, those of the map `task ↦ (task / 2^t) * 2^(t+1) + task mod 2^t` with the
partner `indexUp + 2^t`, for the `2^k / 2` tasks; the upper indices followed by the lower
indices of the loop are the indices `0, ..., 2^k - 1`, each one once (the pairs of
different tasks are disjoint and cover the chunk); the kernel leaves in each pair the
rotation of the two amplitudes the register held before the call (no pair is touched by
another task); the index map is `insertZeroBit`, maps the tasks one-to-one onto the indices
below `2^k` with bit `t` clear, and the partner is `indexUp` with bit `t` flipped and lies
below `2^k`. -/
theorem pair_blocks_partition (k t : Nat) (ht : t < k) (qureg : Qureg K)
    (hn : qureg.numAmpsPerChunk = 2 ^ k) (alpha beta : Complex K) :
    statevec_compactUnitaryLocal qureg t alpha beta
      = { qureg with
          stateVec := statevec_compactUnitaryLocal_tasks qureg t
            (controlledCompactUnitary_pair alpha.real alpha.imag beta.real beta.imag)
            qureg.stateVec } ∧
    pairVisits qureg t
      = (List.range (2 ^ k / 2)).map (fun task =>
          (task / 2 ^ t * 2 ^ (t + 1) + task % 2 ^ t,
            task / 2 ^ t * 2 ^ (t + 1) + task % 2 ^ t + 2 ^ t)) ∧
    ((pairVisits qureg t).map Prod.fst ++ (pairVisits qureg t).map Prod.snd).Perm
      (List.range (2 ^ k)) ∧
    (∀ p, p ∈ pairVisits qureg t →
      (statevec_compactUnitaryLocal qureg t alpha beta).stateVec.amp p.1
        = (compactF alpha beta (qureg.stateVec.amp p.1) (qureg.stateVec.amp p.2)).1 ∧
      (statevec_compactUnitaryLocal qureg t alpha beta).stateVec.amp p.2
        = (compactF alpha beta (qureg.stateVec.amp p.1) (qureg.stateVec.amp p.2)).2) ∧
    (∀ task, task < 2 ^ k / 2 →
      task / 2 ^ t * 2 ^ (t + 1) + task % 2 ^ t = insertZeroBit task t ∧
      insertZeroBit task t < 2 ^ k ∧
      extractBit t (insertZeroBit task t) = 0 ∧
      insertZeroBit task t + 2 ^ t = flipBit (insertZeroBit task t) t ∧
      insertZeroBit task t + 2 ^ t < 2 ^ k) ∧
    (∀ task task2, insertZeroBit task t = insertZeroBit task2 t → task = task2) ∧
    (∀ x, x < 2 ^ k → extractBit t x = 0 →
      ∃ task, task < 2 ^ k / 2 ∧ insertZeroBit task t = x) ∧
    (∀ task task2, task ≠ task2 →
      insertZeroBit task t ≠ insertZeroBit task2 t ∧
      insertZeroBit task t ≠ insertZeroBit task2 t + 2 ^ t ∧
      insertZeroBit task t + 2 ^ t ≠ insertZeroBit task2 t + 2 ^ t) ∧
    (∀ task, insertZeroBit task t ≠ insertZeroBit task t + 2 ^ t) ∧
    (∀ x, x < 2 ^ k → ∃ task, task < 2 ^ k / 2 ∧
      (x = insertZeroBit task t ∨ x = insertZeroBit task t + 2 ^ t)) := by
  have hpos : 0 < 2 ^ t := Nat.two_pow_pos t
  have hhalf : (2 ^ k) >>> 1 = 2 ^ k / 2 := by
    rw [Nat.shiftRight_eq_div_pow, Nat.pow_one]
  have hclean : ∀ task, (insertZeroBit task t).testBit t = false := by
    intro task
    rw [testBit_insertZeroBit]
    simp
  have hinj : ∀ task task2, insertZeroBit task t = insertZeroBit task2 t → task = task2 := by
    intro task task2 e
    rw [← pairUp_eq_insertZeroBit, ← pairUp_eq_insertZeroBit] at e
    have e2 := congrArg (pairTask (2 ^ t)) e
    rwa [pairTask_pairUp _ _ hpos, pairTask_pairUp _ _ hpos] at e2
  have hV := pairVisits_eq k t qureg hn
  refine ⟨rfl, ?_, ?_, ?_, ?_, hinj, ?_, ?_, ?_, ?_⟩
  · rw [hV]
    apply List.map_congr_left
    intro task _
    rw [pairUp_two_pow]
  · rw [hV, List.map_map, List.map_map]
    exact pair_indices_perm k t ht
  · intro p hp
    rw [hV, List.mem_map] at hp
    obtain ⟨task, htask, rfl⟩ := hp
    rw [List.mem_range] at htask
    obtain ⟨T, hT, hk⟩ := compactUnitaryLocal_pairMap k t ht qureg hn alpha beta
    rw [hk]
    have hU : pairUp (2 ^ t) task < 2 ^ k ∧ (pairUp (2 ^ t) task).testBit t = false := by
      refine ⟨pairUp_lt k t task ht (hhalf ▸ htask), ?_⟩
      rw [pairUp_eq_insertZeroBit]
      exact hclean task
    exact hT.2.1 qureg.stateVec _ hU
  · intro task htask
    have hup := pairUp_lt k t task ht (hhalf ▸ htask)
    have hlo := pairLo_lt k t task ht (hhalf ▸ htask)
    rw [pairLo_eq_pairUp_add] at hlo
    rw [pairUp_eq_insertZeroBit] at hup hlo
    refine ⟨?_, hup, (extractBit_eq_zero_iff _ _).mpr (hclean task),
      add_two_pow_eq_flipBit _ _ (hclean task), hlo⟩
    rw [← pairUp_two_pow, pairUp_eq_insertZeroBit]
  · intro x hx hbit
    have hb := (extractBit_eq_zero_iff _ _).mp hbit
    refine ⟨pairTask (2 ^ t) x, hhalf ▸ pairTask_lt k t x ht hx, ?_⟩
    rw [← pairUp_eq_insertZeroBit]
    exact pairUp_pairTask t x hb
  · intro task task2 hne
    refine ⟨fun e => hne (hinj _ _ e), ?_, fun e => hne (hinj _ _ (Nat.add_right_cancel e))⟩
    intro e
    have h1 := hclean task
    rw [e, testBit_add_two_pow_self _ _ (hclean task2)] at h1
    exact Bool.noConfusion h1
  · intro task
    omega
  · intro x hx
    by_cases hb : x.testBit t = false
    · refine ⟨pairTask (2 ^ t) x, hhalf ▸ pairTask_lt k t x ht hx, Or.inl ?_⟩
      rw [← pairUp_eq_insertZeroBit]
      exact (pairUp_pairTask t x hb).symm
    · have hb1 : x.testBit t = true := by simpa using hb
      refine ⟨pairTask (2 ^ t) x, hhalf ▸ pairTask_lt k t x ht hx, Or.inr ?_⟩
      rw [← pairUp_eq_insertZeroBit, ← pairLo_eq_pairUp_add]
      exact (pairLo_pairTask t x hb1).symm

/-- Witness of C29: the register of `2^3` amplitudes `i + (i² - 3) i`, target qubit 1: the
loop of `statevec_compactUnitaryLocal` works on the pairs `(0, 2), (1, 3), (4, 6), (5, 7)`;
with `alpha = 3i/5`, `beta = 4/5` the kernel leaves `-94/5 - (169/5) i` at index 5; task 3 has
`indexUp = insertZeroBit 3 1 = 5` and `indexLo = flipBit 5 1 = 7`. -/
theorem pair_blocks_partition_witness :
    pairVisits sampleQureg8 1 = [(0, 2), (1, 3), (4, 6), (5, 7)] ∧
    (statevec_compactUnitaryLocal sampleQureg8 1 sampleAlpha sampleBeta).stateVec.amp 5
      = (-(94 / 5), -(169 / 5)) ∧
    (3 / 2 ^ 1 * 2 ^ (1 + 1) + 3 % 2 ^ 1 = insertZeroBit 3 1 ∧
      insertZeroBit 3 1 < 2 ^ 3 ∧
      extractBit 1 (insertZeroBit 3 1) = 0 ∧
      insertZeroBit 3 1 + 2 ^ 1 = flipBit (insertZeroBit 3 1) 1 ∧
      insertZeroBit 3 1 + 2 ^ 1 < 2 ^ 3) := by
  have h := pair_blocks_partition 3 1 (by decide) sampleQureg8 rfl sampleAlpha sampleBeta
  refine ⟨by decide, ?_, h.2.2.2.2.1 3 (by decide)⟩
  have hp : ((5, 7) : Nat × Nat) ∈ pairVisits sampleQureg8 1 := by decide
  rw [(h.2.2.2.1 (5, 7) hp).1]
  simp [compactF, ComplexArray.amp, sampleQureg8, sampleAlpha, sampleBeta]
  norm_num

end PartitionKernelClaims

end QuEST
